import Mathlib

/-!
# Loan amortization in `bankapp`

A shallow embedding of `pkg/utils/loan_utils.go` (`CalculateMonthlyPayment`,
`GeneratePaymentSchedule`) together with the parts of the arbitrary-precision
decimal type (`github.com/shopspring/decimal`) and of Go's `time.Time` that
these two functions call.

A decimal is a pair of an unbounded integer coefficient and a power-of-ten
exponent, exactly as in the Go library; every operation below follows the
library's algorithm on that pair.  The exponent is an `int32` in Go; the
library panics when a product's exponent leaves that range, which needs a
coefficient of hundreds of millions of digits, so the exponent is an unbounded
`Int` here.
-/

/-- The decimal number `value * 10 ^ exp` (`decimal.Decimal`). -/
structure Decimal where
  value : Int
  exp : Int
  deriving DecidableEq, Repr

namespace Decimal

/-- The number of fractional digits kept by `Div` (`decimal.DivisionPrecision`). -/
def DivisionPrecision : Int := 16

/-- The number of fractional digits kept by `Pow` for a negative exponent. -/
def PowPrecisionNegativeExponent : Int := 16

/-- The constructor `decimal.New(value, exp)`. -/
def New (value : Int) (exp : Int) : Decimal := ⟨value, exp⟩

/-- The constant `decimal.Zero`, which the library declares as `New(0, 1)`. -/
def Zero : Decimal := New 0 1

/-- The constructor `decimal.NewFromInt`. -/
def NewFromInt (value : Int) : Decimal := ⟨value, 0⟩

/-- The rational number a decimal stands for. -/
def toRat (d : Decimal) : ℚ := (d.value : ℚ) * (10 : ℚ) ^ d.exp

/-- The method `rescale`: the same number at exponent `exp`, truncated toward
zero when `exp` is larger than the current exponent. -/
def rescale (d : Decimal) (exp : Int) : Decimal :=
  if d.exp = exp then d
  else
    let diff : Nat := (exp - d.exp).natAbs
    let expScale : Int := 10 ^ diff
    if exp > d.exp then ⟨d.value.tdiv expScale, exp⟩
    else ⟨d.value * expScale, exp⟩

/-- The function `RescalePair`: both operands at the smaller exponent. -/
def RescalePair (d1 d2 : Decimal) : Decimal × Decimal :=
  if d1.exp = d2.exp then (d1, d2)
  else
    let baseScale := min d1.exp d2.exp
    if baseScale ≠ d1.exp then (d1.rescale baseScale, d2)
    else (d1, d2.rescale baseScale)

/-- The method `Add`. -/
def Add (d d2 : Decimal) : Decimal :=
  let p := RescalePair d d2
  ⟨p.1.value + p.2.value, p.1.exp⟩

/-- The method `Sub`. -/
def Sub (d d2 : Decimal) : Decimal :=
  let p := RescalePair d d2
  ⟨p.1.value - p.2.value, p.1.exp⟩

/-- The method `Mul`. -/
def Mul (d d2 : Decimal) : Decimal :=
  ⟨d.value * d2.value, d.exp + d2.exp⟩

/-- The method `Abs`. -/
def Abs (d : Decimal) : Decimal := ⟨|d.value|, d.exp⟩

/-- The method `Sign`: -1, 0 or 1. -/
def Sign (d : Decimal) : Int := d.value.sign

/-- The method `IsZero`. -/
def IsZero (d : Decimal) : Bool := d.Sign == 0

/-- Three-way comparison of integers (`big.Int.Cmp`): -1, 0 or 1. -/
def cmpInt (a b : Int) : Int :=
  if a < b then -1 else if a = b then 0 else 1

/-- The method `Cmp`: -1, 0 or 1. -/
def Cmp (d d2 : Decimal) : Int :=
  if d.exp = d2.exp then cmpInt d.value d2.value
  else
    let p := RescalePair d d2
    cmpInt p.1.value p.2.value

/-- The method `LessThanOrEqual`. -/
def LessThanOrEqual (d d2 : Decimal) : Bool :=
  let cmp := d.Cmp d2
  cmp == -1 || cmp == 0

/-- The method `QuoRem`: quotient truncated to `precision` fractional digits,
and the remainder.  Go panics when `d2` is zero; none of the callers below
passes a zero divisor. -/
def QuoRem (d d2 : Decimal) (precision : Int) : Decimal × Decimal :=
  let scale := -precision
  let e := d.exp - d2.exp - scale
  if e < 0 then
    let aa := d.value
    let bb := d2.value * 10 ^ (-e).toNat
    (⟨aa.tdiv bb, scale⟩, ⟨aa.tmod bb, d.exp⟩)
  else
    let aa := d.value * 10 ^ e.toNat
    let bb := d2.value
    (⟨aa.tdiv bb, scale⟩, ⟨aa.tmod bb, scale + d2.exp⟩)

/-- The method `DivRound`: the quotient rounded to `precision` fractional
digits, a final 5 rounded away from zero. -/
def DivRound (d d2 : Decimal) (precision : Int) : Decimal :=
  let qr := d.QuoRem d2 precision
  let q := qr.1
  let r := qr.2
  let r2 : Decimal := ⟨|r.value| * 2, r.exp + precision⟩
  let c := r2.Cmp d2.Abs
  if c < 0 then q
  else if d.value.sign * d2.value.sign < 0 then q.Sub (New 1 (-precision))
  else q.Add (New 1 (-precision))

/-- The method `Div`: division to `DivisionPrecision` fractional digits. -/
def Div (d d2 : Decimal) : Decimal := d.DivRound d2 DivisionPrecision

/-- The method `Round`: to `places` fractional digits, half away from zero. -/
def Round (d : Decimal) (places : Int) : Decimal :=
  if d.exp = -places then d
  else
    let ret := d.rescale (-places - 1)
    let v := if ret.value.sign < 0 then ret.value - 5 else ret.value + 5
    let q := v / 10
    let m := v % 10
    if q.sign < 0 ∧ m ≠ 0 then ⟨q + 1, ret.exp + 1⟩ else ⟨q, ret.exp + 1⟩

/-- The method `RoundBank`: to `places` fractional digits, half to even. -/
def RoundBank (d : Decimal) (places : Int) : Decimal :=
  let round := d.Round places
  let remainder := (d.Sub round).Abs
  let half := New 5 (-places - 1)
  if remainder.Cmp half = 0 ∧ round.value % 2 ≠ 0 then
    if round.value.sign < 0 then ⟨round.value + 1, round.exp⟩
    else ⟨round.value - 1, round.exp⟩
  else round

/-- The square-and-multiply loop of `powBigIntWithPrecision`: `tmpExp` is the
exponent still to process, `n` the current square, `result` the accumulator. -/
def powLoop : Nat → Nat → Decimal → Decimal → Decimal
  | 0, _, _, result => result
  | fuel + 1, tmpExp, n, result =>
    if 0 < tmpExp then
      let result := if tmpExp % 2 = 1 then result.Mul n else result
      let tmpExp := tmpExp / 2
      let n := if 0 < tmpExp then n.Mul n else n
      powLoop fuel tmpExp n result
    else result

/-- The method `PowBigInt`, for an integer exponent. -/
def PowBigInt (d : Decimal) (exp : Int) : Decimal :=
  let result := powLoop (exp.natAbs + 1) exp.natAbs d (New 1 0)
  if exp < 0 then (New 1 0).DivRound result PowPrecisionNegativeExponent
  else result

/-- The method `Pow` at an exponent `NewFromInt exp`, the only way it is
called here: the exponent has no fractional part.  A zero base gives the
zero decimal of exponent 0 for every sign of the exponent. -/
def Pow (d : Decimal) (exp : Int) : Decimal :=
  if d.Sign = 0 then ⟨0, 0⟩
  else if exp = 0 then ⟨1, 0⟩
  else d.PowBigInt exp

/-- The method `Neg`. -/
def Neg (d : Decimal) : Decimal := ⟨-d.value, d.exp⟩

/-- The method `GreaterThanOrEqual`. -/
def GreaterThanOrEqual (d d2 : Decimal) : Bool :=
  let cmp := d.Cmp d2
  cmp == 1 || cmp == 0

/-- The value of `decimal.NewFromFloat(0.1)`: the shortest decimal that reads
back as that float, 0.1. -/
def oneTenth : Decimal := ⟨1, -1⟩

end Decimal

/-! ## Calendar dates (`time.Time`) -/

/-- A wall-clock instant: calendar date and the nanoseconds since midnight
(`time.Time`, in one fixed location). -/
structure Time where
  year : Int
  month : Int
  day : Int
  nsec : Int
  deriving DecidableEq, Repr

namespace Time

/-- The function `isLeap` of package `time`. -/
def isLeap (year : Int) : Bool :=
  year % 4 = 0 ∧ (year % 100 ≠ 0 ∨ year % 400 = 0)

/-- The function `daysIn` of package `time`: the length of a month. -/
def daysIn (m : Int) (year : Int) : Int :=
  if m = 2 ∧ isLeap year then 29
  else if m = 2 then 28
  else if m = 4 ∨ m = 6 ∨ m = 9 ∨ m = 11 then 30
  else 31

/-- The function `norm` of package `time`: carries `lo` into `hi` so that
`0 ≤ lo < base`. -/
def norm (hi lo base : Int) : Int × Int :=
  let p : Int × Int :=
    if lo < 0 then
      let n := (-lo - 1).tdiv base + 1
      (hi - n, lo + n * base)
    else (hi, lo)
  if p.2 ≥ base then
    let n := p.2.tdiv base
    (p.1 + n, p.2 - n * base)
  else p

/-- Days beyond the end of a month roll over into the following months, the
way `time.Date` normalizes a day number of at least 1. -/
def normDay : Nat → Int → Int → Int → Int × Int × Int
  | 0, year, month, day => (year, month, day)
  | fuel + 1, year, month, day =>
    if day > daysIn month year then
      if month = 12 then normDay fuel (year + 1) 1 (day - daysIn month year)
      else normDay fuel year (month + 1) (day - daysIn month year)
    else (year, month, day)

/-- A day number below 1 is counted back from the end of the preceding months,
the way `time.Date` normalizes a day number of at most 0. -/
def normDayBack : Nat → Int → Int → Int → Int × Int × Int
  | 0, year, month, day => (year, month, day)
  | fuel + 1, year, month, day =>
    if day < 1 then
      if month = 1 then normDayBack fuel (year - 1) 12 (day + daysIn 12 (year - 1))
      else normDayBack fuel year (month - 1) (day + daysIn (month - 1) year)
    else (year, month, day)

/-- The function `time.Date`, on the calendar fields: the month is normalized
into 1..12 by carrying into the year, then the day is normalized. -/
def Date (year month day nsec : Int) : Time :=
  let ym := norm year (month - 1) 12
  let r :=
    if day < 1 then normDayBack (1 - day).toNat ym.1 (ym.2 + 1) day
    else normDay day.toNat ym.1 (ym.2 + 1) day
  ⟨r.1, r.2.1, r.2.2, nsec⟩

/-- The method `AddDate`. -/
def AddDate (t : Time) (years months days : Int) : Time :=
  Date (t.year + years) (t.month + months) (t.day + days) t.nsec

/-- The method `Before`: the instant `t` is earlier than `u` (both in the one
location of the model, as normalized dates). -/
def Before (t u : Time) : Bool :=
  decide (t.year < u.year ∨ (t.year = u.year ∧ (t.month < u.month ∨
    (t.month = u.month ∧ (t.day < u.day ∨ (t.day = u.day ∧ t.nsec < u.nsec))))))

end Time

/-! ## The loan model and `loan_utils.go` -/

/-- One installment of a payment schedule (`models.Payment`). -/
structure Payment where
  DueDate : Time
  Amount : Decimal
  PrincipalPart : Decimal
  InterestPart : Decimal
  Paid : Bool
  deriving DecidableEq, Repr

open Decimal in
/-- The function `CalculateMonthlyPayment` of `pkg/utils/loan_utils.go`. -/
def CalculateMonthlyPayment (loanAmount annualRate : Decimal) (termMonths : Int) : Decimal :=
  if termMonths ≤ 0 then Decimal.Zero
  else
    let monthlyRate := (annualRate.Div (NewFromInt 12)).Div (NewFromInt 100)
    if monthlyRate.IsZero then loanAmount.Div (NewFromInt termMonths)
    else
      let onePlusRate := (NewFromInt 1).Add monthlyRate
      let powOnePlusRate := onePlusRate.Pow termMonths
      let numerator := monthlyRate.Mul powOnePlusRate
      let denominator := powOnePlusRate.Sub (NewFromInt 1)
      if denominator.IsZero then Decimal.Zero
      else
        let monthlyPayment := loanAmount.Mul (numerator.Div denominator)
        monthlyPayment.RoundBank 2

open Decimal in
/-- The loop of `GeneratePaymentSchedule`: `i` is the loop counter,
`remainingPrincipal`, `monthlyPayment` and `schedule` are the variables the
loop updates; the first argument bounds the number of iterations. -/
def scheduleLoop (termMonths : Int) (startDate : Time) (monthlyRate : Decimal) :
    Nat → Int → Decimal → Decimal → List Payment → List Payment
  | 0, _, _, _, schedule => schedule
  | fuel + 1, i, remainingPrincipal, monthlyPayment, schedule =>
    if i < termMonths then
      let dueDate := startDate.AddDate 0 (i + 1) 0
      let interestPart := (remainingPrincipal.Mul monthlyRate).RoundBank 2
      let principalPart := monthlyPayment.Sub interestPart
      let last : Bool :=
        i == termMonths - 1 || (remainingPrincipal.Sub principalPart).LessThanOrEqual Decimal.Zero
      let principalPart := if last then remainingPrincipal else principalPart
      let monthlyPayment :=
        if last then (principalPart.Add interestPart).RoundBank 2 else monthlyPayment
      let payment : Payment :=
        { DueDate := dueDate
          Amount := monthlyPayment
          InterestPart := interestPart
          PrincipalPart := principalPart
          Paid := false }
      let schedule := schedule ++ [payment]
      let remainingPrincipal := remainingPrincipal.Sub principalPart
      if remainingPrincipal.LessThanOrEqual Decimal.Zero then schedule
      else scheduleLoop termMonths startDate monthlyRate fuel (i + 1) remainingPrincipal
        monthlyPayment schedule
    else schedule

open Decimal in
/-- The function `GeneratePaymentSchedule` of `pkg/utils/loan_utils.go`.
Allocating the slice with a negative capacity panics in Go: no schedule is
returned for a negative `termMonths`. -/
def GeneratePaymentSchedule (loanAmount annualRate : Decimal) (termMonths : Int)
    (startDate : Time) (monthlyPayment : Decimal) : Option (List Payment) :=
  if termMonths < 0 then none
  else
    let monthlyRate := (annualRate.Div (NewFromInt 12)).Div (NewFromInt 100)
    some (scheduleLoop termMonths startDate monthlyRate termMonths.toNat 0 loanAmount
      monthlyPayment [])

/-! ## Quantities used to state the properties of a schedule -/

/-- The interest part of the period that starts with `remainingPrincipal`
(line 48 of `loan_utils.go`). -/
def interestOf (remainingPrincipal monthlyRate : Decimal) : Decimal :=
  (remainingPrincipal.Mul monthlyRate).RoundBank 2

/-- The condition of line 51 of `loan_utils.go`: the period is the last
scheduled one, or the regular principal part would pay the loan off. -/
def isFinal (termMonths i : Int) (remainingPrincipal monthlyRate monthlyPayment : Decimal) :
    Bool :=
  i == termMonths - 1 ||
    (remainingPrincipal.Sub
      (monthlyPayment.Sub (interestOf remainingPrincipal monthlyRate))).LessThanOrEqual
      Decimal.Zero

/-- The monthly rate both functions of `loan_utils.go` compute from the annual
rate (lines 16 and 43). -/
def monthlyRateOf (annualRate : Decimal) : Decimal :=
  (annualRate.Div (Decimal.NewFromInt 12)).Div (Decimal.NewFromInt 100)

/-- The sum of the principal parts of a schedule, as a number. -/
def principalSum (s : List Payment) : ℚ :=
  (s.map (fun p => p.PrincipalPart.toRat)).sum

/-- The sum of the principal parts of a schedule, added up as decimals. -/
def principalTotal (s : List Payment) : Decimal :=
  s.foldl (fun acc p => acc.Add p.PrincipalPart) Decimal.Zero

/-! ## Rounding and the annuity formula on rational numbers -/

/-- Rounding of a rational to `places` fractional digits, half to even
(banker's rounding): the nearest multiple of `10 ^ (-places)`, and of the two
nearest the one with an even last digit when `x` lies halfway. -/
def roundHalfEven (x : ℚ) (places : Int) : ℚ :=
  let s := x * (10 : ℚ) ^ places
  let f : Int := ⌊s⌋
  let n : Int :=
    if s - f < 1 / 2 then f
    else if 1 / 2 < s - f then f + 1
    else if f % 2 = 0 then f else f + 1
  (n : ℚ) / (10 : ℚ) ^ places

/-- Rounding of a rational to `places` fractional digits, half away from
zero. -/
def roundHalfAway (x : ℚ) (places : Int) : ℚ :=
  let n : Int := ⌊|x| * (10 : ℚ) ^ places + 1 / 2⌋
  (if x < 0 then -(n : ℚ) else (n : ℚ)) / (10 : ℚ) ^ places

/-- The annuity payment `principal * r * (1+r)^n / ((1+r)^n - 1)` for a
monthly rate `r` and `n` months. -/
def annuity (principal r : ℚ) (n : Nat) : ℚ :=
  principal * r * (1 + r) ^ n / ((1 + r) ^ n - 1)

/-- An amount that is a whole number of cents. -/
def isCents (x : ℚ) : Prop := ∃ n : Int, x = (n : ℚ) / 100

/-- The integer `R` is `s` rounded to the nearest integer, a tie going away
from zero. -/
def HalfAway (s : ℚ) (R : Int) : Prop :=
  (0 ≤ s → (R : ℚ) - 1 / 2 ≤ s ∧ s < R + 1 / 2) ∧
  (s < 0 → (R : ℚ) - 1 / 2 < s ∧ s ≤ R + 1 / 2)


/-- The integer steps of `Decimal.Round` after the rescaling: add 5 (subtract
it from a negative number), divide by 10 rounding down, and take the next
integer up when the quotient is negative and the division left a remainder. -/
def roundSteps (t : Int) : Int :=
  let v := if t.sign < 0 then t - 5 else t + 5
  if (v / 10).sign < 0 ∧ v % 10 ≠ 0 then v / 10 + 1 else v / 10

/-- The coefficient `Decimal.DivRound` returns, in terms of the integers `aa`
and `bb` that `QuoRem` divides: the truncated quotient, moved one unit away
from zero when twice the remainder reaches the divisor. -/
def divRoundSteps (aa bb : Int) : Int :=
  if 2 * |aa.tmod bb| < |bb| then aa.tdiv bb
  else if aa.sign * bb.sign < 0 then aa.tdiv bb - 1
  else aa.tdiv bb + 1

/-- The monthly rate as `loan_utils.go` obtains it from the annual rate in
percent: divided by 12 and then by 100, each quotient rounded half away from
zero at 16 fractional digits. -/
def monthlyRate16 (annualRate : ℚ) : ℚ :=
  roundHalfAway (roundHalfAway (annualRate / 12) 16 / 100) 16

/-- The payment of the specification: the annuity value for the exact monthly
rate `annualRate / 12 / 100`, rounded half to even at 2 fractional digits. -/
def paymentExact (principal annualRate : ℚ) (n : Nat) : ℚ :=
  roundHalfEven (annuity principal (annualRate / 12 / 100) n) 2

/-- The payment with the intermediate roundings of `CalculateMonthlyPayment`:
the monthly rate `r` and the factor `r (1+r)^n / ((1+r)^n - 1)` are rounded at
16 fractional digits before the product with the principal is rounded half to
even at 2 fractional digits. -/
def paymentRounded (principal annualRate : ℚ) (n : Nat) : ℚ :=
  let r := monthlyRate16 annualRate
  roundHalfEven (principal * roundHalfAway (r * (1 + r) ^ n / ((1 + r) ^ n - 1)) 16) 2

/-! ## The per-period recurrence of the specification -/

/-- An installment with its amounts as exact numbers. -/
structure Installment where
  dueDate : Time
  amount : ℚ
  principalPart : ℚ
  interestPart : ℚ
  paid : Bool

/-- The installment a `Payment` record stands for. -/
def Payment.toInstallment (p : Payment) : Installment :=
  { dueDate := p.DueDate
    amount := p.Amount.toRat
    principalPart := p.PrincipalPart.toRat
    interestPart := p.InterestPart.toRat
    paid := p.Paid }

/-- The schedule as the specification words it, on exact numbers, with
`left + 1` periods still scheduled: the interest part is the remaining
principal times the monthly rate rounded half to even at 2 digits, the
principal part is the monthly payment minus the interest part and the amount
is the monthly payment; on the last scheduled period, or when the remaining
principal minus the principal part is not positive, the principal part is the
remaining principal and the amount is the rounded sum of the two parts; every
installment is unpaid; the schedule ends once the remaining principal, after
the principal part is subtracted, is not positive. -/
def recurrence (monthlyRate monthlyPayment : ℚ) (startDate : Time) (termMonths : Nat) :
    Nat → ℚ → List Installment
  | 0, _ => []
  | left + 1, remainingPrincipal =>
    let interestPart := roundHalfEven (remainingPrincipal * monthlyRate) 2
    let regular := monthlyPayment - interestPart
    let principalPart :=
      if left = 0 ∨ remainingPrincipal - regular ≤ 0 then remainingPrincipal else regular
    let amount :=
      if left = 0 ∨ remainingPrincipal - regular ≤ 0 then
        roundHalfEven (principalPart + interestPart) 2
      else monthlyPayment
    let installment : Installment :=
      { dueDate := startDate.AddDate 0 ((termMonths : Int) - left) 0
        amount := amount
        principalPart := principalPart
        interestPart := interestPart
        paid := false }
    if remainingPrincipal - principalPart ≤ 0 then [installment]
    else installment :: recurrence monthlyRate monthlyPayment startDate termMonths left
      (remainingPrincipal - principalPart)

/-! ## Due dates -/

/-- A calendar date that exists: month 1..12 and a day of that month. -/
def Time.valid (t : Time) : Prop :=
  1 ≤ t.month ∧ t.month ≤ 12 ∧ 1 ≤ t.day ∧ t.day ≤ Time.daysIn t.month t.year

/-- The year `k` calendar months after the month of `t`. -/
def Time.targetYear (t : Time) (k : Int) : Int := t.year + (t.month - 1 + k) / 12

/-- The month (1..12) `k` calendar months after the month of `t`. -/
def Time.targetMonth (t : Time) (k : Int) : Int := (t.month - 1 + k) % 12 + 1

/-- The date the specification asks for: `k` calendar months later on the same
day of the month, clamped to the last day of the target month when that month
is shorter. -/
def Time.addMonthsClamped (t : Time) (k : Int) : Time :=
  { year := t.targetYear k
    month := t.targetMonth k
    day := min t.day (Time.daysIn (t.targetMonth k) (t.targetYear k))
    nsec := t.nsec }

/-- The date `k` calendar months later on the same day of the month, where the
days beyond the end of a shorter target month are counted into the month after
it. -/
def Time.addMonthsRolled (t : Time) (k : Int) : Time :=
  if t.day ≤ Time.daysIn (t.targetMonth k) (t.targetYear k) then
    { year := t.targetYear k, month := t.targetMonth k, day := t.day, nsec := t.nsec }
  else if t.targetMonth k = 12 then
    { year := t.targetYear k + 1, month := 1,
      day := t.day - Time.daysIn (t.targetMonth k) (t.targetYear k), nsec := t.nsec }
  else
    { year := t.targetYear k, month := t.targetMonth k + 1,
      day := t.day - Time.daysIn (t.targetMonth k) (t.targetYear k), nsec := t.nsec }


/-! ## Accounts, loans, transactions and the storage they live in -/

/-- A bank account (`models.Account`), with the fields the settlement and the
projection read. -/
structure Account where
  ID : String
  Balance : Decimal
  deriving DecidableEq, Repr

/-- A ledger record (`models.Transaction`). -/
structure Transaction where
  ID : String
  FromAccountID : String
  ToAccountID : String
  Amount : Decimal
  Timestamp : Time
  TransactionType : String
  Description : String
  deriving DecidableEq, Repr

/-- A loan with its payment schedule (`models.Loan`). -/
structure Loan where
  ID : String
  UserID : String
  AccountID : String
  Amount : Decimal
  InterestRate : Decimal
  TermMonths : Int
  StartDate : Time
  PaymentSchedule : List Payment
  RemainingAmount : Decimal
  deriving DecidableEq, Repr

/-- What the code does not control: the successive readings of `time.Now()`,
whether a call into the database fails, and the identifiers
`GenerateTransactionID` draws.  Each is indexed by the number of such events
that happened before. -/
structure Env where
  clock : Nat → Time
  fails : Nat → Bool
  newID : Nat → String

/-- The database and the count of events so far.  The accounts table has the
account id as its primary key, so it is a partial map from ids; `loans` is the
credits table in the order the queries of `getLoansWithFilter` return its rows,
each loan with the rows of its schedule in the order they were inserted. -/
structure World where
  accounts : String → Option Account
  loans : List Loan
  transactions : List Transaction
  tick : Nat

/-- The world after one more event. -/
def World.next (w : World) : World := { w with tick := w.tick + 1 }

/-- A call of `time.Now()`. -/
def timeNow (env : Env) (w : World) : Time × World := (env.clock w.tick, w.next)

/-- The order of `ORDER BY due_date`: `p` may stand before `q`. -/
def dueNotAfter (p q : Payment) : Prop := q.DueDate.Before p.DueDate = false

instance : DecidableRel dueNotAfter := fun p q =>
  inferInstanceAs (Decidable (q.DueDate.Before p.DueDate = false))

/-- The order of `ORDER BY timestamp DESC`: `t` may stand before `u`. -/
def timestampNotBefore (t u : Transaction) : Prop := t.Timestamp.Before u.Timestamp = false

instance : DecidableRel timestampNotBefore := fun t u =>
  inferInstanceAs (Decidable (t.Timestamp.Before u.Timestamp = false))

/-- A loan as `getLoansWithFilter` reads it: the schedule comes back ordered by
due date (rows with equal due dates in their stored order). -/
def loadLoan (loan : Loan) : Loan :=
  { loan with PaymentSchedule := loan.PaymentSchedule.insertionSort dueNotAfter }

namespace storage

/-- The function `GetAccount`: the account, or nothing when it does not exist
or the query fails. -/
def GetAccount (env : Env) (w : World) (accountID : String) : Option Account × World :=
  if env.fails w.tick then (none, w.next) else (w.accounts accountID, w.next)

/-- The function `UpdateAccountBalance`: adds `amount` to the balance; the
first component tells whether it returned no error.  It fails, changing
nothing, when a query fails or the account does not exist. -/
def UpdateAccountBalance (env : Env) (w : World) (accountID : String) (amount : Decimal) :
    Bool × World :=
  if env.fails w.tick then (false, w.next)
  else
    match w.accounts accountID with
    | none => (false, w.next)
    | some account =>
      let newBalance := account.Balance.Add amount
      (true, { w.next with
        accounts := fun id =>
          if id = accountID then some { account with Balance := newBalance }
          else w.accounts id })

/-- The function `AddTransaction`: one INSERT into `transactions`.  The columns
`from_account_id` and `to_account_id` reference `accounts(id)` (storage.go,
lines 98 and 99) and the function sends the two strings of the record as they
are, an empty string too (never NULL), so the database rejects the row unless
both strings are ids of accounts; the record is appended otherwise, unless the
statement fails. -/
def AddTransaction (env : Env) (w : World) (tx : Transaction) : Bool × World :=
  if env.fails w.tick then (false, w.next)
  else if (w.accounts tx.FromAccountID).isSome && (w.accounts tx.ToAccountID).isSome then
    (true, { w.next with transactions := w.transactions ++ [tx] })
  else (false, w.next)

/-- The function `GenerateTransactionID`. -/
def GenerateTransactionID (env : Env) (w : World) : String × World :=
  (env.newID w.tick, w.next)

/-- The function `GetAllLoans`: every loan, or none when a query fails. -/
def GetAllLoans (env : Env) (w : World) : List Loan × World :=
  if env.fails w.tick then ([], w.next) else (w.loans.map loadLoan, w.next)

/-- The function `GetAccountLoans`: the loans funded by the account, or none
when a query fails. -/
def GetAccountLoans (env : Env) (w : World) (accountID : String) : List Loan × World :=
  if env.fails w.tick then ([], w.next)
  else ((w.loans.filter (fun l => l.AccountID = accountID)).map loadLoan, w.next)

/-- The function `GetAccountTransactions`: the transactions with the account as
source or destination, latest first, or none when the query fails. -/
def GetAccountTransactions (env : Env) (w : World) (accountID : String) :
    List Transaction × World :=
  if env.fails w.tick then ([], w.next)
  else
    ((w.transactions.filter
        (fun t => t.FromAccountID = accountID ∨ t.ToAccountID = accountID)).insertionSort
      timestampNotBefore, w.next)

/-- The function `UpdateLoan`: replaces the stored loan of the same id, its
schedule included, in one database transaction; it fails, changing nothing,
when the loan does not exist or a statement fails.  The amounts are kept as
they are handed over, which is what the columns, all DECIMAL(15,2) (storage.go,
lines 111 to 126), do with a whole number of cents; they round any other value
to two fractional digits, which is not described here, so what is said of
stored amounts that are not whole numbers of cents is said under
`Loan.fitsColumns`. -/
def UpdateLoan (env : Env) (w : World) (loan : Loan) : Bool × World :=
  if env.fails w.tick then (false, w.next)
  else if w.loans.any (fun l => l.ID = loan.ID) then
    (true, { w.next with loans := w.loans.map (fun l => if l.ID = loan.ID then loan else l) })
  else (false, w.next)

end storage

/-! ## The settlement cycle (`scheduler_service.go`) -/

/-- The assignment `loan.PaymentSchedule[i].Paid = true`.  The index is that of
the installment being processed, always within the schedule. -/
def markPaid : List Payment → Nat → List Payment
  | [], _ => []
  | p :: s, 0 => { p with Paid := true } :: s
  | p :: s, i + 1 => p :: markPaid s i

/-- The variables of the loop over the installments of one loan: the loan
being processed, the flag `modified` and the world. -/
structure LoanState where
  loan : Loan
  modified : Bool
  world : World

/-- The body of the inner loop of `processOverduePayments` for the installment
`payment` at index `i` (lines 60 to 122). -/
def processPayment (env : Env) (now : Time) (i : Nat) (payment : Payment) (st : LoanState) :
    LoanState :=
  if payment.Paid then st
  else if payment.DueDate.Before now then
    let r := storage.GetAccount env st.world st.loan.AccountID
    match r.1 with
    | none => { st with world := r.2 }
    | some account =>
      if account.Balance.GreaterThanOrEqual payment.Amount then
        let u := storage.UpdateAccountBalance env r.2 st.loan.AccountID payment.Amount.Neg
        if u.1 = false then { st with world := u.2 }
        else
          let schedule := markPaid st.loan.PaymentSchedule i
          let remaining := st.loan.RemainingAmount.Sub payment.PrincipalPart
          let g := storage.GenerateTransactionID env u.2
          let t := timeNow env g.2
          let tx : Transaction :=
            { ID := g.1
              FromAccountID := st.loan.AccountID
              ToAccountID := ""
              Amount := payment.Amount
              Timestamp := t.1
              TransactionType := "loan_payment"
              Description := "Автоматический платеж по кредиту" }
          let a := storage.AddTransaction env t.2 tx
          { loan := { st.loan with PaymentSchedule := schedule, RemainingAmount := remaining }
            modified := true
            world := a.2 }
      else
        let penaltyAmount := payment.Amount.Mul Decimal.oneTenth
        let t := timeNow env r.2
        let penaltyPayment : Payment :=
          { DueDate := t.1.AddDate 0 0 7
            Amount := penaltyAmount
            PrincipalPart := Decimal.Zero
            InterestPart := penaltyAmount
            Paid := false }
        { loan := { st.loan with
            PaymentSchedule := st.loan.PaymentSchedule ++ [penaltyPayment] }
          modified := true
          world := t.2 }
  else st

/-- The inner loop of `processOverduePayments`: `range` walks the installments
the schedule had when the loop began, `i` being the index of the first one
left. -/
def paymentLoop (env : Env) (now : Time) : List Payment → Nat → LoanState → LoanState
  | [], _, st => st
  | payment :: rest, i, st => paymentLoop env now rest (i + 1) (processPayment env now i payment st)

/-- The body of the outer loop of `processOverduePayments` for one loan (lines
52 to 131). -/
def processLoan (env : Env) (now : Time) (w : World) (loan : Loan) : World :=
  if loan.RemainingAmount.IsZero then w
  else
    let st := paymentLoop env now loan.PaymentSchedule 0
      { loan := loan, modified := false, world := w }
    if st.modified then (storage.UpdateLoan env st.world st.loan).2 else st.world

/-- The function `processOverduePayments`: one settlement cycle. -/
def processOverduePayments (env : Env) (w : World) : World :=
  let l := storage.GetAllLoans env w
  let n := timeNow env l.2
  l.1.foldl (processLoan env n.1) n.2

/-- The world after `k` settlement cycles in a row. -/
def runCycles (env : Env) : Nat → World → World
  | 0, w => w
  | k + 1, w => runCycles env k (processOverduePayments env w)

/-! ## The balance projection (`BalancePredictionHandler`) -/

/-- One day of the forecast (`models.BalancePrediction`). -/
structure BalancePrediction where
  Date : Time
  Balance : Decimal
  deriving DecidableEq, Repr

/-- The body of a successful answer (`models.BalancePredictionResponse`). -/
structure BalancePredictionResponse where
  AccountID : String
  CurrentBalance : Decimal
  PredictionDays : Int
  AverageDailyOutflow : Decimal
  AverageDailyInflow : Decimal
  Predictions : List BalancePrediction
  deriving DecidableEq, Repr

/-- The query parameter `days` as the handler sees it: not given, given but
rejected by `strconv.Atoi`, or an integer. -/
inductive DaysParam where
  | absent
  | malformed
  | number (n : Int)
  deriving DecidableEq, Repr

/-- What the handler answers: `respondError` with a status and a message, or
`respondJSON` with a status and the forecast. -/
inductive HttpResponse where
  | error (status : Nat) (message : String)
  | forecast (status : Nat) (body : BalancePredictionResponse)
  deriving DecidableEq, Repr

/-- The sums and counts the handler accumulates over the transactions (lines
115 to 134). -/
structure Flows where
  outgoingAmount : Decimal
  incomingAmount : Decimal
  outgoingCount : Nat
  incomingCount : Nat
  deriving DecidableEq, Repr

/-- The body of the loop over the transactions (lines 120 to 134). -/
def addFlow (accountID : String) (thirtyDaysAgo : Time) (f : Flows) (tx : Transaction) : Flows :=
  if tx.Timestamp.Before thirtyDaysAgo then f
  else
    let f1 : Flows :=
      if tx.FromAccountID = accountID then
        { f with outgoingAmount := f.outgoingAmount.Add tx.Amount,
                 outgoingCount := f.outgoingCount + 1 }
      else f
    if tx.ToAccountID = accountID then
      { f1 with incomingAmount := f1.incomingAmount.Add tx.Amount,
                incomingCount := f1.incomingCount + 1 }
    else f1

/-- The loop over the schedule of one loan (lines 159 to 169): the amount of
the first unpaid installment due on the day of `predictionDate` is subtracted,
and the loop stops there. -/
def deductPayments (predictionDate : Time) (predictedBalance : Decimal) :
    List Payment → Decimal
  | [] => predictedBalance
  | payment :: rest =>
    if payment.DueDate.year = predictionDate.year ∧
        payment.DueDate.month = predictionDate.month ∧
        payment.DueDate.day = predictionDate.day ∧ payment.Paid = false then
      predictedBalance.Sub payment.Amount
    else deductPayments predictionDate predictedBalance rest

/-- The loop over the days (lines 151 to 177): `i` is the loop counter, the
first argument bounds the number of iterations. -/
def predictLoop (now : Time) (avgDailyIncoming avgDailyOutgoing : Decimal) (loans : List Loan)
    (days : Int) : Nat → Int → Decimal → List BalancePrediction
  | 0, _, _ => []
  | fuel + 1, i, predictedBalance =>
    if i < days then
      let predictionDate := now.AddDate 0 0 (i + 1)
      let b0 := (predictedBalance.Add avgDailyIncoming).Sub avgDailyOutgoing
      let b := loans.foldl
        (fun b loan => deductPayments predictionDate b loan.PaymentSchedule) b0
      { Date := predictionDate, Balance := b } ::
        predictLoop now avgDailyIncoming avgDailyOutgoing loans days fuel (i + 1) b
    else []

/-- The function `BalancePredictionHandler` of `analytics_handlers.go`. -/
def BalancePredictionHandler (env : Env) (w : World) (accountID : String)
    (daysParam : DaysParam) : HttpResponse × World :=
  let parsed : Except HttpResponse Int :=
    match daysParam with
    | DaysParam.absent => Except.ok 30
    | DaysParam.malformed =>
      Except.error
        (HttpResponse.error 400 "Invalid days parameter. Must be a positive integer.")
    | DaysParam.number n =>
      if n ≤ 0 then
        Except.error
          (HttpResponse.error 400 "Invalid days parameter. Must be a positive integer.")
      else if n > 365 then
        Except.error (HttpResponse.error 400 "Maximum prediction period is 365 days")
      else Except.ok n
  match parsed with
  | Except.error r => (r, w)
  | Except.ok days =>
    let a := storage.GetAccount env w accountID
    match a.1 with
    | none => (HttpResponse.error 404 ("Account " ++ accountID ++ " not found"), a.2)
    | some account =>
      let t := storage.GetAccountTransactions env a.2 accountID
      let l := storage.GetAccountLoans env t.2 accountID
      let currentBalance := account.Balance
      let n := timeNow env l.2
      let now := n.1
      let thirtyDaysAgo := now.AddDate 0 0 (-30)
      let f := t.1.foldl (addFlow accountID thirtyDaysAgo)
        { outgoingAmount := ⟨0, 0⟩, incomingAmount := ⟨0, 0⟩,
          outgoingCount := 0, incomingCount := 0 }
      let avgDailyOutgoing :=
        if f.outgoingCount > 0 then f.outgoingAmount.Div (Decimal.NewFromInt 30)
        else Decimal.Zero
      let avgDailyIncoming :=
        if f.incomingCount > 0 then f.incomingAmount.Div (Decimal.NewFromInt 30)
        else Decimal.Zero
      let dailyPredictions :=
        predictLoop now avgDailyIncoming avgDailyOutgoing l.1 days days.toNat 0 currentBalance
      (HttpResponse.forecast 200
        { AccountID := accountID
          CurrentBalance := currentBalance
          PredictionDays := days
          AverageDailyOutflow := avgDailyOutgoing
          AverageDailyInflow := avgDailyIncoming
          Predictions := dailyPredictions }, n.2)

/-! ## Auxiliary notions for the properties below -/

/-- The day after a calendar day, as a triple of year, month and day. -/
def Time.nextDay (r : Int × Int × Int) : Int × Int × Int :=
  if r.2.2 + 1 ≤ Time.daysIn r.2.1 r.1 then (r.1, r.2.1, r.2.2 + 1)
  else if r.2.1 = 12 then (r.1 + 1, 1, 1)
  else (r.1, r.2.1 + 1, 1)

/-- The world after a settled installment: the balance of the account is
replaced, four events have passed, and the transaction insert is attempted. -/
def settledWorld (env : Env) (payment : Payment) (st : LoanState) (account : Account) : World :=
  (storage.AddTransaction env
    { accounts := fun id =>
        if id = st.loan.AccountID then
          some { account with Balance := account.Balance.Add payment.Amount.Neg }
        else st.world.accounts id
      loans := st.world.loans
      transactions := st.world.transactions
      tick := st.world.tick + 4 }
    { ID := env.newID (st.world.tick + 2)
      FromAccountID := st.loan.AccountID
      ToAccountID := ""
      Amount := payment.Amount
      Timestamp := env.clock (st.world.tick + 3)
      TransactionType := "loan_payment"
      Description := "Автоматический платеж по кредиту" }).2

/-! ## Sample data: one account, one loan, one overdue installment -/

/-- A sample instant: 1 March 2024. -/
def sampleNow : Time := ⟨2024, 3, 1, 0⟩

/-- An environment whose clock stands at `sampleNow` and whose storage never fails. -/
def sampleEnv : Env :=
  { clock := fun _ => sampleNow, fails := fun _ => false, newID := fun _ => "tx" }

/-- The same environment, except that the storage call of event `k` fails. -/
def sampleEnvFailsAt (k : Nat) : Env :=
  { clock := fun _ => sampleNow, fails := fun n => n == k, newID := fun _ => "tx" }

/-- An installment of 200 (150 principal, 50 interest) that was due on 1 February 2024. -/
def sampleInstallment : Payment :=
  { DueDate := ⟨2024, 2, 1, 0⟩, Amount := ⟨200, 0⟩, PrincipalPart := ⟨150, 0⟩
    InterestPart := ⟨50, 0⟩, Paid := false }

/-- An installment of 500 that was due on 1 February 2024. -/
def sampleLargeInstallment : Payment :=
  { DueDate := ⟨2024, 2, 1, 0⟩, Amount := ⟨500, 0⟩, PrincipalPart := ⟨450, 0⟩
    InterestPart := ⟨50, 0⟩, Paid := false }

/-- An installment of 105.45 that was due on 1 February 2024. -/
def sampleOddInstallment : Payment :=
  { DueDate := ⟨2024, 2, 1, 0⟩, Amount := ⟨10545, -2⟩, PrincipalPart := ⟨10000, -2⟩
    InterestPart := ⟨545, -2⟩, Paid := false }

/-- A loan on account "a" with the given schedule and remaining principal. -/
def sampleLoan (schedule : List Payment) (remaining : Decimal) : Loan :=
  { ID := "l", UserID := "u", AccountID := "a", Amount := ⟨1000, 0⟩, InterestRate := ⟨12, 0⟩
    TermMonths := 12, StartDate := ⟨2024, 1, 1, 0⟩, PaymentSchedule := schedule
    RemainingAmount := remaining }

/-- A storage that holds account "a" with the given balance and the given loans. -/
def sampleWorld (balance : Decimal) (loans : List Loan) : World :=
  { accounts := fun id => if id = "a" then some { ID := "a", Balance := balance } else none
    loans := loans, transactions := [], tick := 0 }

/-- The state of the loop over a loan's schedule before its first installment. -/
def sampleState (balance : Decimal) (schedule : List Payment) (remaining : Decimal) :
    LoanState :=
  { loan := sampleLoan schedule remaining, modified := false
    world := sampleWorld balance [sampleLoan schedule remaining] }

/-! ## The principal paid so far -/

/-- The sum of the principal parts of the installments marked paid, as a number. -/
def paidPrincipal (s : List Payment) : ℚ :=
  principalSum (s.filter fun p => p.Paid)

/-- The installment `p` is the installment `q` up to its paid flag. -/
def sameInstallment (p q : Payment) : Prop :=
  p.DueDate = q.DueDate ∧ p.Amount = q.Amount ∧ p.PrincipalPart = q.PrincipalPart ∧
    p.InterestPart = q.InterestPart

/-- The installment `p` is one of the schedule `s0` the loan was created with
(as opposed to a penalty installment appended later). -/
def isOriginal (s0 : List Payment) (p : Payment) : Prop :=
  ∃ q ∈ s0, sameInstallment p q

/-- What holds of a loan of principal `P` created with the schedule `s0`,
however many installments were settled and penalties appended: the remaining
amount is `P` minus the principal paid, the principal parts of the schedule
still add up to `P`, and every installment that is not one of `s0` has
principal part zero. -/
def RemainingInvariant (P : ℚ) (s0 : List Payment) (L : Loan) : Prop :=
  L.RemainingAmount.toRat = P - paidPrincipal L.PaymentSchedule ∧
  principalSum L.PaymentSchedule = P ∧
  ∀ p ∈ L.PaymentSchedule, isOriginal s0 p ∨ p.PrincipalPart.toRat = 0

/-- The penalty installment that the cycle appends for `payment` when the clock
reads `t` (lines 103 to 113 of `scheduler_service.go`). -/
def penaltyInstallment (t : Time) (payment : Payment) : Payment :=
  { DueDate := t.AddDate 0 0 7
    Amount := payment.Amount.Mul Decimal.oneTenth
    PrincipalPart := Decimal.Zero
    InterestPart := payment.Amount.Mul Decimal.oneTenth
    Paid := false }

/-- A loan of 1000 at 12% over 3 months on account "a", as `ApplyLoanHandler`
builds it on 1 January 2024: installments of 340.02, 340.02 and 340.03. -/
def sampleNewLoan : Loan :=
  { ID := "l", UserID := "u", AccountID := "a", Amount := ⟨1000, 0⟩, InterestRate := ⟨12, 0⟩
    TermMonths := 3, StartDate := ⟨2024, 1, 1, 0⟩
    PaymentSchedule :=
      (GeneratePaymentSchedule ⟨1000, 0⟩ ⟨12, 0⟩ 3 ⟨2024, 1, 1, 0⟩
        (CalculateMonthlyPayment ⟨1000, 0⟩ ⟨12, 0⟩ 3)).getD []
    RemainingAmount := ⟨1000, 0⟩ }

/-! ## Installments that cannot be paid -/

/-- No unpaid installment of `s` that is due strictly before `now` can be paid
from the account `accountID`: the account, if it exists, holds less than the
amount. -/
def Unaffordable (now : Time) (accounts : String → Option Account) (accountID : String)
    (s : List Payment) : Prop :=
  ∀ p ∈ s, p.Paid = false → p.DueDate.Before now = true →
    ∀ a, accounts accountID = some a → a.Balance.toRat < p.Amount.toRat

/-- A cycle at `now` finds nothing to debit for the loan `L`: its remaining
amount is zero, or none of its overdue unpaid installments can be paid. -/
def QuietFor (now : Time) (accounts : String → Option Account) (L : Loan) : Prop :=
  L.RemainingAmount.IsZero = false → Unaffordable now accounts L.AccountID L.PaymentSchedule

/-- The accounts `acc2` are the accounts `acc` with balances that have not grown. -/
def AccLe (acc2 acc : String → Option Account) : Prop :=
  ∀ id, (acc id = none → acc2 id = none) ∧
    ∀ a2, acc2 id = some a2 → ∃ a, acc id = some a ∧ a2.Balance.toRat ≤ a.Balance.toRat

/-! ## An installment that stays unpayable -/

/-- The installment `x` has the amounts of a penalty for `p`: 10% of the amount
of `p` as amount and as interest part, and principal part zero. -/
def isPenaltyFor (p x : Payment) : Bool :=
  decide (x.Amount = p.Amount.Mul Decimal.oneTenth ∧ x.PrincipalPart = Decimal.Zero ∧
    x.InterestPart = p.Amount.Mul Decimal.oneTenth)

/-- The installment `x` is what the loop at `now` can make of the installment
`q`: `q` itself, or `q` marked paid when `q` was unpaid and due strictly before
`now`. -/
def keptOrSettled (now : Time) (x q : Payment) : Prop :=
  x = q ∨ (q.Paid = false ∧ q.DueDate.Before now = true ∧ x = { q with Paid := true })

/-- The amounts of the installment are whole numbers of cents: the columns
`amount`, `principal_part` and `interest_part` of `payment_schedules`, all
DECIMAL(15,2), hold them as they are. -/
def Payment.fitsColumns (p : Payment) : Prop :=
  isCents p.Amount.toRat ∧ isCents p.PrincipalPart.toRat ∧ isCents p.InterestPart.toRat

/-- The amounts of the loan and of its installments are whole numbers of cents:
the DECIMAL(15,2) columns of `credits` and `payment_schedules` hold them as they
are. -/
def Loan.fitsColumns (L : Loan) : Prop :=
  isCents L.Amount.toRat ∧ isCents L.InterestRate.toRat ∧ isCents L.RemainingAmount.toRat ∧
    ∀ p ∈ L.PaymentSchedule, p.fitsColumns

/-- The decimal is written with at most two fractional digits. -/
def Decimal.twoDigits (d : Decimal) : Bool := decide (-2 ≤ d.exp)

/-- Every amount of the loan and of its installments is written with at most
two fractional digits. -/
def Loan.twoDigits (L : Loan) : Bool :=
  L.Amount.twoDigits && L.InterestRate.twoDigits && L.RemainingAmount.twoDigits &&
    L.PaymentSchedule.all fun p =>
      p.Amount.twoDigits && p.PrincipalPart.twoDigits && p.InterestPart.twoDigits

/-- In the cycle that starts from `w`, the loan `id` is read as `L` after the
loans `before`, its schedule is `pre ++ p :: post`, and when the loop reaches
the installment `p` (unpaid, due strictly before the cycle's `now`) the
account is found with a balance below the amount of `p`; at the end of the
loop the rewrite of the loan succeeds. -/
def UnpayableWhenReached (env : Env) (w : World) (id : String) (p : Payment)
    (before : List Loan) (L : Loan) (after : List Loan) (pre post : List Payment) : Prop :=
  (storage.GetAllLoans env w).1 = before ++ L :: after ∧ L.ID = id ∧
  L.RemainingAmount.IsZero = false ∧
  L.PaymentSchedule = pre ++ p :: post ∧
  p.Paid = false ∧ p.DueDate.Before (env.clock (w.tick + 1)) = true ∧
  (∃ account,
    (storage.GetAccount env
      (paymentLoop env (env.clock (w.tick + 1)) pre 0
        { loan := L, modified := false
          world := before.foldl (processLoan env (env.clock (w.tick + 1))) w.next.next }).world
      L.AccountID).1 = some account ∧
    account.Balance.toRat < p.Amount.toRat) ∧
  (storage.UpdateLoan env
    (paymentLoop env (env.clock (w.tick + 1)) L.PaymentSchedule 0
      { loan := L, modified := false
        world := before.foldl (processLoan env (env.clock (w.tick + 1))) w.next.next }).world
    (paymentLoop env (env.clock (w.tick + 1)) L.PaymentSchedule 0
      { loan := L, modified := false
        world := before.foldl (processLoan env (env.clock (w.tick + 1))) w.next.next }).loan).1
    = true

/-- The schedule `s2` is the schedule `pre ++ p :: post` with the same
installments in the same places (paid flags aside, `p` itself untouched),
followed by new installments: penalties for installments of `pre` (at most one
each), then one penalty for `p`, then penalties for installments of `post` (at
most one each). -/
def GainsOnePenalty (p : Payment) (pre post s2 : List Payment) : Prop :=
  ∃ (pre2 post2 newsPre newsPost : List Payment) (t : Time),
    s2 = pre2 ++ p :: post2 ++ newsPre ++ [penaltyInstallment t p] ++ newsPost ∧
    List.Forall₂ sameInstallment pre2 pre ∧ List.Forall₂ sameInstallment post2 post ∧
    newsPre.length ≤ pre.length ∧ (∀ x ∈ newsPre, ∃ q ∈ pre, ∃ t2, x = penaltyInstallment t2 q) ∧
    newsPost.length ≤ post.length ∧
    (∀ x ∈ newsPost, ∃ q ∈ post, ∃ t2, x = penaltyInstallment t2 q)

/-- The penalty of 50 appended on 1 March 2024 for `sampleLargeInstallment`. -/
def samplePenalty : Payment := penaltyInstallment sampleNow sampleLargeInstallment

/-- A storage with account "a" holding 100 and one loan whose only installment,
of 500, is overdue. -/
def sampleOverdueWorld : World :=
  sampleWorld ⟨100, 0⟩ [sampleLoan [sampleLargeInstallment] ⟨1000, 0⟩]

/-! ## Notions for the balance projection -/

/-- The test of the projection's inner loop (lines 162 to 165): the installment
is due on the day of `date` and is not paid. -/
def dueUnpaid (date : Time) (payment : Payment) : Bool :=
  decide (payment.DueDate.year = date.year ∧ payment.DueDate.month = date.month ∧
    payment.DueDate.day = date.day ∧ payment.Paid = false)

/-- The amount of the first installment of the schedule, in schedule order,
that is unpaid and due on the day of `date`; zero if there is none. -/
def firstDueAmount (date : Time) (s : List Payment) : ℚ :=
  match s.find? (dueUnpaid date) with
  | some p => p.Amount.toRat
  | none => 0

/-- The deductions of one simulated day: for each loan the amount of its first
unpaid installment due that day. -/
def dayDeduction (loans : List Loan) (date : Time) : ℚ :=
  (loans.map fun L => firstDueAmount date L.PaymentSchedule).sum

/-- The transactions that count for the account's outflow: not dated before
`thirtyDaysAgo`, with the account as source. -/
def outflowTransactions (accountID : String) (thirtyDaysAgo : Time)
    (txs : List Transaction) : List Transaction :=
  txs.filter fun tx => !tx.Timestamp.Before thirtyDaysAgo && decide (tx.FromAccountID = accountID)

/-- The transactions that count for the account's inflow: not dated before
`thirtyDaysAgo`, with the account as destination. -/
def inflowTransactions (accountID : String) (thirtyDaysAgo : Time)
    (txs : List Transaction) : List Transaction :=
  txs.filter fun tx => !tx.Timestamp.Before thirtyDaysAgo && decide (tx.ToAccountID = accountID)

/-- The sum of the amounts of a list of transactions, as a number. -/
def amountSum (txs : List Transaction) : ℚ :=
  (txs.map fun tx => tx.Amount.toRat).sum

/-- The transactions the projection reads for the account (line 101). -/
def transactionsRead (env : Env) (w : World) (accountID : String) : List Transaction :=
  (storage.GetAccountTransactions env (storage.GetAccount env w accountID).2 accountID).1

/-- The loans the projection reads for the account (line 104). -/
def loansRead (env : Env) (w : World) (accountID : String) : List Loan :=
  (storage.GetAccountLoans env (storage.GetAccountTransactions env
    (storage.GetAccount env w accountID).2 accountID).2 accountID).1

/-- The sums and counts the projection has after its loop over the
transactions (lines 115 to 134), for the instant `now` it read. -/
def flowsRead (env : Env) (w : World) (accountID : String) (now : Time) : Flows :=
  (transactionsRead env w accountID).foldl (addFlow accountID (now.AddDate 0 0 (-30)))
    { outgoingAmount := ⟨0, 0⟩, incomingAmount := ⟨0, 0⟩, outgoingCount := 0, incomingCount := 0 }

/-- The variable `avgDailyOutgoing` (lines 137 to 140). -/
def averageOutgoing (f : Flows) : Decimal :=
  if f.outgoingCount > 0 then f.outgoingAmount.Div (Decimal.NewFromInt 30) else Decimal.Zero

/-- The variable `avgDailyIncoming` (lines 142 to 145). -/
def averageIncoming (f : Flows) : Decimal :=
  if f.incomingCount > 0 then f.incomingAmount.Div (Decimal.NewFromInt 30) else Decimal.Zero

/-- A due date of 5 March 2024 on an installment of the given amount and paid flag. -/
def sampleDue (amount : Decimal) (paid : Bool) : Payment :=
  { DueDate := ⟨2024, 3, 5, 0⟩, Amount := amount, PrincipalPart := amount
    InterestPart := ⟨0, 0⟩, Paid := paid }

/-- A transaction of the given amount between the given accounts, dated 20 February 2024. -/
def sampleTransaction (fromID toID : String) (amount : Decimal) : Transaction :=
  { ID := "t", FromAccountID := fromID, ToAccountID := toID, Amount := amount
    Timestamp := ⟨2024, 2, 20, 0⟩, TransactionType := "transfer", Description := "" }

/-- A storage with account "a" holding 1000 and one transaction of 100 from "a"
to "b", dated 20 February 2024. -/
def sampleTransferWorld : World :=
  { sampleWorld ⟨1000, 0⟩ [] with transactions := [sampleTransaction "a" "b" ⟨100, 0⟩] }

/-- A storage with accounts "a" (1000) and "b" (500), a transfer of 90 from "a"
to "b" and one of 30 from "b" to "a", both dated 20 February 2024, and one loan
on account "a" with three installments due 5 March 2024: 40 paid, 70 unpaid
and 20 unpaid. -/
def sampleForecastWorld : World :=
  { accounts := fun id =>
      if id = "a" then some { ID := "a", Balance := ⟨1000, 0⟩ }
      else if id = "b" then some { ID := "b", Balance := ⟨500, 0⟩ }
      else none
    loans := [sampleLoan [sampleDue ⟨40, 0⟩ true, sampleDue ⟨70, 0⟩ false,
      sampleDue ⟨20, 0⟩ false] ⟨1000, 0⟩]
    transactions := [sampleTransaction "a" "b" ⟨90, 0⟩, sampleTransaction "b" "a" ⟨30, 0⟩]
    tick := 0 }

/-! ## Notions for the conservation of a settlement cycle -/

/-- The paid installments of a loan, each as the pair of the funding account
and the amount. -/
def paidPairs (L : Loan) : List (String × Decimal) :=
  (L.PaymentSchedule.filter fun p => p.Paid).map fun p => (L.AccountID, p.Amount)

/-- The paid installments of all the loans. -/
def allPaidPairs : List Loan → List (String × Decimal)
  | [] => []
  | L :: loans => paidPairs L ++ allPaidPairs loans

/-- The sum of the amounts of a list of pairs of account and amount, as a number. -/
def pairSum (l : List (String × Decimal)) : ℚ :=
  (l.map fun x => x.2.toRat).sum

/-- From the storage `w` to the storage `w2` the accounts were debited by the
amounts of `debits` (pairs of account and amount): every account of `w` is an
account of `w2` whose balance is lower by the sum of the amounts debited from
it, no account appeared, and when no account has the empty id the
transactions are those of `w`. -/
def DebitedBy (w w2 : World) (debits : List (String × Decimal)) : Prop :=
  (w.accounts "" = none → w2.transactions = w.transactions) ∧
  (∀ id, w.accounts id = none → w2.accounts id = none) ∧
  ∀ id a, w.accounts id = some a →
    ∃ a2, w2.accounts id = some a2 ∧
      a.Balance.toRat - a2.Balance.toRat = pairSum (debits.filter fun x => x.1 = id)

/-- A storage with account "a" holding 1000 and a loan with one overdue installment of 200. -/
def sampleSettleWorld : World :=
  sampleWorld ⟨1000, 0⟩ [sampleLoan [sampleInstallment] ⟨1000, 0⟩]

/-- The sum of the amounts of the paid installments of the loans funded by the
account `id`, as a number. -/
def paidTotal (loans : List Loan) (id : String) : ℚ :=
  pairSum ((allPaidPairs loans).filter fun x => x.1 = id)

/-! ## Two calls of UpdateAccountBalance at the same time

`UpdateAccountBalance` (account_storage.go, lines 109 to 140) sends three
separate statements to the database, outside any database transaction and
under no lock: the existence query, the balance query and the UPDATE that
writes the balance computed from what the balance query returned.  The calls
come from the request handlers, each in its own goroutine, and from the
scheduler's goroutine, so the statements of two calls can alternate.  The
statements themselves are taken to succeed here. -/

/-- The place a call of `UpdateAccountBalance` has reached: before the
existence query, before the balance query, before the UPDATE with the balance
the call has read, returned without an error, returned with an error. -/
inductive UpdatePc where
  | atExists
  | atSelect
  | atUpdate (currentBalance : Decimal)
  | done
  | failed
  deriving DecidableEq, Repr

/-- A call of `UpdateAccountBalance` in progress. -/
structure UpdateCall where
  accountID : String
  amount : Decimal
  pc : UpdatePc
  deriving DecidableEq, Repr

/-- A call of `UpdateAccountBalance` that has not sent a statement yet. -/
def UpdateCall.start (accountID : String) (amount : Decimal) : UpdateCall :=
  { accountID := accountID, amount := amount, pc := .atExists }

/-- The next statement of a call of `UpdateAccountBalance`, on the accounts of
the database. -/
def UpdateCall.step (accounts : String → Option Account) (c : UpdateCall) :
    (String → Option Account) × UpdateCall :=
  match c.pc with
  | .atExists =>
    match accounts c.accountID with
    | none => (accounts, { c with pc := .failed })
    | some _ => (accounts, { c with pc := .atSelect })
  | .atSelect =>
    match accounts c.accountID with
    | none => (accounts, { c with pc := .failed })
    | some account => (accounts, { c with pc := .atUpdate account.Balance })
  | .atUpdate currentBalance =>
    let newBalance := currentBalance.Add c.amount
    (fun id =>
      if id = c.accountID then (accounts id).map fun account => { account with Balance := newBalance }
      else accounts id,
     { c with pc := .done })
  | .done => (accounts, c)
  | .failed => (accounts, c)

/-- Two calls of `UpdateAccountBalance` in progress on the same database. -/
structure Race where
  accounts : String → Option Account
  first : UpdateCall
  second : UpdateCall

/-- One statement of the first call (`true`) or of the second call. -/
def Race.step (r : Race) (pickFirst : Bool) : Race :=
  if pickFirst then
    { r with accounts := (r.first.step r.accounts).1, first := (r.first.step r.accounts).2 }
  else
    { r with accounts := (r.second.step r.accounts).1, second := (r.second.step r.accounts).2 }

/-- The statements of the two calls in the order given by the schedule. -/
def Race.run (r : Race) (schedule : List Bool) : Race :=
  schedule.foldl Race.step r

/-- Two adjustments of the account "a" starting at the same time. -/
def sampleRace (balance d1 d2 : Decimal) : Race :=
  { accounts := (sampleWorld balance []).accounts
    first := UpdateCall.start "a" d1
    second := UpdateCall.start "a" d2 }

/-- The order in which both calls read the balance before either writes it. -/
def lostUpdateSchedule : List Bool := [true, true, false, false, true, false]

/-! ## Calls of StartPaymentScheduler at the same time

`StartPaymentScheduler` (scheduler_service.go, lines 14 to 42) statement by
statement.  Any number of goroutines may call it; the statements of the calls
and the cycles of the periodic goroutines alternate in any order.  A cycle
takes time: it begins at one event and ends at a later one, where its effect
on the storage is recorded. -/

/-- The place a call of `StartPaymentScheduler` has reached: before
`schedulerMutex.Lock()`; before the test `if schedulerRunning`; before the
`Unlock` and `return` of the branch taken when the flag is set; before
`schedulerRunning = true`; before the `Unlock` that follows it; before the call
of `processOverduePayments`; inside that call; before the creation of the
ticker and of its goroutine; returned. -/
inductive CallPc where
  | atLock
  | atTest
  | atEarlyUnlock
  | atSet
  | atUnlock
  | atCycle
  | inCycle
  | atTicker
  | returned
  deriving DecidableEq, Repr

/-- The place a ticker goroutine has reached: waiting on `ticker.C`, or inside
`processOverduePayments`. -/
inductive DriverPc where
  | waiting
  | inCycle
  deriving DecidableEq, Repr

/-- The package variables `schedulerRunning` and `schedulerMutex` (whether it
is locked), the calls of `StartPaymentScheduler` made so far, the ticker
goroutines started so far, and the storage. -/
structure Scheduler where
  schedulerRunning : Bool
  schedulerMutex : Bool
  calls : List CallPc
  drivers : List DriverPc
  world : World

/-- The program at its start: the flag is not set, the mutex is free. -/
def Scheduler.init (world : World) : Scheduler :=
  { schedulerRunning := false, schedulerMutex := false, calls := [], drivers := [],
    world := world }

/-- What can happen next: a goroutine calls `StartPaymentScheduler`; the call
number `i` executes its next statement; the ticker goroutine number `i` begins
or ends a cycle. -/
inductive Event where
  | call
  | stepCall (i : Nat)
  | stepDriver (i : Nat)
  deriving DecidableEq, Repr

/-- The next statement of the call number `i`.  `Lock` waits while the mutex
is locked. -/
def stepCall (env : Env) (s : Scheduler) (i : Nat) : Scheduler :=
  match s.calls[i]? with
  | none => s
  | some .atLock =>
    if s.schedulerMutex then s
    else { s with schedulerMutex := true, calls := s.calls.set i .atTest }
  | some .atTest =>
    if s.schedulerRunning then { s with calls := s.calls.set i .atEarlyUnlock }
    else { s with calls := s.calls.set i .atSet }
  | some .atEarlyUnlock => { s with schedulerMutex := false, calls := s.calls.set i .returned }
  | some .atSet => { s with schedulerRunning := true, calls := s.calls.set i .atUnlock }
  | some .atUnlock => { s with schedulerMutex := false, calls := s.calls.set i .atCycle }
  | some .atCycle => { s with calls := s.calls.set i .inCycle }
  | some .inCycle =>
    { s with world := processOverduePayments env s.world, calls := s.calls.set i .atTicker }
  | some .atTicker =>
    { s with drivers := s.drivers ++ [.waiting], calls := s.calls.set i .returned }
  | some .returned => s

/-- The ticker goroutine number `i` begins a cycle when it is waiting and ends
the cycle it is in. -/
def stepDriver (env : Env) (s : Scheduler) (i : Nat) : Scheduler :=
  match s.drivers[i]? with
  | none => s
  | some .waiting => { s with drivers := s.drivers.set i .inCycle }
  | some .inCycle =>
    { s with world := processOverduePayments env s.world, drivers := s.drivers.set i .waiting }

/-- One event. -/
def Scheduler.step (env : Env) (s : Scheduler) : Event → Scheduler
  | .call => { s with calls := s.calls ++ [.atLock] }
  | .stepCall i => stepCall env s i
  | .stepDriver i => stepDriver env s i

/-- The events of a list, in order. -/
def Scheduler.run (env : Env) (s : Scheduler) (events : List Event) : Scheduler :=
  events.foldl (Scheduler.step env) s

/-- The number of settlement cycles in progress. -/
def runningCycles (s : Scheduler) : Nat :=
  s.calls.countP (fun pc => pc = .inCycle) + s.drivers.countP (fun pc => pc = .inCycle)

/-- The call holds the mutex. -/
def CallPc.holdsMutex : CallPc → Bool
  | .atTest | .atEarlyUnlock | .atSet | .atUnlock => true
  | _ => false

/-- The call has set the flag and has not started its ticker goroutine yet. -/
def CallPc.inFlight : CallPc → Bool
  | .atUnlock | .atCycle | .inCycle | .atTicker => true
  | _ => false

/-- The call is past the places a call can be at while the flag is not set. -/
def CallPc.pastGate : CallPc → Bool
  | .atLock | .atTest | .atSet => false
  | _ => true

/-- The call has not set the flag and will not: it is before the test, or in
the branch that returns at once, or returned. -/
def CallPc.turnedAway : CallPc → Bool
  | .atLock | .atTest | .atEarlyUnlock | .returned => true
  | _ => false

/-- What holds of the scheduler at every moment. -/
structure Scheduler.Inv (s : Scheduler) : Prop where
  mutex : s.calls.countP CallPc.holdsMutex = if s.schedulerMutex then 1 else 0
  unset : s.schedulerRunning = false → s.calls.countP CallPc.pastGate = 0 ∧ s.drivers = []
  set : s.schedulerRunning = true → s.calls.countP (fun pc => pc = .atSet) = 0
  one : s.calls.countP CallPc.inFlight + s.drivers.length ≤ 1

/-- The scheduler after the events `before`, then a further call of
`StartPaymentScheduler`, then the events `after`. -/
def afterLateCall (env : Env) (world : World) (before after : List Event) : Scheduler :=
  (((Scheduler.init world).run env before).step env Event.call).run env after

/-- The number of that further call. -/
def lateCall (env : Env) (world : World) (before : List Event) : Nat :=
  ((Scheduler.init world).run env before).calls.length

/-- A first call of `StartPaymentScheduler` up to the statement that sets the
flag. -/
def sampleBefore : List Event :=
  [Event.call, Event.stepCall 0, Event.stepCall 0, Event.stepCall 0]

/-- Statements of the first call and of a second one, alternating: the first
call unlocks, begins and ends its cycle and starts its ticker goroutine, which
begins a cycle. -/
def sampleAfter : List Event :=
  [Event.stepCall 0, Event.stepCall 1, Event.stepCall 0, Event.stepCall 1, Event.stepCall 0,
    Event.stepCall 1, Event.stepCall 0, Event.stepDriver 0]
/-! ## The value of a decimal under the library's operations -/

namespace Decimal

theorem toRat_mk (v e : Int) : (Decimal.mk v e).toRat = (v : ℚ) * (10 : ℚ) ^ e := rfl

theorem toRat_Zero : Decimal.Zero.toRat = 0 := by
  simp [Decimal.Zero, New, toRat]

theorem toRat_NewFromInt (n : Int) : (NewFromInt n).toRat = n := by
  simp [NewFromInt, toRat]

theorem rescale_exp (d : Decimal) (e : Int) : (d.rescale e).exp = e := by
  unfold rescale
  by_cases h1 : d.exp = e
  · rw [if_pos h1]; exact h1
  · rw [if_neg h1]
    by_cases h2 : e > d.exp
    · simp only [if_pos h2]
    · simp only [if_neg h2]

theorem pow10_pos (e : Int) : (0 : ℚ) < (10 : ℚ) ^ e := zpow_pos (by norm_num) e

/-- Rescaling to a smaller (or equal) exponent keeps the number. -/
theorem toRat_rescale_of_le (d : Decimal) (e : Int) (h : e ≤ d.exp) :
    (d.rescale e).toRat = d.toRat := by
  unfold rescale
  by_cases h1 : d.exp = e
  · rw [if_pos h1]
  · rw [if_neg h1]
    have h2 : ¬ e > d.exp := by omega
    simp only [if_neg h2]
    have hk : ((e - d.exp).natAbs : Int) = d.exp - e := by omega
    have h10 : (10 : ℚ) ≠ 0 := by norm_num
    have h3 : (10 : ℚ) ^ d.exp = (10 : ℚ) ^ (e - d.exp).natAbs * (10 : ℚ) ^ e := by
      rw [← zpow_natCast, ← zpow_add₀ h10, hk]; congr 1; omega
    simp only [toRat, h3, Int.cast_mul, Int.cast_pow, Int.cast_ofNat]
    ring

theorem RescalePair_exp_fst (a b : Decimal) : (RescalePair a b).1.exp = min a.exp b.exp := by
  unfold RescalePair
  by_cases h1 : a.exp = b.exp
  · rw [if_pos h1]; simp [h1]
  · rw [if_neg h1]
    by_cases h2 : min a.exp b.exp ≠ a.exp
    · simp only [if_pos h2]; exact rescale_exp _ _
    · simp only [if_neg h2]; simp only [ne_eq, not_not] at h2; exact h2.symm

theorem RescalePair_exp_snd (a b : Decimal) : (RescalePair a b).2.exp = min a.exp b.exp := by
  unfold RescalePair
  by_cases h1 : a.exp = b.exp
  · rw [if_pos h1]; simp [h1]
  · rw [if_neg h1]
    by_cases h2 : min a.exp b.exp ≠ a.exp
    · simp only [if_pos h2]
      rcases le_total a.exp b.exp with h | h
      · exact absurd (min_eq_left h) h2
      · exact (min_eq_right h).symm
    · simp only [if_neg h2]; exact rescale_exp _ _

theorem RescalePair_toRat_fst (a b : Decimal) : (RescalePair a b).1.toRat = a.toRat := by
  unfold RescalePair
  by_cases h1 : a.exp = b.exp
  · rw [if_pos h1]
  · rw [if_neg h1]
    by_cases h2 : min a.exp b.exp ≠ a.exp
    · simp only [if_pos h2]; exact toRat_rescale_of_le a _ (min_le_left _ _)
    · simp only [if_neg h2]

theorem RescalePair_toRat_snd (a b : Decimal) : (RescalePair a b).2.toRat = b.toRat := by
  unfold RescalePair
  by_cases h1 : a.exp = b.exp
  · rw [if_pos h1]
  · rw [if_neg h1]
    by_cases h2 : min a.exp b.exp ≠ a.exp
    · simp only [if_pos h2]
    · simp only [if_neg h2]; exact toRat_rescale_of_le b _ (min_le_right _ _)

theorem Add_exp (a b : Decimal) : (a.Add b).exp = min a.exp b.exp := by
  simp [Add, RescalePair_exp_fst]

theorem Sub_exp (a b : Decimal) : (a.Sub b).exp = min a.exp b.exp := by
  simp [Sub, RescalePair_exp_fst]

theorem toRat_Add (a b : Decimal) : (a.Add b).toRat = a.toRat + b.toRat := by
  have h1 := RescalePair_toRat_fst a b
  have h2 := RescalePair_toRat_snd a b
  have he : (RescalePair a b).2.exp = (RescalePair a b).1.exp := by
    rw [RescalePair_exp_fst, RescalePair_exp_snd]
  rw [← h1, ← h2]
  simp only [Add, toRat, he]
  push_cast; ring

theorem toRat_Sub (a b : Decimal) : (a.Sub b).toRat = a.toRat - b.toRat := by
  have h1 := RescalePair_toRat_fst a b
  have h2 := RescalePair_toRat_snd a b
  have he : (RescalePair a b).2.exp = (RescalePair a b).1.exp := by
    rw [RescalePair_exp_fst, RescalePair_exp_snd]
  rw [← h1, ← h2]
  simp only [Sub, toRat, he]
  push_cast; ring

theorem toRat_Mul (a b : Decimal) : (a.Mul b).toRat = a.toRat * b.toRat := by
  simp only [Mul, toRat]
  rw [zpow_add₀ (by norm_num : (10 : ℚ) ≠ 0)]
  push_cast; ring

theorem toRat_Abs (a : Decimal) : a.Abs.toRat = |a.toRat| := by
  simp only [Abs, toRat]
  rw [abs_mul, abs_of_pos (zpow_pos (by norm_num : (0 : ℚ) < 10) a.exp)]
  push_cast; rfl

/-- Comparing coefficients at a common exponent compares the numbers. -/
theorem value_lt_iff_of_exp_eq (a b : Decimal) (h : a.exp = b.exp) :
    a.value < b.value ↔ a.toRat < b.toRat := by
  simp only [toRat, h]
  rw [mul_lt_mul_right (pow10_pos b.exp)]
  exact Int.cast_lt.symm

theorem value_eq_iff_of_exp_eq (a b : Decimal) (h : a.exp = b.exp) :
    a.value = b.value ↔ a.toRat = b.toRat := by
  simp only [toRat, h]
  constructor
  · intro hv; rw [hv]
  · intro hv
    have := mul_right_cancel₀ (ne_of_gt (pow10_pos b.exp)) hv
    exact_mod_cast this

theorem Cmp_eq (a b : Decimal) :
    a.Cmp b = if a.toRat < b.toRat then -1 else if a.toRat = b.toRat then 0 else 1 := by
  have key : ∀ x y : Decimal, x.exp = y.exp →
      cmpInt x.value y.value =
        if x.toRat < y.toRat then -1 else if x.toRat = y.toRat then 0 else 1 := by
    intro x y h
    unfold cmpInt
    simp only [value_lt_iff_of_exp_eq x y h, value_eq_iff_of_exp_eq x y h]
  unfold Cmp
  by_cases h : a.exp = b.exp
  · rw [if_pos h]; exact key a b h
  · rw [if_neg h]
    have := key (RescalePair a b).1 (RescalePair a b).2
      (by rw [RescalePair_exp_fst, RescalePair_exp_snd])
    rw [RescalePair_toRat_fst, RescalePair_toRat_snd] at this
    exact this

theorem LessThanOrEqual_iff (a b : Decimal) :
    a.LessThanOrEqual b = true ↔ a.toRat ≤ b.toRat := by
  unfold LessThanOrEqual
  simp only [Cmp_eq]
  rcases lt_trichotomy a.toRat b.toRat with h | h | h
  · simp [h, le_of_lt h]
  · simp [h]
  · have h1 : ¬ a.toRat < b.toRat := not_lt.mpr (le_of_lt h)
    have h2 : ¬ a.toRat = b.toRat := ne_of_gt h
    have h3 : ¬ a.toRat ≤ b.toRat := not_le.mpr h
    simp [h1, h2, h3]

theorem IsZero_iff (a : Decimal) : a.IsZero = true ↔ a.toRat = 0 := by
  unfold IsZero Sign toRat
  simp [Int.sign_eq_zero_iff_zero, ne_of_gt (pow10_pos a.exp)]

end Decimal

/-! ## The loop of `GeneratePaymentSchedule` -/

theorem scheduleLoop_final (termMonths : Int) (startDate : Time) (monthlyRate : Decimal)
    (fuel : Nat) (i : Int) (rem mp : Decimal) (acc : List Payment)
    (hi : i < termMonths) (hf : isFinal termMonths i rem monthlyRate mp = true) :
    scheduleLoop termMonths startDate monthlyRate (fuel + 1) i rem mp acc =
      acc ++ [{ DueDate := startDate.AddDate 0 (i + 1) 0
                Amount := (rem.Add (interestOf rem monthlyRate)).RoundBank 2
                InterestPart := interestOf rem monthlyRate
                PrincipalPart := rem
                Paid := false }] := by
  have hz : (rem.Sub rem).LessThanOrEqual Decimal.Zero = true := by
    rw [Decimal.LessThanOrEqual_iff, Decimal.toRat_Sub, Decimal.toRat_Zero]; simp
  unfold isFinal interestOf at hf
  simp only [scheduleLoop, if_pos hi, hf, if_true, hz, interestOf]

theorem scheduleLoop_regular (termMonths : Int) (startDate : Time) (monthlyRate : Decimal)
    (fuel : Nat) (i : Int) (rem mp : Decimal) (acc : List Payment)
    (hi : i < termMonths) (hf : isFinal termMonths i rem monthlyRate mp = false) :
    scheduleLoop termMonths startDate monthlyRate (fuel + 1) i rem mp acc =
      scheduleLoop termMonths startDate monthlyRate fuel (i + 1)
        (rem.Sub (mp.Sub (interestOf rem monthlyRate))) mp
        (acc ++ [{ DueDate := startDate.AddDate 0 (i + 1) 0
                   Amount := mp
                   InterestPart := interestOf rem monthlyRate
                   PrincipalPart := mp.Sub (interestOf rem monthlyRate)
                   Paid := false }]) := by
  unfold isFinal at hf
  simp only [Bool.or_eq_false_iff, beq_eq_false_iff_ne, ne_eq] at hf
  obtain ⟨h1, hz⟩ := hf
  unfold interestOf at hz
  simp only [scheduleLoop, if_pos hi, beq_iff_eq, h1, hz, interestOf, Bool.or_false,
    decide_False, Bool.false_eq_true, if_false, Bool.or_self]

theorem scheduleLoop_done (termMonths : Int) (startDate : Time) (monthlyRate : Decimal)
    (fuel : Nat) (i : Int) (rem mp : Decimal) (acc : List Payment)
    (hi : ¬ i < termMonths) :
    scheduleLoop termMonths startDate monthlyRate fuel i rem mp acc = acc := by
  cases fuel with
  | zero => rfl
  | succ n => simp only [scheduleLoop, if_neg hi]

/-- The loop only appends to the schedule it is given. -/
theorem scheduleLoop_append (termMonths : Int) (startDate : Time) (monthlyRate : Decimal)
    (fuel : Nat) : ∀ (i : Int) (rem mp : Decimal) (acc : List Payment),
    scheduleLoop termMonths startDate monthlyRate fuel i rem mp acc =
      acc ++ scheduleLoop termMonths startDate monthlyRate fuel i rem mp [] := by
  induction fuel with
  | zero => intro i rem mp acc; simp [scheduleLoop]
  | succ n ih =>
    intro i rem mp acc
    by_cases hi : i < termMonths
    · cases hf : isFinal termMonths i rem monthlyRate mp
      · rw [scheduleLoop_regular _ _ _ _ _ _ _ _ hi hf, scheduleLoop_regular _ _ _ _ _ _ _ _ hi hf]
        rw [ih, ih _ _ _ ([] ++ _)]
        simp
      · rw [scheduleLoop_final _ _ _ _ _ _ _ _ hi hf, scheduleLoop_final _ _ _ _ _ _ _ _ hi hf]
        simp
    · rw [scheduleLoop_done _ _ _ _ _ _ _ _ hi, scheduleLoop_done _ _ _ _ _ _ _ _ hi]
      simp

theorem principalSum_cons (p : Payment) (s : List Payment) :
    principalSum (p :: s) = p.PrincipalPart.toRat + principalSum s := by
  simp [principalSum]

theorem principalSum_nil : principalSum [] = 0 := rfl

theorem isFinal_false_pos (termMonths i : Int) (rem monthlyRate mp : Decimal)
    (hf : isFinal termMonths i rem monthlyRate mp = false) :
    i ≠ termMonths - 1 ∧
      0 < rem.toRat - (mp.Sub (interestOf rem monthlyRate)).toRat := by
  unfold isFinal at hf
  simp only [Bool.or_eq_false_iff, beq_eq_false_iff_ne, ne_eq] at hf
  refine ⟨hf.1, ?_⟩
  have h := hf.2
  rw [← Bool.not_eq_true, Decimal.LessThanOrEqual_iff, Decimal.toRat_Sub,
    Decimal.toRat_Zero] at h
  exact not_le.mp h

/-- What the loop produces from period `i` on, started with an empty schedule:
the principal parts add up to the principal still remaining, there are between
1 and `termMonths - i` installments, and the principal remaining after an
installment is positive exactly when another installment follows. -/
theorem scheduleLoop_spec (termMonths : Int) (startDate : Time) (monthlyRate : Decimal)
    (fuel : Nat) : ∀ (i : Int) (rem mp : Decimal),
    i < termMonths → termMonths - i ≤ fuel →
    principalSum (scheduleLoop termMonths startDate monthlyRate fuel i rem mp []) = rem.toRat ∧
    1 ≤ (scheduleLoop termMonths startDate monthlyRate fuel i rem mp []).length ∧
    ((scheduleLoop termMonths startDate monthlyRate fuel i rem mp []).length : Int)
      ≤ termMonths - i ∧
    ∀ k, k < (scheduleLoop termMonths startDate monthlyRate fuel i rem mp []).length →
      (0 < rem.toRat -
          principalSum ((scheduleLoop termMonths startDate monthlyRate fuel i rem mp []).take
            (k + 1)) ↔
        k + 1 < (scheduleLoop termMonths startDate monthlyRate fuel i rem mp []).length) := by
  induction fuel with
  | zero => intro i rem mp hi hfuel; exfalso; simp at hfuel; omega
  | succ n ih =>
    intro i rem mp hi hfuel
    cases hf : isFinal termMonths i rem monthlyRate mp
    · obtain ⟨hne, hpos⟩ := isFinal_false_pos _ _ _ _ _ hf
      have hi' : i + 1 < termMonths := by omega
      have hfuel' : termMonths - (i + 1) ≤ (n : Int) := by push_cast at hfuel; omega
      obtain ⟨h1, h2, h3, h4⟩ :=
        ih (i + 1) (rem.Sub (mp.Sub (interestOf rem monthlyRate))) mp hi' hfuel'
      rw [scheduleLoop_regular _ _ _ _ _ _ _ _ hi hf, scheduleLoop_append]
      simp only [List.nil_append, List.singleton_append, List.length_cons, principalSum_cons]
      rw [Decimal.toRat_Sub] at h1 h4
      refine ⟨by rw [h1]; ring, by omega, by omega, ?_⟩
      intro k hk
      cases k with
      | zero =>
        simp only [List.take_succ_cons, List.take_zero, principalSum_cons, principalSum_nil,
          add_zero, zero_add]
        constructor
        · intro _; omega
        · intro _; exact hpos
      | succ k =>
        have hk' : k < (scheduleLoop termMonths startDate monthlyRate n (i + 1)
            (rem.Sub (mp.Sub (interestOf rem monthlyRate))) mp []).length := by omega
        have := h4 k hk'
        simp only [List.take_succ_cons, principalSum_cons]
        rw [show rem.toRat - ((mp.Sub (interestOf rem monthlyRate)).toRat +
              principalSum (List.take (k + 1) (scheduleLoop termMonths startDate monthlyRate n
                (i + 1) (rem.Sub (mp.Sub (interestOf rem monthlyRate))) mp []))) =
            rem.toRat - (mp.Sub (interestOf rem monthlyRate)).toRat -
              principalSum (List.take (k + 1) (scheduleLoop termMonths startDate monthlyRate n
                (i + 1) (rem.Sub (mp.Sub (interestOf rem monthlyRate))) mp [])) by ring]
        rw [this]
        omega
    · rw [scheduleLoop_final _ _ _ _ _ _ _ _ hi hf]
      simp only [List.nil_append, List.length_singleton, principalSum_cons, principalSum_nil,
        add_zero]
      refine ⟨trivial, le_refl _, by omega, ?_⟩
      intro k hk
      have hk0 : k = 0 := by omega
      subst hk0
      simp [principalSum_cons, principalSum_nil]

theorem toRat_principalTotal_aux (s : List Payment) : ∀ acc : Decimal,
    (s.foldl (fun acc p => acc.Add p.PrincipalPart) acc).toRat = acc.toRat + principalSum s := by
  induction s with
  | nil => intro acc; simp [principalSum]
  | cons p s ih =>
    intro acc
    rw [List.foldl_cons, ih, Decimal.toRat_Add, principalSum_cons]; ring

theorem toRat_principalTotal (s : List Payment) :
    (principalTotal s).toRat = principalSum s := by
  unfold principalTotal
  rw [toRat_principalTotal_aux, Decimal.toRat_Zero, zero_add]

theorem GeneratePaymentSchedule_eq (loanAmount annualRate : Decimal) (termMonths : Int)
    (startDate : Time) (monthlyPayment : Decimal) (h : 0 ≤ termMonths) :
    GeneratePaymentSchedule loanAmount annualRate termMonths startDate monthlyPayment =
      some (scheduleLoop termMonths startDate (monthlyRateOf annualRate) termMonths.toNat 0
        loanAmount monthlyPayment []) := by
  unfold GeneratePaymentSchedule monthlyRateOf
  rw [if_neg (not_lt.mpr h)]

/-! ## Properties of the schedule and of the payment -/

/-- C1: for every principal, annual rate, start date and monthly payment and
every `termMonths ≥ 1`, `GeneratePaymentSchedule` returns a schedule whose
principal parts sum to exactly the principal: as numbers, and when added up
and compared with the decimal library's own `Add` and `Cmp`. -/
theorem C1_principal_parts_sum_to_principal (loanAmount annualRate : Decimal)
    (termMonths : Int) (startDate : Time) (monthlyPayment : Decimal)
    (h : 1 ≤ termMonths) :
    ∃ s, GeneratePaymentSchedule loanAmount annualRate termMonths startDate monthlyPayment
        = some s ∧
      principalSum s = loanAmount.toRat ∧
      (principalTotal s).Cmp loanAmount = 0 := by
  refine ⟨_, GeneratePaymentSchedule_eq _ _ _ _ _ (by omega), ?_⟩
  have hs := (scheduleLoop_spec termMonths startDate (monthlyRateOf annualRate)
    termMonths.toNat 0 loanAmount monthlyPayment (by omega) (by omega)).1
  refine ⟨hs, ?_⟩
  rw [Decimal.Cmp_eq, toRat_principalTotal, hs]
  simp

theorem C1_witness :
    (1 : Int) ≤ 12 ∧
    ∃ s, GeneratePaymentSchedule (Decimal.NewFromInt 120000) (Decimal.NewFromInt 10) 12
        ⟨2023, 1, 31, 0⟩ ⟨1054991, -2⟩ = some s ∧
      principalSum s = (Decimal.NewFromInt 120000).toRat ∧
      (principalTotal s).Cmp (Decimal.NewFromInt 120000) = 0 :=
  ⟨by decide, C1_principal_parts_sum_to_principal _ _ _ _ _ (by decide)⟩

/-- C7: for `termMonths ≥ 1` the schedule has at least 1 and at most
`termMonths` installments; the principal remaining after the installment at
index `k` (principal minus the principal parts up to it) is strictly positive
exactly when another installment follows, so the schedule stops at the
installment that brings the remaining principal to zero or below and is
shorter than `termMonths` only then; after the last installment nothing
remains. -/
theorem C7_schedule_length_and_early_payoff (loanAmount annualRate : Decimal)
    (termMonths : Int) (startDate : Time) (monthlyPayment : Decimal)
    (h : 1 ≤ termMonths) :
    ∃ s, GeneratePaymentSchedule loanAmount annualRate termMonths startDate monthlyPayment
        = some s ∧
      1 ≤ s.length ∧ (s.length : Int) ≤ termMonths ∧
      (∀ k, k < s.length →
        (0 < loanAmount.toRat - principalSum (s.take (k + 1)) ↔ k + 1 < s.length)) ∧
      loanAmount.toRat - principalSum s ≤ 0 := by
  refine ⟨_, GeneratePaymentSchedule_eq _ _ _ _ _ (by omega), ?_⟩
  obtain ⟨h1, h2, h3, h4⟩ := scheduleLoop_spec termMonths startDate (monthlyRateOf annualRate)
    termMonths.toNat 0 loanAmount monthlyPayment (by omega) (by omega)
  refine ⟨h2, by simpa using h3, h4, ?_⟩
  rw [h1]; simp

theorem C7_witness :
    (1 : Int) ≤ 12 ∧
    ∃ s, GeneratePaymentSchedule (Decimal.NewFromInt 120000) (Decimal.NewFromInt 10) 12
        ⟨2023, 1, 31, 0⟩ ⟨1054991, -2⟩ = some s ∧
      1 ≤ s.length ∧ (s.length : Int) ≤ 12 ∧
      (∀ k, k < s.length →
        (0 < (Decimal.NewFromInt 120000).toRat - principalSum (s.take (k + 1)) ↔
          k + 1 < s.length)) ∧
      (Decimal.NewFromInt 120000).toRat - principalSum s ≤ 0 :=
  ⟨by decide, C7_schedule_length_and_early_payoff _ _ _ _ _ (by decide)⟩

/-- C10: for every principal and annual rate, `CalculateMonthlyPayment`
returns zero (the constant `decimal.Zero`) when `termMonths ≤ 0`. -/
theorem C10_nonpositive_term_gives_zero (loanAmount annualRate : Decimal) (termMonths : Int)
    (h : termMonths ≤ 0) :
    CalculateMonthlyPayment loanAmount annualRate termMonths = Decimal.Zero ∧
      (CalculateMonthlyPayment loanAmount annualRate termMonths).toRat = 0 := by
  have : CalculateMonthlyPayment loanAmount annualRate termMonths = Decimal.Zero := by
    unfold CalculateMonthlyPayment
    rw [if_pos h]
  rw [this]
  exact ⟨rfl, Decimal.toRat_Zero⟩

theorem C10_witness :
    (-3 : Int) ≤ 0 ∧
    CalculateMonthlyPayment (Decimal.NewFromInt 120000) (Decimal.NewFromInt 10) (-3)
        = Decimal.Zero ∧
      (CalculateMonthlyPayment (Decimal.NewFromInt 120000) (Decimal.NewFromInt 10) (-3)).toRat
        = 0 :=
  ⟨by decide, C10_nonpositive_term_gives_zero _ _ _ (by decide)⟩


/-! ## Rounding of rationals -/

theorem roundHalfAway_eq (x : ℚ) (places : Int) (R : Int)
    (h : HalfAway (x * (10 : ℚ) ^ places) R) :
    roundHalfAway x places = (R : ℚ) / (10 : ℚ) ^ places := by
  have hp : (0 : ℚ) < (10 : ℚ) ^ places := zpow_pos (by norm_num) places
  unfold roundHalfAway
  by_cases hx : x < 0
  · have hs : x * (10 : ℚ) ^ places < 0 := mul_neg_of_neg_of_pos hx hp
    obtain ⟨h1, h2⟩ := h.2 hs
    have hf : ⌊|x| * (10 : ℚ) ^ places + 1 / 2⌋ = -R := by
      rw [Int.floor_eq_iff, abs_of_neg hx]
      push_cast
      constructor <;> linarith
    simp only [hf, if_pos hx]
    push_cast; ring
  · have hx' : 0 ≤ x := not_lt.mp hx
    have hs : 0 ≤ x * (10 : ℚ) ^ places := mul_nonneg hx' (le_of_lt hp)
    obtain ⟨h1, h2⟩ := h.1 hs
    have hf : ⌊|x| * (10 : ℚ) ^ places + 1 / 2⌋ = R := by
      rw [Int.floor_eq_iff, abs_of_nonneg hx']
      constructor <;> linarith
    simp only [hf, if_neg hx]

theorem roundHalfEven_of_lt (x : ℚ) (places : Int) (n : Int)
    (h1 : (n : ℚ) - 1 / 2 < x * (10 : ℚ) ^ places)
    (h2 : x * (10 : ℚ) ^ places < n + 1 / 2) :
    roundHalfEven x places = (n : ℚ) / (10 : ℚ) ^ places := by
  unfold roundHalfEven
  by_cases hn : (n : ℚ) ≤ x * (10 : ℚ) ^ places
  · have hf : ⌊x * (10 : ℚ) ^ places⌋ = n := by
      rw [Int.floor_eq_iff]; constructor <;> linarith
    simp only [hf]
    rw [if_pos (by linarith)]
  · have hf : ⌊x * (10 : ℚ) ^ places⌋ = n - 1 := by
      rw [Int.floor_eq_iff]; push_cast; constructor <;> linarith
    simp only [hf]
    rw [if_neg (by push_cast; linarith), if_pos (by push_cast; linarith)]
    simp

theorem roundHalfEven_of_tie_below (x : ℚ) (places : Int) (n : Int)
    (h1 : x * (10 : ℚ) ^ places = (n : ℚ) + 1 / 2) (h2 : n % 2 = 0) :
    roundHalfEven x places = (n : ℚ) / (10 : ℚ) ^ places := by
  unfold roundHalfEven
  have hf : ⌊x * (10 : ℚ) ^ places⌋ = n := by
    rw [Int.floor_eq_iff]; constructor <;> linarith
  simp only [hf]
  rw [if_neg (by linarith), if_neg (by linarith), if_pos h2]

theorem roundHalfEven_of_tie_above (x : ℚ) (places : Int) (n : Int)
    (h1 : x * (10 : ℚ) ^ places = (n : ℚ) - 1 / 2) (h2 : n % 2 = 0) :
    roundHalfEven x places = (n : ℚ) / (10 : ℚ) ^ places := by
  unfold roundHalfEven
  have hf : ⌊x * (10 : ℚ) ^ places⌋ = n - 1 := by
    rw [Int.floor_eq_iff]; push_cast; constructor <;> linarith
  simp only [hf]
  have h3 : ¬ (n - 1) % 2 = 0 := by omega
  rw [if_neg (by push_cast; linarith), if_neg (by push_cast; linarith), if_neg h3]
  simp

/-- Banker's rounding obtained from the half-away rounding `R` of `s` the way
`RoundBank` does it: an odd `R` that lies exactly half a unit from `s` is moved
one unit toward zero. -/
theorem roundHalfEven_of_HalfAway (x : ℚ) (places : Int) (R : Int)
    (h : HalfAway (x * (10 : ℚ) ^ places) R) :
    roundHalfEven x places =
      ((if |x * (10 : ℚ) ^ places - R| = 1 / 2 ∧ R % 2 ≠ 0 then
          (if R < 0 then R + 1 else R - 1) else R : Int) : ℚ) / (10 : ℚ) ^ places := by
  by_cases hs : 0 ≤ x * (10 : ℚ) ^ places
  · obtain ⟨h1, h2⟩ := h.1 hs
    have hR : ¬ R < 0 := by
      intro hR
      have : (R : ℚ) ≤ -1 := by exact_mod_cast (show R ≤ -1 by omega)
      linarith
    by_cases ht : |x * (10 : ℚ) ^ places - R| = 1 / 2
    · have hval : x * (10 : ℚ) ^ places = R - 1 / 2 := by
        rcases abs_eq (by norm_num : (0 : ℚ) ≤ 1 / 2) |>.mp ht with h3 | h3 <;> linarith
      by_cases hodd : R % 2 ≠ 0
      · rw [if_pos ⟨ht, hodd⟩, if_neg hR]
        exact roundHalfEven_of_tie_below x places (R - 1) (by push_cast; linarith) (by omega)
      · rw [if_neg (fun hc => hodd hc.2)]
        exact roundHalfEven_of_tie_above x places R hval (by omega)
    · rw [if_neg (fun hc => ht hc.1)]
      refine roundHalfEven_of_lt x places R ?_ h2
      rcases lt_or_eq_of_le h1 with h3 | h3
      · exact h3
      · exfalso; apply ht; rw [← h3]; norm_num [abs_of_neg]
  · have hs' : x * (10 : ℚ) ^ places < 0 := not_le.mp hs
    obtain ⟨h1, h2⟩ := h.2 hs'
    have hR : R ≤ 0 := by
      by_contra hR
      have : (1 : ℚ) ≤ R := by exact_mod_cast (show 1 ≤ R by omega)
      linarith
    by_cases ht : |x * (10 : ℚ) ^ places - R| = 1 / 2
    · have hval : x * (10 : ℚ) ^ places = R + 1 / 2 := by
        rcases abs_eq (by norm_num : (0 : ℚ) ≤ 1 / 2) |>.mp ht with h3 | h3 <;> linarith
      by_cases hodd : R % 2 ≠ 0
      · have hR' : R < 0 := by
          rcases lt_or_eq_of_le hR with h3 | h3
          · exact h3
          · exfalso; rw [h3] at hodd; simp at hodd
        rw [if_pos ⟨ht, hodd⟩, if_pos hR']
        exact roundHalfEven_of_tie_above x places (R + 1) (by push_cast; linarith) (by omega)
      · rw [if_neg (fun hc => hodd hc.2)]
        exact roundHalfEven_of_tie_below x places R hval (by omega)
    · rw [if_neg (fun hc => ht hc.1)]
      refine roundHalfEven_of_lt x places R h1 ?_
      rcases lt_or_eq_of_le h2 with h3 | h3
      · exact h3
      · exfalso; apply ht; rw [h3]; norm_num

/-! ## `Round` and `RoundBank` -/

namespace Decimal

theorem sign_lt_zero_iff (a : Int) : a.sign < 0 ↔ a < 0 := by
  constructor
  · intro h
    by_contra hc
    have : 0 ≤ a.sign := Int.sign_nonneg.mpr (not_lt.mp hc)
    omega
  · intro h; rw [Int.sign_eq_neg_one_of_neg h]; decide

theorem roundSteps_bounds (t : Int) :
    (0 ≤ t → 10 * roundSteps t - 5 ≤ t ∧ t < 10 * roundSteps t + 5) ∧
    (t < 0 → 10 * roundSteps t - 4 ≤ t ∧ t ≤ 10 * roundSteps t + 5) := by
  unfold roundSteps
  simp only [sign_lt_zero_iff]
  constructor
  · intro ht
    rw [if_neg (by omega)]
    split_ifs <;> omega
  · intro ht
    rw [if_pos ht]
    split_ifs <;> omega

/-- Truncated division by a positive number, bracketed. -/
theorem tdiv_bounds (v M : Int) (hM : 0 < M) :
    (0 ≤ v → 0 ≤ v.tdiv M ∧ M * v.tdiv M ≤ v ∧ v < M * v.tdiv M + M) ∧
    (v < 0 → v.tdiv M ≤ 0 ∧ M * v.tdiv M - M < v ∧ v ≤ M * v.tdiv M) := by
  have h1 := Int.tmod_add_tdiv v M
  constructor
  · intro hv
    have h2 := Int.tmod_nonneg M hv
    have h3 := Int.tmod_lt_of_pos v hM
    refine ⟨Int.tdiv_nonneg hv (le_of_lt hM), by omega, by omega⟩
  · intro hv
    have h4 : (-v).tdiv M = -(v.tdiv M) := Int.neg_tdiv v M
    have h5 := Int.tmod_add_tdiv (-v) M
    have h2 := Int.tmod_nonneg M (show 0 ≤ -v by omega)
    have h3 := Int.tmod_lt_of_pos (-v) hM
    have h6 := Int.tdiv_nonneg (show 0 ≤ -v by omega) (le_of_lt hM)
    rw [h4] at h5 h6
    have h7 : M * -(v.tdiv M) = -(M * v.tdiv M) := by ring
    rw [h7] at h5
    refine ⟨by omega, by omega, by omega⟩

/-- Truncating `v / M` and then rounding the last digit away gives the
half-away rounding of `v / (10 * M)`. -/
theorem halfAway_roundSteps_tdiv (v M : Int) (hM : 0 < M) :
    HalfAway ((v : ℚ) / ((M : ℚ) * 10)) (roundSteps (v.tdiv M)) := by
  have hMq : (0 : ℚ) < (M : ℚ) * 10 := by
    have : (0 : ℚ) < M := by exact_mod_cast hM
    linarith
  have hb := roundSteps_bounds (v.tdiv M)
  have ht := tdiv_bounds v M hM
  by_cases hv : 0 ≤ v
  · obtain ⟨t0, t1, t2⟩ := ht.1 hv
    obtain ⟨r1, r2⟩ := hb.1 t0
    have hs : (0 : ℚ) ≤ (v : ℚ) / ((M : ℚ) * 10) :=
      div_nonneg (by exact_mod_cast hv) (le_of_lt hMq)
    refine ⟨fun _ => ⟨?_, ?_⟩, fun hc => absurd hs (not_le.mpr hc)⟩
    · have h : M * (10 * roundSteps (v.tdiv M) - 5) ≤ v := by
        nlinarith [mul_le_mul_of_nonneg_left r1 (le_of_lt hM)]
      have hq : (M : ℚ) * (10 * (roundSteps (v.tdiv M) : ℚ) - 5) ≤ v := by exact_mod_cast h
      rw [le_div_iff₀ hMq]; linarith
    · have h : v < M * (10 * roundSteps (v.tdiv M) + 5) := by
        nlinarith [mul_le_mul_of_nonneg_left (show v.tdiv M + 1 ≤ 10 * roundSteps (v.tdiv M) + 5
          by omega) (le_of_lt hM)]
      have hq : (v : ℚ) < (M : ℚ) * (10 * (roundSteps (v.tdiv M) : ℚ) + 5) := by
        exact_mod_cast h
      rw [div_lt_iff₀ hMq]; linarith
  · have hv' : v < 0 := not_le.mp hv
    obtain ⟨t0, t1, t2⟩ := ht.2 hv'
    have hs : (v : ℚ) / ((M : ℚ) * 10) < 0 :=
      div_neg_of_neg_of_pos (by exact_mod_cast hv') hMq
    refine ⟨fun hc => absurd hs (not_lt.mpr hc), fun _ => ?_⟩
    have hlo : 10 * roundSteps (v.tdiv M) - 4 ≤ v.tdiv M ∨ v.tdiv M = 0 ∧
        roundSteps (v.tdiv M) = 0 := by
      by_cases h0 : v.tdiv M < 0
      · exact Or.inl (hb.2 h0).1
      · have h0' : v.tdiv M = 0 := by omega
        refine Or.inr ⟨h0', ?_⟩
        have := hb.1 (by omega : 0 ≤ v.tdiv M)
        omega
    have hhi : v.tdiv M ≤ 10 * roundSteps (v.tdiv M) + 5 := by
      by_cases h0 : v.tdiv M < 0
      · exact (hb.2 h0).2
      · have := hb.1 (by omega : 0 ≤ v.tdiv M)
        omega
    constructor
    · have h : M * (10 * roundSteps (v.tdiv M) - 5) < v := by
        rcases hlo with h1 | ⟨h1, h2⟩
        · nlinarith [mul_le_mul_of_nonneg_left (show 10 * roundSteps (v.tdiv M) - 5 ≤
            v.tdiv M - 1 by omega) (le_of_lt hM)]
        · rw [h1] at t1; rw [h2]; nlinarith
      have hq : (M : ℚ) * (10 * (roundSteps (v.tdiv M) : ℚ) - 5) < v := by exact_mod_cast h
      rw [lt_div_iff₀ hMq]; linarith
    · have h : v ≤ M * (10 * roundSteps (v.tdiv M) + 5) := by
        nlinarith [mul_le_mul_of_nonneg_left hhi (le_of_lt hM)]
      have hq : (v : ℚ) ≤ (M : ℚ) * (10 * (roundSteps (v.tdiv M) : ℚ) + 5) := by
        exact_mod_cast h
      rw [div_le_iff₀ hMq]; linarith

end Decimal

namespace Decimal

/-- The coefficient after `rescale` is a truncated quotient `w.tdiv M` of
integers whose exact quotient is the number scaled by `10 ^ (-e)`. -/
theorem rescale_tdiv_form (d : Decimal) (e : Int) :
    ∃ w M : Int, 0 < M ∧ (d.rescale e).value = w.tdiv M ∧
      (w : ℚ) / (M : ℚ) = (d.value : ℚ) * (10 : ℚ) ^ (d.exp - e) := by
  have h10 : (10 : ℚ) ≠ 0 := by norm_num
  unfold rescale
  by_cases h1 : d.exp = e
  · refine ⟨d.value, 1, by norm_num, ?_, ?_⟩
    · rw [if_pos h1, Int.tdiv_one]
    · rw [h1]; simp
  · rw [if_neg h1]
    by_cases h2 : e > d.exp
    · refine ⟨d.value, 10 ^ (e - d.exp).natAbs, by positivity, ?_, ?_⟩
      · simp only [if_pos h2]
      · have hk : d.exp - e = -((e - d.exp).natAbs : Int) := by omega
        rw [hk, zpow_neg, zpow_natCast]
        push_cast
        rw [div_eq_mul_inv]
    · refine ⟨d.value * 10 ^ (e - d.exp).natAbs, 1, by norm_num, ?_, ?_⟩
      · simp only [if_neg h2, Int.tdiv_one]
      · have hk : d.exp - e = ((e - d.exp).natAbs : Int) := by omega
        rw [hk, zpow_natCast]
        push_cast
        simp

theorem Round_eq (d : Decimal) (places : Int) :
    d.Round places =
      if d.exp = -places then d
      else ⟨roundSteps (d.rescale (-places - 1)).value, -places⟩ := by
  unfold Round
  by_cases h : d.exp = -places
  · rw [if_pos h, if_pos h]
  · rw [if_neg h, if_neg h]
    simp only [rescale_exp, roundSteps]
    have he : -places - 1 + 1 = -places := by ring
    rw [he]
    split_ifs <;> rfl

/-- `Round` returns a coefficient at exponent `-places` that is the half-away
rounding of the number scaled by `10 ^ places`. -/
theorem Round_spec (d : Decimal) (places : Int) :
    (d.Round places).exp = -places ∧
      HalfAway (d.toRat * (10 : ℚ) ^ places) (d.Round places).value := by
  have h10 : (10 : ℚ) ≠ 0 := by norm_num
  rw [Round_eq]
  by_cases h : d.exp = -places
  · rw [if_pos h]
    refine ⟨h, ?_⟩
    have hs : d.toRat * (10 : ℚ) ^ places = d.value := by
      unfold toRat
      rw [h, mul_assoc, ← zpow_add₀ h10]
      simp
    rw [hs]
    exact ⟨fun _ => ⟨by linarith, by linarith⟩, fun _ => ⟨by linarith, by linarith⟩⟩
  · rw [if_neg h]
    refine ⟨rfl, ?_⟩
    obtain ⟨w, M, hM, hv, hq⟩ := rescale_tdiv_form d (-places - 1)
    have hs : d.toRat * (10 : ℚ) ^ places = (w : ℚ) / ((M : ℚ) * 10) := by
      unfold toRat
      have hM' : (M : ℚ) ≠ 0 := by
        have : (0 : ℚ) < M := by exact_mod_cast hM
        exact ne_of_gt this
      have e1 : (10 : ℚ) ^ (d.exp - (-places - 1)) =
          (10 : ℚ) ^ d.exp * (10 : ℚ) ^ places * 10 := by
        rw [show d.exp - (-places - 1) = d.exp + places + 1 by ring, zpow_add₀ h10,
          zpow_add₀ h10, zpow_one]
      rw [← div_div, hq, e1]
      field_simp
      ring
    show HalfAway _ (roundSteps (d.rescale (-places - 1)).value)
    rw [hs, hv]
    exact halfAway_roundSteps_tdiv w M hM

end Decimal

namespace Decimal

theorem Cmp_eq_zero_iff (a b : Decimal) : a.Cmp b = 0 ↔ a.toRat = b.toRat := by
  rw [Cmp_eq]
  by_cases h1 : a.toRat < b.toRat
  · rw [if_pos h1]
    constructor
    · intro h; exact absurd h (by decide)
    · intro h; exact absurd h (ne_of_lt h1)
  · rw [if_neg h1]
    by_cases h2 : a.toRat = b.toRat
    · rw [if_pos h2]; exact ⟨fun _ => h2, fun _ => rfl⟩
    · rw [if_neg h2]
      constructor
      · intro h; exact absurd h (by decide)
      · intro h; exact absurd h h2

theorem toRat_of_exp_neg (d : Decimal) (places : Int) (h : d.exp = -places) :
    d.toRat = (d.value : ℚ) / (10 : ℚ) ^ places := by
  unfold toRat
  rw [h, zpow_neg, div_eq_mul_inv]

/-- `RoundBank` is banker's rounding: the result has exponent `-places` and is
the number rounded half to even at `places` fractional digits. -/
theorem RoundBank_spec (d : Decimal) (places : Int) :
    (d.RoundBank places).exp = -places ∧
      (d.RoundBank places).toRat = roundHalfEven d.toRat places := by
  have h10 : (10 : ℚ) ≠ 0 := by norm_num
  have hp : (0 : ℚ) < (10 : ℚ) ^ places := pow10_pos places
  obtain ⟨hexp, hR⟩ := Round_spec d places
  have hcond : ((d.Sub (d.Round places)).Abs.Cmp (New 5 (-places - 1)) = 0) ↔
      |d.toRat * (10 : ℚ) ^ places - (d.Round places).value| = 1 / 2 := by
    rw [Cmp_eq_zero_iff, toRat_Abs, toRat_Sub, toRat_of_exp_neg _ _ hexp]
    have e1 : (New 5 (-places - 1)).toRat = 1 / 2 / (10 : ℚ) ^ places := by
      unfold New toRat
      rw [show -places - 1 = -places + -1 by ring, zpow_add₀ h10, zpow_neg, zpow_neg, zpow_one]
      push_cast
      field_simp
      ring
    have e2 : |d.toRat * (10 : ℚ) ^ places - (d.Round places).value| =
        |d.toRat - ((d.Round places).value : ℚ) / (10 : ℚ) ^ places| * (10 : ℚ) ^ places := by
      rw [← abs_of_pos hp, ← abs_mul, abs_of_pos hp]
      congr 1
      field_simp
    rw [e1, e2, eq_div_iff (ne_of_gt hp)]
  rw [roundHalfEven_of_HalfAway d.toRat places _ hR]
  unfold RoundBank
  simp only [hcond]
  by_cases hc : |d.toRat * (10 : ℚ) ^ places - (d.Round places).value| = 1 / 2 ∧
      (d.Round places).value % 2 ≠ 0
  · rw [if_pos hc, if_pos hc]
    by_cases hneg : (d.Round places).value < 0
    · rw [if_pos ((sign_lt_zero_iff _).mpr hneg), if_pos hneg]
      exact ⟨hexp, toRat_of_exp_neg _ _ hexp⟩
    · rw [if_neg (fun h => hneg ((sign_lt_zero_iff _).mp h)), if_neg hneg]
      exact ⟨hexp, toRat_of_exp_neg _ _ hexp⟩
  · rw [if_neg hc, if_neg hc]
    exact ⟨hexp, toRat_of_exp_neg _ _ hexp⟩

theorem toRat_RoundBank (d : Decimal) (places : Int) :
    (d.RoundBank places).toRat = roundHalfEven d.toRat places :=
  (RoundBank_spec d places).2

theorem RoundBank_exp (d : Decimal) (places : Int) : (d.RoundBank places).exp = -places :=
  (RoundBank_spec d places).1

end Decimal

/-! ## `DivRound` -/

namespace Decimal

theorem tmod_facts (a b : Int) (hb : b ≠ 0) :
    a.tmod b + b * a.tdiv b = a ∧
    (0 ≤ a → 0 ≤ a.tmod b ∧ a.tmod b < |b|) ∧
    (a ≤ 0 → a.tmod b ≤ 0 ∧ -|b| < a.tmod b) := by
  have habs : 0 < |b| := abs_pos.mpr hb
  have hmod : ∀ x : Int, x.tmod b = x.tmod |b| := by
    intro x
    rcases abs_choice b with h | h
    · rw [h]
    · rw [h, Int.tmod_neg]
  have hpos : ∀ x : Int, 0 ≤ x → 0 ≤ x.tmod b ∧ x.tmod b < |b| := by
    intro x hx
    refine ⟨Int.tmod_nonneg b hx, ?_⟩
    rw [hmod x]
    exact Int.tmod_lt_of_pos x habs
  refine ⟨Int.tmod_add_tdiv a b, hpos a, ?_⟩
  intro ha
  have hneg : (-a).tmod b = -(a.tmod b) := by
    rw [Int.tmod_def, Int.tmod_def, Int.neg_tdiv]; ring
  obtain ⟨h1, h2⟩ := hpos (-a) (by omega)
  rw [hneg] at h1 h2
  constructor <;> omega

theorem sign_mul_sign_lt_zero_iff (a b : Int) :
    a.sign * b.sign < 0 ↔ (a < 0 ∧ 0 < b) ∨ (0 < a ∧ b < 0) := by
  rcases lt_trichotomy a 0 with ha | ha | ha <;> rcases lt_trichotomy b 0 with hb | hb | hb
  · rw [Int.sign_eq_neg_one_of_neg ha, Int.sign_eq_neg_one_of_neg hb]; simp; omega
  · subst hb; simp
  · rw [Int.sign_eq_neg_one_of_neg ha, Int.sign_eq_one_of_pos hb]; simp; omega
  · subst ha; simp
  · subst ha; simp
  · subst ha; simp
  · rw [Int.sign_eq_one_of_pos ha, Int.sign_eq_neg_one_of_neg hb]; simp; omega
  · subst hb; simp
  · rw [Int.sign_eq_one_of_pos ha, Int.sign_eq_one_of_pos hb]; simp; omega

theorem HalfAway_of_pos (s : ℚ) (R : Int) (hs : 0 < s)
    (h1 : (R : ℚ) - 1 / 2 ≤ s) (h2 : s < R + 1 / 2) : HalfAway s R :=
  ⟨fun _ => ⟨h1, h2⟩, fun hc => absurd hs (not_lt.mpr (le_of_lt hc))⟩

theorem HalfAway_of_neg (s : ℚ) (R : Int) (hs : s < 0)
    (h1 : (R : ℚ) - 1 / 2 < s) (h2 : s ≤ R + 1 / 2) : HalfAway s R :=
  ⟨fun hc => absurd hs (not_lt.mpr hc), fun _ => ⟨h1, h2⟩⟩

/-- The quotient `DivRound` builds is the half-away rounding of `aa / bb`. -/
theorem halfAway_divRoundSteps (aa bb : Int) (hb : bb ≠ 0) :
    HalfAway ((aa : ℚ) / (bb : ℚ)) (divRoundSteps aa bb) := by
  obtain ⟨f1, f2, f3⟩ := tmod_facts aa bb hb
  have f1q : ((aa.tmod bb : Int) : ℚ) + (bb : ℚ) * ((aa.tdiv bb : Int) : ℚ) = (aa : ℚ) := by
    exact_mod_cast f1
  have hform : divRoundSteps aa bb =
      if 2 * |aa.tmod bb| < |bb| then aa.tdiv bb
      else if (aa < 0 ∧ 0 < bb) ∨ (0 < aa ∧ bb < 0) then aa.tdiv bb - 1
      else aa.tdiv bb + 1 := by
    unfold divRoundSteps
    simp only [sign_mul_sign_lt_zero_iff]
  by_cases ha0 : aa = 0
  · subst ha0
    have hv : divRoundSteps 0 bb = 0 := by
      rw [hform, if_pos (by simpa using hb)]
      simp
    rw [hv]
    simp only [Int.cast_zero, zero_div]
    exact ⟨fun _ => ⟨by norm_num, by norm_num⟩, fun h => absurd h (lt_irrefl 0)⟩
  rcases lt_or_gt_of_ne hb with hbneg | hbpos
  · -- negative divisor
    have hbq : (0 : ℚ) < -(bb : ℚ) := by
      have : (bb : ℚ) < 0 := by exact_mod_cast hbneg
      linarith
    have habs : |bb| = -bb := abs_of_neg hbneg
    rw [← neg_div_neg_eq]
    by_cases ha : 0 ≤ aa
    · have ha' : 0 < aa := by omega
      have haq : (0 : ℚ) < (aa : ℚ) := by exact_mod_cast ha'
      obtain ⟨r0, r1⟩ := f2 (le_of_lt ha')
      have hr : |aa.tmod bb| = aa.tmod bb := abs_of_nonneg r0
      have r0q : (0 : ℚ) ≤ ((aa.tmod bb : Int) : ℚ) := by exact_mod_cast r0
      rw [habs] at r1
      have r1q : ((aa.tmod bb : Int) : ℚ) < -(bb : ℚ) := by
        have : aa.tmod bb < -bb := by omega
        exact_mod_cast this
      have hs : -(aa : ℚ) / -(bb : ℚ) < 0 := div_neg_of_neg_of_pos (by linarith) hbq
      by_cases hc : 2 * aa.tmod bb < -bb
      · have hcq : 2 * ((aa.tmod bb : Int) : ℚ) < -(bb : ℚ) := by exact_mod_cast hc
        have hv : divRoundSteps aa bb = aa.tdiv bb := by
          rw [hform, if_pos (by rw [hr, habs]; exact hc)]
        rw [hv]
        refine HalfAway_of_neg _ _ hs ?_ ?_
        · rw [lt_div_iff₀ hbq]; nlinarith
        · rw [div_le_iff₀ hbq]; nlinarith
      · have hcq : -(bb : ℚ) ≤ 2 * ((aa.tmod bb : Int) : ℚ) := by
          have : -bb ≤ 2 * aa.tmod bb := by omega
          exact_mod_cast this
        have hsign : (aa < 0 ∧ 0 < bb) ∨ (0 < aa ∧ bb < 0) := by omega
        have hv : divRoundSteps aa bb = aa.tdiv bb - 1 := by
          rw [hform, if_neg (by rw [hr, habs]; exact hc), if_pos hsign]
        rw [hv]
        refine HalfAway_of_neg _ _ hs ?_ ?_
        · push_cast; rw [lt_div_iff₀ hbq]; nlinarith
        · push_cast; rw [div_le_iff₀ hbq]; nlinarith
    · have ha' : aa < 0 := by omega
      have haq : (aa : ℚ) < 0 := by exact_mod_cast ha'
      obtain ⟨r0, r1⟩ := f3 (le_of_lt ha')
      have hr : |aa.tmod bb| = -aa.tmod bb := abs_of_nonpos r0
      have r0q : ((aa.tmod bb : Int) : ℚ) ≤ 0 := by exact_mod_cast r0
      rw [habs] at r1
      have r1q : -((aa.tmod bb : Int) : ℚ) < -(bb : ℚ) := by
        have : -aa.tmod bb < -bb := by omega
        exact_mod_cast this
      have hs : (0 : ℚ) < -(aa : ℚ) / -(bb : ℚ) := div_pos (by linarith) hbq
      by_cases hc : 2 * -aa.tmod bb < -bb
      · have hcq : 2 * -((aa.tmod bb : Int) : ℚ) < -(bb : ℚ) := by exact_mod_cast hc
        have hv : divRoundSteps aa bb = aa.tdiv bb := by
          rw [hform, if_pos (by rw [hr, habs]; exact hc)]
        rw [hv]
        refine HalfAway_of_pos _ _ hs ?_ ?_
        · rw [le_div_iff₀ hbq]; nlinarith
        · rw [div_lt_iff₀ hbq]; nlinarith
      · have hcq : -(bb : ℚ) ≤ 2 * -((aa.tmod bb : Int) : ℚ) := by
          have : -bb ≤ 2 * -aa.tmod bb := by omega
          exact_mod_cast this
        have hsign : ¬ ((aa < 0 ∧ 0 < bb) ∨ (0 < aa ∧ bb < 0)) := by omega
        have hv : divRoundSteps aa bb = aa.tdiv bb + 1 := by
          rw [hform, if_neg (by rw [hr, habs]; exact hc), if_neg hsign]
        rw [hv]
        refine HalfAway_of_pos _ _ hs ?_ ?_
        · push_cast; rw [le_div_iff₀ hbq]; nlinarith
        · push_cast; rw [div_lt_iff₀ hbq]; nlinarith
  · -- positive divisor
    have hbq : (0 : ℚ) < (bb : ℚ) := by exact_mod_cast hbpos
    have habs : |bb| = bb := abs_of_pos hbpos
    by_cases ha : 0 ≤ aa
    · have ha' : 0 < aa := by omega
      have haq : (0 : ℚ) < (aa : ℚ) := by exact_mod_cast ha'
      obtain ⟨r0, r1⟩ := f2 (le_of_lt ha')
      have hr : |aa.tmod bb| = aa.tmod bb := abs_of_nonneg r0
      have r0q : (0 : ℚ) ≤ ((aa.tmod bb : Int) : ℚ) := by exact_mod_cast r0
      rw [habs] at r1
      have r1q : ((aa.tmod bb : Int) : ℚ) < (bb : ℚ) := by
        have : aa.tmod bb < bb := by omega
        exact_mod_cast this
      have hs : (0 : ℚ) < (aa : ℚ) / (bb : ℚ) := div_pos (by linarith) hbq
      by_cases hc : 2 * aa.tmod bb < bb
      · have hcq : 2 * ((aa.tmod bb : Int) : ℚ) < (bb : ℚ) := by exact_mod_cast hc
        have hv : divRoundSteps aa bb = aa.tdiv bb := by
          rw [hform, if_pos (by rw [hr, habs]; exact hc)]
        rw [hv]
        refine HalfAway_of_pos _ _ hs ?_ ?_
        · rw [le_div_iff₀ hbq]; nlinarith
        · rw [div_lt_iff₀ hbq]; nlinarith
      · have hcq : (bb : ℚ) ≤ 2 * ((aa.tmod bb : Int) : ℚ) := by
          have : bb ≤ 2 * aa.tmod bb := by omega
          exact_mod_cast this
        have hsign : ¬ ((aa < 0 ∧ 0 < bb) ∨ (0 < aa ∧ bb < 0)) := by omega
        have hv : divRoundSteps aa bb = aa.tdiv bb + 1 := by
          rw [hform, if_neg (by rw [hr, habs]; exact hc), if_neg hsign]
        rw [hv]
        refine HalfAway_of_pos _ _ hs ?_ ?_
        · push_cast; rw [le_div_iff₀ hbq]; nlinarith
        · push_cast; rw [div_lt_iff₀ hbq]; nlinarith
    · have ha' : aa < 0 := by omega
      have haq : (aa : ℚ) < 0 := by exact_mod_cast ha'
      obtain ⟨r0, r1⟩ := f3 (le_of_lt ha')
      have hr : |aa.tmod bb| = -aa.tmod bb := abs_of_nonpos r0
      have r0q : ((aa.tmod bb : Int) : ℚ) ≤ 0 := by exact_mod_cast r0
      rw [habs] at r1
      have r1q : -((aa.tmod bb : Int) : ℚ) < (bb : ℚ) := by
        have : -aa.tmod bb < bb := by omega
        exact_mod_cast this
      have hs : (aa : ℚ) / (bb : ℚ) < 0 := div_neg_of_neg_of_pos (by linarith) hbq
      by_cases hc : 2 * -aa.tmod bb < bb
      · have hcq : 2 * -((aa.tmod bb : Int) : ℚ) < (bb : ℚ) := by exact_mod_cast hc
        have hv : divRoundSteps aa bb = aa.tdiv bb := by
          rw [hform, if_pos (by rw [hr, habs]; exact hc)]
        rw [hv]
        refine HalfAway_of_neg _ _ hs ?_ ?_
        · rw [lt_div_iff₀ hbq]; nlinarith
        · rw [div_le_iff₀ hbq]; nlinarith
      · have hcq : (bb : ℚ) ≤ 2 * -((aa.tmod bb : Int) : ℚ) := by
          have : bb ≤ 2 * -aa.tmod bb := by omega
          exact_mod_cast this
        have hsign : (aa < 0 ∧ 0 < bb) ∨ (0 < aa ∧ bb < 0) := by omega
        have hv : divRoundSteps aa bb = aa.tdiv bb - 1 := by
          rw [hform, if_neg (by rw [hr, habs]; exact hc), if_pos hsign]
        rw [hv]
        refine HalfAway_of_neg _ _ hs ?_ ?_
        · push_cast; rw [lt_div_iff₀ hbq]; nlinarith
        · push_cast; rw [div_le_iff₀ hbq]; nlinarith

end Decimal

namespace Decimal

theorem Cmp_lt_zero_iff (a b : Decimal) : a.Cmp b < 0 ↔ a.toRat < b.toRat := by
  rw [Cmp_eq]
  by_cases h1 : a.toRat < b.toRat
  · rw [if_pos h1]; exact ⟨fun _ => h1, fun _ => by decide⟩
  · rw [if_neg h1]
    by_cases h2 : a.toRat = b.toRat
    · rw [if_pos h2]; exact ⟨fun h => absurd h (by decide), fun h => absurd h h1⟩
    · rw [if_neg h2]; exact ⟨fun h => absurd h (by decide), fun h => absurd h h1⟩

theorem Sub_same_exp (v w e : Int) : (Decimal.mk v e).Sub (New w e) = ⟨v - w, e⟩ := by
  simp [Sub, RescalePair, New]

theorem Add_same_exp (v w e : Int) : (Decimal.mk v e).Add (New w e) = ⟨v + w, e⟩ := by
  simp [Add, RescalePair, New]

theorem sign_mul_pow10 (v : Int) (k : Nat) : (v * 10 ^ k).sign = v.sign := by
  have h : (0 : Int) < 10 ^ k := by positivity
  rw [Int.sign_mul, Int.sign_eq_one_of_pos h, mul_one]

/-- The shape of `DivRound` in terms of the integers its `QuoRem` divides. -/
theorem DivRound_eq (a b : Decimal) (prec : Int) (aa bb : Int) (rexp : Int)
    (hq : a.QuoRem b prec = (⟨aa.tdiv bb, -prec⟩, ⟨aa.tmod bb, rexp⟩))
    (hc : (Decimal.mk (|aa.tmod bb| * 2) (rexp + prec)).toRat < b.Abs.toRat ↔
      2 * |aa.tmod bb| < |bb|)
    (hs : a.value.sign * b.value.sign = aa.sign * bb.sign) :
    a.DivRound b prec = ⟨divRoundSteps aa bb, -prec⟩ := by
  unfold DivRound divRoundSteps
  simp only [hq, Cmp_lt_zero_iff, hc, hs]
  by_cases h1 : 2 * |aa.tmod bb| < |bb|
  · rw [if_pos h1, if_pos h1]
  · rw [if_neg h1, if_neg h1]
    by_cases h2 : aa.sign * bb.sign < 0
    · rw [if_pos h2, if_pos h2, Sub_same_exp]
    · rw [if_neg h2, if_neg h2, Add_same_exp]

end Decimal

namespace Decimal

/-- `DivRound` is division rounded half away from zero: the result has
exponent `-precision` and is the quotient rounded at `precision` fractional
digits. -/
theorem DivRound_spec (a b : Decimal) (prec : Int) (hb : b.value ≠ 0) :
    (a.DivRound b prec).exp = -prec ∧
      (a.DivRound b prec).toRat = roundHalfAway (a.toRat / b.toRat) prec := by
  have h10 : (10 : ℚ) ≠ 0 := by norm_num
  have hbq : (b.value : ℚ) ≠ 0 := by exact_mod_cast hb
  have key : ∀ aa bb rexp : Int, bb ≠ 0 →
      a.QuoRem b prec = (⟨aa.tdiv bb, -prec⟩, ⟨aa.tmod bb, rexp⟩) →
      ((Decimal.mk (|aa.tmod bb| * 2) (rexp + prec)).toRat < b.Abs.toRat ↔
        2 * |aa.tmod bb| < |bb|) →
      a.value.sign * b.value.sign = aa.sign * bb.sign →
      (aa : ℚ) / (bb : ℚ) = a.toRat / b.toRat * (10 : ℚ) ^ prec →
      (a.DivRound b prec).exp = -prec ∧
        (a.DivRound b prec).toRat = roundHalfAway (a.toRat / b.toRat) prec := by
    intro aa bb rexp hbb hq hc hs hx
    rw [DivRound_eq a b prec aa bb rexp hq hc hs]
    refine ⟨rfl, ?_⟩
    have hH : HalfAway (a.toRat / b.toRat * (10 : ℚ) ^ prec) (divRoundSteps aa bb) := by
      rw [← hx]
      exact halfAway_divRoundSteps aa bb hbb
    rw [roundHalfAway_eq _ _ (divRoundSteps aa bb) hH]
    exact toRat_of_exp_neg _ _ rfl
  by_cases he : a.exp - b.exp - -prec < 0
  · -- the divisor is scaled up
    have hk : (((-(a.exp - b.exp - -prec)).toNat : Nat) : Int) = -(a.exp - b.exp - -prec) :=
      Int.toNat_of_nonneg (by omega)
    have hT : (0 : ℚ) < (10 : ℚ) ^ (-(a.exp - b.exp - -prec)).toNat := by positivity
    have hTz : (10 : ℚ) ^ (-(a.exp - b.exp - -prec)).toNat =
        (10 : ℚ) ^ (-(a.exp - b.exp - -prec)) := by
      rw [← zpow_natCast, hk]
    refine key a.value (b.value * 10 ^ (-(a.exp - b.exp - -prec)).toNat) a.exp ?_ ?_ ?_ ?_ ?_
    · exact mul_ne_zero hb (by positivity)
    · unfold QuoRem
      simp only [if_pos he]
    · have e1 : (10 : ℚ) ^ (a.exp + prec) =
          (10 : ℚ) ^ b.exp / (10 : ℚ) ^ (-(a.exp - b.exp - -prec)).toNat := by
        rw [hTz, ← zpow_sub₀ h10]; congr 1; ring
      have e2 : b.Abs.toRat = ((|b.value| : Int) : ℚ) * (10 : ℚ) ^ b.exp := rfl
      rw [toRat_mk, e1, e2, abs_mul, abs_of_pos (show (0 : Int) < 10 ^ _ by positivity)]
      have hP := pow10_pos b.exp
      rw [← mul_div_assoc, div_lt_iff₀ hT]
      rw [show ((|b.value| : Int) : ℚ) * (10 : ℚ) ^ b.exp *
            (10 : ℚ) ^ (-(a.exp - b.exp - -prec)).toNat =
          (((|b.value| * 10 ^ (-(a.exp - b.exp - -prec)).toNat : Int)) : ℚ) *
            (10 : ℚ) ^ b.exp by push_cast; ring]
      rw [mul_lt_mul_right hP, Int.cast_lt, mul_comm]
    · rw [sign_mul_pow10]
    · unfold toRat
      push_cast
      have hP := ne_of_gt (pow10_pos b.exp)
      have e3 : (10 : ℚ) ^ a.exp * (10 : ℚ) ^ prec =
          (10 : ℚ) ^ b.exp / (10 : ℚ) ^ (-(a.exp - b.exp - -prec)).toNat := by
        rw [hTz, ← zpow_add₀ h10, ← zpow_sub₀ h10]; congr 1; ring
      rw [div_mul_eq_mul_div, mul_assoc, e3]
      field_simp
      ring
  · -- the dividend is scaled up
    have hk : (((a.exp - b.exp - -prec).toNat : Nat) : Int) = a.exp - b.exp - -prec :=
      Int.toNat_of_nonneg (by omega)
    have hTz : (10 : ℚ) ^ (a.exp - b.exp - -prec).toNat =
        (10 : ℚ) ^ (a.exp - b.exp - -prec) := by
      rw [← zpow_natCast, hk]
    refine key (a.value * 10 ^ (a.exp - b.exp - -prec).toNat) b.value (-prec + b.exp)
      hb ?_ ?_ ?_ ?_
    · unfold QuoRem
      simp only [if_neg he]
    · have e2 : b.Abs.toRat = ((|b.value| : Int) : ℚ) * (10 : ℚ) ^ b.exp := rfl
      rw [toRat_mk, e2, show -prec + b.exp + prec = b.exp by ring,
        mul_lt_mul_right (pow10_pos b.exp), Int.cast_lt, mul_comm]
    · rw [sign_mul_pow10]
    · unfold toRat
      push_cast
      have hP := ne_of_gt (pow10_pos b.exp)
      have e3 : (10 : ℚ) ^ a.exp * (10 : ℚ) ^ prec =
          (10 : ℚ) ^ b.exp * (10 : ℚ) ^ (a.exp - b.exp - -prec).toNat := by
        rw [hTz, ← zpow_add₀ h10, ← zpow_add₀ h10]; congr 1; ring
      rw [div_mul_eq_mul_div, mul_assoc, e3]
      field_simp
      ring

theorem Div_exp (a b : Decimal) (hb : b.value ≠ 0) : (a.Div b).exp = -16 :=
  (DivRound_spec a b 16 hb).1

/-- `Div` is the quotient rounded half away from zero at 16 fractional
digits. -/
theorem toRat_Div (a b : Decimal) (hb : b.value ≠ 0) :
    (a.Div b).toRat = roundHalfAway (a.toRat / b.toRat) 16 :=
  (DivRound_spec a b 16 hb).2

end Decimal

/-! ## `Pow` -/

namespace Decimal

theorem toRat_powLoop (fuel : Nat) : ∀ (tmpExp : Nat) (n result : Decimal),
    tmpExp < fuel →
    (powLoop fuel tmpExp n result).toRat = result.toRat * n.toRat ^ tmpExp := by
  induction fuel with
  | zero => intro tmpExp n result h; omega
  | succ f ih =>
    intro tmpExp n result h
    by_cases h0 : 0 < tmpExp
    · have hlt : tmpExp / 2 < f := by omega
      simp only [powLoop, if_pos h0]
      rw [ih _ _ _ hlt]
      have hsplit : tmpExp = 2 * (tmpExp / 2) + tmpExp % 2 := (Nat.div_add_mod tmpExp 2).symm
      have hn : (if 0 < tmpExp / 2 then n.Mul n else n).toRat ^ (tmpExp / 2) =
          (n.toRat ^ 2) ^ (tmpExp / 2) := by
        by_cases h2 : 0 < tmpExp / 2
        · rw [if_pos h2, toRat_Mul]; ring
        · have : tmpExp / 2 = 0 := by omega
          rw [this]; simp
      rw [hn, ← pow_mul]
      by_cases hodd : tmpExp % 2 = 1
      · rw [if_pos hodd, toRat_Mul]
        conv_rhs => rw [hsplit, hodd, pow_add, pow_one]
        ring
      · rw [if_neg hodd]
        have : tmpExp % 2 = 0 := by omega
        conv_rhs => rw [hsplit, this, add_zero]
    · have : tmpExp = 0 := by omega
      subst this
      simp [powLoop]

/-- For a positive integer exponent `Pow` is the exact power. -/
theorem toRat_Pow (d : Decimal) (n : Int) (hn : 1 ≤ n) :
    (d.Pow n).toRat = d.toRat ^ n.toNat := by
  unfold Pow
  by_cases h0 : d.Sign = 0
  · rw [if_pos h0]
    have hz : d.toRat = 0 := (IsZero_iff d).mp (by simp [IsZero, h0])
    have hpos : n.toNat ≠ 0 := by omega
    rw [hz, zero_pow hpos]
    simp [toRat]
  · rw [if_neg h0, if_neg (by omega)]
    unfold PowBigInt
    simp only
    rw [if_neg (by omega), toRat_powLoop _ _ _ _ (by omega)]
    have : n.natAbs = n.toNat := by omega
    rw [this]
    simp [New, toRat]

end Decimal

/-! ## `CalculateMonthlyPayment` -/

theorem Decimal.value_eq_zero_iff (d : Decimal) : d.value = 0 ↔ d.toRat = 0 := by
  unfold Decimal.toRat
  simp [ne_of_gt (Decimal.pow10_pos d.exp)]

theorem toRat_monthlyRateOf (annualRate : Decimal) :
    (monthlyRateOf annualRate).toRat = monthlyRate16 annualRate.toRat := by
  unfold monthlyRateOf monthlyRate16
  rw [Decimal.toRat_Div _ _ (by decide), Decimal.toRat_Div _ _ (by decide),
    Decimal.toRat_NewFromInt, Decimal.toRat_NewFromInt]
  norm_num

theorem monthlyRateOf_exp (annualRate : Decimal) : (monthlyRateOf annualRate).exp = -16 :=
  Decimal.Div_exp _ _ (by decide)

/-- The three outcomes of `CalculateMonthlyPayment` for a positive term. -/
theorem CalculateMonthlyPayment_eq (loanAmount annualRate : Decimal) (termMonths : Int)
    (h : 1 ≤ termMonths) :
    CalculateMonthlyPayment loanAmount annualRate termMonths =
      if (monthlyRateOf annualRate).IsZero then
        loanAmount.Div (Decimal.NewFromInt termMonths)
      else if ((((Decimal.NewFromInt 1).Add (monthlyRateOf annualRate)).Pow termMonths).Sub
          (Decimal.NewFromInt 1)).IsZero then Decimal.Zero
      else (loanAmount.Mul
        (((monthlyRateOf annualRate).Mul
            (((Decimal.NewFromInt 1).Add (monthlyRateOf annualRate)).Pow termMonths)).Div
          ((((Decimal.NewFromInt 1).Add (monthlyRateOf annualRate)).Pow termMonths).Sub
            (Decimal.NewFromInt 1)))).RoundBank 2 := by
  unfold CalculateMonthlyPayment monthlyRateOf
  rw [if_neg (by omega)]

/-- With a non-zero monthly rate and a non-zero denominator the payment is the
principal times the 16-digit annuity factor, rounded half to even at 2
fractional digits. -/
theorem toRat_CalculateMonthlyPayment (loanAmount annualRate : Decimal) (termMonths : Int)
    (h : 1 ≤ termMonths)
    (hr : monthlyRate16 annualRate.toRat ≠ 0)
    (hd : (1 + monthlyRate16 annualRate.toRat) ^ termMonths.toNat - 1 ≠ 0) :
    (CalculateMonthlyPayment loanAmount annualRate termMonths).toRat =
      paymentRounded loanAmount.toRat annualRate.toRat termMonths.toNat := by
  have hpow : (((Decimal.NewFromInt 1).Add (monthlyRateOf annualRate)).Pow termMonths).toRat =
      (1 + monthlyRate16 annualRate.toRat) ^ termMonths.toNat := by
    rw [Decimal.toRat_Pow _ _ h, Decimal.toRat_Add, Decimal.toRat_NewFromInt,
      toRat_monthlyRateOf]
    norm_num
  have hden : ((((Decimal.NewFromInt 1).Add (monthlyRateOf annualRate)).Pow termMonths).Sub
      (Decimal.NewFromInt 1)).toRat =
      (1 + monthlyRate16 annualRate.toRat) ^ termMonths.toNat - 1 := by
    rw [Decimal.toRat_Sub, hpow, Decimal.toRat_NewFromInt]
    norm_num
  have h1 : (monthlyRateOf annualRate).IsZero = false := by
    rw [← Bool.not_eq_true, Decimal.IsZero_iff, toRat_monthlyRateOf]
    exact hr
  have h2 : ((((Decimal.NewFromInt 1).Add (monthlyRateOf annualRate)).Pow termMonths).Sub
      (Decimal.NewFromInt 1)).IsZero = false := by
    rw [← Bool.not_eq_true, Decimal.IsZero_iff, hden]
    exact hd
  have hv : ((((Decimal.NewFromInt 1).Add (monthlyRateOf annualRate)).Pow termMonths).Sub
      (Decimal.NewFromInt 1)).value ≠ 0 := by
    rw [Ne, Decimal.value_eq_zero_iff, hden]
    exact hd
  rw [CalculateMonthlyPayment_eq _ _ _ h, h1, h2]
  simp only [Bool.false_eq_true, if_false]
  rw [Decimal.toRat_RoundBank, Decimal.toRat_Mul, Decimal.toRat_Div _ _ hv, Decimal.toRat_Mul,
    hpow, hden, toRat_monthlyRateOf]
  rfl

theorem isCents_of_exp (d : Decimal) (h : d.exp = -2) : isCents d.toRat := by
  refine ⟨d.value, ?_⟩
  rw [Decimal.toRat_of_exp_neg d 2 h]
  norm_num

theorem isCents_zero : isCents 0 := ⟨0, by norm_num⟩

/-- Outside the zero-rate branch the payment is a whole number of cents. -/
theorem CalculateMonthlyPayment_isCents (loanAmount annualRate : Decimal) (termMonths : Int)
    (h : termMonths ≤ 0 ∨ (monthlyRateOf annualRate).IsZero = false) :
    isCents (CalculateMonthlyPayment loanAmount annualRate termMonths).toRat := by
  by_cases ht : termMonths ≤ 0
  · unfold CalculateMonthlyPayment
    rw [if_pos ht, Decimal.toRat_Zero]
    exact isCents_zero
  · have hz : (monthlyRateOf annualRate).IsZero = false := by
      rcases h with h | h
      · exact absurd h ht
      · exact h
    rw [CalculateMonthlyPayment_eq _ _ _ (by omega), hz]
    simp only [Bool.false_eq_true, if_false]
    split_ifs
    · rw [Decimal.toRat_Zero]; exact isCents_zero
    · exact isCents_of_exp _ (Decimal.RoundBank_exp _ _)

set_option maxRecDepth 100000 in
/-- C2 (as stated, refuted): for principal 1000523856, annual rate 24 (monthly
rate 0.02, non-zero) and 12 months `CalculateMonthlyPayment` returns
94609132.24, while the annuity value rounded half to even at 2 fractional
digits is 94609132.23. -/
theorem C2_counterexample :
    (24 : ℚ) / 12 / 100 ≠ 0 ∧
    CalculateMonthlyPayment (Decimal.NewFromInt 1000523856) (Decimal.NewFromInt 24) 12
      = ⟨9460913224, -2⟩ ∧
    paymentExact 1000523856 24 12 = 9460913223 / 100 ∧
    (CalculateMonthlyPayment (Decimal.NewFromInt 1000523856) (Decimal.NewFromInt 24) 12).toRat
      ≠ paymentExact 1000523856 24 12 := by
  have h1 : CalculateMonthlyPayment (Decimal.NewFromInt 1000523856) (Decimal.NewFromInt 24) 12
      = ⟨9460913224, -2⟩ := by decide
  have h2 : paymentExact 1000523856 24 12 = 9460913223 / 100 := by
    unfold paymentExact
    rw [roundHalfEven_of_lt _ 2 9460913223]
    · norm_num
    · unfold annuity; norm_num
    · unfold annuity; norm_num
  refine ⟨by norm_num, h1, h2, ?_⟩
  rw [h1, h2]
  norm_num [Decimal.toRat]

/-- C2 (amended): for every principal, every `termMonths ≥ 1` and every annual
rate, when the monthly rate `r` (the annual rate divided by 12 and by 100,
each quotient rounded half away from zero at 16 fractional digits) is non-zero
and `(1+r)^termMonths ≠ 1`, `CalculateMonthlyPayment` returns the principal
times the factor `r (1+r)^termMonths / ((1+r)^termMonths - 1)` rounded half
away from zero at 16 fractional digits, that product rounded half to even at
2 fractional digits. -/
theorem C2_payment_is_rounded_annuity (loanAmount annualRate : Decimal) (termMonths : Int)
    (h : 1 ≤ termMonths)
    (hr : monthlyRate16 annualRate.toRat ≠ 0)
    (hd : (1 + monthlyRate16 annualRate.toRat) ^ termMonths.toNat - 1 ≠ 0) :
    (CalculateMonthlyPayment loanAmount annualRate termMonths).toRat =
      roundHalfEven (loanAmount.toRat *
        roundHalfAway (monthlyRate16 annualRate.toRat *
            (1 + monthlyRate16 annualRate.toRat) ^ termMonths.toNat /
          ((1 + monthlyRate16 annualRate.toRat) ^ termMonths.toNat - 1)) 16) 2 :=
  toRat_CalculateMonthlyPayment loanAmount annualRate termMonths h hr hd

set_option maxRecDepth 100000 in
theorem monthlyRate16_twelve : monthlyRate16 (Decimal.NewFromInt 12).toRat = 1 / 100 := by
  rw [← toRat_monthlyRateOf]
  have : monthlyRateOf (Decimal.NewFromInt 12) = ⟨100000000000000, -16⟩ := by decide
  rw [this]
  norm_num [Decimal.toRat]

theorem C2_witness :
    (1 : Int) ≤ 12 ∧
    monthlyRate16 (Decimal.NewFromInt 12).toRat ≠ 0 ∧
    (1 + monthlyRate16 (Decimal.NewFromInt 12).toRat) ^ (12 : Int).toNat - 1 ≠ 0 ∧
    (CalculateMonthlyPayment (Decimal.NewFromInt 120000) (Decimal.NewFromInt 12) 12).toRat =
      roundHalfEven ((Decimal.NewFromInt 120000).toRat *
        roundHalfAway (monthlyRate16 (Decimal.NewFromInt 12).toRat *
            (1 + monthlyRate16 (Decimal.NewFromInt 12).toRat) ^ (12 : Int).toNat /
          ((1 + monthlyRate16 (Decimal.NewFromInt 12).toRat) ^ (12 : Int).toNat - 1)) 16) 2 :=
  have h1 : monthlyRate16 (Decimal.NewFromInt 12).toRat ≠ 0 := by
    rw [monthlyRate16_twelve]; norm_num
  have h2 : (1 + monthlyRate16 (Decimal.NewFromInt 12).toRat) ^ (12 : Int).toNat - 1 ≠ 0 := by
    rw [monthlyRate16_twelve, show (12 : Int).toNat = 12 from rfl]; norm_num
  ⟨by decide, h1, h2, C2_payment_is_rounded_annuity _ _ _ (by decide) h1 h2⟩

set_option maxRecDepth 100000 in
/-- C3 (as stated, refuted): for principal 120000, annual rate 10 and 12 months
`CalculateMonthlyPayment` does not return 10537.96. -/
theorem C3_counterexample :
    (CalculateMonthlyPayment (Decimal.NewFromInt 120000) (Decimal.NewFromInt 10) 12).toRat
      ≠ 1053796 / 100 := by
  have h1 : CalculateMonthlyPayment (Decimal.NewFromInt 120000) (Decimal.NewFromInt 10) 12
      = ⟨1054991, -2⟩ := by decide
  rw [h1]
  norm_num [Decimal.toRat]

set_option maxRecDepth 100000 in
/-- C3 (amended): for principal 120000, annual rate 10 and 12 months
`CalculateMonthlyPayment` returns 10549.91, which is the annuity value
`principal * r * (1+r)^12 / ((1+r)^12 - 1)` at `r = 10/12/100` rounded half to
even at 2 fractional digits. -/
theorem C3_payment_example :
    CalculateMonthlyPayment (Decimal.NewFromInt 120000) (Decimal.NewFromInt 10) 12
      = ⟨1054991, -2⟩ ∧
    (CalculateMonthlyPayment (Decimal.NewFromInt 120000) (Decimal.NewFromInt 10) 12).toRat
      = 1054991 / 100 ∧
    paymentExact 120000 10 12 = 1054991 / 100 := by
  have h1 : CalculateMonthlyPayment (Decimal.NewFromInt 120000) (Decimal.NewFromInt 10) 12
      = ⟨1054991, -2⟩ := by decide
  refine ⟨h1, ?_, ?_⟩
  · rw [h1]; norm_num [Decimal.toRat]
  · unfold paymentExact
    rw [roundHalfEven_of_lt _ 2 1054991]
    · norm_num
    · unfold annuity; norm_num
    · unfold annuity; norm_num

set_option maxRecDepth 100000 in
/-- C4 (evaluated at the failing input): for principal 100, annual rate 0 and
3 months `CalculateMonthlyPayment` returns 33.3333333333333333, a decimal with
16 fractional digits that is not a whole number of cents. -/
theorem C4_zero_rate_payment_not_cents :
    CalculateMonthlyPayment (Decimal.NewFromInt 100) (Decimal.NewFromInt 0) 3
      = ⟨333333333333333333, -16⟩ ∧
    ¬ isCents (CalculateMonthlyPayment (Decimal.NewFromInt 100) (Decimal.NewFromInt 0) 3).toRat
    := by
  have h1 : CalculateMonthlyPayment (Decimal.NewFromInt 100) (Decimal.NewFromInt 0) 3
      = ⟨333333333333333333, -16⟩ := by decide
  refine ⟨h1, ?_⟩
  rw [h1]
  rintro ⟨n, hn⟩
  have h2 : (333333333333333333 : ℚ) = (n : ℚ) * 100000000000000 := by
    norm_num [Decimal.toRat] at hn
    linarith
  have h3 : (333333333333333333 : Int) = n * 100000000000000 := by exact_mod_cast h2
  omega

/-! ## The schedule and the recurrence of the specification -/

theorem toRat_interestOf (rem monthlyRate : Decimal) :
    (interestOf rem monthlyRate).toRat = roundHalfEven (rem.toRat * monthlyRate.toRat) 2 := by
  unfold interestOf
  rw [Decimal.toRat_RoundBank, Decimal.toRat_Mul]

theorem isFinal_iff (termMonths i : Int) (rem monthlyRate mp : Decimal) :
    isFinal termMonths i rem monthlyRate mp = true ↔
      (i = termMonths - 1 ∨
        rem.toRat - (mp.toRat - roundHalfEven (rem.toRat * monthlyRate.toRat) 2) ≤ 0) := by
  unfold isFinal
  rw [Bool.or_eq_true, beq_iff_eq, Decimal.LessThanOrEqual_iff, Decimal.toRat_Sub,
    Decimal.toRat_Sub, toRat_interestOf, Decimal.toRat_Zero]

theorem recurrence_final (monthlyRate monthlyPayment : ℚ) (startDate : Time) (termMonths : Nat)
    (left : Nat) (rem : ℚ)
    (h : left = 0 ∨ rem - (monthlyPayment - roundHalfEven (rem * monthlyRate) 2) ≤ 0) :
    recurrence monthlyRate monthlyPayment startDate termMonths (left + 1) rem =
      [{ dueDate := startDate.AddDate 0 ((termMonths : Int) - left) 0
         amount := roundHalfEven (rem + roundHalfEven (rem * monthlyRate) 2) 2
         principalPart := rem
         interestPart := roundHalfEven (rem * monthlyRate) 2
         paid := false }] := by
  simp only [recurrence, if_pos h, sub_self, le_refl, if_true]

theorem recurrence_regular (monthlyRate monthlyPayment : ℚ) (startDate : Time)
    (termMonths : Nat) (left : Nat) (rem : ℚ)
    (h : ¬ (left = 0 ∨ rem - (monthlyPayment - roundHalfEven (rem * monthlyRate) 2) ≤ 0)) :
    recurrence monthlyRate monthlyPayment startDate termMonths (left + 1) rem =
      { dueDate := startDate.AddDate 0 ((termMonths : Int) - left) 0
        amount := monthlyPayment
        principalPart := monthlyPayment - roundHalfEven (rem * monthlyRate) 2
        interestPart := roundHalfEven (rem * monthlyRate) 2
        paid := false } ::
      recurrence monthlyRate monthlyPayment startDate termMonths left
        (rem - (monthlyPayment - roundHalfEven (rem * monthlyRate) 2)) := by
  have h2 : ¬ rem - (monthlyPayment - roundHalfEven (rem * monthlyRate) 2) ≤ 0 :=
    fun hc => h (Or.inr hc)
  simp only [recurrence, if_neg h, if_neg h2]

/-- The loop of `GeneratePaymentSchedule` computes the recurrence of the
specification. -/
theorem scheduleLoop_refines (termMonths : Int) (startDate : Time) (monthlyRate : Decimal)
    (left : Nat) : ∀ (fuel : Nat) (i : Int) (rem mp : Decimal),
    0 ≤ termMonths → i = termMonths - (left + 1) → left + 1 ≤ fuel →
    (scheduleLoop termMonths startDate monthlyRate fuel i rem mp []).map Payment.toInstallment =
      recurrence monthlyRate.toRat mp.toRat startDate termMonths.toNat (left + 1)
        rem.toRat := by
  induction left with
  | zero =>
    intro fuel i rem mp hT hi hfuel
    obtain ⟨f, rfl⟩ : ∃ f, fuel = f + 1 := ⟨fuel - 1, by omega⟩
    have hlt : i < termMonths := by omega
    have hfin : isFinal termMonths i rem monthlyRate mp = true := by
      rw [isFinal_iff]; left; omega
    rw [scheduleLoop_final _ _ _ _ _ _ _ _ hlt hfin, recurrence_final _ _ _ _ _ _ (Or.inl rfl)]
    have hdue : ((termMonths.toNat : Nat) : Int) - ((0 : Nat) : Int) = i + 1 := by
      rw [Int.toNat_of_nonneg hT]; omega
    simp only [List.nil_append, List.map_cons, List.map_nil, Payment.toInstallment,
      Decimal.toRat_RoundBank, Decimal.toRat_Add, toRat_interestOf, hdue]
  | succ l ih =>
    intro fuel i rem mp hT hi hfuel
    obtain ⟨f, rfl⟩ : ∃ f, fuel = f + 1 := ⟨fuel - 1, by omega⟩
    have hlt : i < termMonths := by omega
    have hdue : ((termMonths.toNat : Nat) : Int) - ((l + 1 : Nat) : Int) = i + 1 := by
      rw [Int.toNat_of_nonneg hT]; push_cast at hi ⊢; omega
    cases hfin : isFinal termMonths i rem monthlyRate mp
    · have hnot : ¬ (l + 1 = 0 ∨
          rem.toRat - (mp.toRat - roundHalfEven (rem.toRat * monthlyRate.toRat) 2) ≤ 0) := by
        intro hc
        have := (isFinal_iff termMonths i rem monthlyRate mp).mpr
          (hc.elim (fun h => absurd h (by omega)) Or.inr)
        rw [hfin] at this
        exact absurd this (by decide)
      rw [scheduleLoop_regular _ _ _ _ _ _ _ _ hlt hfin, scheduleLoop_append,
        recurrence_regular _ _ _ _ _ _ hnot]
      have hrec := ih f (i + 1) (rem.Sub (mp.Sub (interestOf rem monthlyRate))) mp hT
        (by push_cast at hi ⊢; omega) (by omega)
      rw [Decimal.toRat_Sub, Decimal.toRat_Sub, toRat_interestOf] at hrec
      simp only [List.nil_append, List.singleton_append, List.map_cons, hrec,
        Payment.toInstallment, Decimal.toRat_Sub, toRat_interestOf, hdue]
    · have hyes := (isFinal_iff termMonths i rem monthlyRate mp).mp hfin
      have hyes' : (l + 1 = 0 ∨
          rem.toRat - (mp.toRat - roundHalfEven (rem.toRat * monthlyRate.toRat) 2) ≤ 0) := by
        rcases hyes with h | h
        · exfalso; push_cast at hi; omega
        · exact Or.inr h
      rw [scheduleLoop_final _ _ _ _ _ _ _ _ hlt hfin, recurrence_final _ _ _ _ _ _ hyes']
      simp only [List.nil_append, List.map_cons, List.map_nil, Payment.toInstallment,
        Decimal.toRat_RoundBank, Decimal.toRat_Add, toRat_interestOf, hdue]

theorem roundHalfEven_of_isCents (x : ℚ) (h : isCents x) : roundHalfEven x 2 = x := by
  obtain ⟨n, rfl⟩ := h
  rw [roundHalfEven_of_lt _ 2 n] <;> norm_num

theorem isCents_roundHalfEven (x : ℚ) : isCents (roundHalfEven x 2) := by
  unfold roundHalfEven
  exact ⟨_, by rw [show (10 : ℚ) ^ (2 : Int) = 100 by norm_num]⟩

theorem isCents_add {x y : ℚ} (hx : isCents x) (hy : isCents y) : isCents (x + y) := by
  obtain ⟨a, rfl⟩ := hx
  obtain ⟨b, rfl⟩ := hy
  exact ⟨a + b, by push_cast; ring⟩

theorem isCents_sub {x y : ℚ} (hx : isCents x) (hy : isCents y) : isCents (x - y) := by
  obtain ⟨a, rfl⟩ := hx
  obtain ⟨b, rfl⟩ := hy
  exact ⟨a - b, by push_cast; ring⟩

theorem recurrence_paid (monthlyRate monthlyPayment : ℚ) (startDate : Time) (termMonths : Nat)
    (left : Nat) : ∀ rem : ℚ,
    ∀ x ∈ recurrence monthlyRate monthlyPayment startDate termMonths left rem,
      x.paid = false := by
  induction left with
  | zero => intro rem x hx; simp [recurrence] at hx
  | succ l ih =>
    intro rem x hx
    by_cases h : l = 0 ∨ rem - (monthlyPayment - roundHalfEven (rem * monthlyRate) 2) ≤ 0
    · rw [recurrence_final _ _ _ _ _ _ h] at hx
      simp only [List.mem_singleton] at hx
      rw [hx]
    · rw [recurrence_regular _ _ _ _ _ _ h] at hx
      rcases List.mem_cons.mp hx with hx | hx
      · rw [hx]
      · exact ih _ x hx

/-- In the recurrence, with whole cents for the remaining principal and the
monthly payment, every amount is the sum of its two parts. -/
theorem recurrence_amount_of_isCents (monthlyRate monthlyPayment : ℚ) (startDate : Time)
    (termMonths : Nat) (hmp : isCents monthlyPayment) (left : Nat) : ∀ rem : ℚ, isCents rem →
    ∀ x ∈ recurrence monthlyRate monthlyPayment startDate termMonths left rem,
      x.amount = x.principalPart + x.interestPart := by
  induction left with
  | zero => intro rem _ x hx; simp [recurrence] at hx
  | succ l ih =>
    intro rem hrem x hx
    by_cases h : l = 0 ∨ rem - (monthlyPayment - roundHalfEven (rem * monthlyRate) 2) ≤ 0
    · rw [recurrence_final _ _ _ _ _ _ h] at hx
      simp only [List.mem_singleton] at hx
      rw [hx]
      exact roundHalfEven_of_isCents _ (isCents_add hrem (isCents_roundHalfEven _))
    · rw [recurrence_regular _ _ _ _ _ _ h] at hx
      rcases List.mem_cons.mp hx with hx | hx
      · rw [hx]; simp
      · exact ih _ (isCents_sub hrem (isCents_sub hmp (isCents_roundHalfEven _))) x hx

/-- In the recurrence every installment that another one follows has an amount
equal to the sum of its parts, and the last one has that sum rounded. -/
theorem recurrence_amount (monthlyRate monthlyPayment : ℚ) (startDate : Time)
    (termMonths : Nat) (left : Nat) : ∀ rem : ℚ,
    (∀ k x, (recurrence monthlyRate monthlyPayment startDate termMonths left rem)[k]? = some x →
      k + 1 < (recurrence monthlyRate monthlyPayment startDate termMonths left rem).length →
      x.amount = x.principalPart + x.interestPart) ∧
    (∀ x, (recurrence monthlyRate monthlyPayment startDate termMonths left rem).getLast? = some x →
      x.amount = roundHalfEven (x.principalPart + x.interestPart) 2) := by
  induction left with
  | zero => intro rem; simp [recurrence]
  | succ l ih =>
    intro rem
    by_cases h : l = 0 ∨ rem - (monthlyPayment - roundHalfEven (rem * monthlyRate) 2) ≤ 0
    · rw [recurrence_final _ _ _ _ _ _ h]
      constructor
      · intro k x _ hk
        simp at hk
      · intro x hx
        simp only [List.getLast?_singleton, Option.some.injEq] at hx
        rw [← hx]
    · rw [recurrence_regular _ _ _ _ _ _ h]
      obtain ⟨ih1, ih2⟩ := ih (rem - (monthlyPayment - roundHalfEven (rem * monthlyRate) 2))
      constructor
      · intro k x hx hk
        cases k with
        | zero =>
          simp only [List.getElem?_cons_zero, Option.some.injEq] at hx
          rw [← hx]; simp
        | succ k =>
          simp only [List.getElem?_cons_succ] at hx
          simp only [List.length_cons] at hk
          exact ih1 k x hx (by omega)
      · intro x hx
        have hne : recurrence monthlyRate monthlyPayment startDate termMonths l
            (rem - (monthlyPayment - roundHalfEven (rem * monthlyRate) 2)) ≠ [] := by
          cases l with
          | zero => exact absurd (Or.inl rfl) h
          | succ l' =>
            intro hc
            have := congrArg List.length hc
            simp only [recurrence] at this
            split_ifs at this <;> simp at this
        obtain ⟨y, ys, hys⟩ := List.exists_cons_of_ne_nil hne
        rw [hys, List.getLast?_cons_cons, ← hys] at hx
        exact ih2 x hx

theorem GeneratePaymentSchedule_refines (loanAmount annualRate : Decimal) (termMonths : Int)
    (startDate : Time) (monthlyPayment : Decimal) (h : 0 ≤ termMonths) :
    ∃ s, GeneratePaymentSchedule loanAmount annualRate termMonths startDate monthlyPayment
        = some s ∧
      s.map Payment.toInstallment =
        recurrence (monthlyRateOf annualRate).toRat monthlyPayment.toRat startDate
          termMonths.toNat termMonths.toNat loanAmount.toRat := by
  refine ⟨_, GeneratePaymentSchedule_eq _ _ _ _ _ h, ?_⟩
  by_cases h0 : termMonths = 0
  · subst h0
    simp [scheduleLoop, recurrence]
  · obtain ⟨l, hl⟩ : ∃ l, termMonths.toNat = l + 1 := ⟨termMonths.toNat - 1, by omega⟩
    have := scheduleLoop_refines termMonths startDate (monthlyRateOf annualRate) l
      termMonths.toNat 0 loanAmount monthlyPayment h (by omega) (by omega)
    rw [this, hl]

set_option maxRecDepth 100000 in
/-- C5 (as stated, refuted): for principal 100.005, annual rate 12, one month
and the monthly payment 101.01 that `CalculateMonthlyPayment` returns, the
single installment has amount 101.00, principal part 100.005 and interest part
1.00: the amount is not the sum of the parts. -/
theorem C5_counterexample :
    CalculateMonthlyPayment ⟨100005, -3⟩ (Decimal.NewFromInt 12) 1 = ⟨10101, -2⟩ ∧
    ∃ s p, GeneratePaymentSchedule ⟨100005, -3⟩ (Decimal.NewFromInt 12) 1 ⟨2024, 1, 15, 0⟩
        ⟨10101, -2⟩ = some s ∧ p ∈ s ∧
      p.Amount.toRat ≠ p.PrincipalPart.toRat + p.InterestPart.toRat := by
  refine ⟨by decide, [⟨⟨2024, 2, 15, 0⟩, ⟨10100, -2⟩, ⟨100005, -3⟩, ⟨100, -2⟩, false⟩], _,
    by decide, List.mem_singleton.mpr rfl, ?_⟩
  norm_num [Decimal.toRat]

/-- C5 (amended): for every principal and monthly payment that are whole
numbers of cents, every annual rate, start date and `termMonths ≥ 0`,
`GeneratePaymentSchedule` returns a schedule in which every installment
satisfies amount = principalPart + interestPart exactly. -/
theorem C5_amount_is_sum_of_parts (loanAmount annualRate : Decimal) (termMonths : Int)
    (startDate : Time) (monthlyPayment : Decimal) (h : 0 ≤ termMonths)
    (hP : isCents loanAmount.toRat) (hmp : isCents monthlyPayment.toRat) :
    ∃ s, GeneratePaymentSchedule loanAmount annualRate termMonths startDate monthlyPayment
        = some s ∧
      ∀ p ∈ s, p.Amount.toRat = p.PrincipalPart.toRat + p.InterestPart.toRat := by
  obtain ⟨s, hs, hmap⟩ := GeneratePaymentSchedule_refines loanAmount annualRate termMonths
    startDate monthlyPayment h
  refine ⟨s, hs, ?_⟩
  intro p hp
  have hmem : p.toInstallment ∈ s.map Payment.toInstallment := List.mem_map_of_mem _ hp
  rw [hmap] at hmem
  exact recurrence_amount_of_isCents _ _ _ _ hmp _ _ hP _ hmem

theorem C5_witness :
    (0 : Int) ≤ 12 ∧ isCents (Decimal.NewFromInt 120000).toRat ∧
    isCents (Decimal.mk 1054991 (-2)).toRat ∧
    ∃ s, GeneratePaymentSchedule (Decimal.NewFromInt 120000) (Decimal.NewFromInt 10) 12
        ⟨2023, 1, 31, 0⟩ ⟨1054991, -2⟩ = some s ∧
      ∀ p ∈ s, p.Amount.toRat = p.PrincipalPart.toRat + p.InterestPart.toRat :=
  have h1 : isCents (Decimal.NewFromInt 120000).toRat :=
    ⟨12000000, by norm_num [Decimal.toRat, Decimal.NewFromInt]⟩
  have h2 : isCents (Decimal.mk 1054991 (-2)).toRat := isCents_of_exp _ rfl
  ⟨by decide, h1, h2, C5_amount_is_sum_of_parts _ _ _ _ _ (by decide) h1 h2⟩

/-- For every schedule `GeneratePaymentSchedule` returns, every installment
that another one follows has an amount equal to the sum of its parts, and the
last installment has that sum rounded half to even at 2 fractional digits. -/
theorem GeneratePaymentSchedule_amounts (loanAmount annualRate : Decimal) (termMonths : Int)
    (startDate : Time) (monthlyPayment : Decimal) (s : List Payment)
    (hs : GeneratePaymentSchedule loanAmount annualRate termMonths startDate monthlyPayment
      = some s) :
    (∀ k p, s[k]? = some p → k + 1 < s.length →
      p.Amount.toRat = p.PrincipalPart.toRat + p.InterestPart.toRat) ∧
    (∀ p, s.getLast? = some p →
      p.Amount.toRat = roundHalfEven (p.PrincipalPart.toRat + p.InterestPart.toRat) 2) := by
  have h : 0 ≤ termMonths := by
    by_contra hc
    unfold GeneratePaymentSchedule at hs
    rw [if_pos (by omega)] at hs
    exact absurd hs (by simp)
  obtain ⟨s', hs', hmap⟩ := GeneratePaymentSchedule_refines loanAmount annualRate termMonths
    startDate monthlyPayment h
  rw [hs] at hs'
  obtain rfl : s = s' := Option.some.inj hs'
  obtain ⟨r1, r2⟩ := recurrence_amount (monthlyRateOf annualRate).toRat monthlyPayment.toRat
    startDate termMonths.toNat termMonths.toNat loanAmount.toRat
  rw [← hmap] at r1 r2
  constructor
  · intro k p hk hlen
    have := r1 k p.toInstallment (by rw [List.getElem?_map, hk]; rfl) (by simpa using hlen)
    exact this
  · intro p hp
    have := r2 p.toInstallment (by rw [List.getLast?_map, hp]; rfl)
    exact this

/-- C8: for every `termMonths ≥ 0` the schedule `GeneratePaymentSchedule`
returns is, installment by installment, the recurrence of the specification
evaluated on exact numbers with banker's rounding, where `monthlyRate` is the
value of the code's variable of that name (the annual rate divided by 12 and by
100 at the decimal type's 16 fractional digits); every installment is unpaid. -/
theorem C8_schedule_is_recurrence (loanAmount annualRate : Decimal) (termMonths : Int)
    (startDate : Time) (monthlyPayment : Decimal) (h : 0 ≤ termMonths) :
    ∃ s, GeneratePaymentSchedule loanAmount annualRate termMonths startDate monthlyPayment
        = some s ∧
      s.map Payment.toInstallment =
        recurrence (monthlyRateOf annualRate).toRat monthlyPayment.toRat startDate
          termMonths.toNat termMonths.toNat loanAmount.toRat ∧
      (monthlyRateOf annualRate).toRat = monthlyRate16 annualRate.toRat ∧
      ∀ p ∈ s, p.Paid = false := by
  obtain ⟨s, hs, hmap⟩ := GeneratePaymentSchedule_refines loanAmount annualRate termMonths
    startDate monthlyPayment h
  refine ⟨s, hs, hmap, toRat_monthlyRateOf annualRate, ?_⟩
  intro p hp
  have hmem : p.toInstallment ∈ s.map Payment.toInstallment := List.mem_map_of_mem _ hp
  rw [hmap] at hmem
  exact recurrence_paid _ _ _ _ _ _ _ hmem

theorem C8_witness :
    (0 : Int) ≤ 12 ∧
    ∃ s, GeneratePaymentSchedule (Decimal.NewFromInt 120000) (Decimal.NewFromInt 10) 12
        ⟨2023, 1, 31, 0⟩ ⟨1054991, -2⟩ = some s ∧
      s.map Payment.toInstallment =
        recurrence (monthlyRateOf (Decimal.NewFromInt 10)).toRat (Decimal.mk 1054991 (-2)).toRat
          ⟨2023, 1, 31, 0⟩ (12 : Int).toNat (12 : Int).toNat (Decimal.NewFromInt 120000).toRat ∧
      (monthlyRateOf (Decimal.NewFromInt 10)).toRat
        = monthlyRate16 (Decimal.NewFromInt 10).toRat ∧
      ∀ p ∈ s, p.Paid = false :=
  ⟨by decide, C8_schedule_is_recurrence _ _ _ _ _ (by decide)⟩

/-! ## The zero-rate schedule -/

theorem HalfAway_self (m : Int) : HalfAway (m : ℚ) m :=
  ⟨fun _ => ⟨by linarith, by linarith⟩, fun _ => ⟨by linarith, by linarith⟩⟩

/-- A number with at most `places` fractional digits is its own rounding. -/
theorem roundHalfAway_of_int (x : ℚ) (places : Int) (m : Int)
    (h : x * (10 : ℚ) ^ places = m) : roundHalfAway x places = x := by
  rw [roundHalfAway_eq x places m (by rw [h]; exact HalfAway_self m), ← h]
  have hp : (10 : ℚ) ^ places ≠ 0 := ne_of_gt (Decimal.pow10_pos places)
  field_simp

theorem monthlyRate16_zero : monthlyRate16 0 = 0 := by
  unfold monthlyRate16
  rw [roundHalfAway_of_int (0 / 12) 16 0 (by norm_num)]
  rw [roundHalfAway_of_int (0 / 12 / 100) 16 0 (by norm_num)]
  norm_num

theorem roundHalfEven_zero : roundHalfEven 0 2 = 0 :=
  roundHalfEven_of_isCents 0 isCents_zero

/-- At rate 0, with a remaining principal of `left` times the positive monthly
payment `m`, the recurrence gives `left` installments of principal part `m`
and interest part 0. -/
theorem recurrence_zero_rate (m : ℚ) (hm : 0 < m) (startDate : Time) (termMonths : Nat)
    (left : Nat) :
    (recurrence 0 m startDate termMonths left (left * m)).length = left ∧
    ∀ x ∈ recurrence 0 m startDate termMonths left (left * m),
      x.principalPart = m ∧ x.interestPart = 0 := by
  induction left with
  | zero => simp [recurrence]
  | succ l ih =>
    have hint : roundHalfEven (((l + 1 : Nat) : ℚ) * m * 0) 2 = 0 := by
      rw [mul_zero]; exact roundHalfEven_zero
    by_cases hl : l = 0
    · subst hl
      rw [recurrence_final _ _ _ _ _ _ (Or.inl rfl)]
      refine ⟨rfl, ?_⟩
      intro x hx
      rw [List.mem_singleton] at hx
      rw [hx]
      simp only [hint]
      norm_num
    · have hlpos : (0 : ℚ) < (l : ℚ) := by
        have : 0 < l := Nat.pos_of_ne_zero hl
        exact_mod_cast this
      have hnot : ¬ (l = 0 ∨ ((l + 1 : Nat) : ℚ) * m -
          (m - roundHalfEven (((l + 1 : Nat) : ℚ) * m * 0) 2) ≤ 0) := by
        rw [hint]
        push_cast
        intro hc
        rcases hc with hc | hc
        · exact hl hc
        · nlinarith
      rw [recurrence_regular _ _ _ _ _ _ hnot, hint]
      have hrem : ((l + 1 : Nat) : ℚ) * m - (m - 0) = (l : ℚ) * m := by push_cast; ring
      rw [hrem]
      refine ⟨by simp [ih.1], ?_⟩
      intro x hx
      rcases List.mem_cons.mp hx with hx | hx
      · rw [hx]; simp
      · exact ih.2 x hx

/-- C9: for annual rate 0, every `termMonths ≥ 1` and every principal that is
`termMonths` times a positive whole number `c` of cents, the schedule generated
with the payment `CalculateMonthlyPayment` returns has exactly `termMonths`
installments, each with principalPart = principal / termMonths and
interestPart = 0. -/
theorem C9_zero_rate_straight_line (loanAmount annualRate : Decimal) (termMonths : Int)
    (startDate : Time) (c : Int) (h : 1 ≤ termMonths) (hrate : annualRate.toRat = 0)
    (hc : 0 < c) (hP : loanAmount.toRat = (termMonths : ℚ) * ((c : ℚ) / 100)) :
    ∃ s, GeneratePaymentSchedule loanAmount annualRate termMonths startDate
        (CalculateMonthlyPayment loanAmount annualRate termMonths) = some s ∧
      (s.length : Int) = termMonths ∧
      ∀ p ∈ s, p.PrincipalPart.toRat = loanAmount.toRat / termMonths ∧
        p.InterestPart.toRat = 0 := by
  have hTq : (0 : ℚ) < (termMonths : ℚ) := by exact_mod_cast (show (0 : Int) < termMonths by omega)
  have hrz : (monthlyRateOf annualRate).toRat = 0 := by
    rw [toRat_monthlyRateOf, hrate, monthlyRate16_zero]
  have hz : (monthlyRateOf annualRate).IsZero = true := (Decimal.IsZero_iff _).mpr hrz
  have hquo : loanAmount.toRat / (termMonths : ℚ) = (c : ℚ) / 100 := by
    rw [hP]; field_simp; ring
  have hmp : (CalculateMonthlyPayment loanAmount annualRate termMonths).toRat = (c : ℚ) / 100 := by
    rw [CalculateMonthlyPayment_eq _ _ _ h, hz, if_pos rfl,
      Decimal.toRat_Div _ _ (show (Decimal.NewFromInt termMonths).value ≠ 0 by
        show termMonths ≠ 0
        omega),
      Decimal.toRat_NewFromInt, hquo]
    exact roundHalfAway_of_int _ 16 (c * 100000000000000) (by push_cast; norm_num; ring)
  obtain ⟨s, hs, hmap⟩ := GeneratePaymentSchedule_refines loanAmount annualRate termMonths
    startDate (CalculateMonthlyPayment loanAmount annualRate termMonths) (by omega)
  have hn : ((termMonths.toNat : Nat) : ℚ) = (termMonths : ℚ) := by
    have : ((termMonths.toNat : Nat) : Int) = termMonths := Int.toNat_of_nonneg (by omega)
    exact_mod_cast this
  rw [hrz, hmp, hP, ← hn] at hmap
  obtain ⟨r1, r2⟩ := recurrence_zero_rate ((c : ℚ) / 100)
    (div_pos (by exact_mod_cast hc) (by norm_num)) startDate termMonths.toNat termMonths.toNat
  refine ⟨s, hs, ?_, ?_⟩
  · have hlen : s.length = termMonths.toNat := by
      rw [← List.length_map s Payment.toInstallment, hmap, r1]
    rw [hlen]
    exact Int.toNat_of_nonneg (by omega)
  · intro p hp
    have hmem : p.toInstallment ∈ s.map Payment.toInstallment := List.mem_map_of_mem _ hp
    rw [hmap] at hmem
    have := r2 _ hmem
    rw [hquo]
    exact this

theorem C9_witness :
    (1 : Int) ≤ 12 ∧ (Decimal.NewFromInt 0).toRat = 0 ∧ (0 : Int) < 10000 ∧
    (Decimal.NewFromInt 1200).toRat = ((12 : Int) : ℚ) * (((10000 : Int) : ℚ) / 100) ∧
    ∃ s, GeneratePaymentSchedule (Decimal.NewFromInt 1200) (Decimal.NewFromInt 0) 12
        ⟨2024, 1, 15, 0⟩
        (CalculateMonthlyPayment (Decimal.NewFromInt 1200) (Decimal.NewFromInt 0) 12) = some s ∧
      (s.length : Int) = 12 ∧
      ∀ p ∈ s, p.PrincipalPart.toRat = (Decimal.NewFromInt 1200).toRat / ((12 : Int) : ℚ) ∧
        p.InterestPart.toRat = 0 :=
  have h1 : (Decimal.NewFromInt 0).toRat = 0 := by norm_num [Decimal.toRat, Decimal.NewFromInt]
  have h2 : (Decimal.NewFromInt 1200).toRat = ((12 : Int) : ℚ) * (((10000 : Int) : ℚ) / 100) := by
    norm_num [Decimal.toRat, Decimal.NewFromInt]
  ⟨by decide, h1, by decide, h2,
    C9_zero_rate_straight_line _ _ _ _ 10000 (by decide) h1 (by decide) h2⟩

/-! ## Due dates of the schedule -/

namespace Time

theorem daysIn_bounds (m y : Int) : 28 ≤ daysIn m y ∧ daysIn m y ≤ 31 := by
  unfold daysIn
  split_ifs <;> omega

theorem norm_of_nonneg (hi lo : Int) (h : 0 ≤ lo) : norm hi lo 12 = (hi + lo / 12, lo % 12) := by
  unfold norm
  simp only [if_neg (not_lt.mpr h)]
  by_cases h12 : lo ≥ 12
  · rw [if_pos h12, Int.tdiv_eq_ediv h (by norm_num)]
    ext
    · rfl
    · show lo - lo / 12 * 12 = lo % 12
      omega
  · rw [if_neg h12]
    ext
    · show hi = hi + lo / 12
      omega
    · show lo = lo % 12
      omega

theorem normDay_of_le (fuel : Nat) (y m d : Int) (h : d ≤ daysIn m y) :
    normDay fuel y m d = (y, m, d) := by
  cases fuel with
  | zero => rfl
  | succ f => simp only [normDay, if_neg (not_lt.mpr h)]

/-- A day number of at most 31 overflows a month by at most one step. -/
theorem normDay_once (fuel : Nat) (y m d : Int) (hf : 1 ≤ fuel) (hd : d ≤ 31) :
    normDay fuel y m d =
      if d ≤ daysIn m y then (y, m, d)
      else if m = 12 then (y + 1, 1, d - daysIn m y)
      else (y, m + 1, d - daysIn m y) := by
  obtain ⟨f, rfl⟩ : ∃ f, fuel = f + 1 := ⟨fuel - 1, by omega⟩
  by_cases h : d ≤ daysIn m y
  · rw [if_pos h]; exact normDay_of_le _ _ _ _ h
  · rw [if_neg h]
    have hb := daysIn_bounds m y
    simp only [normDay, if_pos (not_le.mp h)]
    by_cases h12 : m = 12
    · rw [if_pos h12, if_pos h12]
      exact normDay_of_le _ _ _ _ (by have := daysIn_bounds 1 (y + 1); omega)
    · rw [if_neg h12, if_neg h12]
      exact normDay_of_le _ _ _ _ (by have := daysIn_bounds (m + 1) y; omega)

/-- What `AddDate(0, k, 0)` returns for a date that exists and `k ≥ 0`. -/
theorem AddDate_months (t : Time) (k : Int) (hv : t.valid) (hk : 0 ≤ k) :
    t.AddDate 0 k 0 = t.addMonthsRolled k := by
  obtain ⟨hm1, hm2, hd1, hd2⟩ := hv
  have hb := daysIn_bounds t.month t.year
  unfold AddDate Date addMonthsRolled targetYear targetMonth
  simp only [add_zero]
  rw [show t.month + k - 1 = t.month - 1 + k by ring, norm_of_nonneg _ _ (by omega)]
  simp only [if_neg (show ¬ t.day < 1 by omega)]
  rw [normDay_once _ _ _ _ (by omega) (by omega)]
  split_ifs <;> rfl

end Time

theorem recurrence_dueDate (monthlyRate monthlyPayment : ℚ) (startDate : Time)
    (termMonths : Nat) (left : Nat) : ∀ (rem : ℚ) (k : Nat) (x : Installment),
    (recurrence monthlyRate monthlyPayment startDate termMonths left rem)[k]? = some x →
    x.dueDate = startDate.AddDate 0 ((termMonths : Int) - left + 1 + k) 0 := by
  induction left with
  | zero => intro rem k x hx; simp [recurrence] at hx
  | succ l ih =>
    intro rem k x hx
    have hfirst : (termMonths : Int) - ((l + 1 : Nat) : Int) + 1 + ((0 : Nat) : Int) =
        (termMonths : Int) - l := by push_cast; ring
    by_cases h : l = 0 ∨ rem - (monthlyPayment - roundHalfEven (rem * monthlyRate) 2) ≤ 0
    · rw [recurrence_final _ _ _ _ _ _ h] at hx
      cases k with
      | zero =>
        simp only [List.getElem?_cons_zero, Option.some.injEq] at hx
        rw [← hx, hfirst]
      | succ k => simp at hx
    · rw [recurrence_regular _ _ _ _ _ _ h] at hx
      cases k with
      | zero =>
        simp only [List.getElem?_cons_zero, Option.some.injEq] at hx
        rw [← hx, hfirst]
      | succ k =>
        simp only [List.getElem?_cons_succ] at hx
        rw [ih _ k x hx]
        congr 1
        push_cast; ring

/-- The installment at index `k` of a schedule is due `k + 1` months after the
start date, as `AddDate` counts months. -/
theorem GeneratePaymentSchedule_dueDate (loanAmount annualRate : Decimal) (termMonths : Int)
    (startDate : Time) (monthlyPayment : Decimal) (h : 0 ≤ termMonths) :
    ∃ s, GeneratePaymentSchedule loanAmount annualRate termMonths startDate monthlyPayment
        = some s ∧
      ∀ (k : Nat) (p : Payment), s[k]? = some p →
        p.DueDate = startDate.AddDate 0 ((k : Int) + 1) 0 := by
  obtain ⟨s, hs, hmap⟩ := GeneratePaymentSchedule_refines loanAmount annualRate termMonths
    startDate monthlyPayment h
  refine ⟨s, hs, ?_⟩
  intro k p hk
  have hx : (s.map Payment.toInstallment)[k]? = some p.toInstallment := by
    rw [List.getElem?_map, hk]; rfl
  rw [hmap] at hx
  have := recurrence_dueDate _ _ _ _ _ _ k _ hx
  rw [show ((termMonths.toNat : Nat) : Int) - ((termMonths.toNat : Nat) : Int) + 1 + (k : Int)
    = (k : Int) + 1 by ring] at this
  exact this

set_option maxRecDepth 100000 in
/-- C6 (as stated, refuted): with a start date of 31 January 2023 the first
installment of the schedule for principal 120000, annual rate 10 and 12 months
is due on 3 March 2023, not on 28 February 2023, the last day of the month one
calendar month after the start. -/
theorem C6_counterexample :
    (Time.mk 2023 1 31 0).addMonthsClamped 1 = ⟨2023, 2, 28, 0⟩ ∧
    ∃ s p, GeneratePaymentSchedule (Decimal.NewFromInt 120000) (Decimal.NewFromInt 10) 12
        ⟨2023, 1, 31, 0⟩ ⟨1054991, -2⟩ = some s ∧ s[0]? = some p ∧
      p.DueDate = ⟨2023, 3, 3, 0⟩ ∧
      p.DueDate ≠ (Time.mk 2023 1 31 0).addMonthsClamped 1 := by
  refine ⟨by decide, _,
    ⟨⟨2023, 3, 3, 0⟩, ⟨1054991, -2⟩, ⟨954991, -2⟩, ⟨100000, -2⟩, false⟩,
    GeneratePaymentSchedule_eq _ _ _ _ _ (by decide), by decide, rfl, by decide⟩

/-- C6 (amended): for every start date that exists, every `termMonths ≥ 0` and
every installment of the schedule, the installment at index `k` (the
`k+1`-th) is due `k+1` calendar months after the start date as `AddDate`
counts them: on the same day of the month when the target month has that day
(then it is also the clamped date of the specification), and otherwise as many
days into the following month as the day exceeds the target month's length;
the time of day is the start date's. -/
theorem C6_due_dates_roll_over (loanAmount annualRate : Decimal) (termMonths : Int)
    (startDate : Time) (monthlyPayment : Decimal) (h : 0 ≤ termMonths)
    (hv : startDate.valid) :
    ∃ s, GeneratePaymentSchedule loanAmount annualRate termMonths startDate monthlyPayment
        = some s ∧
      ∀ (k : Nat) (p : Payment), s[k]? = some p →
        p.DueDate = startDate.addMonthsRolled ((k : Int) + 1) ∧
        (startDate.day ≤ Time.daysIn (startDate.targetMonth ((k : Int) + 1))
            (startDate.targetYear ((k : Int) + 1)) →
          p.DueDate = startDate.addMonthsClamped ((k : Int) + 1)) := by
  obtain ⟨s, hs, hdue⟩ := GeneratePaymentSchedule_dueDate loanAmount annualRate termMonths
    startDate monthlyPayment h
  refine ⟨s, hs, ?_⟩
  intro k p hk
  have hd : p.DueDate = startDate.addMonthsRolled ((k : Int) + 1) := by
    rw [hdue k p hk]
    exact Time.AddDate_months startDate _ hv (by omega)
  refine ⟨hd, ?_⟩
  intro hle
  rw [hd]
  unfold Time.addMonthsRolled Time.addMonthsClamped
  rw [if_pos hle, min_eq_left hle]

theorem C6_witness :
    (0 : Int) ≤ 12 ∧ (Time.mk 2023 1 31 0).valid ∧
    ∃ s, GeneratePaymentSchedule (Decimal.NewFromInt 120000) (Decimal.NewFromInt 10) 12
        ⟨2023, 1, 31, 0⟩ ⟨1054991, -2⟩ = some s ∧
      ∀ (k : Nat) (p : Payment), s[k]? = some p →
        p.DueDate = (Time.mk 2023 1 31 0).addMonthsRolled ((k : Int) + 1) ∧
        ((Time.mk 2023 1 31 0).day ≤
            Time.daysIn ((Time.mk 2023 1 31 0).targetMonth ((k : Int) + 1))
              ((Time.mk 2023 1 31 0).targetYear ((k : Int) + 1)) →
          p.DueDate = (Time.mk 2023 1 31 0).addMonthsClamped ((k : Int) + 1)) :=
  have hv : (Time.mk 2023 1 31 0).valid := by
    unfold Time.valid; decide
  ⟨by decide, hv, C6_due_dates_roll_over _ _ _ _ _ (by decide) hv⟩

/-! ## Order of instants and addition of days -/

namespace Time

theorem Before_iff (t u : Time) :
    t.Before u = true ↔
      (t.year < u.year ∨ (t.year = u.year ∧ (t.month < u.month ∨
        (t.month = u.month ∧ (t.day < u.day ∨ (t.day = u.day ∧ t.nsec < u.nsec)))))) := by
  unfold Before
  exact decide_eq_true_iff

theorem Before_irrefl (t : Time) : t.Before t = false := by
  rw [← Bool.not_eq_true, Before_iff]
  omega

theorem Before_trans {t u v : Time} (h1 : t.Before u = true) (h2 : u.Before v = true) :
    t.Before v = true := by
  rw [Before_iff] at h1 h2 ⊢
  omega

theorem Before_asymm {t u : Time} (h : t.Before u = true) : u.Before t = false := by
  rw [← Bool.not_eq_true]
  intro hc
  have := Before_trans h hc
  rw [Before_irrefl] at this
  exact absurd this (by decide)

/-- Normalizing one more day gives the day after: for a day number of at least
1 (and enough iterations) `normDay` ends on a day that exists, and one day
more ends on the day after it. -/
theorem normDay_succ (fuel : Nat) : ∀ (y m d : Int), 1 ≤ m → m ≤ 12 → 1 ≤ d → d ≤ fuel →
    (1 ≤ (normDay fuel y m d).2.1 ∧ (normDay fuel y m d).2.1 ≤ 12 ∧
      1 ≤ (normDay fuel y m d).2.2 ∧
      (normDay fuel y m d).2.2 ≤ daysIn (normDay fuel y m d).2.1 (normDay fuel y m d).1) ∧
    normDay (fuel + 1) y m (d + 1) = nextDay (normDay fuel y m d) := by
  induction fuel with
  | zero => intro y m d _ _ h1 h2; simp at h2; omega
  | succ f ih =>
    intro y m d hm1 hm2 hd1 hd2
    have hb := daysIn_bounds m y
    by_cases hle : d ≤ daysIn m y
    · rw [normDay_of_le _ _ _ _ hle]
      refine ⟨⟨hm1, hm2, hd1, hle⟩, ?_⟩
      unfold nextDay
      by_cases hle2 : d + 1 ≤ daysIn m y
      · rw [normDay_of_le _ _ _ _ hle2]
        simp only [if_pos hle2]
      · simp only [if_neg hle2]
        have hd : d + 1 - daysIn m y = 1 := by omega
        simp only [normDay, if_pos (show d + 1 > daysIn m y by omega), hd]
        by_cases h12 : m = 12
        · simp only [if_pos h12]
          have hb1 := daysIn_bounds 1 (y + 1)
          rw [if_neg (by omega)]
        · simp only [if_neg h12]
          have hb1 := daysIn_bounds (m + 1) y
          rw [if_neg (by omega)]
    · have hgt : d > daysIn m y := not_le.mp hle
      have hgt2 : d + 1 > daysIn m y := by omega
      have e1 : normDay (f + 1) y m d =
          if m = 12 then normDay f (y + 1) 1 (d - daysIn m y)
          else normDay f y (m + 1) (d - daysIn m y) := by
        simp only [normDay, if_pos hgt]
      have e2 : normDay (f + 1 + 1) y m (d + 1) =
          if m = 12 then normDay (f + 1) (y + 1) 1 (d - daysIn m y + 1)
          else normDay (f + 1) y (m + 1) (d - daysIn m y + 1) := by
        rw [show d - daysIn m y + 1 = d + 1 - daysIn m y by ring]
        simp only [normDay, if_pos hgt2]
      rw [e1, e2]
      push_cast at hd2
      by_cases h12 : m = 12
      · simp only [if_pos h12]
        exact ih (y + 1) 1 (d - daysIn m y) (by norm_num) (by norm_num) (by omega) (by omega)
      · simp only [if_neg h12]
        exact ih y (m + 1) (d - daysIn m y) (by omega) (by omega) (by omega) (by omega)

/-- The day after is later. -/
theorem Before_nextDay (y m d nsec : Int) :
    (Time.mk y m d nsec).Before
      ⟨(nextDay (y, m, d)).1, (nextDay (y, m, d)).2.1, (nextDay (y, m, d)).2.2, nsec⟩ = true := by
  rw [Before_iff]
  unfold nextDay
  simp only
  by_cases h1 : d + 1 ≤ daysIn m y
  · simp only [if_pos h1]
    exact Or.inr ⟨trivial, Or.inr ⟨trivial, Or.inl (by omega)⟩⟩
  · simp only [if_neg h1]
    by_cases h2 : m = 12
    · simp only [if_pos h2]
      exact Or.inl (by omega)
    · simp only [if_neg h2]
      exact Or.inr ⟨trivial, Or.inl (by omega)⟩

/-- `AddDate(0, 0, k)` on a date that exists, for `k ≥ 0`. -/
theorem AddDate_days (t : Time) (k : Int) (hv : t.valid) (hk : 0 ≤ k) :
    t.AddDate 0 0 k =
      ⟨(normDay (t.day + k).toNat t.year t.month (t.day + k)).1,
       (normDay (t.day + k).toNat t.year t.month (t.day + k)).2.1,
       (normDay (t.day + k).toNat t.year t.month (t.day + k)).2.2, t.nsec⟩ := by
  obtain ⟨hm1, hm2, hd1, hd2⟩ := hv
  unfold AddDate Date
  simp only [add_zero]
  rw [norm_of_nonneg _ _ (by omega)]
  have e1 : t.year + (t.month - 1) / 12 = t.year := by omega
  have e2 : (t.month - 1) % 12 + 1 = t.month := by omega
  simp only [if_neg (show ¬ t.day + k < 1 by omega), e1, e2]

theorem AddDate_zero (t : Time) (hv : t.valid) : t.AddDate 0 0 0 = t := by
  rw [AddDate_days t 0 hv (le_refl 0)]
  simp only [add_zero]
  rw [normDay_of_le _ _ _ _ hv.2.2.2]

/-- `AddDate(0, 0, k)` lands on a date that exists. -/
theorem AddDate_days_valid (t : Time) (k : Nat) (hv : t.valid) :
    (t.AddDate 0 0 k).valid := by
  rw [AddDate_days t k hv (by omega)]
  have h := (normDay_succ (t.day + k).toNat t.year t.month (t.day + k) hv.1 hv.2.1
    (by have := hv.2.2.1; omega) (by have := hv.2.2.1; omega)).1
  exact h

/-- One more day is a later instant. -/
theorem AddDate_days_succ_Before (t : Time) (k : Nat) (hv : t.valid) :
    (t.AddDate 0 0 k).Before (t.AddDate 0 0 ((k : Int) + 1)) = true := by
  obtain ⟨hm1, hm2, hd1, hd2⟩ := hv
  have hv' : t.valid := ⟨hm1, hm2, hd1, hd2⟩
  rw [AddDate_days t k hv' (by omega), AddDate_days t ((k : Int) + 1) hv' (by omega)]
  obtain ⟨_, hs⟩ := normDay_succ (t.day + k).toNat t.year t.month (t.day + k) hm1 hm2
    (by omega) (by omega)
  have e : (t.day + ((k : Int) + 1)).toNat = (t.day + k).toNat + 1 := by omega
  rw [e, show t.day + ((k : Int) + 1) = t.day + k + 1 by ring, hs]
  exact Before_nextDay _ _ _ _

/-- Adding days moves forward: an earlier offset gives an earlier instant. -/
theorem AddDate_days_lt_Before (t : Time) (hv : t.valid) (j : Nat) : ∀ k : Nat, j < k →
    (t.AddDate 0 0 j).Before (t.AddDate 0 0 k) = true := by
  intro k
  induction k with
  | zero => intro h; omega
  | succ n ih =>
    intro h
    have hstep := AddDate_days_succ_Before t n hv
    rw [show ((n + 1 : Nat) : Int) = (n : Int) + 1 by push_cast; ring]
    by_cases hjn : j = n
    · subst hjn; exact hstep
    · exact Before_trans (ih (by omega)) hstep

/-- Seven days later is not before now. -/
theorem AddDate_seven_not_Before (t : Time) (hv : t.valid) :
    (t.AddDate 0 0 7).Before t = false := by
  have h := AddDate_days_lt_Before t hv 0 7 (by norm_num)
  rw [show ((0 : Nat) : Int) = 0 by rfl, AddDate_zero t hv] at h
  exact Before_asymm h

end Time

/-! ## Negation, comparison and the tenth -/

namespace Decimal

theorem toRat_Neg (d : Decimal) : d.Neg.toRat = -d.toRat := by
  simp only [Neg, toRat]
  push_cast; ring

theorem GreaterThanOrEqual_iff (a b : Decimal) :
    a.GreaterThanOrEqual b = true ↔ b.toRat ≤ a.toRat := by
  unfold GreaterThanOrEqual
  simp only [Cmp_eq]
  rcases lt_trichotomy a.toRat b.toRat with h | h | h
  · have h3 : ¬ b.toRat ≤ a.toRat := not_le.mpr h
    simp [h, h3]
  · simp [h]
  · have h1 : ¬ a.toRat < b.toRat := not_lt.mpr (le_of_lt h)
    have h2 : ¬ a.toRat = b.toRat := ne_of_gt h
    simp [h1, h2, le_of_lt h]

theorem GreaterThanOrEqual_eq_false_iff (a b : Decimal) :
    a.GreaterThanOrEqual b = false ↔ a.toRat < b.toRat := by
  rw [← Bool.not_eq_true, GreaterThanOrEqual_iff, not_le]

theorem toRat_oneTenth : oneTenth.toRat = 1 / 10 := by
  norm_num [oneTenth, toRat]

theorem toRat_Mul_oneTenth (a : Decimal) : (a.Mul oneTenth).toRat = a.toRat / 10 := by
  rw [toRat_Mul, toRat_oneTenth]; ring

theorem IsZero_eq_false_iff (a : Decimal) : a.IsZero = false ↔ a.toRat ≠ 0 := by
  rw [← Bool.not_eq_true, IsZero_iff]

end Decimal

/-! ## The storage operations -/

namespace storage

theorem GetAccount_world (env : Env) (w : World) (accountID : String) :
    (GetAccount env w accountID).2 = w.next := by
  unfold GetAccount
  split_ifs <;> rfl

theorem GetAccount_eq_some (env : Env) (w : World) (accountID : String) (account : Account) :
    (GetAccount env w accountID).1 = some account ↔
      env.fails w.tick = false ∧ w.accounts accountID = some account := by
  unfold GetAccount
  cases h : env.fails w.tick <;> simp

theorem GetAccount_eq_none (env : Env) (w : World) (accountID : String) :
    (GetAccount env w accountID).1 = none ↔
      env.fails w.tick = true ∨ w.accounts accountID = none := by
  unfold GetAccount
  cases h : env.fails w.tick <;> simp

theorem UpdateAccountBalance_failed (env : Env) (w : World) (accountID : String)
    (amount : Decimal) (h : (UpdateAccountBalance env w accountID amount).1 = false) :
    (UpdateAccountBalance env w accountID amount).2 = w.next := by
  unfold UpdateAccountBalance at h ⊢
  cases hf : env.fails w.tick
  · simp only [hf, Bool.false_eq_true, if_false] at h ⊢
    cases ha : w.accounts accountID with
    | none => rfl
    | some a => rw [ha] at h; simp at h
  · simp only [hf, if_true]

theorem UpdateAccountBalance_ok (env : Env) (w : World) (accountID : String)
    (amount : Decimal) (account : Account) (hf : env.fails w.tick = false)
    (ha : w.accounts accountID = some account) :
    UpdateAccountBalance env w accountID amount =
      (true, { w.next with
        accounts := fun id =>
          if id = accountID then some { account with Balance := account.Balance.Add amount }
          else w.accounts id }) := by
  unfold UpdateAccountBalance
  simp only [hf, Bool.false_eq_true, if_false, ha]

theorem UpdateAccountBalance_eq_true (env : Env) (w : World) (accountID : String)
    (amount : Decimal) (h : (UpdateAccountBalance env w accountID amount).1 = true) :
    env.fails w.tick = false ∧ ∃ account, w.accounts accountID = some account := by
  unfold UpdateAccountBalance at h
  cases hf : env.fails w.tick
  · refine ⟨rfl, ?_⟩
    cases ha : w.accounts accountID with
    | none => simp [hf, ha] at h
    | some a => exact ⟨a, rfl⟩
  · simp [hf] at h

theorem AddTransaction_ok (env : Env) (w : World) (tx : Transaction)
    (hf : env.fails w.tick = false) (hfrom : (w.accounts tx.FromAccountID).isSome = true)
    (hto : (w.accounts tx.ToAccountID).isSome = true) :
    AddTransaction env w tx = (true, { w.next with transactions := w.transactions ++ [tx] }) := by
  unfold AddTransaction
  simp only [hf, hfrom, hto, Bool.false_eq_true, if_false, Bool.and_self, if_true]

theorem AddTransaction_failed (env : Env) (w : World) (tx : Transaction)
    (hf : env.fails w.tick = true) :
    AddTransaction env w tx = (false, w.next) := by
  unfold AddTransaction
  simp only [hf, if_true]

/-- The insert is rejected when the destination of the record is not the id of
an account. -/
theorem AddTransaction_rejected (env : Env) (w : World) (tx : Transaction)
    (hto : w.accounts tx.ToAccountID = none) :
    AddTransaction env w tx = (false, w.next) := by
  unfold AddTransaction
  split
  · rfl
  · simp only [hto, Option.isSome_none, Bool.and_false, Bool.false_eq_true, if_false]

/-- The insert appends the record or nothing. -/
theorem AddTransaction_transactions (env : Env) (w : World) (tx : Transaction) :
    (AddTransaction env w tx).2.transactions = w.transactions ∨
      (AddTransaction env w tx).2.transactions = w.transactions ++ [tx] := by
  unfold AddTransaction
  split_ifs
  · exact Or.inl rfl
  · exact Or.inr rfl
  · exact Or.inl rfl

theorem AddTransaction_accounts (env : Env) (w : World) (tx : Transaction) :
    (AddTransaction env w tx).2.accounts = w.accounts ∧
    (AddTransaction env w tx).2.loans = w.loans ∧
    (AddTransaction env w tx).2.tick = w.tick + 1 := by
  unfold AddTransaction
  split_ifs <;> exact ⟨rfl, rfl, rfl⟩

end storage

/-! ## One installment of the settlement cycle, case by case -/

theorem markPaid_append (pre : List Payment) (p : Payment) (rest : List Payment) :
    markPaid (pre ++ p :: rest) pre.length = pre ++ { p with Paid := true } :: rest := by
  induction pre with
  | nil => rfl
  | cons q pre ih => exact congrArg (List.cons q) ih

theorem markPaid_length (s : List Payment) (i : Nat) : (markPaid s i).length = s.length := by
  induction s generalizing i with
  | nil => rfl
  | cons p s ih =>
    cases i with
    | zero => rfl
    | succ i => simp only [markPaid, List.length_cons, ih]

/-- A paid installment, or one that is not yet due, is passed over. -/
theorem processPayment_skip (env : Env) (now : Time) (i : Nat) (payment : Payment)
    (st : LoanState) (h : payment.Paid = true ∨ payment.DueDate.Before now = false) :
    processPayment env now i payment st = st := by
  unfold processPayment
  rcases h with h | h
  · simp only [h, if_true]
  · cases hp : payment.Paid
    · simp only [Bool.false_eq_true, if_false, h]
    · simp only [if_true]

theorem processPayment_lookup_failed (env : Env) (now : Time) (i : Nat) (payment : Payment)
    (st : LoanState) (hp : payment.Paid = false) (hb : payment.DueDate.Before now = true)
    (hr : (storage.GetAccount env st.world st.loan.AccountID).1 = none) :
    processPayment env now i payment st = { st with world := st.world.next } := by
  unfold processPayment
  simp only [hp, hb, Bool.false_eq_true, if_false, if_true, hr, storage.GetAccount_world]

theorem processPayment_debit_failed (env : Env) (now : Time) (i : Nat) (payment : Payment)
    (st : LoanState) (account : Account)
    (hp : payment.Paid = false) (hb : payment.DueDate.Before now = true)
    (hr : (storage.GetAccount env st.world st.loan.AccountID).1 = some account)
    (hge : account.Balance.GreaterThanOrEqual payment.Amount = true)
    (hu : (storage.UpdateAccountBalance env st.world.next st.loan.AccountID
      payment.Amount.Neg).1 = false) :
    processPayment env now i payment st = { st with world := st.world.next.next } := by
  unfold processPayment
  simp only [hp, hb, Bool.false_eq_true, if_false, if_true, hr, storage.GetAccount_world, hge,
    hu, storage.UpdateAccountBalance_failed _ _ _ _ hu]

theorem processPayment_settled (env : Env) (now : Time) (i : Nat) (payment : Payment)
    (st : LoanState) (account : Account)
    (hp : payment.Paid = false) (hb : payment.DueDate.Before now = true)
    (hf0 : env.fails st.world.tick = false)
    (ha : st.world.accounts st.loan.AccountID = some account)
    (hge : account.Balance.GreaterThanOrEqual payment.Amount = true)
    (hf1 : env.fails (st.world.tick + 1) = false) :
    processPayment env now i payment st =
      { loan := { st.loan with
          PaymentSchedule := markPaid st.loan.PaymentSchedule i
          RemainingAmount := st.loan.RemainingAmount.Sub payment.PrincipalPart }
        modified := true
        world := settledWorld env payment st account } := by
  have hr : (storage.GetAccount env st.world st.loan.AccountID).1 = some account :=
    (storage.GetAccount_eq_some _ _ _ _).2 ⟨hf0, ha⟩
  have hu := storage.UpdateAccountBalance_ok env st.world.next st.loan.AccountID
    payment.Amount.Neg account hf1 ha
  unfold processPayment settledWorld
  simp only [hp, hb, Bool.false_eq_true, if_false, if_true, hr, storage.GetAccount_world, hge,
    hu, storage.GenerateTransactionID, timeNow]
  rfl

theorem processPayment_penalty (env : Env) (now : Time) (i : Nat) (payment : Payment)
    (st : LoanState) (account : Account)
    (hp : payment.Paid = false) (hb : payment.DueDate.Before now = true)
    (hr : (storage.GetAccount env st.world st.loan.AccountID).1 = some account)
    (hge : account.Balance.GreaterThanOrEqual payment.Amount = false) :
    processPayment env now i payment st =
      { loan := { st.loan with
          PaymentSchedule := st.loan.PaymentSchedule ++
            [penaltyInstallment (env.clock (st.world.tick + 1)) payment] }
        modified := true
        world := st.world.next.next } := by
  unfold processPayment penaltyInstallment
  simp only [hp, hb, Bool.false_eq_true, if_false, if_true, hr, storage.GetAccount_world, hge,
    timeNow, World.next]

/-! ## The settlement of one installment -/

theorem markPaid_getElem_self (s : List Payment) (i : Nat) (p : Payment)
    (h : s[i]? = some p) : (markPaid s i)[i]? = some { p with Paid := true } := by
  induction s generalizing i with
  | nil => simp at h
  | cons q s ih =>
    cases i with
    | zero =>
      simp only [List.getElem?_cons_zero, Option.some.injEq] at h
      subst h
      simp only [markPaid, List.getElem?_cons_zero]
    | succ i =>
      simp only [List.getElem?_cons_succ] at h
      simp only [markPaid, List.getElem?_cons_succ]
      exact ih i h

theorem markPaid_getElem_ne (s : List Payment) (i j : Nat) (h : j ≠ i) :
    (markPaid s i)[j]? = s[j]? := by
  induction s generalizing i j with
  | nil => rfl
  | cons q s ih =>
    cases i with
    | zero =>
      cases j with
      | zero => exact absurd rfl h
      | succ j => simp only [markPaid, List.getElem?_cons_succ]
    | succ i =>
      cases j with
      | zero => simp only [markPaid, List.getElem?_cons_zero]
      | succ j =>
        simp only [markPaid, List.getElem?_cons_succ]
        exact ih i j (fun e => h (by rw [e]))

/-- The world after a settled installment when no account has the empty id:
the record of the settlement, whose destination is the empty string, is
rejected, so only the balance and the event counter have changed. -/
theorem settledWorld_rejected (env : Env) (payment : Payment) (st : LoanState)
    (account : Account) (ha : st.world.accounts st.loan.AccountID = some account)
    (hnone : st.world.accounts "" = none) :
    settledWorld env payment st account =
      { accounts := fun id =>
          if id = st.loan.AccountID then
            some { account with Balance := account.Balance.Add payment.Amount.Neg }
          else st.world.accounts id
        loans := st.world.loans
        transactions := st.world.transactions
        tick := st.world.tick + 5 } := by
  have hne : ¬ ("" = st.loan.AccountID) := fun h => by
    rw [← h, hnone] at ha; cases ha
  unfold settledWorld
  rw [storage.AddTransaction_rejected]
  · rfl
  · show (if "" = st.loan.AccountID then _ else st.world.accounts "") = none
    rw [if_neg hne, hnone]

/-- C11 holds but for the transaction: when the loop reaches installment `i` of
a loan, unpaid and due strictly before now, the account is found with a
balance of at least the amount and the debit succeeds, then the balance of the
account decreases by exactly the amount (other accounts keep theirs),
installment `i` becomes paid and no other installment changes, and the
remaining principal decreases by exactly the principal part; but no
transaction is appended when no account has the empty id: the record the loop
builds has the empty string as destination, the insert is rejected by the
reference of `to_account_id` to `accounts(id)`, and the error is dropped. -/
theorem C11_settlement_records_no_transaction (env : Env) (now : Time) (i : Nat)
    (payment : Payment) (st : LoanState) (account : Account)
    (hi : st.loan.PaymentSchedule[i]? = some payment)
    (hp : payment.Paid = false) (hb : payment.DueDate.Before now = true)
    (hlookup : env.fails st.world.tick = false)
    (ha : st.world.accounts st.loan.AccountID = some account)
    (hge : payment.Amount.toRat ≤ account.Balance.toRat)
    (hdebit : env.fails (st.world.tick + 1) = false) :
    (∃ account2, (processPayment env now i payment st).world.accounts st.loan.AccountID =
        some account2 ∧ account2.ID = account.ID ∧
        account2.Balance.toRat = account.Balance.toRat - payment.Amount.toRat) ∧
    (∀ id, id ≠ st.loan.AccountID →
      (processPayment env now i payment st).world.accounts id = st.world.accounts id) ∧
    (processPayment env now i payment st).loan.PaymentSchedule[i]? =
      some { payment with Paid := true } ∧
    (∀ j, j ≠ i → (processPayment env now i payment st).loan.PaymentSchedule[j]? =
      st.loan.PaymentSchedule[j]?) ∧
    (processPayment env now i payment st).loan.RemainingAmount.toRat =
      st.loan.RemainingAmount.toRat - payment.PrincipalPart.toRat ∧
    (st.world.accounts "" = none →
      (processPayment env now i payment st).world.transactions = st.world.transactions) := by
  have hge2 := (Decimal.GreaterThanOrEqual_iff _ _).2 hge
  rw [processPayment_settled env now i payment st account hp hb hlookup ha hge2 hdebit]
  refine ⟨⟨{ account with Balance := account.Balance.Add payment.Amount.Neg }, ?_, rfl, ?_⟩,
    fun id hid => ?_, markPaid_getElem_self _ _ _ hi,
    fun j hj => markPaid_getElem_ne _ _ _ hj, Decimal.toRat_Sub _ _, fun hnone => ?_⟩
  · show (settledWorld env payment st account).accounts st.loan.AccountID = _
    unfold settledWorld
    rw [(storage.AddTransaction_accounts _ _ _).1]
    exact if_pos rfl
  · show (account.Balance.Add payment.Amount.Neg).toRat = _
    rw [Decimal.toRat_Add, Decimal.toRat_Neg]; ring
  · show (settledWorld env payment st account).accounts id = _
    unfold settledWorld
    rw [(storage.AddTransaction_accounts _ _ _).1]
    exact if_neg hid
  · show (settledWorld env payment st account).transactions = _
    rw [settledWorld_rejected env payment st account ha hnone]

set_option maxRecDepth 100000 in
/-- C11 at the sample data: balance 1000, amount 200, principal part 150, every
storage operation succeeding. The balance goes to 800, the installment is
paid, the remaining principal goes to 850, and the whole cycle leaves the
transactions as they were: none. -/
theorem C11_witness :
    ((sampleWorld ⟨1000, 0⟩ [sampleLoan [sampleInstallment] ⟨1000, 0⟩]).accounts "" = none ∧
      (processOverduePayments sampleEnv
        (sampleWorld ⟨1000, 0⟩ [sampleLoan [sampleInstallment] ⟨1000, 0⟩])).accounts "a" =
        some ⟨"a", ⟨800, 0⟩⟩ ∧
      (processOverduePayments sampleEnv
        (sampleWorld ⟨1000, 0⟩ [sampleLoan [sampleInstallment] ⟨1000, 0⟩])).loans =
        [sampleLoan [{ sampleInstallment with Paid := true }] ⟨850, 0⟩] ∧
      (processOverduePayments sampleEnv
        (sampleWorld ⟨1000, 0⟩ [sampleLoan [sampleInstallment] ⟨1000, 0⟩])).transactions = []) ∧
    ((∃ account2, (processPayment sampleEnv sampleNow 0 sampleInstallment
        (sampleState ⟨1000, 0⟩ [sampleInstallment] ⟨1000, 0⟩)).world.accounts "a" =
        some account2 ∧ account2.ID = "a" ∧
        account2.Balance.toRat = (⟨1000, 0⟩ : Decimal).toRat - sampleInstallment.Amount.toRat) ∧
    (∀ id, id ≠ "a" →
      (processPayment sampleEnv sampleNow 0 sampleInstallment
        (sampleState ⟨1000, 0⟩ [sampleInstallment] ⟨1000, 0⟩)).world.accounts id =
        (sampleState ⟨1000, 0⟩ [sampleInstallment] ⟨1000, 0⟩).world.accounts id) ∧
    (processPayment sampleEnv sampleNow 0 sampleInstallment
        (sampleState ⟨1000, 0⟩ [sampleInstallment] ⟨1000, 0⟩)).loan.PaymentSchedule[0]? =
      some { sampleInstallment with Paid := true } ∧
    (∀ j, j ≠ 0 → (processPayment sampleEnv sampleNow 0 sampleInstallment
        (sampleState ⟨1000, 0⟩ [sampleInstallment] ⟨1000, 0⟩)).loan.PaymentSchedule[j]? =
      [sampleInstallment][j]?) ∧
    (processPayment sampleEnv sampleNow 0 sampleInstallment
        (sampleState ⟨1000, 0⟩ [sampleInstallment] ⟨1000, 0⟩)).loan.RemainingAmount.toRat =
      (⟨1000, 0⟩ : Decimal).toRat - sampleInstallment.PrincipalPart.toRat ∧
    ((sampleState ⟨1000, 0⟩ [sampleInstallment] ⟨1000, 0⟩).world.accounts "" = none →
      (processPayment sampleEnv sampleNow 0 sampleInstallment
        (sampleState ⟨1000, 0⟩ [sampleInstallment] ⟨1000, 0⟩)).world.transactions = [])) :=
  ⟨by decide,
    C11_settlement_records_no_transaction sampleEnv sampleNow 0 sampleInstallment
      (sampleState ⟨1000, 0⟩ [sampleInstallment] ⟨1000, 0⟩) ⟨"a", ⟨1000, 0⟩⟩
      rfl rfl (by decide) rfl rfl (by norm_num [Decimal.toRat, sampleInstallment]) rfl⟩

/-- The five ways in which the loop treats an installment. -/
theorem processPayment_cases (env : Env) (now : Time) (i : Nat) (payment : Payment)
    (st : LoanState) :
    ((payment.Paid = true ∨ payment.DueDate.Before now = false) ∧
      processPayment env now i payment st = st) ∨
    (payment.Paid = false ∧ payment.DueDate.Before now = true ∧
      ((storage.GetAccount env st.world st.loan.AccountID).1 = none ∧
        processPayment env now i payment st = { st with world := st.world.next } ∨
      ∃ account, env.fails st.world.tick = false ∧
        st.world.accounts st.loan.AccountID = some account ∧
        ((account.Balance.GreaterThanOrEqual payment.Amount = true ∧
            env.fails (st.world.tick + 1) = true ∧
            processPayment env now i payment st = { st with world := st.world.next.next }) ∨
          (account.Balance.GreaterThanOrEqual payment.Amount = true ∧
            env.fails (st.world.tick + 1) = false ∧
            processPayment env now i payment st =
              { loan := { st.loan with
                  PaymentSchedule := markPaid st.loan.PaymentSchedule i
                  RemainingAmount := st.loan.RemainingAmount.Sub payment.PrincipalPart }
                modified := true
                world := settledWorld env payment st account }) ∨
          (account.Balance.GreaterThanOrEqual payment.Amount = false ∧
            processPayment env now i payment st =
              { loan := { st.loan with
                  PaymentSchedule := st.loan.PaymentSchedule ++
                    [penaltyInstallment (env.clock (st.world.tick + 1)) payment] }
                modified := true
                world := st.world.next.next })))) := by
  cases hp : payment.Paid
  swap
  · exact Or.inl ⟨Or.inl rfl, processPayment_skip _ _ _ _ _ (Or.inl hp)⟩
  cases hb : payment.DueDate.Before now
  · exact Or.inl ⟨Or.inr rfl, processPayment_skip _ _ _ _ _ (Or.inr hb)⟩
  refine Or.inr ⟨rfl, rfl, ?_⟩
  cases hr : (storage.GetAccount env st.world st.loan.AccountID).1 with
  | none => exact Or.inl ⟨rfl, processPayment_lookup_failed _ _ _ _ _ hp hb hr⟩
  | some account =>
    obtain ⟨hf0, ha⟩ := (storage.GetAccount_eq_some _ _ _ _).1 hr
    refine Or.inr ⟨account, hf0, ha, ?_⟩
    cases hge : account.Balance.GreaterThanOrEqual payment.Amount
    · exact Or.inr (Or.inr ⟨rfl, processPayment_penalty _ _ _ _ _ account hp hb hr hge⟩)
    · cases hf1 : env.fails (st.world.tick + 1)
      · exact Or.inr (Or.inl ⟨rfl, rfl,
          processPayment_settled _ _ _ _ _ account hp hb hf0 ha hge hf1⟩)
      · refine Or.inl ⟨rfl, rfl, processPayment_debit_failed _ _ _ _ _ account hp hb hr hge ?_⟩
        unfold storage.UpdateAccountBalance
        have : env.fails st.world.next.tick = true := hf1
        simp only [this, if_true]

/-! ## Penalties, skipped loans, skipped installments and failures -/

/-- C12: when the loop reaches an unpaid installment due strictly before now
and the account is found with a balance strictly below the amount, then the
accounts, the stored loans, the transactions and the remaining principal are
unchanged, and the schedule is the old schedule (the original installment
included, still unpaid) followed by exactly one new installment: its amount is
10% of the original amount, its principal part is zero, its interest part is
its amount, it is unpaid, and it is due 7 days after the reading of the clock
taken at that moment (so 7 days after `now` when the clock still shows `now`). -/
theorem C12_penalty_accrual (env : Env) (now : Time) (i : Nat) (payment : Payment)
    (st : LoanState) (account : Account)
    (hp : payment.Paid = false) (hb : payment.DueDate.Before now = true)
    (hlookup : env.fails st.world.tick = false)
    (ha : st.world.accounts st.loan.AccountID = some account)
    (hlt : account.Balance.toRat < payment.Amount.toRat) :
    (processPayment env now i payment st).world.accounts = st.world.accounts ∧
    (processPayment env now i payment st).world.loans = st.world.loans ∧
    (processPayment env now i payment st).world.transactions = st.world.transactions ∧
    (processPayment env now i payment st).loan.RemainingAmount = st.loan.RemainingAmount ∧
    ∃ penalty, (processPayment env now i payment st).loan.PaymentSchedule =
        st.loan.PaymentSchedule ++ [penalty] ∧
      penalty.Amount.toRat = payment.Amount.toRat / 10 ∧
      penalty.PrincipalPart.toRat = 0 ∧
      penalty.InterestPart = penalty.Amount ∧
      penalty.Paid = false ∧
      penalty.DueDate = (env.clock (st.world.tick + 1)).AddDate 0 0 7 ∧
      (env.clock (st.world.tick + 1) = now → penalty.DueDate = now.AddDate 0 0 7) := by
  have hr : (storage.GetAccount env st.world st.loan.AccountID).1 = some account :=
    (storage.GetAccount_eq_some _ _ _ _).2 ⟨hlookup, ha⟩
  have hge := (Decimal.GreaterThanOrEqual_eq_false_iff _ _).2 hlt
  rw [processPayment_penalty env now i payment st account hp hb hr hge]
  exact ⟨rfl, rfl, rfl, rfl, _, rfl, Decimal.toRat_Mul_oneTenth _, Decimal.toRat_Zero, rfl, rfl,
    rfl, fun h => by rw [h]; rfl⟩

set_option maxRecDepth 100000 in
/-- C12 at the sample data: amount 500 with balance 100 gives a penalty of 50,
due on 8 March 2024. -/
theorem C12_witness :
    (processPayment sampleEnv sampleNow 0 sampleLargeInstallment
      (sampleState ⟨100, 0⟩ [sampleLargeInstallment] ⟨1000, 0⟩)).loan.PaymentSchedule =
      [sampleLargeInstallment,
        { DueDate := ⟨2024, 3, 8, 0⟩, Amount := ⟨500, -1⟩, PrincipalPart := Decimal.Zero
          InterestPart := ⟨500, -1⟩, Paid := false }] ∧
    (⟨500, -1⟩ : Decimal).toRat = 50 ∧
    ((processPayment sampleEnv sampleNow 0 sampleLargeInstallment
      (sampleState ⟨100, 0⟩ [sampleLargeInstallment] ⟨1000, 0⟩)).world.accounts =
      (sampleState ⟨100, 0⟩ [sampleLargeInstallment] ⟨1000, 0⟩).world.accounts ∧
    (processPayment sampleEnv sampleNow 0 sampleLargeInstallment
      (sampleState ⟨100, 0⟩ [sampleLargeInstallment] ⟨1000, 0⟩)).world.loans =
      (sampleState ⟨100, 0⟩ [sampleLargeInstallment] ⟨1000, 0⟩).world.loans ∧
    (processPayment sampleEnv sampleNow 0 sampleLargeInstallment
      (sampleState ⟨100, 0⟩ [sampleLargeInstallment] ⟨1000, 0⟩)).world.transactions =
      (sampleState ⟨100, 0⟩ [sampleLargeInstallment] ⟨1000, 0⟩).world.transactions ∧
    (processPayment sampleEnv sampleNow 0 sampleLargeInstallment
      (sampleState ⟨100, 0⟩ [sampleLargeInstallment] ⟨1000, 0⟩)).loan.RemainingAmount =
      (sampleState ⟨100, 0⟩ [sampleLargeInstallment] ⟨1000, 0⟩).loan.RemainingAmount ∧
    ∃ penalty, (processPayment sampleEnv sampleNow 0 sampleLargeInstallment
        (sampleState ⟨100, 0⟩ [sampleLargeInstallment] ⟨1000, 0⟩)).loan.PaymentSchedule =
        (sampleState ⟨100, 0⟩ [sampleLargeInstallment] ⟨1000, 0⟩).loan.PaymentSchedule ++
          [penalty] ∧
      penalty.Amount.toRat = sampleLargeInstallment.Amount.toRat / 10 ∧
      penalty.PrincipalPart.toRat = 0 ∧
      penalty.InterestPart = penalty.Amount ∧
      penalty.Paid = false ∧
      penalty.DueDate = (sampleEnv.clock
        ((sampleState ⟨100, 0⟩ [sampleLargeInstallment] ⟨1000, 0⟩).world.tick + 1)).AddDate
          0 0 7 ∧
      (sampleEnv.clock ((sampleState ⟨100, 0⟩ [sampleLargeInstallment] ⟨1000, 0⟩).world.tick + 1)
        = sampleNow → penalty.DueDate = sampleNow.AddDate 0 0 7)) :=
  ⟨by decide, by norm_num [Decimal.toRat],
    C12_penalty_accrual sampleEnv sampleNow 0 sampleLargeInstallment
      (sampleState ⟨100, 0⟩ [sampleLargeInstallment] ⟨1000, 0⟩) ⟨"a", ⟨100, 0⟩⟩
      rfl (by decide) rfl rfl (by norm_num [Decimal.toRat, sampleLargeInstallment])⟩

set_option maxRecDepth 100000 in
/-- C13 as stated fails: for an installment of 105.45 that cannot be covered
the appended penalty is 10.545, which is not a whole number of cents and is
not 10.54, the value of 10.545 rounded half-to-even to 2 fractional digits. -/
theorem C13_counterexample :
    sampleOddInstallment.Paid = false ∧ sampleOddInstallment.DueDate.Before sampleNow = true ∧
    (processPayment sampleEnv sampleNow 0 sampleOddInstallment
      (sampleState ⟨100, 0⟩ [sampleOddInstallment] ⟨1000, 0⟩)).loan.PaymentSchedule =
      [sampleOddInstallment,
        { DueDate := ⟨2024, 3, 8, 0⟩, Amount := ⟨10545, -3⟩, PrincipalPart := Decimal.Zero
          InterestPart := ⟨10545, -3⟩, Paid := false }] ∧
    (⟨10545, -3⟩ : Decimal).toRat = 10545 / 1000 ∧
    roundHalfEven (sampleOddInstallment.Amount.toRat / 10) 2 = 1054 / 100 ∧
    (⟨10545, -3⟩ : Decimal).toRat ≠ roundHalfEven (sampleOddInstallment.Amount.toRat / 10) 2 ∧
    ¬ isCents (⟨10545, -3⟩ : Decimal).toRat := by
  have hv : (⟨10545, -3⟩ : Decimal).toRat = 10545 / 1000 := by norm_num [Decimal.toRat]
  have hr : roundHalfEven (sampleOddInstallment.Amount.toRat / 10) 2 = 1054 / 100 := by
    unfold roundHalfEven
    have hs : sampleOddInstallment.Amount.toRat / 10 * (10 : ℚ) ^ (2 : Int) = 2109 / 2 := by
      norm_num [Decimal.toRat, sampleOddInstallment]
    have hf : ⌊(2109 / 2 : ℚ)⌋ = 1054 := by
      rw [Int.floor_eq_iff]; norm_num
    simp only [hs, hf]
    norm_num
  refine ⟨rfl, by decide, by decide, hv, hr, ?_, ?_⟩
  · rw [hv, hr]; norm_num
  · rw [hv]
    rintro ⟨n, hn⟩
    have h2 : (2109 : ℚ) = 2 * n := by linarith
    have h3 : (2109 : Int) = 2 * n := by exact_mod_cast h2
    omega

/-- C13 (amended): for every overdue unpaid installment that cannot be covered
the amount of the appended penalty installment is exactly the installment
amount multiplied by 0.1, with no rounding; it is a whole number of cents
exactly when the installment amount is a whole number of tenths. -/
theorem C13_penalty_is_exact_tenth (env : Env) (now : Time) (i : Nat) (payment : Payment)
    (st : LoanState) (account : Account)
    (hp : payment.Paid = false) (hb : payment.DueDate.Before now = true)
    (hlookup : env.fails st.world.tick = false)
    (ha : st.world.accounts st.loan.AccountID = some account)
    (hlt : account.Balance.toRat < payment.Amount.toRat) :
    ∃ penalty, (processPayment env now i payment st).loan.PaymentSchedule =
        st.loan.PaymentSchedule ++ [penalty] ∧
      penalty.Amount = payment.Amount.Mul Decimal.oneTenth ∧
      penalty.Amount.toRat = payment.Amount.toRat / 10 ∧
      (isCents penalty.Amount.toRat ↔ ∃ n : Int, payment.Amount.toRat = (n : ℚ) / 10) := by
  have hr : (storage.GetAccount env st.world st.loan.AccountID).1 = some account :=
    (storage.GetAccount_eq_some _ _ _ _).2 ⟨hlookup, ha⟩
  have hge := (Decimal.GreaterThanOrEqual_eq_false_iff _ _).2 hlt
  rw [processPayment_penalty env now i payment st account hp hb hr hge]
  refine ⟨_, rfl, rfl, Decimal.toRat_Mul_oneTenth _, ?_⟩
  show isCents (payment.Amount.Mul Decimal.oneTenth).toRat ↔ _
  rw [Decimal.toRat_Mul_oneTenth]
  constructor
  · rintro ⟨n, hn⟩
    exact ⟨n, by linarith⟩
  · rintro ⟨n, hn⟩
    exact ⟨n, by rw [hn]; ring⟩

/-- C13 (amended) at the sample data: an installment of 105.45 gives a penalty of 10.545. -/
theorem C13_witness :
    ∃ penalty, (processPayment sampleEnv sampleNow 0 sampleOddInstallment
        (sampleState ⟨100, 0⟩ [sampleOddInstallment] ⟨1000, 0⟩)).loan.PaymentSchedule =
        (sampleState ⟨100, 0⟩ [sampleOddInstallment] ⟨1000, 0⟩).loan.PaymentSchedule ++
          [penalty] ∧
      penalty.Amount = sampleOddInstallment.Amount.Mul Decimal.oneTenth ∧
      penalty.Amount.toRat = sampleOddInstallment.Amount.toRat / 10 ∧
      (isCents penalty.Amount.toRat ↔
        ∃ n : Int, sampleOddInstallment.Amount.toRat = (n : ℚ) / 10) :=
  C13_penalty_is_exact_tenth sampleEnv sampleNow 0 sampleOddInstallment
    (sampleState ⟨100, 0⟩ [sampleOddInstallment] ⟨1000, 0⟩) ⟨"a", ⟨100, 0⟩⟩
    rfl (by decide) rfl rfl (by norm_num [Decimal.toRat, sampleOddInstallment])

theorem processLoan_skip (env : Env) (now : Time) (w : World) (loan : Loan)
    (h : loan.RemainingAmount.IsZero = true) : processLoan env now w loan = w := by
  unfold processLoan
  simp only [h, if_true]

/-- C16: a loan whose remaining principal is exactly zero is passed over: the
cycle's treatment of that loan returns the storage as it was, event counter
included (no installment is looked at, no account is read or debited, nothing
is appended and the loan is not rewritten), whatever its installments are; so
a cycle over a list of loans gives the same result with that loan removed from
the list. -/
theorem C16_zero_remaining_loan_is_skipped (env : Env) (now : Time) (w : World) (loan : Loan)
    (h : loan.RemainingAmount.toRat = 0) :
    processLoan env now w loan = w ∧
    ∀ before after : List Loan,
      (before ++ loan :: after).foldl (processLoan env now) w =
        (before ++ after).foldl (processLoan env now) w := by
  have hz := (Decimal.IsZero_iff _).2 h
  refine ⟨processLoan_skip env now w loan hz, fun before after => ?_⟩
  rw [List.foldl_append, List.foldl_append, List.foldl_cons, processLoan_skip env now _ loan hz]

/-- C16 at the sample data: a loan with nothing remaining and an overdue unpaid installment. -/
theorem C16_witness :
    processLoan sampleEnv sampleNow
        (sampleWorld ⟨1000, 0⟩ [sampleLoan [sampleInstallment] Decimal.Zero])
        (sampleLoan [sampleInstallment] Decimal.Zero) =
      sampleWorld ⟨1000, 0⟩ [sampleLoan [sampleInstallment] Decimal.Zero] ∧
    ∀ before after : List Loan,
      (before ++ sampleLoan [sampleInstallment] Decimal.Zero :: after).foldl
          (processLoan sampleEnv sampleNow)
          (sampleWorld ⟨1000, 0⟩ [sampleLoan [sampleInstallment] Decimal.Zero]) =
        (before ++ after).foldl (processLoan sampleEnv sampleNow)
          (sampleWorld ⟨1000, 0⟩ [sampleLoan [sampleInstallment] Decimal.Zero]) :=
  C16_zero_remaining_loan_is_skipped sampleEnv sampleNow
    (sampleWorld ⟨1000, 0⟩ [sampleLoan [sampleInstallment] Decimal.Zero])
    (sampleLoan [sampleInstallment] Decimal.Zero) Decimal.toRat_Zero

theorem markPaid_getElem_paid (s : List Payment) (i j : Nat) (p : Payment)
    (h : s[j]? = some p) (hp : p.Paid = true) : (markPaid s i)[j]? = some p := by
  by_cases hji : j = i
  · subst hji
    rw [markPaid_getElem_self s j p h]
    cases p
    simp only at hp
    simp only [hp]
  · rw [markPaid_getElem_ne s i j hji, h]

/-- A paid installment of the schedule is never changed by the treatment of an installment. -/
theorem processPayment_keeps_paid (env : Env) (now : Time) (i : Nat) (payment : Payment)
    (st : LoanState) (j : Nat) (p : Payment)
    (h : st.loan.PaymentSchedule[j]? = some p) (hp : p.Paid = true) :
    (processPayment env now i payment st).loan.PaymentSchedule[j]? = some p := by
  rcases processPayment_cases env now i payment st with ⟨_, e⟩ | ⟨_, _, hc⟩
  · rw [e]; exact h
  · rcases hc with ⟨_, e⟩ | ⟨account, _, _, ⟨_, _, e⟩ | ⟨_, _, e⟩ | ⟨_, e⟩⟩
    · rw [e]; exact h
    · rw [e]; exact h
    · rw [e]; exact markPaid_getElem_paid _ _ _ _ h hp
    · rw [e]
      show (st.loan.PaymentSchedule ++ _)[j]? = some p
      rw [List.getElem?_append_left (by
        rcases Nat.lt_or_ge j st.loan.PaymentSchedule.length with hl | hl
        · exact hl
        · rw [List.getElem?_eq_none hl] at h; exact absurd h (by simp))]
      exact h

theorem paymentLoop_keeps_paid (env : Env) (now : Time) (rest : List Payment) :
    ∀ (i : Nat) (st : LoanState) (j : Nat) (p : Payment),
      st.loan.PaymentSchedule[j]? = some p → p.Paid = true →
      (paymentLoop env now rest i st).loan.PaymentSchedule[j]? = some p := by
  induction rest with
  | nil => intro i st j p h _; exact h
  | cons q rest ih =>
    intro i st j p h hp
    exact ih (i + 1) _ j p (processPayment_keeps_paid env now i q st j p h hp) hp

/-- C18: when, for an unpaid installment due strictly before now, the lookup of
the account fails, or the account is found with a sufficient balance and the
debit fails, the loop returns its state with only the event counter advanced
(the loan, so also the installment, the schedule and the remaining principal,
the accounts, the stored loans and the transactions are as before) and goes on
with the later installments from that state; the treatment of a loan always
returns a storage from which the later loans are treated. -/
theorem C18_failures_have_no_effect (env : Env) (now : Time) (i : Nat) (payment : Payment)
    (rest : List Payment) (st : LoanState)
    (hp : payment.Paid = false) (hb : payment.DueDate.Before now = true) :
    ((storage.GetAccount env st.world st.loan.AccountID).1 = none →
      processPayment env now i payment st = { st with world := st.world.next } ∧
      paymentLoop env now (payment :: rest) i st =
        paymentLoop env now rest (i + 1) { st with world := st.world.next }) ∧
    (∀ account, (storage.GetAccount env st.world st.loan.AccountID).1 = some account →
      payment.Amount.toRat ≤ account.Balance.toRat →
      (storage.UpdateAccountBalance env st.world.next st.loan.AccountID
        payment.Amount.Neg).1 = false →
      processPayment env now i payment st = { st with world := st.world.next.next } ∧
      paymentLoop env now (payment :: rest) i st =
        paymentLoop env now rest (i + 1) { st with world := st.world.next.next }) ∧
    st.world.next.accounts = st.world.accounts ∧
    st.world.next.loans = st.world.loans ∧
    st.world.next.transactions = st.world.transactions ∧
    (∀ (w : World) (loan : Loan) (later : List Loan),
      (loan :: later).foldl (processLoan env now) w =
        later.foldl (processLoan env now) (processLoan env now w loan)) := by
  refine ⟨fun hr => ?_, fun account hr hge hu => ?_, rfl, rfl, rfl, fun _ _ _ => rfl⟩
  · have e := processPayment_lookup_failed env now i payment st hp hb hr
    refine ⟨e, ?_⟩
    show paymentLoop env now rest (i + 1) (processPayment env now i payment st) = _
    rw [e]
  · have e := processPayment_debit_failed env now i payment st account hp hb hr
      ((Decimal.GreaterThanOrEqual_iff _ _).2 hge) hu
    refine ⟨e, ?_⟩
    show paymentLoop env now rest (i + 1) (processPayment env now i payment st) = _
    rw [e]

set_option maxRecDepth 100000 in
/-- C18 at the sample data: a failing lookup and a failing debit. -/
theorem C18_witness :
    (processPayment (sampleEnvFailsAt 0) sampleNow 0 sampleInstallment
        (sampleState ⟨1000, 0⟩ [sampleInstallment] ⟨1000, 0⟩) =
      { sampleState ⟨1000, 0⟩ [sampleInstallment] ⟨1000, 0⟩ with
        world := (sampleState ⟨1000, 0⟩ [sampleInstallment] ⟨1000, 0⟩).world.next } ∧
     paymentLoop (sampleEnvFailsAt 0) sampleNow [sampleInstallment] 0
        (sampleState ⟨1000, 0⟩ [sampleInstallment] ⟨1000, 0⟩) =
      paymentLoop (sampleEnvFailsAt 0) sampleNow [] (0 + 1)
        { sampleState ⟨1000, 0⟩ [sampleInstallment] ⟨1000, 0⟩ with
          world := (sampleState ⟨1000, 0⟩ [sampleInstallment] ⟨1000, 0⟩).world.next }) ∧
    (processPayment (sampleEnvFailsAt 1) sampleNow 0 sampleInstallment
        (sampleState ⟨1000, 0⟩ [sampleInstallment] ⟨1000, 0⟩) =
      { sampleState ⟨1000, 0⟩ [sampleInstallment] ⟨1000, 0⟩ with
        world := (sampleState ⟨1000, 0⟩ [sampleInstallment] ⟨1000, 0⟩).world.next.next } ∧
     paymentLoop (sampleEnvFailsAt 1) sampleNow [sampleInstallment] 0
        (sampleState ⟨1000, 0⟩ [sampleInstallment] ⟨1000, 0⟩) =
      paymentLoop (sampleEnvFailsAt 1) sampleNow [] (0 + 1)
        { sampleState ⟨1000, 0⟩ [sampleInstallment] ⟨1000, 0⟩ with
          world := (sampleState ⟨1000, 0⟩ [sampleInstallment] ⟨1000, 0⟩).world.next.next }) :=
  ⟨(C18_failures_have_no_effect (sampleEnvFailsAt 0) sampleNow 0 sampleInstallment []
      (sampleState ⟨1000, 0⟩ [sampleInstallment] ⟨1000, 0⟩) rfl (by decide)).1 (by decide),
   (C18_failures_have_no_effect (sampleEnvFailsAt 1) sampleNow 0 sampleInstallment []
      (sampleState ⟨1000, 0⟩ [sampleInstallment] ⟨1000, 0⟩) rfl (by decide)).2.1
      ⟨"a", ⟨1000, 0⟩⟩ (by decide) (by norm_num [Decimal.toRat, sampleInstallment])
      (by decide)⟩

/-! ## What the settlement cycle keeps true of every stored loan -/

/-- The loop over a schedule keeps every property of the loan that settling an
unpaid installment and appending a penalty keep. The schedule of the loan is
`pre ++ rest ++ pens`: the installments already treated, those still to treat
and the penalties appended so far. -/
theorem paymentLoop_loan_invariant (J : Loan → Prop)
    (hsettle : ∀ (L : Loan) (pre : List Payment) (p : Payment) (post : List Payment),
      J L → L.PaymentSchedule = pre ++ p :: post → p.Paid = false →
      J { L with PaymentSchedule := pre ++ { p with Paid := true } :: post
                 RemainingAmount := L.RemainingAmount.Sub p.PrincipalPart })
    (hpen : ∀ (L : Loan) (pen : Payment), J L → pen.PrincipalPart = Decimal.Zero →
      pen.Paid = false → J { L with PaymentSchedule := L.PaymentSchedule ++ [pen] })
    (env : Env) (now : Time) (rest : List Payment) :
    ∀ (pre pens : List Payment) (st : LoanState),
      st.loan.PaymentSchedule = pre ++ rest ++ pens → J st.loan →
      J (paymentLoop env now rest pre.length st).loan := by
  induction rest with
  | nil => intro pre pens st _ hJ; exact hJ
  | cons q rest ih =>
    intro pre pens st hs hJ
    have hs' : st.loan.PaymentSchedule = pre ++ q :: (rest ++ pens) := by
      rw [hs]; simp
    have hlen : (pre ++ [q]).length = pre.length + 1 := by simp
    show J (paymentLoop env now rest (pre.length + 1)
      (processPayment env now pre.length q st)).loan
    rcases processPayment_cases env now pre.length q st with ⟨_, e⟩ | ⟨hp, _, hc⟩
    · rw [e, ← hlen]
      exact ih (pre ++ [q]) pens st (by rw [hs]; simp) hJ
    · rcases hc with ⟨_, e⟩ | ⟨account, _, _, ⟨_, _, e⟩ | ⟨_, _, e⟩ | ⟨_, e⟩⟩
      · rw [e, ← hlen]
        exact ih (pre ++ [q]) pens _ (by show st.loan.PaymentSchedule = _; rw [hs]; simp) hJ
      · rw [e, ← hlen]
        exact ih (pre ++ [q]) pens _ (by show st.loan.PaymentSchedule = _; rw [hs]; simp) hJ
      · rw [e, ← hlen]
        have hm : markPaid st.loan.PaymentSchedule pre.length =
            pre ++ { q with Paid := true } :: (rest ++ pens) := by
          rw [hs', markPaid_append]
        rw [show (pre ++ [q]).length = (pre ++ [{ q with Paid := true }]).length by simp]
        refine ih (pre ++ [{ q with Paid := true }]) pens _ ?_ ?_
        · show markPaid st.loan.PaymentSchedule pre.length = _
          rw [hm]; simp
        · show J { st.loan with
            PaymentSchedule := markPaid st.loan.PaymentSchedule pre.length
            RemainingAmount := st.loan.RemainingAmount.Sub q.PrincipalPart }
          rw [hm]
          exact hsettle st.loan pre q (rest ++ pens) hJ hs' hp
      · rw [e, ← hlen]
        refine ih (pre ++ [q]) (pens ++ [penaltyInstallment (env.clock (st.world.tick + 1)) q]) _
          ?_ (hpen st.loan _ hJ rfl rfl)
        show st.loan.PaymentSchedule ++ _ = _
        rw [hs]; simp

theorem settledWorld_fields (env : Env) (payment : Payment) (st : LoanState)
    (account : Account) :
    (settledWorld env payment st account).accounts =
      (fun id => if id = st.loan.AccountID then
        some { account with Balance := account.Balance.Add payment.Amount.Neg }
      else st.world.accounts id) ∧
    (settledWorld env payment st account).loans = st.world.loans ∧
    (settledWorld env payment st account).tick = st.world.tick + 5 := by
  unfold settledWorld
  exact storage.AddTransaction_accounts _ _ _

/-- The treatment of an installment never touches the stored loans. -/
theorem processPayment_world_loans (env : Env) (now : Time) (i : Nat) (payment : Payment)
    (st : LoanState) : (processPayment env now i payment st).world.loans = st.world.loans := by
  rcases processPayment_cases env now i payment st with ⟨_, e⟩ | ⟨_, _, hc⟩
  · rw [e]
  · rcases hc with ⟨_, e⟩ | ⟨account, _, _, ⟨_, _, e⟩ | ⟨_, _, e⟩ | ⟨_, e⟩⟩
    · rw [e]; rfl
    · rw [e]; rfl
    · rw [e]; exact (settledWorld_fields env payment st account).2.1
    · rw [e]; rfl

theorem paymentLoop_world_loans (env : Env) (now : Time) (rest : List Payment) :
    ∀ (i : Nat) (st : LoanState), (paymentLoop env now rest i st).world.loans = st.world.loans := by
  induction rest with
  | nil => intro i st; rfl
  | cons q rest ih =>
    intro i st
    show (paymentLoop env now rest (i + 1) (processPayment env now i q st)).world.loans = _
    rw [ih, processPayment_world_loans]

namespace storage

theorem UpdateLoan_fields (env : Env) (w : World) (loan : Loan) :
    (UpdateLoan env w loan).2.accounts = w.accounts ∧
    (UpdateLoan env w loan).2.transactions = w.transactions ∧
    (UpdateLoan env w loan).2.tick = w.tick + 1 ∧
    ((UpdateLoan env w loan).2.loans = w.loans ∨
      (UpdateLoan env w loan).2.loans =
        w.loans.map (fun l => if l.ID = loan.ID then loan else l)) := by
  unfold UpdateLoan
  split_ifs
  · exact ⟨rfl, rfl, rfl, Or.inl rfl⟩
  · exact ⟨rfl, rfl, rfl, Or.inr rfl⟩
  · exact ⟨rfl, rfl, rfl, Or.inl rfl⟩

theorem UpdateLoan_ok (env : Env) (w : World) (loan : Loan) (hf : env.fails w.tick = false)
    (hex : ∃ l ∈ w.loans, l.ID = loan.ID) :
    UpdateLoan env w loan =
      (true, { w.next with loans := w.loans.map (fun l => if l.ID = loan.ID then loan else l) }) := by
  unfold UpdateLoan
  have hany : w.loans.any (fun l => decide (l.ID = loan.ID)) = true := by
    rw [List.any_eq_true]
    obtain ⟨l, hl, hid⟩ := hex
    exact ⟨l, hl, by simpa using hid⟩
  simp only [hf, Bool.false_eq_true, if_false, hany, if_true]

end storage

theorem processLoan_unmodified (env : Env) (now : Time) (w : World) (loan : Loan)
    (hz : loan.RemainingAmount.IsZero = false)
    (hm : (paymentLoop env now loan.PaymentSchedule 0
      { loan := loan, modified := false, world := w }).modified = false) :
    processLoan env now w loan =
      (paymentLoop env now loan.PaymentSchedule 0
        { loan := loan, modified := false, world := w }).world := by
  unfold processLoan
  simp only [hz, Bool.false_eq_true, if_false, hm]

theorem processLoan_modified (env : Env) (now : Time) (w : World) (loan : Loan)
    (hz : loan.RemainingAmount.IsZero = false)
    (hm : (paymentLoop env now loan.PaymentSchedule 0
      { loan := loan, modified := false, world := w }).modified = true) :
    processLoan env now w loan =
      (storage.UpdateLoan env
        (paymentLoop env now loan.PaymentSchedule 0
          { loan := loan, modified := false, world := w }).world
        (paymentLoop env now loan.PaymentSchedule 0
          { loan := loan, modified := false, world := w }).loan).2 := by
  unfold processLoan
  simp only [hz, Bool.false_eq_true, if_false, hm, if_true]

/-- After the treatment of a loan every stored loan has the property `J`, when
the treated loan and the stored loans had it and settling and penalising keep it. -/
theorem processLoan_loans_invariant (J : Loan → Prop)
    (hsettle : ∀ (L : Loan) (pre : List Payment) (p : Payment) (post : List Payment),
      J L → L.PaymentSchedule = pre ++ p :: post → p.Paid = false →
      J { L with PaymentSchedule := pre ++ { p with Paid := true } :: post
                 RemainingAmount := L.RemainingAmount.Sub p.PrincipalPart })
    (hpen : ∀ (L : Loan) (pen : Payment), J L → pen.PrincipalPart = Decimal.Zero →
      pen.Paid = false → J { L with PaymentSchedule := L.PaymentSchedule ++ [pen] })
    (env : Env) (now : Time) (w : World) (loan : Loan) (hJ : J loan)
    (hW : ∀ L ∈ w.loans, J L) :
    ∀ L ∈ (processLoan env now w loan).loans, J L := by
  cases hz : loan.RemainingAmount.IsZero
  swap
  · rw [processLoan_skip env now w loan hz]; exact hW
  have hfin := paymentLoop_loan_invariant J hsettle hpen env now loan.PaymentSchedule [] []
    { loan := loan, modified := false, world := w } (by simp) hJ
  have hloans := paymentLoop_world_loans env now loan.PaymentSchedule 0
    { loan := loan, modified := false, world := w }
  simp only [List.length_nil] at hfin
  cases hm : (paymentLoop env now loan.PaymentSchedule 0
      { loan := loan, modified := false, world := w }).modified
  · rw [processLoan_unmodified env now w loan hz hm, hloans]
    exact hW
  · rw [processLoan_modified env now w loan hz hm]
    rcases (storage.UpdateLoan_fields env (paymentLoop env now loan.PaymentSchedule 0
      { loan := loan, modified := false, world := w }).world (paymentLoop env now
      loan.PaymentSchedule 0 { loan := loan, modified := false, world := w }).loan).2.2.2
      with e | e
    · rw [e, hloans]; exact hW
    · rw [e, hloans]
      intro L hL
      rw [List.mem_map] at hL
      obtain ⟨l, hl, rfl⟩ := hL
      by_cases hid : l.ID = (paymentLoop env now loan.PaymentSchedule 0
          { loan := loan, modified := false, world := w }).loan.ID
      · rw [if_pos hid]; exact hfin
      · rw [if_neg hid]; exact hW l hl

theorem foldl_processLoan_loans_invariant (J : Loan → Prop)
    (hsettle : ∀ (L : Loan) (pre : List Payment) (p : Payment) (post : List Payment),
      J L → L.PaymentSchedule = pre ++ p :: post → p.Paid = false →
      J { L with PaymentSchedule := pre ++ { p with Paid := true } :: post
                 RemainingAmount := L.RemainingAmount.Sub p.PrincipalPart })
    (hpen : ∀ (L : Loan) (pen : Payment), J L → pen.PrincipalPart = Decimal.Zero →
      pen.Paid = false → J { L with PaymentSchedule := L.PaymentSchedule ++ [pen] })
    (env : Env) (now : Time) (ls : List Loan) :
    ∀ (w : World), (∀ L ∈ ls, J L) → (∀ L ∈ w.loans, J L) →
      ∀ L ∈ (ls.foldl (processLoan env now) w).loans, J L := by
  induction ls with
  | nil => intro w _ hW; exact hW
  | cons l ls ih =>
    intro w hls hW
    rw [List.foldl_cons]
    exact ih _ (fun L hL => hls L (List.mem_cons_of_mem _ hL))
      (processLoan_loans_invariant J hsettle hpen env now w l (hls l (List.mem_cons_self _ _)) hW)

/-- A settlement cycle keeps every property of the stored loans that reading a
loan back from the storage, settling an unpaid installment and appending a
penalty keep. -/
theorem processOverduePayments_loans_invariant (J : Loan → Prop)
    (hsettle : ∀ (L : Loan) (pre : List Payment) (p : Payment) (post : List Payment),
      J L → L.PaymentSchedule = pre ++ p :: post → p.Paid = false →
      J { L with PaymentSchedule := pre ++ { p with Paid := true } :: post
                 RemainingAmount := L.RemainingAmount.Sub p.PrincipalPart })
    (hpen : ∀ (L : Loan) (pen : Payment), J L → pen.PrincipalPart = Decimal.Zero →
      pen.Paid = false → J { L with PaymentSchedule := L.PaymentSchedule ++ [pen] })
    (hload : ∀ L, J L → J (loadLoan L))
    (env : Env) (w : World) (hW : ∀ L ∈ w.loans, J L) :
    ∀ L ∈ (processOverduePayments env w).loans, J L := by
  unfold processOverduePayments
  simp only
  apply foldl_processLoan_loans_invariant J hsettle hpen
  · intro L hL
    unfold storage.GetAllLoans at hL
    split_ifs at hL
    · simp at hL
    · simp only [List.mem_map] at hL
      obtain ⟨l, hl, rfl⟩ := hL
      exact hload l (hW l hl)
  · have : (timeNow env (storage.GetAllLoans env w).2).2.loans = w.loans := by
      unfold timeNow storage.GetAllLoans
      split_ifs <;> rfl
    rw [this]; exact hW

theorem runCycles_loans_invariant (J : Loan → Prop)
    (hsettle : ∀ (L : Loan) (pre : List Payment) (p : Payment) (post : List Payment),
      J L → L.PaymentSchedule = pre ++ p :: post → p.Paid = false →
      J { L with PaymentSchedule := pre ++ { p with Paid := true } :: post
                 RemainingAmount := L.RemainingAmount.Sub p.PrincipalPart })
    (hpen : ∀ (L : Loan) (pen : Payment), J L → pen.PrincipalPart = Decimal.Zero →
      pen.Paid = false → J { L with PaymentSchedule := L.PaymentSchedule ++ [pen] })
    (hload : ∀ L, J L → J (loadLoan L))
    (env : Env) (k : Nat) :
    ∀ (w : World), (∀ L ∈ w.loans, J L) → ∀ L ∈ (runCycles env k w).loans, J L := by
  induction k with
  | zero => intro w hW; exact hW
  | succ k ih =>
    intro w hW
    exact ih _ (processOverduePayments_loans_invariant J hsettle hpen hload env w hW)

/-! ## The remaining principal -/

theorem principalSum_append (s t : List Payment) :
    principalSum (s ++ t) = principalSum s + principalSum t := by
  simp [principalSum]

theorem principalSum_perm {s t : List Payment} (h : s.Perm t) :
    principalSum s = principalSum t :=
  (h.map _).sum_eq

theorem paidPrincipal_nil : paidPrincipal [] = 0 := rfl

theorem paidPrincipal_cons (p : Payment) (s : List Payment) :
    paidPrincipal (p :: s) = (if p.Paid = true then p.PrincipalPart.toRat else 0) +
      paidPrincipal s := by
  unfold paidPrincipal
  cases h : p.Paid
  · simp [List.filter_cons, h]
  · simp [List.filter_cons, h, principalSum_cons]

theorem paidPrincipal_append (s t : List Payment) :
    paidPrincipal (s ++ t) = paidPrincipal s + paidPrincipal t := by
  unfold paidPrincipal
  rw [List.filter_append, principalSum_append]

theorem paidPrincipal_perm {s t : List Payment} (h : s.Perm t) :
    paidPrincipal s = paidPrincipal t :=
  principalSum_perm (h.filter _)

theorem paidPrincipal_of_unpaid (s : List Payment) (h : ∀ p ∈ s, p.Paid = false) :
    paidPrincipal s = 0 := by
  induction s with
  | nil => rfl
  | cons p s ih =>
    rw [paidPrincipal_cons, ih (fun q hq => h q (List.mem_cons_of_mem _ hq)),
      h p (List.mem_cons_self _ _)]
    simp

/-- When every unpaid installment has principal part zero, the principal paid
is the whole principal of the schedule. -/
theorem paidPrincipal_eq_principalSum (s : List Payment)
    (h : ∀ p ∈ s, p.Paid = false → p.PrincipalPart.toRat = 0) :
    paidPrincipal s = principalSum s := by
  induction s with
  | nil => rfl
  | cons p s ih =>
    rw [paidPrincipal_cons, principalSum_cons, ih (fun q hq => h q (List.mem_cons_of_mem _ hq))]
    cases hp : p.Paid
    · rw [h p (List.mem_cons_self _ _) hp]; simp
    · simp

theorem loadLoan_perm (L : Loan) : (loadLoan L).PaymentSchedule.Perm L.PaymentSchedule :=
  List.perm_insertionSort _ _

theorem RemainingInvariant_settle (P : ℚ) (s0 : List Payment) (L : Loan) (pre : List Payment)
    (p : Payment) (post : List Payment) (h : RemainingInvariant P s0 L)
    (hs : L.PaymentSchedule = pre ++ p :: post) (hp : p.Paid = false) :
    RemainingInvariant P s0
      { L with PaymentSchedule := pre ++ { p with Paid := true } :: post
               RemainingAmount := L.RemainingAmount.Sub p.PrincipalPart } := by
  obtain ⟨h1, h2, h3⟩ := h
  rw [hs] at h1 h2 h3
  refine ⟨?_, ?_, ?_⟩
  · show (L.RemainingAmount.Sub p.PrincipalPart).toRat =
      P - paidPrincipal (pre ++ { p with Paid := true } :: post)
    rw [Decimal.toRat_Sub, h1, paidPrincipal_append, paidPrincipal_append, paidPrincipal_cons,
      paidPrincipal_cons, hp]
    simp only [Bool.false_eq_true, if_false, if_true]
    ring
  · show principalSum (pre ++ { p with Paid := true } :: post) = P
    rw [← h2, principalSum_append, principalSum_append, principalSum_cons, principalSum_cons]
  · intro q hq
    have hq' : q ∈ pre ++ { p with Paid := true } :: post := hq
    rw [List.mem_append, List.mem_cons] at hq'
    rcases hq' with hq' | hq' | hq'
    · exact h3 q (List.mem_append_left _ hq')
    · rcases h3 p (List.mem_append_right _ (List.mem_cons_self _ _)) with ⟨o, ho, hso⟩ | hz
      · exact Or.inl ⟨o, ho, by rw [hq']; exact hso⟩
      · exact Or.inr (by rw [hq']; exact hz)
    · exact h3 q (List.mem_append_right _ (List.mem_cons_of_mem _ hq'))

theorem RemainingInvariant_penalise (P : ℚ) (s0 : List Payment) (L : Loan) (pen : Payment)
    (h : RemainingInvariant P s0 L) (hz : pen.PrincipalPart = Decimal.Zero)
    (hp : pen.Paid = false) :
    RemainingInvariant P s0 { L with PaymentSchedule := L.PaymentSchedule ++ [pen] } := by
  obtain ⟨h1, h2, h3⟩ := h
  have hz' : pen.PrincipalPart.toRat = 0 := by rw [hz, Decimal.toRat_Zero]
  refine ⟨?_, ?_, ?_⟩
  · show L.RemainingAmount.toRat = P - paidPrincipal (L.PaymentSchedule ++ [pen])
    rw [h1, paidPrincipal_append, paidPrincipal_cons, hp]
    simp [paidPrincipal_nil]
  · show principalSum (L.PaymentSchedule ++ [pen]) = P
    rw [principalSum_append, principalSum_cons, h2, hz']
    simp [principalSum_nil]
  · intro q hq
    have hq' : q ∈ L.PaymentSchedule ++ [pen] := hq
    rw [List.mem_append, List.mem_singleton] at hq'
    rcases hq' with hq' | hq'
    · exact h3 q hq'
    · exact Or.inr (by rw [hq']; exact hz')

theorem RemainingInvariant_load (P : ℚ) (s0 : List Payment) (L : Loan)
    (h : RemainingInvariant P s0 L) : RemainingInvariant P s0 (loadLoan L) := by
  obtain ⟨h1, h2, h3⟩ := h
  have hperm := loadLoan_perm L
  refine ⟨?_, ?_, ?_⟩
  · show L.RemainingAmount.toRat = _
    rw [h1, paidPrincipal_perm hperm]
  · rw [principalSum_perm hperm, h2]
  · intro q hq
    exact h3 q (hperm.mem_iff.1 hq)

theorem GeneratePaymentSchedule_unpaid (loanAmount annualRate : Decimal) (termMonths : Int)
    (startDate : Time) (monthlyPayment : Decimal) (s : List Payment)
    (hs : GeneratePaymentSchedule loanAmount annualRate termMonths startDate monthlyPayment =
      some s) : ∀ p ∈ s, p.Paid = false := by
  have h : 0 ≤ termMonths := by
    by_contra hc
    unfold GeneratePaymentSchedule at hs
    rw [if_pos (by omega)] at hs
    exact absurd hs (by simp)
  obtain ⟨s', hs', hmap⟩ := GeneratePaymentSchedule_refines loanAmount annualRate termMonths
    startDate monthlyPayment h
  rw [hs] at hs'
  obtain rfl : s = s' := Option.some.inj hs'
  intro p hp
  have hmem : p.toInstallment ∈ s.map Payment.toInstallment := List.mem_map_of_mem _ hp
  rw [hmap] at hmem
  exact recurrence_paid _ _ _ _ _ _ _ hmem

theorem GeneratePaymentSchedule_principalSum (loanAmount annualRate : Decimal)
    (termMonths : Int) (startDate : Time) (monthlyPayment : Decimal) (s : List Payment)
    (h : 1 ≤ termMonths)
    (hs : GeneratePaymentSchedule loanAmount annualRate termMonths startDate monthlyPayment =
      some s) : principalSum s = loanAmount.toRat := by
  rw [GeneratePaymentSchedule_eq _ _ _ _ _ (by omega)] at hs
  obtain rfl := Option.some.inj hs
  exact (scheduleLoop_spec termMonths startDate (monthlyRateOf annualRate)
    termMonths.toNat 0 loanAmount monthlyPayment (by omega) (by omega)).1

/-- The treatment of an installment changes the remaining amount only when it
settles the installment. -/
theorem processPayment_remaining (env : Env) (now : Time) (i : Nat) (payment : Payment)
    (st : LoanState) :
    (processPayment env now i payment st).loan.RemainingAmount = st.loan.RemainingAmount ∨
    (payment.Paid = false ∧ payment.DueDate.Before now = true ∧
      (processPayment env now i payment st).loan.PaymentSchedule =
        markPaid st.loan.PaymentSchedule i ∧
      (processPayment env now i payment st).loan.RemainingAmount =
        st.loan.RemainingAmount.Sub payment.PrincipalPart) := by
  rcases processPayment_cases env now i payment st with ⟨_, e⟩ | ⟨hp, hb, hc⟩
  · rw [e]; exact Or.inl rfl
  · rcases hc with ⟨_, e⟩ | ⟨account, _, _, ⟨_, _, e⟩ | ⟨_, _, e⟩ | ⟨_, e⟩⟩
    · rw [e]; exact Or.inl rfl
    · rw [e]; exact Or.inl rfl
    · rw [e]; exact Or.inr ⟨hp, hb, rfl, rfl⟩
    · rw [e]; exact Or.inl rfl

/-- C15: for a loan stored with remaining amount = principal and a schedule
returned by `GeneratePaymentSchedule` for that principal and `termMonths ≥ 1`,
after any number of settlement cycles (with any clock and any storage
failures) every stored loan with its ID has a remaining amount equal to the
principal minus the sum of the principal parts of the installments marked
paid, and a remaining amount of exactly zero once every installment of the
original schedule is marked paid; and the treatment of an installment leaves
the remaining amount as it is unless it settles that installment. -/
theorem C15_remaining_principal_invariant (principal annualRate : Decimal) (termMonths : Int)
    (startDate : Time) (monthlyPayment : Decimal) (L0 : Loan)
    (hterm : 1 ≤ termMonths)
    (hsched : GeneratePaymentSchedule principal annualRate termMonths startDate monthlyPayment =
      some L0.PaymentSchedule)
    (hrem : L0.RemainingAmount = principal)
    (env : Env) (w0 : World) (hstored : ∀ L ∈ w0.loans, L.ID = L0.ID → L = L0) (k : Nat) :
    (∀ L ∈ (runCycles env k w0).loans, L.ID = L0.ID →
      L.RemainingAmount.toRat = principal.toRat - paidPrincipal L.PaymentSchedule ∧
      ((∀ p ∈ L.PaymentSchedule, isOriginal L0.PaymentSchedule p → p.Paid = true) →
        L.RemainingAmount.toRat = 0)) ∧
    (∀ (now : Time) (i : Nat) (payment : Payment) (st : LoanState),
      (processPayment env now i payment st).loan.RemainingAmount = st.loan.RemainingAmount ∨
      (payment.Paid = false ∧ payment.DueDate.Before now = true ∧
        (processPayment env now i payment st).loan.PaymentSchedule =
          markPaid st.loan.PaymentSchedule i ∧
        (processPayment env now i payment st).loan.RemainingAmount =
          st.loan.RemainingAmount.Sub payment.PrincipalPart)) := by
  refine ⟨?_, fun now i payment st => processPayment_remaining env now i payment st⟩
  have h0 : RemainingInvariant principal.toRat L0.PaymentSchedule L0 := by
    refine ⟨?_, GeneratePaymentSchedule_principalSum _ _ _ _ _ _ hterm hsched, ?_⟩
    · rw [hrem, paidPrincipal_of_unpaid _
        (GeneratePaymentSchedule_unpaid _ _ _ _ _ _ hsched)]
      ring
    · intro p hp
      exact Or.inl ⟨p, hp, rfl, rfl, rfl, rfl⟩
  have hinv := runCycles_loans_invariant
    (fun L => L.ID = L0.ID → RemainingInvariant principal.toRat L0.PaymentSchedule L)
    (fun L pre p post hJ hs hp hid => RemainingInvariant_settle _ _ L pre p post (hJ hid) hs hp)
    (fun L pen hJ hz hp hid => RemainingInvariant_penalise _ _ L pen (hJ hid) hz hp)
    (fun L hJ hid => RemainingInvariant_load _ _ L (hJ hid))
    env k w0 (fun L hL hid => by rw [hstored L hL hid]; exact h0)
  intro L hL hid
  obtain ⟨h1, h2, h3⟩ := hinv L hL hid
  refine ⟨h1, fun hall => ?_⟩
  rw [h1, paidPrincipal_eq_principalSum, h2]
  · ring
  · intro p hp hunpaid
    rcases h3 p hp with ho | hz
    · rw [hall p hp ho] at hunpaid
      exact absurd hunpaid (by decide)
    · exact hz

set_option maxRecDepth 100000 in
/-- C15 at the sample data: a loan of 1000 over 3 months, two cycles on an
account with balance 500; the first installment (principal part 330.02) gets
settled and 669.98 remains. -/
theorem C15_witness :
    (runCycles sampleEnv 2 (sampleWorld ⟨500, 0⟩ [sampleNewLoan])).loans.map
        (fun L => (L.ID, L.RemainingAmount)) = [("l", ⟨66998, -2⟩)] ∧
    ((∀ L ∈ (runCycles sampleEnv 2 (sampleWorld ⟨500, 0⟩ [sampleNewLoan])).loans,
      L.ID = sampleNewLoan.ID →
      L.RemainingAmount.toRat =
        (⟨1000, 0⟩ : Decimal).toRat - paidPrincipal L.PaymentSchedule ∧
      ((∀ p ∈ L.PaymentSchedule, isOriginal sampleNewLoan.PaymentSchedule p → p.Paid = true) →
        L.RemainingAmount.toRat = 0)) ∧
    (∀ (now : Time) (i : Nat) (payment : Payment) (st : LoanState),
      (processPayment sampleEnv now i payment st).loan.RemainingAmount =
        st.loan.RemainingAmount ∨
      (payment.Paid = false ∧ payment.DueDate.Before now = true ∧
        (processPayment sampleEnv now i payment st).loan.PaymentSchedule =
          markPaid st.loan.PaymentSchedule i ∧
        (processPayment sampleEnv now i payment st).loan.RemainingAmount =
          st.loan.RemainingAmount.Sub payment.PrincipalPart))) :=
  ⟨by decide,
    C15_remaining_principal_invariant ⟨1000, 0⟩ ⟨12, 0⟩ 3 ⟨2024, 1, 1, 0⟩
      (CalculateMonthlyPayment ⟨1000, 0⟩ ⟨12, 0⟩ 3) sampleNewLoan (by decide) (by decide) rfl
      sampleEnv (sampleWorld ⟨500, 0⟩ [sampleNewLoan])
      (fun L hL _ => List.mem_singleton.mp hL) 2⟩

/-! ## A second cycle at the same instant -/

theorem AccLe_refl (acc : String → Option Account) : AccLe acc acc :=
  fun _ => ⟨fun h => h, fun a2 h => ⟨a2, h, le_refl _⟩⟩

theorem AccLe_trans {a3 a2 a1 : String → Option Account} (h32 : AccLe a3 a2)
    (h21 : AccLe a2 a1) : AccLe a3 a1 := by
  intro id
  refine ⟨fun h => (h32 id).1 ((h21 id).1 h), fun x hx => ?_⟩
  obtain ⟨y, hy, hxy⟩ := (h32 id).2 x hx
  obtain ⟨z, hz, hyz⟩ := (h21 id).2 y hy
  exact ⟨z, hz, le_trans hxy hyz⟩

theorem Unaffordable_mono {now : Time} {acc2 acc : String → Option Account} (h : AccLe acc2 acc)
    {accountID : String} {s : List Payment} (hq : Unaffordable now acc accountID s) :
    Unaffordable now acc2 accountID s := by
  intro p hp hpaid hb a2 ha2
  obtain ⟨a, ha, hle⟩ := (h accountID).2 a2 ha2
  exact lt_of_le_of_lt hle (hq p hp hpaid hb a ha)

theorem QuietFor_mono {now : Time} {acc2 acc : String → Option Account} (h : AccLe acc2 acc)
    {L : Loan} (hq : QuietFor now acc L) : QuietFor now acc2 L :=
  fun hz => Unaffordable_mono h (hq hz)

theorem QuietFor_load {now : Time} {acc : String → Option Account} {L : Loan} :
    QuietFor now acc (loadLoan L) ↔ QuietFor now acc L := by
  have hperm := loadLoan_perm L
  constructor
  · intro h hz p hp
    exact h hz p (hperm.mem_iff.2 hp)
  · intro h hz p hp
    exact h hz p (hperm.mem_iff.1 hp)

/-- The loop over installments none of which can be paid debits nothing and
records no transaction. -/
theorem paymentLoop_quiet (env : Env) (now : Time) (rest : List Payment) :
    ∀ (i : Nat) (st : LoanState),
      Unaffordable now st.world.accounts st.loan.AccountID rest →
      (paymentLoop env now rest i st).world.accounts = st.world.accounts ∧
      (paymentLoop env now rest i st).world.transactions = st.world.transactions := by
  induction rest with
  | nil => intro i st _; exact ⟨rfl, rfl⟩
  | cons q rest ih =>
    intro i st hq
    have hrest : Unaffordable now st.world.accounts st.loan.AccountID rest :=
      fun p hp => hq p (List.mem_cons_of_mem _ hp)
    show (paymentLoop env now rest (i + 1) (processPayment env now i q st)).world.accounts = _ ∧
      (paymentLoop env now rest (i + 1) (processPayment env now i q st)).world.transactions = _
    rcases processPayment_cases env now i q st with ⟨_, e⟩ | ⟨hp, hb, hc⟩
    · rw [e]; exact ih (i + 1) st hrest
    · rcases hc with ⟨_, e⟩ | ⟨account, _, ha, ⟨hge, _, _⟩ | ⟨hge, _, _⟩ | ⟨_, e⟩⟩
      · rw [e]; exact ih (i + 1) _ hrest
      · have := hq q (List.mem_cons_self _ _) hp hb account ha
        rw [Decimal.GreaterThanOrEqual_iff] at hge
        exact absurd hge (not_le.mpr this)
      · have := hq q (List.mem_cons_self _ _) hp hb account ha
        rw [Decimal.GreaterThanOrEqual_iff] at hge
        exact absurd hge (not_le.mpr this)
      · rw [e]; exact ih (i + 1) _ hrest

theorem processLoan_quiet (env : Env) (now : Time) (w : World) (loan : Loan)
    (hq : QuietFor now w.accounts loan) :
    (processLoan env now w loan).accounts = w.accounts ∧
    (processLoan env now w loan).transactions = w.transactions := by
  cases hz : loan.RemainingAmount.IsZero
  swap
  · rw [processLoan_skip env now w loan hz]; exact ⟨rfl, rfl⟩
  have hloop := paymentLoop_quiet env now loan.PaymentSchedule 0
    { loan := loan, modified := false, world := w } (hq hz)
  cases hm : (paymentLoop env now loan.PaymentSchedule 0
      { loan := loan, modified := false, world := w }).modified
  · rw [processLoan_unmodified env now w loan hz hm]; exact hloop
  · rw [processLoan_modified env now w loan hz hm]
    obtain ⟨h1, h2, _, _⟩ := storage.UpdateLoan_fields env (paymentLoop env now
      loan.PaymentSchedule 0 { loan := loan, modified := false, world := w }).world
      (paymentLoop env now loan.PaymentSchedule 0
        { loan := loan, modified := false, world := w }).loan
    rw [h1, h2]; exact hloop

theorem foldl_processLoan_quiet (env : Env) (now : Time) (ls : List Loan) :
    ∀ (w : World), (∀ L ∈ ls, QuietFor now w.accounts L) →
      (ls.foldl (processLoan env now) w).accounts = w.accounts ∧
      (ls.foldl (processLoan env now) w).transactions = w.transactions := by
  induction ls with
  | nil => intro w _; exact ⟨rfl, rfl⟩
  | cons l ls ih =>
    intro w hq
    rw [List.foldl_cons]
    obtain ⟨h1, h2⟩ := processLoan_quiet env now w l (hq l (List.mem_cons_self _ _))
    obtain ⟨h3, h4⟩ := ih (processLoan env now w l)
      (fun L hL => by rw [h1]; exact hq L (List.mem_cons_of_mem _ hL))
    exact ⟨h3.trans h1, h4.trans h2⟩

/-- A cycle over a storage in which no loan has an installment that can be
paid changes no account and records no transaction. -/
theorem processOverduePayments_quiet (env : Env) (w : World)
    (hq : ∀ L ∈ w.loans, QuietFor (env.clock (w.tick + 1)) w.accounts L) :
    (processOverduePayments env w).accounts = w.accounts ∧
    (processOverduePayments env w).transactions = w.transactions := by
  unfold processOverduePayments
  simp only
  have hw : (timeNow env (storage.GetAllLoans env w).2).2.accounts = w.accounts ∧
      (timeNow env (storage.GetAllLoans env w).2).2.transactions = w.transactions ∧
      (timeNow env (storage.GetAllLoans env w).2).1 = env.clock (w.tick + 1) := by
    unfold timeNow storage.GetAllLoans
    split_ifs <;> exact ⟨rfl, rfl, rfl⟩
  obtain ⟨h1, h2⟩ := foldl_processLoan_quiet env (timeNow env (storage.GetAllLoans env w).2).1
    (storage.GetAllLoans env w).1 (timeNow env (storage.GetAllLoans env w).2).2 (by
      intro L hL
      rw [hw.1, hw.2.2]
      unfold storage.GetAllLoans at hL
      split_ifs at hL
      · simp at hL
      · simp only [List.mem_map] at hL
        obtain ⟨l, hl, rfl⟩ := hL
        exact QuietFor_load.2 (hq l hl))
  exact ⟨h1.trans hw.1, h2.trans hw.2.1⟩

/-- The treatment of an installment of non-negative amount lets no balance grow
and removes no account. -/
theorem processPayment_accounts_le (env : Env) (now : Time) (i : Nat) (payment : Payment)
    (st : LoanState) (hnn : 0 ≤ payment.Amount.toRat) :
    AccLe (processPayment env now i payment st).world.accounts st.world.accounts := by
  rcases processPayment_cases env now i payment st with ⟨_, e⟩ | ⟨_, _, hc⟩
  · rw [e]; exact AccLe_refl _
  · rcases hc with ⟨_, e⟩ | ⟨account, _, ha, ⟨_, _, e⟩ | ⟨_, _, e⟩ | ⟨_, e⟩⟩
    · rw [e]; exact AccLe_refl _
    · rw [e]; exact AccLe_refl _
    · rw [e]
      show AccLe (settledWorld env payment st account).accounts st.world.accounts
      rw [(settledWorld_fields env payment st account).1]
      intro id
      by_cases hid : id = st.loan.AccountID
      · subst hid
        simp only [if_true]
        refine ⟨fun h => by rw [ha] at h; exact absurd h (by simp), fun a2 h2 => ?_⟩
        refine ⟨account, ha, ?_⟩
        obtain rfl := Option.some.inj h2
        show (account.Balance.Add payment.Amount.Neg).toRat ≤ _
        rw [Decimal.toRat_Add, Decimal.toRat_Neg]
        linarith
      · simp only [if_neg hid]
        exact AccLe_refl _ id
    · rw [e]; exact AccLe_refl _

theorem paymentLoop_accounts_le (env : Env) (now : Time) (rest : List Payment) :
    ∀ (i : Nat) (st : LoanState), (∀ p ∈ rest, 0 ≤ p.Amount.toRat) →
      AccLe (paymentLoop env now rest i st).world.accounts st.world.accounts := by
  induction rest with
  | nil => intro i st _; exact AccLe_refl _
  | cons q rest ih =>
    intro i st hnn
    exact AccLe_trans (ih (i + 1) _ (fun p hp => hnn p (List.mem_cons_of_mem _ hp)))
      (processPayment_accounts_le env now i q st (hnn q (List.mem_cons_self _ _)))

theorem processPayment_modified_mono (env : Env) (now : Time) (i : Nat) (payment : Payment)
    (st : LoanState) (h : (processPayment env now i payment st).modified = false) :
    st.modified = false ∧ (processPayment env now i payment st).loan = st.loan := by
  rcases processPayment_cases env now i payment st with ⟨_, e⟩ | ⟨_, _, hc⟩
  · rw [e] at h ⊢; exact ⟨h, rfl⟩
  · rcases hc with ⟨_, e⟩ | ⟨account, _, ha, ⟨_, _, e⟩ | ⟨_, _, e⟩ | ⟨_, e⟩⟩
    · rw [e] at h ⊢; exact ⟨h, rfl⟩
    · rw [e] at h ⊢; exact ⟨h, rfl⟩
    · rw [e] at h; exact absurd h (by simp)
    · rw [e] at h; exact absurd h (by simp)

/-- A loop that ends unmodified has left the loan as it was. -/
theorem paymentLoop_unmodified (env : Env) (now : Time) (rest : List Payment) :
    ∀ (i : Nat) (st : LoanState), (paymentLoop env now rest i st).modified = false →
      st.modified = false ∧ (paymentLoop env now rest i st).loan = st.loan := by
  induction rest with
  | nil => intro i st h; exact ⟨h, rfl⟩
  | cons q rest ih =>
    intro i st h
    obtain ⟨h1, h2⟩ := ih (i + 1) (processPayment env now i q st) h
    obtain ⟨h3, h4⟩ := processPayment_modified_mono env now i q st h1
    exact ⟨h3, h2.trans h4⟩

/-- After the loop over a schedule, with a storage that does not fail and a
clock whose readings plus 7 days are never before `now`, no installment of the
loan can be paid at `now`: the installments treated are paid, not yet due or
beyond the balance, and the penalties appended are not yet due. -/
theorem paymentLoop_becomes_quiet (env : Env) (now : Time)
    (hfail : ∀ t, env.fails t = false)
    (hlater : ∀ t, ((env.clock t).AddDate 0 0 7).Before now = false)
    (rest : List Payment) :
    ∀ (pre pens : List Payment) (st : LoanState),
      st.loan.PaymentSchedule = pre ++ rest ++ pens →
      (∀ p ∈ rest, 0 ≤ p.Amount.toRat) →
      Unaffordable now st.world.accounts st.loan.AccountID pre →
      (∀ p ∈ pens, p.DueDate.Before now = false) →
      Unaffordable now (paymentLoop env now rest pre.length st).world.accounts
        (paymentLoop env now rest pre.length st).loan.AccountID
        (paymentLoop env now rest pre.length st).loan.PaymentSchedule := by
  induction rest with
  | nil =>
    intro pre pens st hs _ hpre hpens
    show Unaffordable now st.world.accounts st.loan.AccountID st.loan.PaymentSchedule
    rw [hs]
    intro p hp hpaid hb
    simp only [List.append_nil, List.mem_append] at hp
    rcases hp with hp | hp
    · exact hpre p hp hpaid hb
    · rw [hpens p hp] at hb; exact absurd hb (by simp)
  | cons q rest ih =>
    intro pre pens st hs hnn hpre hpens
    have hs' : st.loan.PaymentSchedule = pre ++ q :: (rest ++ pens) := by
      rw [hs]; simp
    have hs2 : st.loan.PaymentSchedule = (pre ++ [q]) ++ rest ++ pens := by
      rw [hs]; simp
    have hlen : (pre ++ [q]).length = pre.length + 1 := by simp
    have hnn' : ∀ p ∈ rest, 0 ≤ p.Amount.toRat := fun p hp => hnn p (List.mem_cons_of_mem _ hp)
    show Unaffordable now
      (paymentLoop env now rest (pre.length + 1) (processPayment env now pre.length q st)).world.accounts
      (paymentLoop env now rest (pre.length + 1) (processPayment env now pre.length q st)).loan.AccountID
      (paymentLoop env now rest (pre.length + 1)
        (processPayment env now pre.length q st)).loan.PaymentSchedule
    rcases processPayment_cases env now pre.length q st with ⟨hskip, e⟩ | ⟨hp, hb, hc⟩
    · rw [e, ← hlen]
      refine ih (pre ++ [q]) pens st hs2 hnn' ?_ hpens
      intro p hp hpaid hb
      rw [List.mem_append, List.mem_singleton] at hp
      rcases hp with hp | hp
      · exact hpre p hp hpaid hb
      · subst hp
        rcases hskip with h | h
        · rw [h] at hpaid; exact absurd hpaid (by simp)
        · rw [h] at hb; exact absurd hb (by simp)
    · rcases hc with ⟨hnone, e⟩ | ⟨account, _, ha, ⟨_, hf1, _⟩ | ⟨hge, _, e⟩ | ⟨hge, e⟩⟩
      · rw [e, ← hlen]
        have hacc : st.world.accounts st.loan.AccountID = none := by
          rcases (storage.GetAccount_eq_none _ _ _).1 hnone with h | h
          · rw [hfail] at h; exact absurd h (by simp)
          · exact h
        refine ih (pre ++ [q]) pens _ hs2 hnn' ?_ hpens
        intro p _ _ _ a ha
        have ha' : st.world.accounts st.loan.AccountID = some a := ha
        rw [hacc] at ha'
        exact absurd ha' (by simp)
      · rw [hfail] at hf1; exact absurd hf1 (by simp)
      · rw [e, show pre.length + 1 = (pre ++ [{ q with Paid := true }]).length by simp]
        have hm : markPaid st.loan.PaymentSchedule pre.length =
            (pre ++ [{ q with Paid := true }]) ++ rest ++ pens := by
          rw [hs', markPaid_append]; simp
        refine ih (pre ++ [{ q with Paid := true }]) pens
          { loan := { st.loan with
              PaymentSchedule := markPaid st.loan.PaymentSchedule pre.length
              RemainingAmount := st.loan.RemainingAmount.Sub q.PrincipalPart }
            modified := true
            world := settledWorld env q st account } hm hnn' ?_ hpens
        show Unaffordable now (settledWorld env q st account).accounts st.loan.AccountID _
        rw [(settledWorld_fields env q st account).1]
        intro p hp hpaid hb2 a2 ha2
        simp only [if_true] at ha2
        obtain rfl := Option.some.inj ha2
        show (account.Balance.Add q.Amount.Neg).toRat < _
        rw [Decimal.toRat_Add, Decimal.toRat_Neg]
        rw [List.mem_append, List.mem_singleton] at hp
        rcases hp with hp | hp
        · have := hpre p hp hpaid hb2 account ha
          have := hnn q (List.mem_cons_self _ _)
          linarith
        · subst hp
          exact absurd hpaid (by simp)
      · rw [e, ← hlen]
        refine ih (pre ++ [q]) (pens ++ [penaltyInstallment (env.clock (st.world.tick + 1)) q]) _
          ?_ hnn' ?_ ?_
        · show st.loan.PaymentSchedule ++ _ = _
          rw [hs]; simp
        · intro p hp hpaid hb2 a2 ha2
          have ha2' : st.world.accounts st.loan.AccountID = some a2 := ha2
          rw [List.mem_append, List.mem_singleton] at hp
          rcases hp with hp | hp
          · exact hpre p hp hpaid hb2 a2 ha2'
          · subst hp
            rw [ha] at ha2'
            obtain rfl := Option.some.inj ha2'
            exact (Decimal.GreaterThanOrEqual_eq_false_iff _ _).1 hge
        · intro p hp
          rw [List.mem_append, List.mem_singleton] at hp
          rcases hp with hp | hp
          · exact hpens p hp
          · subst hp
            exact hlater (st.world.tick + 1)

theorem paymentLoop_loan_ID (env : Env) (now : Time) (w : World) (loan : Loan) :
    (paymentLoop env now loan.PaymentSchedule 0
      { loan := loan, modified := false, world := w }).loan.ID = loan.ID := by
  have h := paymentLoop_loan_invariant (fun L => L.ID = loan.ID)
    (fun L pre p post hJ _ _ => hJ) (fun L pen hJ _ _ => hJ) env now loan.PaymentSchedule [] []
    { loan := loan, modified := false, world := w } (by simp) rfl
  simpa using h

/-- The treatment of one loan of the list read at the start of the cycle, with
a storage that does not fail and a clock whose readings plus 7 days are never
before `now`: afterwards every stored loan is still to be treated or has
nothing that can be paid. -/
theorem processLoan_becomes_quiet (env : Env) (now : Time)
    (hfail : ∀ t, env.fails t = false)
    (hlater : ∀ t, ((env.clock t).AddDate 0 0 7).Before now = false)
    (w : World) (L0 : Loan) (todo : List Loan)
    (hnn : ∀ p ∈ L0.PaymentSchedule, 0 ≤ p.Amount.toRat)
    (hI : ∀ R ∈ w.loans, R ∈ L0 :: todo ∨ QuietFor now w.accounts R)
    (hID : ∃ R ∈ w.loans, R.ID = L0.ID) :
    (∀ R ∈ (processLoan env now w (loadLoan L0)).loans,
      R ∈ todo ∨ QuietFor now (processLoan env now w (loadLoan L0)).accounts R) ∧
    (∀ x, (∃ R ∈ w.loans, R.ID = x) →
      ∃ R ∈ (processLoan env now w (loadLoan L0)).loans, R.ID = x) := by
  cases hz : (loadLoan L0).RemainingAmount.IsZero
  swap
  · rw [processLoan_skip env now w _ hz]
    refine ⟨fun R hR => ?_, fun x hx => hx⟩
    rcases hI R hR with hmem | hq
    · rcases List.mem_cons.1 hmem with rfl | hmem
      · exact Or.inr (fun hz2 => by
          have hz3 : R.RemainingAmount.IsZero = true := hz
          rw [hz3] at hz2; exact absurd hz2 (by simp))
      · exact Or.inl hmem
    · exact Or.inr hq
  have hperm := loadLoan_perm L0
  have hq := paymentLoop_becomes_quiet env now hfail hlater (loadLoan L0).PaymentSchedule
    [] [] { loan := loadLoan L0, modified := false, world := w } (by simp)
    (fun p hp => hnn p (hperm.mem_iff.1 hp)) (fun p hp => by simp at hp)
    (fun p hp => by simp at hp)
  have hle := paymentLoop_accounts_le env now (loadLoan L0).PaymentSchedule 0
    { loan := loadLoan L0, modified := false, world := w }
    (fun p hp => hnn p (hperm.mem_iff.1 hp))
  have hloans := paymentLoop_world_loans env now (loadLoan L0).PaymentSchedule 0
    { loan := loadLoan L0, modified := false, world := w }
  have hid := paymentLoop_loan_ID env now w (loadLoan L0)
  simp only [List.length_nil] at hq
  have hle' : AccLe (paymentLoop env now (loadLoan L0).PaymentSchedule 0
      { loan := loadLoan L0, modified := false, world := w }).world.accounts w.accounts := hle
  have hloans' : (paymentLoop env now (loadLoan L0).PaymentSchedule 0
      { loan := loadLoan L0, modified := false, world := w }).world.loans = w.loans := hloans
  cases hm : (paymentLoop env now (loadLoan L0).PaymentSchedule 0
      { loan := loadLoan L0, modified := false, world := w }).modified
  · rw [processLoan_unmodified env now w _ hz hm, hloans']
    refine ⟨fun R hR => ?_, fun x hx => hx⟩
    rcases hI R hR with hmem | hqR
    · rcases List.mem_cons.1 hmem with rfl | hmem
      · right
        have hsame := (paymentLoop_unmodified env now _ 0 _ hm).2
        rw [hsame] at hq
        exact QuietFor_load.1 (fun _ => hq)
      · exact Or.inl hmem
    · exact Or.inr (QuietFor_mono hle' hqR)
  · rw [processLoan_modified env now w _ hz hm]
    have hex : ∃ l ∈ (paymentLoop env now (loadLoan L0).PaymentSchedule 0
        { loan := loadLoan L0, modified := false, world := w }).world.loans,
        l.ID = (paymentLoop env now (loadLoan L0).PaymentSchedule 0
          { loan := loadLoan L0, modified := false, world := w }).loan.ID := by
      rw [hloans', hid]
      exact hID
    rw [storage.UpdateLoan_ok env _ _ (hfail _) hex, hloans']
    refine ⟨fun R hR => ?_, fun x hx => ?_⟩
    · have hR' : R ∈ w.loans.map (fun l => if l.ID = (paymentLoop env now
          (loadLoan L0).PaymentSchedule 0
          { loan := loadLoan L0, modified := false, world := w }).loan.ID
          then (paymentLoop env now (loadLoan L0).PaymentSchedule 0
            { loan := loadLoan L0, modified := false, world := w }).loan else l) := hR
      rw [List.mem_map] at hR'
      obtain ⟨l, hl, rfl⟩ := hR'
      by_cases hlid : l.ID = (paymentLoop env now (loadLoan L0).PaymentSchedule 0
          { loan := loadLoan L0, modified := false, world := w }).loan.ID
      · rw [if_pos hlid]
        exact Or.inr (fun _ => hq)
      · rw [if_neg hlid]
        rcases hI l hl with hmem | hql
        · rcases List.mem_cons.1 hmem with rfl | hmem
          · rw [hid] at hlid
            exact absurd rfl hlid
          · exact Or.inl hmem
        · exact Or.inr (QuietFor_mono hle' hql)
    · obtain ⟨R, hR, hRx⟩ := hx
      refine ⟨_, List.mem_map_of_mem _ hR, ?_⟩
      by_cases hlid : R.ID = (paymentLoop env now (loadLoan L0).PaymentSchedule 0
          { loan := loadLoan L0, modified := false, world := w }).loan.ID
      · rw [if_pos hlid, ← hlid]; exact hRx
      · rw [if_neg hlid]; exact hRx

theorem foldl_becomes_quiet (env : Env) (now : Time)
    (hfail : ∀ t, env.fails t = false)
    (hlater : ∀ t, ((env.clock t).AddDate 0 0 7).Before now = false)
    (todo : List Loan) :
    ∀ (w : World), (∀ L ∈ todo, ∀ p ∈ L.PaymentSchedule, 0 ≤ p.Amount.toRat) →
      (∀ R ∈ w.loans, R ∈ todo ∨ QuietFor now w.accounts R) →
      (∀ L ∈ todo, ∃ R ∈ w.loans, R.ID = L.ID) →
      ∀ R ∈ ((todo.map loadLoan).foldl (processLoan env now) w).loans,
        QuietFor now ((todo.map loadLoan).foldl (processLoan env now) w).accounts R := by
  induction todo with
  | nil =>
    intro w _ hI _ R hR
    rcases hI R hR with h | h
    · simp at h
    · exact h
  | cons L0 todo ih =>
    intro w hnn hI hID
    rw [List.map_cons, List.foldl_cons]
    obtain ⟨h1, h2⟩ := processLoan_becomes_quiet env now hfail hlater w L0 todo
      (hnn L0 (List.mem_cons_self _ _)) hI (hID L0 (List.mem_cons_self _ _))
    exact ih _ (fun L hL => hnn L (List.mem_cons_of_mem _ hL)) h1
      (fun L hL => h2 L.ID (hID L (List.mem_cons_of_mem _ hL)))

/-- After a cycle at `now`, with a storage that does not fail, a clock whose
readings plus 7 days are never before `now`, and non-negative installment
amounts, no stored loan has an installment that can be paid at `now`. -/
theorem processOverduePayments_becomes_quiet (env : Env) (now : Time)
    (hfail : ∀ t, env.fails t = false)
    (hlater : ∀ t, ((env.clock t).AddDate 0 0 7).Before now = false) (w : World)
    (hnow : env.clock (w.tick + 1) = now)
    (hnn : ∀ L ∈ w.loans, ∀ p ∈ L.PaymentSchedule, 0 ≤ p.Amount.toRat) :
    ∀ R ∈ (processOverduePayments env w).loans,
      QuietFor now (processOverduePayments env w).accounts R := by
  have hload : storage.GetAllLoans env w = (w.loans.map loadLoan, w.next) := by
    unfold storage.GetAllLoans
    simp only [hfail, Bool.false_eq_true, if_false]
  have hnow' : env.clock w.next.tick = now := hnow
  unfold processOverduePayments
  simp only [hload, timeNow, hnow']
  exact foldl_becomes_quiet env now hfail hlater w.loans w.next.next hnn
    (fun R hR => Or.inl hR) (fun L hL => ⟨L, hL, rfl⟩)

/-- C14: for every storage state with non-negative installment amounts and
storage operations that succeed, when two settlement cycles are run in
succession with the same value of `now` (and the clock, read again when a
penalty is dated, never shows an instant whose seventh day after is before
`now`, as when no time elapses), the second cycle changes no account, so no
balance, and appends no transaction. -/
theorem C14_second_cycle_is_idle (env : Env) (now : Time) (w : World)
    (hfail : ∀ t, env.fails t = false)
    (hnow1 : env.clock (w.tick + 1) = now)
    (hnow2 : env.clock ((processOverduePayments env w).tick + 1) = now)
    (hlater : ∀ t, ((env.clock t).AddDate 0 0 7).Before now = false)
    (hnn : ∀ L ∈ w.loans, ∀ p ∈ L.PaymentSchedule, 0 ≤ p.Amount.toRat) :
    (processOverduePayments env (processOverduePayments env w)).accounts =
      (processOverduePayments env w).accounts ∧
    (processOverduePayments env (processOverduePayments env w)).transactions =
      (processOverduePayments env w).transactions := by
  apply processOverduePayments_quiet
  intro L hL
  rw [hnow2]
  exact processOverduePayments_becomes_quiet env now hfail hlater w hnow1 hnn L hL

set_option maxRecDepth 100000 in
/-- C14 at the sample data: a balance of 600 and two overdue installments of
200 and 500; the first cycle settles the first (balance 400) and appends a
penalty for the second, the second cycle leaves the balance and the
transactions as they are. -/
theorem C14_witness :
    (processOverduePayments sampleEnv (sampleWorld ⟨600, 0⟩
        [sampleLoan [sampleInstallment, sampleLargeInstallment] ⟨1000, 0⟩])).accounts "a" =
      some ⟨"a", ⟨400, 0⟩⟩ ∧
    ((processOverduePayments sampleEnv (processOverduePayments sampleEnv (sampleWorld ⟨600, 0⟩
        [sampleLoan [sampleInstallment, sampleLargeInstallment] ⟨1000, 0⟩]))).accounts =
      (processOverduePayments sampleEnv (sampleWorld ⟨600, 0⟩
        [sampleLoan [sampleInstallment, sampleLargeInstallment] ⟨1000, 0⟩])).accounts ∧
    (processOverduePayments sampleEnv (processOverduePayments sampleEnv (sampleWorld ⟨600, 0⟩
        [sampleLoan [sampleInstallment, sampleLargeInstallment] ⟨1000, 0⟩]))).transactions =
      (processOverduePayments sampleEnv (sampleWorld ⟨600, 0⟩
        [sampleLoan [sampleInstallment, sampleLargeInstallment] ⟨1000, 0⟩])).transactions) :=
  ⟨by decide,
    C14_second_cycle_is_idle sampleEnv sampleNow (sampleWorld ⟨600, 0⟩
      [sampleLoan [sampleInstallment, sampleLargeInstallment] ⟨1000, 0⟩])
      (fun _ => rfl) rfl rfl
      (fun _ => show (sampleNow.AddDate 0 0 7).Before sampleNow = false by decide)
      (fun L hL p hp => by
        obtain rfl := List.mem_singleton.mp hL
        have hp2 : p = sampleInstallment ∨ p = sampleLargeInstallment := by
          simpa [sampleLoan] using hp
        rcases hp2 with rfl | rfl
        · norm_num [Decimal.toRat, sampleInstallment]
        · norm_num [Decimal.toRat, sampleLargeInstallment])⟩

/-! ## The balance projection -/

/-- The dates of the forecast: day `i + 1`, `i + 2`, ... up to day `days` after `now`. -/
theorem predictLoop_dates (now : Time) (avgIn avgOut : Decimal) (loans : List Loan)
    (days : Int) (fuel : Nat) : ∀ (i : Int) (b : Decimal), (days - i).toNat ≤ fuel →
    (predictLoop now avgIn avgOut loans days fuel i b).map (fun p => p.Date) =
      (List.range (days - i).toNat).map (fun (k : Nat) => now.AddDate 0 0 (i + (k : Int) + 1)) := by
  induction fuel with
  | zero =>
    intro i b h
    have : (days - i).toNat = 0 := by omega
    rw [this]; rfl
  | succ f ih =>
    intro i b h
    by_cases hlt : i < days
    · have hn : (days - i).toNat = (days - (i + 1)).toNat + 1 := by omega
      simp only [predictLoop, if_pos hlt, List.map_cons]
      rw [ih (i + 1) _ (by omega), hn, List.range_succ_eq_map, List.map_cons, List.map_map]
      refine congrArg₂ List.cons (by simp) ?_
      apply List.map_congr_left
      intro k _
      simp only [Function.comp, Nat.cast_succ]
      congr 1
      ring
    · have : (days - i).toNat = 0 := by omega
      rw [this]
      simp only [predictLoop, if_neg hlt]
      rfl

theorem predictLoop_dates_top (now : Time) (avgIn avgOut : Decimal) (loans : List Loan)
    (days : Int) (b : Decimal) :
    (predictLoop now avgIn avgOut loans days days.toNat 0 b).map (fun p => p.Date) =
      (List.range days.toNat).map (fun (k : Nat) => now.AddDate 0 0 (0 + (k : Int) + 1)) := by
  have h := predictLoop_dates now avgIn avgOut loans days days.toNat 0 b (by simp)
  rw [sub_zero] at h
  exact h

theorem predictLoop_length_top (now : Time) (avgIn avgOut : Decimal) (loans : List Loan)
    (days : Int) (b : Decimal) :
    (predictLoop now avgIn avgOut loans days days.toNat 0 b).length = days.toNat := by
  have h := congrArg List.length (predictLoop_dates_top now avgIn avgOut loans days b)
  simpa using h

theorem range_dates_pairwise (now : Time) (hv : now.valid) (n : Nat) :
    ((List.range n).map (fun (k : Nat) => now.AddDate 0 0 (0 + (k : Int) + 1))).Pairwise
      (fun a b => a.Before b = true) := by
  rw [List.pairwise_map]
  refine (List.pairwise_lt_range n).imp ?_
  intro j k hjk
  have h := Time.AddDate_days_lt_Before now hv (j + 1) (k + 1) (by omega)
  have e1 : ((j + 1 : Nat) : Int) = 0 + (j : Int) + 1 := by push_cast; ring
  have e2 : ((k + 1 : Nat) : Int) = 0 + (k : Int) + 1 := by push_cast; ring
  rw [e1, e2] at h
  exact h

/-- C20: the balance projection answers a number of days `≤ 0` or `> 365` with
status 400 and an error message, without reading the storage and without a
forecast; for every number of days `n` from 1 to 365 and an account that is
found it answers with status 200 and a forecast of exactly `n` points, the
`k`-th of them (from 1) dated `k` days after the instant `now` read from the
clock, so that (for `now` a date that exists) every point is dated strictly
before the points after it. -/
theorem C20_projection_boundary (env : Env) (w : World) (accountID : String) :
    (∀ n : Int, n ≤ 0 ∨ 365 < n →
      ∃ message, BalancePredictionHandler env w accountID (DaysParam.number n) =
        (HttpResponse.error 400 message, w)) ∧
    (∀ (n : Int) (account : Account), 1 ≤ n → n ≤ 365 →
      env.fails w.tick = false → w.accounts accountID = some account →
      ∃ body w2, BalancePredictionHandler env w accountID (DaysParam.number n) =
          (HttpResponse.forecast 200 body, w2) ∧
        body.PredictionDays = n ∧
        (body.Predictions.length : Int) = n ∧
        body.Predictions.map (fun p => p.Date) =
          (List.range n.toNat).map
            (fun (k : Nat) => (env.clock (w.tick + 3)).AddDate 0 0 (0 + (k : Int) + 1)) ∧
        ((env.clock (w.tick + 3)).valid →
          (body.Predictions.map (fun p => p.Date)).Pairwise (fun a b => a.Before b = true))) := by
  refine ⟨fun n hn => ?_, fun n account h1 h2 hf ha => ?_⟩
  · unfold BalancePredictionHandler
    by_cases h0 : n ≤ 0
    · refine ⟨"Invalid days parameter. Must be a positive integer.", ?_⟩
      simp only [if_pos h0]
    · have h365 : n > 365 := by omega
      refine ⟨"Maximum prediction period is 365 days", ?_⟩
      simp only [if_neg h0, if_pos h365]
  · have hr : (storage.GetAccount env w accountID).1 = some account :=
      (storage.GetAccount_eq_some _ _ _ _).2 ⟨hf, ha⟩
    have htick : (timeNow env (storage.GetAccountLoans env (storage.GetAccountTransactions env
        (storage.GetAccount env w accountID).2 accountID).2 accountID).2).1 =
        env.clock (w.tick + 3) := by
      unfold timeNow storage.GetAccountLoans storage.GetAccountTransactions
      rw [storage.GetAccount_world]
      split_ifs <;> rfl
    unfold BalancePredictionHandler
    simp only [if_neg (show ¬ n ≤ 0 by omega), if_neg (show ¬ n > 365 by omega), hr, htick]
    refine ⟨_, _, rfl, rfl, ?_, ?_, ?_⟩
    · simp only [predictLoop_length_top]
      omega
    · exact predictLoop_dates_top _ _ _ _ _ _
    · intro hv
      simp only [predictLoop_dates_top]
      exact range_dates_pairwise _ hv _

/-- C20 at the sample data: 0 and 366 days are rejected, 365 days are accepted. -/
theorem C20_witness :
    (∃ message, BalancePredictionHandler sampleEnv (sampleWorld ⟨1000, 0⟩ []) "a"
        (DaysParam.number 0) = (HttpResponse.error 400 message, sampleWorld ⟨1000, 0⟩ [])) ∧
    (∃ message, BalancePredictionHandler sampleEnv (sampleWorld ⟨1000, 0⟩ []) "a"
        (DaysParam.number 366) = (HttpResponse.error 400 message, sampleWorld ⟨1000, 0⟩ [])) ∧
    (∃ body w2, BalancePredictionHandler sampleEnv (sampleWorld ⟨1000, 0⟩ []) "a"
          (DaysParam.number 365) = (HttpResponse.forecast 200 body, w2) ∧
        body.PredictionDays = 365 ∧
        (body.Predictions.length : Int) = 365 ∧
        body.Predictions.map (fun p => p.Date) =
          (List.range (365 : Int).toNat).map
            (fun (k : Nat) => (sampleEnv.clock ((sampleWorld ⟨1000, 0⟩ []).tick + 3)).AddDate 0 0
              (0 + (k : Int) + 1)) ∧
        ((sampleEnv.clock ((sampleWorld ⟨1000, 0⟩ []).tick + 3)).valid →
          (body.Predictions.map (fun p => p.Date)).Pairwise (fun a b => a.Before b = true))) :=
  ⟨(C20_projection_boundary sampleEnv (sampleWorld ⟨1000, 0⟩ []) "a").1 0 (Or.inl (by decide)),
   (C20_projection_boundary sampleEnv (sampleWorld ⟨1000, 0⟩ []) "a").1 366
      (Or.inr (by decide)),
   (C20_projection_boundary sampleEnv (sampleWorld ⟨1000, 0⟩ []) "a").2 365 ⟨"a", ⟨1000, 0⟩⟩
      (by decide) (by decide) rfl rfl⟩

/-! ## Penalties cycle after cycle -/

theorem paymentLoop_append (env : Env) (now : Time) (a b : List Payment) :
    ∀ (i : Nat) (st : LoanState),
      paymentLoop env now (a ++ b) i st =
        paymentLoop env now b (i + a.length) (paymentLoop env now a i st) := by
  induction a with
  | nil => intro i st; rfl
  | cons q a ih =>
    intro i st
    show paymentLoop env now (a ++ b) (i + 1) (processPayment env now i q st) = _
    rw [ih]
    simp only [List.length_cons]
    rw [show i + 1 + a.length = i + (a.length + 1) by omega]
    rfl

theorem processPayment_modified_true (env : Env) (now : Time) (i : Nat) (payment : Payment)
    (st : LoanState) (h : st.modified = true) :
    (processPayment env now i payment st).modified = true := by
  cases hm : (processPayment env now i payment st).modified
  · rw [(processPayment_modified_mono env now i payment st hm).1] at h
    exact absurd h (by simp)
  · rfl

theorem paymentLoop_modified_true (env : Env) (now : Time) (rest : List Payment) (i : Nat)
    (st : LoanState) (h : st.modified = true) :
    (paymentLoop env now rest i st).modified = true := by
  cases hm : (paymentLoop env now rest i st).modified
  · rw [(paymentLoop_unmodified env now rest i st hm).1] at h
    exact absurd h (by simp)
  · rfl

theorem sameInstallment_refl (p : Payment) : sameInstallment p p := ⟨rfl, rfl, rfl, rfl⟩

theorem keptOrSettled_sameInstallment {now : Time} {x q : Payment}
    (h : keptOrSettled now x q) : sameInstallment x q := by
  rcases h with rfl | ⟨_, _, rfl⟩
  · exact sameInstallment_refl _
  · exact ⟨rfl, rfl, rfl, rfl⟩

theorem forall2_getElem {R : Payment → Payment → Prop} {a b : List Payment}
    (h : List.Forall₂ R a b) : ∀ (j : Nat) (q : Payment), b[j]? = some q →
      ∃ x, a[j]? = some x ∧ R x q := by
  induction h with
  | nil => intro j q hq; simp at hq
  | @cons x y a b hxy _ ih =>
    intro j q hq
    cases j with
    | zero =>
      simp only [List.getElem?_cons_zero, Option.some.injEq] at hq
      subst hq
      exact ⟨x, by simp, hxy⟩
    | succ j =>
      simp only [List.getElem?_cons_succ] at hq ⊢
      exact ih j q hq

/-- The shape of the schedule after the loop over `rest`: the installments of
`rest` are in place, each as it was or marked paid, and the new installments,
at most one for each installment of `rest`, are penalties for installments of
`rest`. -/
theorem paymentLoop_shape (env : Env) (now : Time) (rest : List Payment) :
    ∀ (pre tail : List Payment) (st : LoanState),
      st.loan.PaymentSchedule = pre ++ rest ++ tail →
      ∃ rest2 news,
        (paymentLoop env now rest pre.length st).loan.PaymentSchedule =
          pre ++ rest2 ++ tail ++ news ∧
        List.Forall₂ (keptOrSettled now) rest2 rest ∧
        news.length ≤ rest.length ∧
        (∀ x ∈ news, ∃ q ∈ rest, ∃ t, x = penaltyInstallment t q) := by
  induction rest with
  | nil =>
    intro pre tail st hs
    exact ⟨[], [], by simpa using hs, List.Forall₂.nil, le_refl _, fun x hx => by simp at hx⟩
  | cons q rest ih =>
    intro pre tail st hs
    have hs' : st.loan.PaymentSchedule = pre ++ q :: (rest ++ tail) := by
      rw [hs]; simp
    have hs2 : st.loan.PaymentSchedule = (pre ++ [q]) ++ rest ++ tail := by
      rw [hs]; simp
    have hlen : pre.length + 1 = (pre ++ [q]).length := by simp
    show ∃ rest2 news,
      (paymentLoop env now rest (pre.length + 1)
        (processPayment env now pre.length q st)).loan.PaymentSchedule = _ ∧ _
    have same : ∀ st1 : LoanState, st1.loan.PaymentSchedule = (pre ++ [q]) ++ rest ++ tail →
        ∃ rest2 news,
          (paymentLoop env now rest (pre.length + 1) st1).loan.PaymentSchedule =
            pre ++ rest2 ++ tail ++ news ∧
          List.Forall₂ (keptOrSettled now) rest2 (q :: rest) ∧
          news.length ≤ (q :: rest).length ∧
          (∀ x ∈ news, ∃ q2 ∈ q :: rest, ∃ t, x = penaltyInstallment t q2) := by
      intro st1 h1
      obtain ⟨rest2, news, e, hf, hl, hm⟩ := ih (pre ++ [q]) tail st1 h1
      rw [← hlen] at e
      refine ⟨q :: rest2, news, by rw [e]; simp, List.Forall₂.cons (Or.inl rfl) hf,
        by simp only [List.length_cons]; omega, fun x hx => ?_⟩
      obtain ⟨q2, hq2, t, ht⟩ := hm x hx
      exact ⟨q2, List.mem_cons_of_mem _ hq2, t, ht⟩
    rcases processPayment_cases env now pre.length q st with ⟨_, e⟩ | ⟨hp, hb, hc⟩
    · rw [e]; exact same st hs2
    · rcases hc with ⟨_, e⟩ | ⟨account, _, _, ⟨_, _, e⟩ | ⟨_, _, e⟩ | ⟨_, e⟩⟩
      · rw [e]; exact same _ hs2
      · rw [e]; exact same _ hs2
      · rw [e]
        have hm : markPaid st.loan.PaymentSchedule pre.length =
            (pre ++ [{ q with Paid := true }]) ++ rest ++ tail := by
          rw [hs', markPaid_append]; simp
        obtain ⟨rest2, news, e2, hf, hl, hmem⟩ := ih (pre ++ [{ q with Paid := true }]) tail
          { loan := { st.loan with
              PaymentSchedule := markPaid st.loan.PaymentSchedule pre.length
              RemainingAmount := st.loan.RemainingAmount.Sub q.PrincipalPart }
            modified := true
            world := settledWorld env q st account } hm
        rw [List.length_append, List.length_singleton] at e2
        refine ⟨{ q with Paid := true } :: rest2, news, by rw [e2]; simp,
          List.Forall₂.cons (Or.inr ⟨hp, hb, rfl⟩) hf,
          by simp only [List.length_cons]; omega, fun x hx => ?_⟩
        obtain ⟨q2, hq2, t, ht⟩ := hmem x hx
        exact ⟨q2, List.mem_cons_of_mem _ hq2, t, ht⟩
      · rw [e]
        obtain ⟨rest2, news, e2, hf, hl, hmem⟩ := ih (pre ++ [q])
          (tail ++ [penaltyInstallment (env.clock (st.world.tick + 1)) q])
          { loan := { st.loan with
              PaymentSchedule := st.loan.PaymentSchedule ++
                [penaltyInstallment (env.clock (st.world.tick + 1)) q] }
            modified := true
            world := st.world.next.next } (by
              show st.loan.PaymentSchedule ++ _ = _
              rw [hs]; simp)
        rw [← hlen] at e2
        refine ⟨q :: rest2, penaltyInstallment (env.clock (st.world.tick + 1)) q :: news,
          by rw [e2]; simp, List.Forall₂.cons (Or.inl rfl) hf,
          by simp only [List.length_cons]; omega, fun x hx => ?_⟩
        rcases List.mem_cons.1 hx with rfl | hx
        · exact ⟨q, List.mem_cons_self _ _, _, rfl⟩
        · obtain ⟨q2, hq2, t, ht⟩ := hmem x hx
          exact ⟨q2, List.mem_cons_of_mem _ hq2, t, ht⟩

theorem processPayment_loan_ids (env : Env) (now : Time) (i : Nat) (payment : Payment)
    (st : LoanState) :
    (processPayment env now i payment st).loan.ID = st.loan.ID ∧
    (processPayment env now i payment st).loan.AccountID = st.loan.AccountID := by
  rcases processPayment_cases env now i payment st with ⟨_, e⟩ | ⟨_, _, hc⟩
  · rw [e]; exact ⟨rfl, rfl⟩
  · rcases hc with ⟨_, e⟩ | ⟨account, _, _, ⟨_, _, e⟩ | ⟨_, _, e⟩ | ⟨_, e⟩⟩ <;>
      (rw [e]; exact ⟨rfl, rfl⟩)

theorem paymentLoop_loan_ids (env : Env) (now : Time) (rest : List Payment) :
    ∀ (i : Nat) (st : LoanState),
      (paymentLoop env now rest i st).loan.ID = st.loan.ID ∧
      (paymentLoop env now rest i st).loan.AccountID = st.loan.AccountID := by
  induction rest with
  | nil => intro i st; exact ⟨rfl, rfl⟩
  | cons q rest ih =>
    intro i st
    obtain ⟨h1, h2⟩ := ih (i + 1) (processPayment env now i q st)
    obtain ⟨h3, h4⟩ := processPayment_loan_ids env now i q st
    exact ⟨h1.trans h3, h2.trans h4⟩

/-- The loop over a schedule `pre ++ p :: post` in which `p`, unpaid and
overdue, is found unpayable when it is reached: the schedule keeps its
installments, `p` untouched, and gains one penalty for `p` (and at most one
for each other installment); the loan is marked as modified. -/
theorem paymentLoop_gains_penalty (env : Env) (now : Time) (L : Loan) (w : World)
    (pre post : List Payment) (p : Payment) (account : Account)
    (hs : L.PaymentSchedule = pre ++ p :: post)
    (hp : p.Paid = false) (hb : p.DueDate.Before now = true)
    (hr : (storage.GetAccount env
      (paymentLoop env now pre 0 { loan := L, modified := false, world := w }).world
      L.AccountID).1 = some account)
    (hlt : account.Balance.toRat < p.Amount.toRat) :
    GainsOnePenalty p pre post
      (paymentLoop env now L.PaymentSchedule 0
        { loan := L, modified := false, world := w }).loan.PaymentSchedule ∧
    (paymentLoop env now L.PaymentSchedule 0
      { loan := L, modified := false, world := w }).modified = true := by
  obtain ⟨pre2, newsPre, e1, hk1, hl1, hm1⟩ := paymentLoop_shape env now pre [] (p :: post)
    { loan := L, modified := false, world := w } (by simpa using hs)
  have hf1 : List.Forall₂ sameInstallment pre2 pre :=
    hk1.imp (fun _ _ h => keptOrSettled_sameInstallment h)
  simp only [List.length_nil, List.nil_append] at e1
  have hacc := (paymentLoop_loan_ids env now pre 0
    { loan := L, modified := false, world := w }).2
  have hr' : (storage.GetAccount env
      (paymentLoop env now pre 0 { loan := L, modified := false, world := w }).world
      (paymentLoop env now pre 0 { loan := L, modified := false, world := w }).loan.AccountID).1
      = some account := by rw [hacc]; exact hr
  have hstep := processPayment_penalty env now pre.length p
    (paymentLoop env now pre 0 { loan := L, modified := false, world := w }) account hp hb hr'
    ((Decimal.GreaterThanOrEqual_eq_false_iff _ _).2 hlt)
  have hsplit : paymentLoop env now L.PaymentSchedule 0
      { loan := L, modified := false, world := w } =
      paymentLoop env now post (pre.length + 1)
        (processPayment env now pre.length p
          (paymentLoop env now pre 0 { loan := L, modified := false, world := w })) := by
    rw [hs, paymentLoop_append, Nat.zero_add]
    rfl
  rw [hsplit, hstep]
  have hlen : pre2.length = pre.length := hf1.length_eq
  obtain ⟨post2, newsPost, e2, hk2, hl2, hm2⟩ := paymentLoop_shape env now post (pre2 ++ [p])
    (newsPre ++ [penaltyInstallment (env.clock ((paymentLoop env now pre 0
      { loan := L, modified := false, world := w }).world.tick + 1)) p])
    { loan := { (paymentLoop env now pre 0 { loan := L, modified := false, world := w }).loan with
        PaymentSchedule := (paymentLoop env now pre 0
          { loan := L, modified := false, world := w }).loan.PaymentSchedule ++
          [penaltyInstallment (env.clock ((paymentLoop env now pre 0
            { loan := L, modified := false, world := w }).world.tick + 1)) p] }
      modified := true
      world := (paymentLoop env now pre 0
        { loan := L, modified := false, world := w }).world.next.next } (by
        show (paymentLoop env now pre 0
          { loan := L, modified := false, world := w }).loan.PaymentSchedule ++ _ = _
        rw [e1]; simp)
  rw [List.length_append, List.length_singleton, hlen] at e2
  have hf2 : List.Forall₂ sameInstallment post2 post :=
    hk2.imp (fun _ _ h => keptOrSettled_sameInstallment h)
  refine ⟨⟨pre2, post2, newsPre, newsPost, env.clock ((paymentLoop env now pre 0
      { loan := L, modified := false, world := w }).world.tick + 1),
      ?_, hf1, hf2, hl1, hm1, hl2, hm2⟩, paymentLoop_modified_true _ _ _ _ _ rfl⟩
  rw [e2]; simp

namespace storage

theorem UpdateLoan_eq_true (env : Env) (w : World) (loan : Loan)
    (h : (UpdateLoan env w loan).1 = true) :
    (UpdateLoan env w loan).2.loans =
      w.loans.map (fun l => if l.ID = loan.ID then loan else l) := by
  unfold UpdateLoan at h ⊢
  cases hf : env.fails w.tick <;>
    cases ha : w.loans.any (fun l => decide (l.ID = loan.ID)) <;>
    simp [hf, ha] at h ⊢

end storage

/-- The treatment of a loan leaves the stored loans of every other ID as they are. -/
theorem processLoan_other_ID (env : Env) (now : Time) (w : World) (loan : Loan) (id : String)
    (hid : loan.ID ≠ id) :
    ∀ R ∈ (processLoan env now w loan).loans, R.ID = id → R ∈ w.loans := by
  cases hz : loan.RemainingAmount.IsZero
  swap
  · rw [processLoan_skip env now w loan hz]; exact fun R hR _ => hR
  have hloans := paymentLoop_world_loans env now loan.PaymentSchedule 0
    { loan := loan, modified := false, world := w }
  have hloans' : (paymentLoop env now loan.PaymentSchedule 0
      { loan := loan, modified := false, world := w }).world.loans = w.loans := hloans
  cases hm : (paymentLoop env now loan.PaymentSchedule 0
      { loan := loan, modified := false, world := w }).modified
  · rw [processLoan_unmodified env now w loan hz hm, hloans']
    exact fun R hR _ => hR
  · rw [processLoan_modified env now w loan hz hm]
    rcases (storage.UpdateLoan_fields env (paymentLoop env now loan.PaymentSchedule 0
      { loan := loan, modified := false, world := w }).world (paymentLoop env now
      loan.PaymentSchedule 0 { loan := loan, modified := false, world := w }).loan).2.2.2
      with e | e
    · rw [e, hloans']; exact fun R hR _ => hR
    · rw [e, hloans']
      intro R hR hRid
      rw [List.mem_map] at hR
      obtain ⟨l, hl, rfl⟩ := hR
      by_cases hlid : l.ID = (paymentLoop env now loan.PaymentSchedule 0
          { loan := loan, modified := false, world := w }).loan.ID
      · rw [if_pos hlid] at hRid
        rw [(paymentLoop_loan_ids env now _ 0 _).1] at hRid
        exact absurd hRid hid
      · rw [if_neg hlid]; exact hl

theorem foldl_processLoan_other_ID (env : Env) (now : Time) (id : String) (ls : List Loan) :
    ∀ (w : World), (∀ L ∈ ls, L.ID ≠ id) →
      ∀ R ∈ (ls.foldl (processLoan env now) w).loans, R.ID = id → R ∈ w.loans := by
  induction ls with
  | nil => intro w _ R hR _; exact hR
  | cons l ls ih =>
    intro w hne R hR hRid
    rw [List.foldl_cons] at hR
    exact processLoan_other_ID env now w l id (hne l (List.mem_cons_self _ _)) R
      (ih _ (fun L hL => hne L (List.mem_cons_of_mem _ hL)) R hR hRid) hRid

/-- A cycle in which the installment `p` of the loan `id` is reached, found
unpayable, and the loan rewritten: afterwards the stored schedule of the loan
is the schedule that was read, `p` untouched, with one penalty for `p` (and at
most one for each other installment). -/
theorem processOverduePayments_gains_penalty (env : Env) (w : World) (id : String)
    (p : Payment) (before : List Loan) (L : Loan) (after : List Loan)
    (pre post : List Payment)
    (h : UnpayableWhenReached env w id p before L after pre post)
    (huniq : ∀ R ∈ before ++ after, R.ID ≠ id) :
    ∀ R ∈ (processOverduePayments env w).loans, R.ID = id →
      GainsOnePenalty p pre post R.PaymentSchedule := by
  obtain ⟨hload, hLid, hz, hs, hp, hb, ⟨account, hr, hlt⟩, hupd⟩ := h
  have hl2 : (storage.GetAllLoans env w).2 = w.next := by
    unfold storage.GetAllLoans
    split_ifs <;> rfl
  have hcycle : processOverduePayments env w =
      after.foldl (processLoan env (env.clock (w.tick + 1)))
        (processLoan env (env.clock (w.tick + 1))
          (before.foldl (processLoan env (env.clock (w.tick + 1))) w.next.next) L) := by
    unfold processOverduePayments
    simp only [hload, hl2, timeNow, List.foldl_append, List.foldl_cons]
    rfl
  obtain ⟨hgain, hmod⟩ := paymentLoop_gains_penalty env (env.clock (w.tick + 1)) L
    (before.foldl (processLoan env (env.clock (w.tick + 1))) w.next.next) pre post p account
    hs hp hb hr hlt
  intro R hR hRid
  rw [hcycle] at hR
  have hR2 := foldl_processLoan_other_ID env (env.clock (w.tick + 1)) id after _
    (fun X hX => huniq X (List.mem_append_right _ hX)) R hR hRid
  rw [processLoan_modified env _ _ L hz hmod, storage.UpdateLoan_eq_true env _ _ hupd,
    List.mem_map] at hR2
  obtain ⟨l, _, rfl⟩ := hR2
  by_cases hlid : l.ID = (paymentLoop env (env.clock (w.tick + 1)) L.PaymentSchedule 0
      { loan := L, modified := false
        world := before.foldl (processLoan env (env.clock (w.tick + 1))) w.next.next }).loan.ID
  · rw [if_pos hlid]; exact hgain
  · rw [if_neg hlid] at hRid
    rw [(paymentLoop_loan_ids env _ _ 0 _).1] at hlid
    exact absurd (hRid.trans hLid.symm) hlid

theorem runCycles_succ_last (env : Env) (k : Nat) :
    ∀ w : World, runCycles env (k + 1) w = processOverduePayments env (runCycles env k w) := by
  induction k with
  | zero => intro w; rfl
  | succ k ih =>
    intro w
    show runCycles env (k + 1) (processOverduePayments env w) = _
    rw [ih]
    rfl

theorem processLoan_loan_IDs (env : Env) (now : Time) (w : World) (loan : Loan) :
    (processLoan env now w loan).loans.map (fun R => R.ID) = w.loans.map (fun R => R.ID) := by
  cases hz : loan.RemainingAmount.IsZero
  swap
  · rw [processLoan_skip env now w loan hz]
  have hloans : (paymentLoop env now loan.PaymentSchedule 0
      { loan := loan, modified := false, world := w }).world.loans = w.loans :=
    paymentLoop_world_loans env now loan.PaymentSchedule 0 _
  cases hm : (paymentLoop env now loan.PaymentSchedule 0
      { loan := loan, modified := false, world := w }).modified
  · rw [processLoan_unmodified env now w loan hz hm, hloans]
  · rw [processLoan_modified env now w loan hz hm]
    rcases (storage.UpdateLoan_fields env (paymentLoop env now loan.PaymentSchedule 0
      { loan := loan, modified := false, world := w }).world (paymentLoop env now
      loan.PaymentSchedule 0 { loan := loan, modified := false, world := w }).loan).2.2.2
      with e | e
    · rw [e, hloans]
    · rw [e, hloans, List.map_map]
      apply List.map_congr_left
      intro l _
      simp only [Function.comp]
      split_ifs with h
      · exact h.symm
      · rfl

theorem foldl_processLoan_loan_IDs (env : Env) (now : Time) (ls : List Loan) :
    ∀ w : World, (ls.foldl (processLoan env now) w).loans.map (fun R => R.ID) =
      w.loans.map (fun R => R.ID) := by
  induction ls with
  | nil => intro w; rfl
  | cons l ls ih =>
    intro w
    rw [List.foldl_cons, ih, processLoan_loan_IDs]

/-- A cycle keeps the IDs of the stored loans, in their order. -/
theorem processOverduePayments_loan_IDs (env : Env) (w : World) :
    (processOverduePayments env w).loans.map (fun R => R.ID) = w.loans.map (fun R => R.ID) := by
  unfold processOverduePayments
  simp only
  rw [foldl_processLoan_loan_IDs]
  unfold timeNow storage.GetAllLoans
  split_ifs <;> rfl

theorem runCycles_loan_IDs (env : Env) (k : Nat) :
    ∀ w : World, (runCycles env k w).loans.map (fun R => R.ID) = w.loans.map (fun R => R.ID) := by
  induction k with
  | zero => intro w; rfl
  | succ k ih =>
    intro w
    show (runCycles env k (processOverduePayments env w)).loans.map _ = _
    rw [ih, processOverduePayments_loan_IDs]

namespace storage

theorem GetAllLoans_of_ne_nil (env : Env) (w : World) (h : (GetAllLoans env w).1 ≠ []) :
    (GetAllLoans env w).1 = w.loans.map loadLoan := by
  unfold GetAllLoans at h ⊢
  split_ifs at h ⊢
  · exact absurd rfl h
  · rfl

end storage

/-- When at most one stored loan carries the ID and the loans are read as
`before ++ L :: after` with `L` carrying it, no loan of `before` or `after` does. -/
theorem unique_ID_split (loans before after : List Loan) (L : Loan) (id : String)
    (huniq : (loans.map (fun R => R.ID)).count id ≤ 1)
    (hsplit : loans.map loadLoan = before ++ L :: after) (hL : L.ID = id) :
    ∀ R ∈ before ++ after, R.ID ≠ id := by
  have hids : loans.map (fun R => R.ID) = (before ++ L :: after).map (fun R => R.ID) := by
    rw [← hsplit, List.map_map]
    rfl
  rw [hids, List.map_append, List.map_cons, List.count_append, List.count_cons, hL] at huniq
  simp only [beq_self_eq_true, if_true] at huniq
  intro R hR hRid
  rcases List.mem_append.1 hR with hR | hR
  · have : 0 < (before.map (fun R => R.ID)).count id :=
      List.count_pos_iff.2 (by rw [← hRid]; exact List.mem_map_of_mem _ hR)
    omega
  · have : 0 < (after.map (fun R => R.ID)).count id :=
      List.count_pos_iff.2 (by rw [← hRid]; exact List.mem_map_of_mem _ hR)
    omega

theorem isPenaltyFor_penaltyInstallment (t : Time) (p : Payment) :
    isPenaltyFor p (penaltyInstallment t p) = true := by
  simp [isPenaltyFor, penaltyInstallment]

theorem countP_sameInstallment (p : Payment) {a b : List Payment}
    (h : List.Forall₂ sameInstallment a b) :
    a.countP (isPenaltyFor p) = b.countP (isPenaltyFor p) := by
  induction h with
  | nil => rfl
  | @cons x y a b hxy _ ih =>
    obtain ⟨_, h2, h3, h4⟩ := hxy
    have : isPenaltyFor p x = isPenaltyFor p y := by
      simp only [isPenaltyFor, h2, h3, h4]
    rw [List.countP_cons, List.countP_cons, ih, this]

/-- What one more penalty for `p` means for the length of the schedule, for
the number of its installments with the amounts of a penalty for `p`, and for `p`. -/
theorem GainsOnePenalty_counts (p : Payment) (pre post s2 : List Payment)
    (h : GainsOnePenalty p pre post s2) :
    (pre ++ p :: post).length + 1 ≤ s2.length ∧
    (pre ++ p :: post).countP (isPenaltyFor p) + 1 ≤ s2.countP (isPenaltyFor p) ∧
    p ∈ s2 := by
  obtain ⟨pre2, post2, newsPre, newsPost, t, rfl, hf1, hf2, _, _, _, _⟩ := h
  have l1 := hf1.length_eq
  have l2 := hf2.length_eq
  have c1 := countP_sameInstallment p hf1
  have c2 := countP_sameInstallment p hf2
  refine ⟨?_, ?_, ?_⟩
  · simp only [List.length_append, List.length_cons, List.length_nil]
    omega
  · simp only [List.countP_append, List.countP_cons, List.countP_nil,
      isPenaltyFor_penaltyInstallment, if_true, c1, c2]
    omega
  · simp

/-- After `k` cycles in each of which the installment `p` of the loan `id` is
reached, found unpayable and the loan rewritten, the stored schedule of the
loan is at least `k` installments longer, holds at least `k` more installments
with the amounts of a penalty for `p`, and still holds `p`. -/
theorem runCycles_gains_penalties (env : Env) (w0 : World) (id : String) (p : Payment)
    (huniq : (w0.loans.map (fun R => R.ID)).count id ≤ 1) (k : Nat) :
    (∀ c, c < k → ∃ before L after pre post,
      UnpayableWhenReached env (runCycles env c w0) id p before L after pre post) →
    ∀ R0 ∈ w0.loans, R0.ID = id → ∀ R ∈ (runCycles env k w0).loans, R.ID = id →
      R0.PaymentSchedule.length + k ≤ R.PaymentSchedule.length ∧
      R0.PaymentSchedule.countP (isPenaltyFor p) + k ≤ R.PaymentSchedule.countP (isPenaltyFor p) ∧
      (0 < k → p ∈ R.PaymentSchedule) := by
  induction k with
  | zero =>
    intro _ R0 hR0 hid0 R hR hid
    have hR' : R ∈ w0.loans := hR
    have hcount : ∀ X ∈ w0.loans, ∀ Y ∈ w0.loans, X.ID = id → Y.ID = id → X = Y := by
      intro X hX Y hY hXid hYid
      obtain ⟨l1, l2, hsplit⟩ := List.append_of_mem hX
      by_contra hne
      rw [hsplit, List.map_append, List.map_cons, List.count_append, List.count_cons, hXid]
        at huniq
      simp only [beq_self_eq_true, if_true] at huniq
      rw [hsplit] at hY
      rcases List.mem_append.1 hY with hY | hY
      · have : 0 < (l1.map (fun R => R.ID)).count id :=
          List.count_pos_iff.2 (by rw [← hYid]; exact List.mem_map_of_mem _ hY)
        omega
      · rcases List.mem_cons.1 hY with hY | hY
        · exact hne hY.symm
        · have : 0 < (l2.map (fun R => R.ID)).count id :=
            List.count_pos_iff.2 (by rw [← hYid]; exact List.mem_map_of_mem _ hY)
          omega
    rw [hcount R0 hR0 R hR' hid0 hid]
    exact ⟨le_refl _, le_refl _, fun h => absurd h (by omega)⟩
  | succ k ih =>
    intro hdyn R0 hR0 hid0 R hR hid
    obtain ⟨before, L, after, pre, post, hreach⟩ := hdyn k (by omega)
    have hload : (storage.GetAllLoans env (runCycles env k w0)).1 =
        (runCycles env k w0).loans.map loadLoan :=
      storage.GetAllLoans_of_ne_nil _ _ (by rw [hreach.1]; simp)
    have hsplit : (runCycles env k w0).loans.map loadLoan = before ++ L :: after := by
      rw [← hload]; exact hreach.1
    have huniqk : ((runCycles env k w0).loans.map (fun R => R.ID)).count id ≤ 1 := by
      rw [runCycles_loan_IDs]; exact huniq
    have hothers := unique_ID_split _ before after L id huniqk hsplit hreach.2.1
    rw [runCycles_succ_last] at hR
    have hgain := processOverduePayments_gains_penalty env (runCycles env k w0) id p before L
      after pre post hreach hothers R hR hid
    obtain ⟨g1, g2, g3⟩ := GainsOnePenalty_counts p pre post R.PaymentSchedule hgain
    have hLmem : L ∈ (runCycles env k w0).loans.map loadLoan := by
      rw [hsplit]; simp
    obtain ⟨Rk, hRk, hRkL⟩ := List.mem_map.1 hLmem
    have hRkid : Rk.ID = id := by
      rw [← hreach.2.1, ← hRkL]; rfl
    obtain ⟨i1, i2, _⟩ := ih (fun c hc => hdyn c (by omega)) R0 hR0 hid0 Rk hRk hRkid
    have hperm : (pre ++ p :: post).Perm Rk.PaymentSchedule := by
      rw [← hreach.2.2.2.1, ← hRkL]
      exact loadLoan_perm Rk
    rw [hperm.length_eq] at g1
    rw [hperm.countP_eq] at g2
    exact ⟨by omega, by omega, fun _ => g3⟩

theorem isCents_of_twoDigits (d : Decimal) (h : d.twoDigits = true) : isCents d.toRat := by
  unfold Decimal.twoDigits at h
  have h2 : -2 ≤ d.exp := of_decide_eq_true h
  obtain ⟨n, hn⟩ : ∃ n : Nat, d.exp = (n : Int) - 2 := ⟨(d.exp + 2).toNat, by omega⟩
  refine ⟨d.value * 10 ^ n, ?_⟩
  unfold Decimal.toRat
  rw [hn, zpow_sub₀ (by norm_num : (10 : ℚ) ≠ 0), zpow_natCast]
  push_cast
  norm_num
  ring

theorem fitsColumns_of_twoDigits (loans : List Loan)
    (h : loans.all Loan.twoDigits = true) : ∀ L ∈ loans, L.fitsColumns := by
  intro L hL
  have hL2 := List.all_eq_true.1 h L hL
  unfold Loan.twoDigits at hL2
  simp only [Bool.and_eq_true, List.all_eq_true] at hL2
  obtain ⟨⟨⟨h1, hr⟩, h2⟩, h3⟩ := hL2
  refine ⟨isCents_of_twoDigits _ h1, isCents_of_twoDigits _ hr, isCents_of_twoDigits _ h2,
    fun p hp => ?_⟩
  obtain ⟨⟨p1, p2⟩, p3⟩ := h3 p hp
  exact ⟨isCents_of_twoDigits _ p1, isCents_of_twoDigits _ p2, isCents_of_twoDigits _ p3⟩

/-- C19 (with the rewrite of the loan succeeding, for a loan that alone carries
its ID, and with stored amounts that are whole numbers of cents at the start
and after each cycle, so that the DECIMAL(15,2) columns hold them as they were
computed): if in each of `k` consecutive settlement cycles the installment `p`
of the loan, unpaid and overdue, is reached and found unpayable (account
found, balance below the amount) and the rewrite of the loan succeeds, then
after each of these cycles the stored schedule is the schedule read in that
cycle with the same installments in place (`p` unpaid and untouched) followed
by the new installments, of which exactly one is the penalty for `p` (10% of
its amount, a whole number of cents) and at most one belongs to each other
installment; after the `k` cycles the schedule is at least `k` installments
longer than at the start, holds at least `k` more installments with the
amounts of a penalty for `p`, and still holds `p`. -/
theorem C19_penalties_compound (env : Env) (w0 : World) (id : String) (p : Payment) (k : Nat)
    (huniq : (w0.loans.map (fun R => R.ID)).count id ≤ 1)
    (hcol : ∀ c, c ≤ k → ∀ R ∈ (runCycles env c w0).loans, R.fitsColumns)
    (hdyn : ∀ c, c < k → ∃ before L after pre post,
      UnpayableWhenReached env (runCycles env c w0) id p before L after pre post) :
    (∀ c, c < k → ∀ before L after pre post,
      UnpayableWhenReached env (runCycles env c w0) id p before L after pre post →
      ∀ R ∈ (runCycles env (c + 1) w0).loans, R.ID = id →
        GainsOnePenalty p pre post R.PaymentSchedule ∧
          isCents (p.Amount.Mul Decimal.oneTenth).toRat) ∧
    (∀ R0 ∈ w0.loans, R0.ID = id → ∀ R ∈ (runCycles env k w0).loans, R.ID = id →
      R0.PaymentSchedule.length + k ≤ R.PaymentSchedule.length ∧
      R0.PaymentSchedule.countP (isPenaltyFor p) + k ≤
        R.PaymentSchedule.countP (isPenaltyFor p) ∧
      (0 < k → p ∈ R.PaymentSchedule)) := by
  refine ⟨?_, runCycles_gains_penalties env w0 id p huniq k hdyn⟩
  intro c hc before L after pre post hreach R hR hid
  have hload : (storage.GetAllLoans env (runCycles env c w0)).1 =
      (runCycles env c w0).loans.map loadLoan :=
    storage.GetAllLoans_of_ne_nil _ _ (by rw [hreach.1]; simp)
  have hsplit : (runCycles env c w0).loans.map loadLoan = before ++ L :: after := by
    rw [← hload]; exact hreach.1
  have huniqc : ((runCycles env c w0).loans.map (fun R => R.ID)).count id ≤ 1 := by
    rw [runCycles_loan_IDs]; exact huniq
  have hothers := unique_ID_split _ before after L id huniqc hsplit hreach.2.1
  have hfit := hcol (c + 1) (by omega) R hR
  rw [runCycles_succ_last] at hR
  have hgain := processOverduePayments_gains_penalty env (runCycles env c w0) id p before L
    after pre post hreach hothers R hR hid
  refine ⟨hgain, ?_⟩
  obtain ⟨pre2, post2, newsPre, newsPost, t, hs2, _⟩ := hgain
  have hmem : penaltyInstallment t p ∈ R.PaymentSchedule := by
    rw [hs2]; simp
  exact (hfit.2.2.2 _ hmem).1

set_option maxRecDepth 100000 in
/-- C19 as stated fails when the rewrite of the loan fails: with balance 100
and an overdue installment of 500, two cycles are run and the rewrite of the
first cycle fails. In both cycles the installment is reached and found
unpayable (a penalty is appended to the schedule the cycle works on), yet
after the first cycle the stored schedule has gained nothing, and after the
second it holds one penalty, not two. -/
theorem C19_counterexample :
    sampleLargeInstallment.Paid = false ∧
    sampleLargeInstallment.DueDate.Before sampleNow = true ∧
    sampleOverdueWorld.accounts "a" = some ⟨"a", ⟨100, 0⟩⟩ ∧
    (processPayment (sampleEnvFailsAt 4) sampleNow 0 sampleLargeInstallment
      { loan := sampleLoan [sampleLargeInstallment] ⟨1000, 0⟩, modified := false
        world := sampleOverdueWorld.next.next }).loan.PaymentSchedule =
      [sampleLargeInstallment, samplePenalty] ∧
    (runCycles (sampleEnvFailsAt 4) 1 sampleOverdueWorld).loans =
      [sampleLoan [sampleLargeInstallment] ⟨1000, 0⟩] ∧
    (runCycles (sampleEnvFailsAt 4) 1 sampleOverdueWorld).accounts "a" =
      some ⟨"a", ⟨100, 0⟩⟩ ∧
    (processPayment (sampleEnvFailsAt 4) sampleNow 0 sampleLargeInstallment
      { loan := sampleLoan [sampleLargeInstallment] ⟨1000, 0⟩, modified := false
        world := (runCycles (sampleEnvFailsAt 4) 1
          sampleOverdueWorld).next.next }).loan.PaymentSchedule =
      [sampleLargeInstallment, samplePenalty] ∧
    (runCycles (sampleEnvFailsAt 4) 2 sampleOverdueWorld).loans =
      [sampleLoan [sampleLargeInstallment, samplePenalty] ⟨1000, 0⟩] := by
  decide

set_option maxRecDepth 100000 in
/-- C19 (amended) at the sample data: two cycles with balance 100 and an
overdue installment of 500; the schedule holds the installment and two
penalties of 50 afterwards. -/
theorem C19_witness :
    (runCycles sampleEnv 2 sampleOverdueWorld).loans =
      [sampleLoan [sampleLargeInstallment, samplePenalty, samplePenalty] ⟨1000, 0⟩] ∧
    ((∀ c, c < 2 → ∀ before L after pre post,
      UnpayableWhenReached sampleEnv (runCycles sampleEnv c sampleOverdueWorld) "l"
        sampleLargeInstallment before L after pre post →
      ∀ R ∈ (runCycles sampleEnv (c + 1) sampleOverdueWorld).loans, R.ID = "l" →
        GainsOnePenalty sampleLargeInstallment pre post R.PaymentSchedule ∧
          isCents (sampleLargeInstallment.Amount.Mul Decimal.oneTenth).toRat) ∧
    (∀ R0 ∈ sampleOverdueWorld.loans, R0.ID = "l" →
      ∀ R ∈ (runCycles sampleEnv 2 sampleOverdueWorld).loans, R.ID = "l" →
      R0.PaymentSchedule.length + 2 ≤ R.PaymentSchedule.length ∧
      R0.PaymentSchedule.countP (isPenaltyFor sampleLargeInstallment) + 2 ≤
        R.PaymentSchedule.countP (isPenaltyFor sampleLargeInstallment) ∧
      (0 < 2 → sampleLargeInstallment ∈ R.PaymentSchedule))) :=
  ⟨by decide,
    C19_penalties_compound sampleEnv sampleOverdueWorld "l" sampleLargeInstallment 2
      (by decide)
      (fun c hc => by
        have hc3 : c = 0 ∨ c = 1 ∨ c = 2 := by omega
        rcases hc3 with rfl | rfl | rfl
        · exact fitsColumns_of_twoDigits _ (by decide)
        · exact fitsColumns_of_twoDigits _ (by decide)
        · exact fitsColumns_of_twoDigits _ (by decide))
      (fun c hc => by
        have hc2 : c = 0 ∨ c = 1 := by omega
        rcases hc2 with rfl | rfl
        · exact ⟨[], sampleLoan [sampleLargeInstallment] ⟨1000, 0⟩, [], [], [],
            by decide, rfl, by decide, rfl, rfl, by decide,
            ⟨⟨"a", ⟨100, 0⟩⟩, by decide,
              by norm_num [Decimal.toRat, sampleLargeInstallment]⟩, by decide⟩
        · exact ⟨[], sampleLoan [sampleLargeInstallment, samplePenalty] ⟨1000, 0⟩, [], [],
            [samplePenalty],
            by decide, rfl, by decide, rfl, rfl, by decide,
            ⟨⟨"a", ⟨100, 0⟩⟩, by decide,
              by norm_num [Decimal.toRat, sampleLargeInstallment]⟩, by decide⟩)⟩

/-- The loop over the schedule of a loan leaves every installment that is paid,
or not due strictly before `now`, in its place and as it was. -/
theorem paymentLoop_keeps_skipped (env : Env) (now : Time) (L : Loan) (w : World) (j : Nat)
    (q : Payment) (hq : L.PaymentSchedule[j]? = some q)
    (h : q.Paid = true ∨ q.DueDate.Before now = false) :
    (paymentLoop env now L.PaymentSchedule 0
      { loan := L, modified := false, world := w }).loan.PaymentSchedule[j]? = some q := by
  obtain ⟨rest2, news, e, hf, _, _⟩ := paymentLoop_shape env now L.PaymentSchedule [] []
    { loan := L, modified := false, world := w } (by simp)
  simp only [List.length_nil, List.nil_append, List.append_nil] at e
  obtain ⟨x, hx, hk⟩ := forall2_getElem hf j q hq
  have hxq : x = q := by
    rcases hk with rfl | ⟨h1, h2, _⟩
    · rfl
    · rcases h with h | h
      · rw [h] at h1; exact absurd h1 (by simp)
      · rw [h] at h2; exact absurd h2 (by simp)
  rw [e, List.getElem?_append_left (by
    rcases Nat.lt_or_ge j rest2.length with hl | hl
    · exact hl
    · rw [List.getElem?_eq_none hl] at hx; exact absurd hx (by simp)), hx, hxq]

/-- C17: an installment that is already paid, or whose due date is not
strictly before now, is passed over: the state of the loop (the loan with its
schedule and remaining principal, the accounts, the stored loans, the
transactions and the event counter) is returned as it was, and after the
whole loop over the schedule of a loan such an installment is still in its
place and as it was. And a paid installment stays as it is, whatever the loop
does: after the treatment of any installment, and after the loop over any
list of installments, every paid entry of the schedule is still there, in
place, paid and unchanged. -/
theorem C17_only_unpaid_overdue_are_touched (env : Env) (now : Time) (i : Nat)
    (payment : Payment) (st : LoanState)
    (h : payment.Paid = true ∨ payment.DueDate.Before now = false) :
    processPayment env now i payment st = st ∧
    (∀ (L : Loan) (w : World) (j : Nat), L.PaymentSchedule[j]? = some payment →
      (paymentLoop env now L.PaymentSchedule 0
        { loan := L, modified := false, world := w }).loan.PaymentSchedule[j]? =
        some payment) ∧
    (∀ (i2 : Nat) (q : Payment) (st2 : LoanState) (j : Nat) (p : Payment),
      st2.loan.PaymentSchedule[j]? = some p → p.Paid = true →
      (processPayment env now i2 q st2).loan.PaymentSchedule[j]? = some p) ∧
    (∀ (rest : List Payment) (i2 : Nat) (st2 : LoanState) (j : Nat) (p : Payment),
      st2.loan.PaymentSchedule[j]? = some p → p.Paid = true →
      (paymentLoop env now rest i2 st2).loan.PaymentSchedule[j]? = some p) :=
  ⟨processPayment_skip env now i payment st h,
    fun L w j hj => paymentLoop_keeps_skipped env now L w j payment hj h,
    fun i2 q st2 j p hj hp => processPayment_keeps_paid env now i2 q st2 j p hj hp,
    fun rest i2 st2 j p hj hp => paymentLoop_keeps_paid env now rest i2 st2 j p hj hp⟩

/-- C17 at the sample data: an installment due exactly now is not touched. -/
theorem C17_witness :
    processPayment sampleEnv sampleNow 0 { sampleInstallment with DueDate := sampleNow }
        (sampleState ⟨1000, 0⟩ [{ sampleInstallment with DueDate := sampleNow }] ⟨1000, 0⟩) =
      sampleState ⟨1000, 0⟩ [{ sampleInstallment with DueDate := sampleNow }] ⟨1000, 0⟩ ∧
    (∀ (L : Loan) (w : World) (j : Nat),
      L.PaymentSchedule[j]? = some { sampleInstallment with DueDate := sampleNow } →
      (paymentLoop sampleEnv sampleNow L.PaymentSchedule 0
        { loan := L, modified := false, world := w }).loan.PaymentSchedule[j]? =
        some { sampleInstallment with DueDate := sampleNow }) ∧
    (∀ (i2 : Nat) (q : Payment) (st2 : LoanState) (j : Nat) (p : Payment),
      st2.loan.PaymentSchedule[j]? = some p → p.Paid = true →
      (processPayment sampleEnv sampleNow i2 q st2).loan.PaymentSchedule[j]? = some p) ∧
    (∀ (rest : List Payment) (i2 : Nat) (st2 : LoanState) (j : Nat) (p : Payment),
      st2.loan.PaymentSchedule[j]? = some p → p.Paid = true →
      (paymentLoop sampleEnv sampleNow rest i2 st2).loan.PaymentSchedule[j]? = some p) :=
  C17_only_unpaid_overdue_are_touched sampleEnv sampleNow 0
    { sampleInstallment with DueDate := sampleNow }
    (sampleState ⟨1000, 0⟩ [{ sampleInstallment with DueDate := sampleNow }] ⟨1000, 0⟩)
    (Or.inr (by decide))

/-! ## The denominator of the annuity factor -/

theorem roundHalfAway_nonneg (x : ℚ) (places : Int) (hx : 0 ≤ x) :
    0 ≤ roundHalfAway x places := by
  unfold roundHalfAway
  have hp : (0 : ℚ) < (10 : ℚ) ^ places := zpow_pos (by norm_num) places
  simp only [if_neg (not_lt.mpr hx)]
  apply div_nonneg _ (le_of_lt hp)
  have : (0 : Int) ≤ ⌊|x| * (10 : ℚ) ^ places + 1 / 2⌋ := by
    apply Int.floor_nonneg.mpr
    have := mul_nonneg (abs_nonneg x) (le_of_lt hp)
    linarith
  exact_mod_cast this

theorem monthlyRate16_nonneg (a : ℚ) (ha : 0 ≤ a) : 0 ≤ monthlyRate16 a := by
  unfold monthlyRate16
  apply roundHalfAway_nonneg
  apply div_nonneg _ (by norm_num)
  apply roundHalfAway_nonneg
  exact div_nonneg ha (by norm_num)

/-- For a positive monthly rate and at least one month the denominator
`(1 + r)^n - 1` is positive. -/
theorem annuity_denominator_pos (r : ℚ) (n : Nat) (hr : 0 < r) (hn : 1 ≤ n) :
    0 < (1 + r) ^ n - 1 := by
  have h1 : (1 : ℚ) < 1 + r := by linarith
  have := one_lt_pow₀ h1 (show n ≠ 0 by omega)
  linarith

/-- The value of the variable `denominator` of `CalculateMonthlyPayment`. -/
theorem toRat_denominator (annualRate : Decimal) (termMonths : Int) (h : 1 ≤ termMonths) :
    ((((Decimal.NewFromInt 1).Add (monthlyRateOf annualRate)).Pow termMonths).Sub
      (Decimal.NewFromInt 1)).toRat =
      (1 + monthlyRate16 annualRate.toRat) ^ termMonths.toNat - 1 := by
  rw [Decimal.toRat_Sub, Decimal.toRat_Pow _ _ h, Decimal.toRat_Add, Decimal.toRat_NewFromInt,
    toRat_monthlyRateOf]
  norm_num

/-- C26: for every annual rate `> 0` whose monthly rate (the code's variable
`monthlyRate`) is non-zero and every `termMonths ≥ 1`, the variable
`denominator` of `CalculateMonthlyPayment`, `(1 + monthlyRate)^termMonths - 1`,
is positive, so not zero: the branch that returns zero for a zero denominator
is not taken and the payment is the rounded product of the last line. -/
theorem C26_denominator_is_nonzero (loanAmount annualRate : Decimal) (termMonths : Int)
    (hrate : 0 < annualRate.toRat) (hmonthly : (monthlyRateOf annualRate).IsZero = false)
    (hterm : 1 ≤ termMonths) :
    0 < ((((Decimal.NewFromInt 1).Add (monthlyRateOf annualRate)).Pow termMonths).Sub
      (Decimal.NewFromInt 1)).toRat ∧
    ((((Decimal.NewFromInt 1).Add (monthlyRateOf annualRate)).Pow termMonths).Sub
      (Decimal.NewFromInt 1)).IsZero = false ∧
    CalculateMonthlyPayment loanAmount annualRate termMonths =
      (loanAmount.Mul
        (((monthlyRateOf annualRate).Mul
            (((Decimal.NewFromInt 1).Add (monthlyRateOf annualRate)).Pow termMonths)).Div
          ((((Decimal.NewFromInt 1).Add (monthlyRateOf annualRate)).Pow termMonths).Sub
            (Decimal.NewFromInt 1)))).RoundBank 2 := by
  have hr0 : monthlyRate16 annualRate.toRat ≠ 0 := by
    rw [← toRat_monthlyRateOf]
    exact (Decimal.IsZero_eq_false_iff _).1 hmonthly
  have hr : 0 < monthlyRate16 annualRate.toRat :=
    lt_of_le_of_ne (monthlyRate16_nonneg _ (le_of_lt hrate)) (Ne.symm hr0)
  have hpos := annuity_denominator_pos _ termMonths.toNat hr (by omega)
  have hz : ((((Decimal.NewFromInt 1).Add (monthlyRateOf annualRate)).Pow termMonths).Sub
      (Decimal.NewFromInt 1)).IsZero = false := by
    rw [Decimal.IsZero_eq_false_iff, toRat_denominator _ _ hterm]
    exact ne_of_gt hpos
  refine ⟨by rw [toRat_denominator _ _ hterm]; exact hpos, hz, ?_⟩
  rw [CalculateMonthlyPayment_eq _ _ _ hterm]
  simp only [hmonthly, hz, Bool.false_eq_true, if_false]

set_option maxRecDepth 100000 in
/-- C26 at 120000 at 10% over 12 months. -/
theorem C26_witness :
    0 < ((((Decimal.NewFromInt 1).Add (monthlyRateOf (Decimal.NewFromInt 10))).Pow 12).Sub
      (Decimal.NewFromInt 1)).toRat ∧
    ((((Decimal.NewFromInt 1).Add (monthlyRateOf (Decimal.NewFromInt 10))).Pow 12).Sub
      (Decimal.NewFromInt 1)).IsZero = false ∧
    CalculateMonthlyPayment (Decimal.NewFromInt 120000) (Decimal.NewFromInt 10) 12 =
      ((Decimal.NewFromInt 120000).Mul
        (((monthlyRateOf (Decimal.NewFromInt 10)).Mul
            (((Decimal.NewFromInt 1).Add (monthlyRateOf (Decimal.NewFromInt 10))).Pow 12)).Div
          ((((Decimal.NewFromInt 1).Add (monthlyRateOf (Decimal.NewFromInt 10))).Pow 12).Sub
            (Decimal.NewFromInt 1)))).RoundBank 2 :=
  C26_denominator_is_nonzero (Decimal.NewFromInt 120000) (Decimal.NewFromInt 10) 12
    (by norm_num [Decimal.toRat_NewFromInt]) (by decide) (by decide)

/-! ## The payment covers the interest -/

/-- Banker's rounding picks an integer number of units within half a unit. -/
theorem roundHalfEven_bounds (x : ℚ) (places : Int) :
    ∃ n : Int, roundHalfEven x places = (n : ℚ) / (10 : ℚ) ^ places ∧
      (n : ℚ) - 1 / 2 ≤ x * (10 : ℚ) ^ places ∧ x * (10 : ℚ) ^ places ≤ n + 1 / 2 := by
  unfold roundHalfEven
  have h1 := Int.floor_le (x * (10 : ℚ) ^ places)
  have h2 := Int.lt_floor_add_one (x * (10 : ℚ) ^ places)
  by_cases ha : x * (10 : ℚ) ^ places - ⌊x * (10 : ℚ) ^ places⌋ < 1 / 2
  · refine ⟨⌊x * (10 : ℚ) ^ places⌋, by simp only [if_pos ha], by linarith, by linarith⟩
  · by_cases hb : 1 / 2 < x * (10 : ℚ) ^ places - ⌊x * (10 : ℚ) ^ places⌋
    · refine ⟨⌊x * (10 : ℚ) ^ places⌋ + 1, by simp only [if_neg ha, if_pos hb], ?_, ?_⟩
      · push_cast; linarith
      · push_cast; linarith
    · by_cases hc : ⌊x * (10 : ℚ) ^ places⌋ % 2 = 0
      · refine ⟨⌊x * (10 : ℚ) ^ places⌋, by simp only [if_neg ha, if_neg hb, if_pos hc],
          by linarith, by linarith⟩
      · refine ⟨⌊x * (10 : ℚ) ^ places⌋ + 1,
          by simp only [if_neg ha, if_neg hb, if_neg hc], ?_, ?_⟩
        · push_cast; linarith
        · push_cast; linarith

/-- Banker's rounding is monotone. -/
theorem roundHalfEven_mono (x y : ℚ) (places : Int) (h : x ≤ y) :
    roundHalfEven x places ≤ roundHalfEven y places := by
  have hp : (0 : ℚ) < (10 : ℚ) ^ places := zpow_pos (by norm_num) places
  by_contra hc
  rw [not_le] at hc
  obtain ⟨nx, ex, lx, ux⟩ := roundHalfEven_bounds x places
  obtain ⟨ny, ey, ly, uy⟩ := roundHalfEven_bounds y places
  have hn : ny < nx := by
    rw [ex, ey] at hc
    have := (div_lt_div_iff_of_pos_right hp).1 hc
    exact_mod_cast this
  have hn' : (ny : ℚ) + 1 ≤ nx := by exact_mod_cast hn
  have hxy : x * (10 : ℚ) ^ places ≤ y * (10 : ℚ) ^ places :=
    mul_le_mul_of_nonneg_right h (le_of_lt hp)
  have heq : x * (10 : ℚ) ^ places = y * (10 : ℚ) ^ places := by linarith
  have : x = y := mul_right_cancel₀ (ne_of_gt hp) heq
  rw [this] at hc
  exact lt_irrefl _ hc

theorem roundHalfEven_nonneg (x : ℚ) (hx : 0 ≤ x) : 0 ≤ roundHalfEven x 2 := by
  have := roundHalfEven_mono 0 x 2 hx
  rw [roundHalfEven_zero] at this
  exact this

/-- Rounding half away from zero does not go below a number of the grid that
the argument is not below. -/
theorem le_roundHalfAway_of_grid (x g : ℚ) (places : Int) (m : Int)
    (hg : g * (10 : ℚ) ^ places = m) (hg0 : 0 ≤ g) (h : g ≤ x) :
    g ≤ roundHalfAway x places := by
  have hp : (0 : ℚ) < (10 : ℚ) ^ places := zpow_pos (by norm_num) places
  have hx : 0 ≤ x := le_trans hg0 h
  unfold roundHalfAway
  simp only [if_neg (not_lt.mpr hx)]
  rw [le_div_iff₀ hp, hg, abs_of_nonneg hx]
  have : m ≤ ⌊x * (10 : ℚ) ^ places + 1 / 2⌋ := by
    apply Int.le_floor.mpr
    have := mul_le_mul_of_nonneg_right h (le_of_lt hp)
    rw [hg] at this
    linarith
  exact_mod_cast this

/-- The annuity factor is at least the rate. -/
theorem rate_le_annuity_factor (r : ℚ) (n : Nat) (hr : 0 < r) (hn : 1 ≤ n) :
    r ≤ r * (1 + r) ^ n / ((1 + r) ^ n - 1) := by
  have hd := annuity_denominator_pos r n hr hn
  rw [le_div_iff₀ hd]
  nlinarith

/-- With a payment that covers the interest on every remaining principal up to
`P`, every installment of the recurrence has a non-negative interest part and
a non-negative principal part. -/
theorem recurrence_parts_nonneg (r mp P : ℚ) (startDate : Time) (termMonths : Nat)
    (hr : 0 ≤ r)
    (hcover : ∀ rem, 0 < rem → rem ≤ P → roundHalfEven (rem * r) 2 ≤ mp)
    (left : Nat) : ∀ rem : ℚ, 0 < rem → rem ≤ P →
    ∀ x ∈ recurrence r mp startDate termMonths left rem,
      0 ≤ x.interestPart ∧ 0 ≤ x.principalPart := by
  induction left with
  | zero => intro rem _ _ x hx; simp [recurrence] at hx
  | succ l ih =>
    intro rem hrem hP x hx
    have hint : 0 ≤ roundHalfEven (rem * r) 2 :=
      roundHalfEven_nonneg _ (mul_nonneg (le_of_lt hrem) hr)
    by_cases h : l = 0 ∨ rem - (mp - roundHalfEven (rem * r) 2) ≤ 0
    · rw [recurrence_final _ _ _ _ _ _ h] at hx
      simp only [List.mem_singleton] at hx
      rw [hx]
      exact ⟨hint, le_of_lt hrem⟩
    · rw [recurrence_regular _ _ _ _ _ _ h] at hx
      have hpp : 0 ≤ mp - roundHalfEven (rem * r) 2 := by
        have := hcover rem hrem hP
        linarith
      rcases List.mem_cons.1 hx with hx | hx
      · rw [hx]
        exact ⟨hint, hpp⟩
      · have h2 : ¬ rem - (mp - roundHalfEven (rem * r) 2) ≤ 0 := fun hc => h (Or.inr hc)
        exact ih _ (not_le.mp h2) (by linarith) x hx

/-- The payment that `CalculateMonthlyPayment` returns covers the rounded
interest on every remaining principal up to the principal. -/
theorem payment_covers_interest (principal annualRate : Decimal) (termMonths : Int)
    (hP : 0 < principal.toRat) (hrate : 0 ≤ annualRate.toRat) (hterm : 1 ≤ termMonths) :
    ∀ rem, 0 < rem → rem ≤ principal.toRat →
      roundHalfEven (rem * (monthlyRateOf annualRate).toRat) 2 ≤
        (CalculateMonthlyPayment principal annualRate termMonths).toRat := by
  intro rem hrem hle
  have hr0 : 0 ≤ (monthlyRateOf annualRate).toRat := by
    rw [toRat_monthlyRateOf]; exact monthlyRate16_nonneg _ hrate
  cases hz : (monthlyRateOf annualRate).IsZero
  · have hne : (monthlyRateOf annualRate).toRat ≠ 0 := (Decimal.IsZero_eq_false_iff _).1 hz
    have hr : 0 < (monthlyRateOf annualRate).toRat := lt_of_le_of_ne hr0 (Ne.symm hne)
    have hr' : 0 < monthlyRate16 annualRate.toRat := by rw [← toRat_monthlyRateOf]; exact hr
    have hd := annuity_denominator_pos _ termMonths.toNat hr' (by omega)
    rw [toRat_CalculateMonthlyPayment _ _ _ hterm (ne_of_gt hr') (ne_of_gt hd)]
    unfold paymentRounded
    simp only
    apply roundHalfEven_mono
    have hgrid : monthlyRate16 annualRate.toRat * (10 : ℚ) ^ (16 : Int) =
        ((monthlyRateOf annualRate).value : ℚ) := by
      rw [← toRat_monthlyRateOf, Decimal.toRat_of_exp_neg _ 16 (monthlyRateOf_exp annualRate)]
      have hp : (10 : ℚ) ^ (16 : Int) ≠ 0 := ne_of_gt (zpow_pos (by norm_num) 16)
      field_simp
    have hq := le_roundHalfAway_of_grid _ _ 16 _ hgrid (le_of_lt hr')
      (rate_le_annuity_factor _ termMonths.toNat hr' (by omega))
    rw [toRat_monthlyRateOf]
    calc rem * monthlyRate16 annualRate.toRat
        ≤ principal.toRat * monthlyRate16 annualRate.toRat :=
          mul_le_mul_of_nonneg_right hle (le_of_lt hr')
      _ ≤ principal.toRat * _ := mul_le_mul_of_nonneg_left hq (le_of_lt hP)
  · have hzero : (monthlyRateOf annualRate).toRat = 0 := (Decimal.IsZero_iff _).1 hz
    rw [hzero, mul_zero, roundHalfEven_zero, CalculateMonthlyPayment_eq _ _ _ hterm]
    simp only [hz, if_true]
    rw [Decimal.toRat_Div _ _ (by
      show (Decimal.NewFromInt termMonths).value ≠ 0
      simp only [Decimal.NewFromInt, Decimal.New]
      omega)]
    apply roundHalfAway_nonneg
    rw [Decimal.toRat_NewFromInt]
    apply div_nonneg (le_of_lt hP)
    exact_mod_cast (by omega : (0 : Int) ≤ termMonths)

/-- C27: for every principal `> 0`, annual rate `≥ 0` and `termMonths ≥ 1`, the
schedule that `GeneratePaymentSchedule` returns for the payment of
`CalculateMonthlyPayment` has a non-negative interest part and a non-negative
principal part in every installment: the payment covers the rounded interest
on every remaining principal up to the principal, so the remaining principal
never grows. -/
theorem C27_parts_are_nonnegative (principal annualRate : Decimal) (termMonths : Int)
    (startDate : Time)
    (hP : 0 < principal.toRat) (hrate : 0 ≤ annualRate.toRat) (hterm : 1 ≤ termMonths) :
    ∃ s, GeneratePaymentSchedule principal annualRate termMonths startDate
        (CalculateMonthlyPayment principal annualRate termMonths) = some s ∧
      ∀ p ∈ s, 0 ≤ p.InterestPart.toRat ∧ 0 ≤ p.PrincipalPart.toRat := by
  obtain ⟨s, hs, hmap⟩ := GeneratePaymentSchedule_refines principal annualRate termMonths
    startDate (CalculateMonthlyPayment principal annualRate termMonths) (by omega)
  refine ⟨s, hs, fun p hp => ?_⟩
  have hmem : p.toInstallment ∈ s.map Payment.toInstallment := List.mem_map_of_mem _ hp
  rw [hmap] at hmem
  have hr0 : 0 ≤ (monthlyRateOf annualRate).toRat := by
    rw [toRat_monthlyRateOf]; exact monthlyRate16_nonneg _ hrate
  exact recurrence_parts_nonneg _ _ principal.toRat startDate termMonths.toNat hr0
    (payment_covers_interest principal annualRate termMonths hP hrate hterm)
    termMonths.toNat principal.toRat hP (le_refl _) _ hmem

/-- C27 at 120000 at 10% over 12 months. -/
theorem C27_witness :
    ∃ s, GeneratePaymentSchedule (Decimal.NewFromInt 120000) (Decimal.NewFromInt 10) 12
        ⟨2023, 1, 31, 0⟩
        (CalculateMonthlyPayment (Decimal.NewFromInt 120000) (Decimal.NewFromInt 10) 12) =
        some s ∧
      ∀ p ∈ s, 0 ≤ p.InterestPart.toRat ∧ 0 ≤ p.PrincipalPart.toRat :=
  C27_parts_are_nonnegative (Decimal.NewFromInt 120000) (Decimal.NewFromInt 10) 12
    ⟨2023, 1, 31, 0⟩ (by norm_num [Decimal.toRat_NewFromInt])
    (by norm_num [Decimal.toRat_NewFromInt]) (by decide)

/-! ## The balances of the projection -/

theorem deductPayments_eq (date : Time) (b : Decimal) (s : List Payment) :
    deductPayments date b s =
      match s.find? (dueUnpaid date) with
      | some p => b.Sub p.Amount
      | none => b := by
  induction s with
  | nil => rfl
  | cons q s ih =>
    by_cases h : q.DueDate.year = date.year ∧ q.DueDate.month = date.month ∧
        q.DueDate.day = date.day ∧ q.Paid = false
    · have hd : dueUnpaid date q = true := by simp only [dueUnpaid, decide_eq_true h]
      simp only [deductPayments, if_pos h, List.find?_cons, hd]
    · have hd : dueUnpaid date q = false := by simp only [dueUnpaid, decide_eq_false h]
      simp only [deductPayments, if_neg h, List.find?_cons, hd]
      exact ih

theorem toRat_deductPayments (date : Time) (b : Decimal) (s : List Payment) :
    (deductPayments date b s).toRat = b.toRat - firstDueAmount date s := by
  rw [deductPayments_eq]
  unfold firstDueAmount
  cases s.find? (dueUnpaid date) with
  | none => simp
  | some p => simp [Decimal.toRat_Sub]

theorem toRat_foldl_deductPayments (date : Time) (loans : List Loan) :
    ∀ b : Decimal,
      (loans.foldl (fun b loan => deductPayments date b loan.PaymentSchedule) b).toRat =
        b.toRat - dayDeduction loans date := by
  induction loans with
  | nil => intro b; simp [dayDeduction]
  | cons L loans ih =>
    intro b
    rw [List.foldl_cons, ih, toRat_deductPayments]
    simp only [dayDeduction, List.map_cons, List.sum_cons]
    ring

/-- The balance of the `k`-th point of the loop over the days that starts at
day `i` with balance `b`. -/
theorem predictLoop_balance (now : Time) (avgIn avgOut : Decimal) (loans : List Loan)
    (days : Int) (fuel : Nat) :
    ∀ (i : Int) (b : Decimal) (k : Nat) (pt : BalancePrediction),
      (predictLoop now avgIn avgOut loans days fuel i b)[k]? = some pt →
      pt.Balance.toRat = b.toRat + ((k : ℚ) + 1) * (avgIn.toRat - avgOut.toRat) -
        ∑ j in Finset.range (k + 1), dayDeduction loans (now.AddDate 0 0 (i + (j : Int) + 1)) := by
  induction fuel with
  | zero => intro i b k pt h; simp [predictLoop] at h
  | succ f ih =>
    intro i b k pt h
    by_cases hlt : i < days
    · simp only [predictLoop, if_pos hlt] at h
      have e0 : now.AddDate 0 0 (i + ((0 : Nat) : Int) + 1) = now.AddDate 0 0 (i + 1) := by
        congr 1; simp
      cases k with
      | zero =>
        simp only [List.getElem?_cons_zero, Option.some.injEq] at h
        rw [← h]
        simp only [toRat_foldl_deductPayments, Decimal.toRat_Sub, Decimal.toRat_Add,
          zero_add, Finset.sum_range_one, e0]
        generalize dayDeduction loans (now.AddDate 0 0 (i + 1)) = D
        push_cast
        ring
      | succ k =>
        simp only [List.getElem?_cons_succ] at h
        have hshift : ∀ j ∈ Finset.range (k + 1),
            dayDeduction loans (now.AddDate 0 0 (i + 1 + (j : Int) + 1)) =
            dayDeduction loans (now.AddDate 0 0 (i + ((j + 1 : Nat) : Int) + 1)) := by
          intro j _; congr 2; push_cast; ring
        rw [ih (i + 1) _ k pt h, toRat_foldl_deductPayments, Decimal.toRat_Sub,
          Decimal.toRat_Add, Finset.sum_range_succ' _ (k + 1), Finset.sum_congr rfl hshift, e0]
        generalize (∑ j in Finset.range (k + 1),
          dayDeduction loans (now.AddDate 0 0 (i + ((j + 1 : Nat) : Int) + 1))) = S
        generalize dayDeduction loans (now.AddDate 0 0 (i + 1)) = D
        push_cast
        ring
    · simp [predictLoop, if_neg hlt] at h

/-- The answer of the projection for a number of days from 1 to 365 and an
account that is found. -/
theorem BalancePredictionHandler_ok (env : Env) (w : World) (accountID : String) (n : Int)
    (account : Account) (h1 : 1 ≤ n) (h2 : n ≤ 365) (hf : env.fails w.tick = false)
    (ha : w.accounts accountID = some account) :
    ∃ w2, BalancePredictionHandler env w accountID (DaysParam.number n) =
      (HttpResponse.forecast 200
        { AccountID := accountID
          CurrentBalance := account.Balance
          PredictionDays := n
          AverageDailyOutflow :=
            averageOutgoing (flowsRead env w accountID (env.clock (w.tick + 3)))
          AverageDailyInflow :=
            averageIncoming (flowsRead env w accountID (env.clock (w.tick + 3)))
          Predictions := predictLoop (env.clock (w.tick + 3))
            (averageIncoming (flowsRead env w accountID (env.clock (w.tick + 3))))
            (averageOutgoing (flowsRead env w accountID (env.clock (w.tick + 3))))
            (loansRead env w accountID) n n.toNat 0 account.Balance }, w2) := by
  have hr : (storage.GetAccount env w accountID).1 = some account :=
    (storage.GetAccount_eq_some _ _ _ _).2 ⟨hf, ha⟩
  have htick : (timeNow env (storage.GetAccountLoans env (storage.GetAccountTransactions env
      (storage.GetAccount env w accountID).2 accountID).2 accountID).2).1 =
      env.clock (w.tick + 3) := by
    unfold timeNow storage.GetAccountLoans storage.GetAccountTransactions
    rw [storage.GetAccount_world]
    split_ifs <;> rfl
  refine ⟨(timeNow env (storage.GetAccountLoans env (storage.GetAccountTransactions env
      (storage.GetAccount env w accountID).2 accountID).2 accountID).2).2, ?_⟩
  unfold BalancePredictionHandler
  simp only [if_neg (show ¬ n ≤ 0 by omega), if_neg (show ¬ n > 365 by omega), hr, htick]
  rfl

theorem foldl_addFlow (accountID : String) (t : Time) (txs : List Transaction) :
    ∀ f : Flows,
      (txs.foldl (addFlow accountID t) f).outgoingAmount.toRat =
        f.outgoingAmount.toRat + amountSum (outflowTransactions accountID t txs) ∧
      (txs.foldl (addFlow accountID t) f).outgoingCount =
        f.outgoingCount + (outflowTransactions accountID t txs).length ∧
      (txs.foldl (addFlow accountID t) f).incomingAmount.toRat =
        f.incomingAmount.toRat + amountSum (inflowTransactions accountID t txs) ∧
      (txs.foldl (addFlow accountID t) f).incomingCount =
        f.incomingCount + (inflowTransactions accountID t txs).length := by
  induction txs with
  | nil => intro f; simp [amountSum, outflowTransactions, inflowTransactions]
  | cons tx txs ih =>
    intro f
    rw [List.foldl_cons]
    obtain ⟨i1, i2, i3, i4⟩ := ih (addFlow accountID t f tx)
    rw [i1, i2, i3, i4]
    unfold addFlow
    cases hb : tx.Timestamp.Before t
    · by_cases hfrom : tx.FromAccountID = accountID <;>
        by_cases hto : tx.ToAccountID = accountID <;>
        refine ⟨?_, ?_, ?_, ?_⟩ <;>
        simp [hb, hfrom, hto, amountSum, outflowTransactions, inflowTransactions,
          List.filter_cons, Decimal.toRat_Add] <;>
        ring
    · refine ⟨?_, ?_, ?_, ?_⟩ <;>
        simp [hb, amountSum, outflowTransactions, inflowTransactions, List.filter_cons]

theorem dayDeduction_eq_zero (loans : List Loan) (date : Time)
    (h : ∀ L ∈ loans, ∀ p ∈ L.PaymentSchedule, dueUnpaid date p = false) :
    dayDeduction loans date = 0 := by
  unfold dayDeduction
  apply List.sum_eq_zero
  intro x hx
  rw [List.mem_map] at hx
  obtain ⟨L, hL, rfl⟩ := hx
  unfold firstDueAmount
  have : L.PaymentSchedule.find? (dueUnpaid date) = none := by
    rw [List.find?_eq_none]
    intro p hp
    rw [h L hL p hp]
    simp
  rw [this]

/-- C21: for a number of days `n` from 1 to 365 and an account that is found,
the projection answers with a forecast in which the balance of point `k`
(counted from 0, so the `(k+1)`-th point) is the current balance plus `k + 1`
times (average daily inflow minus average daily outflow) minus the deductions
of the days up to that point, a day's deductions being, for each loan read,
the amount of its first unpaid installment due that day; so without any
unpaid installment due on a day of the horizon it is the current balance plus
`k + 1` times (inflow minus outflow), and in general each point is the point
before it (the current balance for the first) plus inflow minus outflow minus
that day's deductions. -/
theorem C21_forecast_balances (env : Env) (w : World) (accountID : String) (n : Int)
    (account : Account) (h1 : 1 ≤ n) (h2 : n ≤ 365) (hf : env.fails w.tick = false)
    (ha : w.accounts accountID = some account) :
    ∃ body w2, BalancePredictionHandler env w accountID (DaysParam.number n) =
        (HttpResponse.forecast 200 body, w2) ∧
      body.CurrentBalance = account.Balance ∧
      (∀ (k : Nat) (pt : BalancePrediction), body.Predictions[k]? = some pt →
        pt.Balance.toRat = body.CurrentBalance.toRat +
          ((k : ℚ) + 1) * (body.AverageDailyInflow.toRat - body.AverageDailyOutflow.toRat) -
          ∑ j in Finset.range (k + 1), dayDeduction (loansRead env w accountID)
            ((env.clock (w.tick + 3)).AddDate 0 0 (0 + (j : Int) + 1))) ∧
      ((∀ L ∈ loansRead env w accountID, ∀ p ∈ L.PaymentSchedule, ∀ j : Nat, (j : Int) < n →
          dueUnpaid ((env.clock (w.tick + 3)).AddDate 0 0 (0 + (j : Int) + 1)) p = false) →
        ∀ (k : Nat) (pt : BalancePrediction), body.Predictions[k]? = some pt →
          pt.Balance.toRat = body.CurrentBalance.toRat +
            ((k : ℚ) + 1) * (body.AverageDailyInflow.toRat - body.AverageDailyOutflow.toRat)) ∧
      (∀ pt, body.Predictions[0]? = some pt →
        pt.Balance.toRat = body.CurrentBalance.toRat + body.AverageDailyInflow.toRat -
          body.AverageDailyOutflow.toRat -
          dayDeduction (loansRead env w accountID)
            ((env.clock (w.tick + 3)).AddDate 0 0 (0 + ((0 : Nat) : Int) + 1))) ∧
      (∀ (k : Nat) (prev pt : BalancePrediction), body.Predictions[k]? = some prev →
        body.Predictions[k + 1]? = some pt →
        pt.Balance.toRat = prev.Balance.toRat + body.AverageDailyInflow.toRat -
          body.AverageDailyOutflow.toRat -
          dayDeduction (loansRead env w accountID)
            ((env.clock (w.tick + 3)).AddDate 0 0 (0 + ((k + 1 : Nat) : Int) + 1))) := by
  obtain ⟨w2, hw2⟩ := BalancePredictionHandler_ok env w accountID n account h1 h2 hf ha
  refine ⟨_, w2, hw2, rfl, ?_, ?_, ?_, ?_⟩
  · intro k pt hk
    exact predictLoop_balance _ _ _ _ _ _ 0 _ k pt hk
  · intro hnone k pt hk
    have hlen : k < n.toNat := by
      have hsome : k < (predictLoop (env.clock (w.tick + 3))
          (averageIncoming (flowsRead env w accountID (env.clock (w.tick + 3))))
          (averageOutgoing (flowsRead env w accountID (env.clock (w.tick + 3))))
          (loansRead env w accountID) n n.toNat 0 account.Balance).length := by
        by_contra hc
        rw [List.getElem?_eq_none (not_lt.mp hc)] at hk
        exact absurd hk (by simp)
      rw [predictLoop_length_top] at hsome
      exact hsome
    rw [predictLoop_balance _ _ _ _ _ _ 0 _ k pt hk, Finset.sum_eq_zero]
    · ring
    · intro j hj
      rw [Finset.mem_range] at hj
      exact dayDeduction_eq_zero _ _ (fun L hL p hp => hnone L hL p hp j (by omega))
  · intro pt hk
    rw [predictLoop_balance _ _ _ _ _ _ 0 _ 0 pt hk, Finset.sum_range_one]
    push_cast
    ring
  · intro k prev pt hprev hpt
    rw [predictLoop_balance _ _ _ _ _ _ 0 _ (k + 1) pt hpt,
      predictLoop_balance _ _ _ _ _ _ 0 _ k prev hprev, Finset.sum_range_succ _ (k + 1)]
    push_cast
    ring

set_option maxRecDepth 100000 in
/-- C21 at the sample data: account "a" with balance 1000, 90 out and 30 in
over the trailing 30 days (3 and 1 a day), and a loan with installments of 40
(paid), 70 and 20 (unpaid) due on 5 March 2024, 5 days from 1 March. The
forecast is 998, 996, 994, then 922 on 5 March (the 70 deducted) and 920 on
6 March (the deduction carried). -/
theorem C21_witness :
    (BalancePredictionHandler sampleEnv sampleForecastWorld "a" (DaysParam.number 5)).1 =
      HttpResponse.forecast 200
        { AccountID := "a", CurrentBalance := ⟨1000, 0⟩, PredictionDays := 5
          AverageDailyOutflow := ⟨30000000000000000, -16⟩
          AverageDailyInflow := ⟨10000000000000000, -16⟩
          Predictions :=
            [{ Date := ⟨2024, 3, 2, 0⟩, Balance := ⟨9980000000000000000, -16⟩ },
             { Date := ⟨2024, 3, 3, 0⟩, Balance := ⟨9960000000000000000, -16⟩ },
             { Date := ⟨2024, 3, 4, 0⟩, Balance := ⟨9940000000000000000, -16⟩ },
             { Date := ⟨2024, 3, 5, 0⟩, Balance := ⟨9220000000000000000, -16⟩ },
             { Date := ⟨2024, 3, 6, 0⟩, Balance := ⟨9200000000000000000, -16⟩ }] } ∧
    ∃ body w2, BalancePredictionHandler sampleEnv sampleForecastWorld "a"
          (DaysParam.number 5) = (HttpResponse.forecast 200 body, w2) ∧
      body.CurrentBalance = (⟨1000, 0⟩ : Decimal) ∧
      (∀ (k : Nat) (pt : BalancePrediction), body.Predictions[k]? = some pt →
        pt.Balance.toRat = body.CurrentBalance.toRat +
          ((k : ℚ) + 1) * (body.AverageDailyInflow.toRat - body.AverageDailyOutflow.toRat) -
          ∑ j in Finset.range (k + 1), dayDeduction
            (loansRead sampleEnv sampleForecastWorld "a")
            ((sampleEnv.clock (sampleForecastWorld.tick + 3)).AddDate 0 0
              (0 + (j : Int) + 1))) ∧
      ((∀ L ∈ loansRead sampleEnv sampleForecastWorld "a", ∀ p ∈ L.PaymentSchedule,
          ∀ j : Nat, (j : Int) < 5 →
          dueUnpaid ((sampleEnv.clock (sampleForecastWorld.tick + 3)).AddDate 0 0
            (0 + (j : Int) + 1)) p = false) →
        ∀ (k : Nat) (pt : BalancePrediction), body.Predictions[k]? = some pt →
          pt.Balance.toRat = body.CurrentBalance.toRat +
            ((k : ℚ) + 1) * (body.AverageDailyInflow.toRat - body.AverageDailyOutflow.toRat)) ∧
      (∀ pt, body.Predictions[0]? = some pt →
        pt.Balance.toRat = body.CurrentBalance.toRat + body.AverageDailyInflow.toRat -
          body.AverageDailyOutflow.toRat -
          dayDeduction (loansRead sampleEnv sampleForecastWorld "a")
            ((sampleEnv.clock (sampleForecastWorld.tick + 3)).AddDate 0 0
              (0 + ((0 : Nat) : Int) + 1))) ∧
      (∀ (k : Nat) (prev pt : BalancePrediction), body.Predictions[k]? = some prev →
        body.Predictions[k + 1]? = some pt →
        pt.Balance.toRat = prev.Balance.toRat + body.AverageDailyInflow.toRat -
          body.AverageDailyOutflow.toRat -
          dayDeduction (loansRead sampleEnv sampleForecastWorld "a")
            ((sampleEnv.clock (sampleForecastWorld.tick + 3)).AddDate 0 0
              (0 + ((k + 1 : Nat) : Int) + 1))) :=
  ⟨by decide,
    C21_forecast_balances sampleEnv sampleForecastWorld "a" 5 ⟨"a", ⟨1000, 0⟩⟩
      (by decide) (by decide) rfl rfl⟩

/-- C22: in the projection's loop over the schedule of a loan, the amount
subtracted for a simulated date is that of the first installment in schedule
order that is unpaid and due on the same year, month and day, and nothing is
subtracted if there is none; the installment found is unpaid and of that day;
the installments after it play no part, also when they are unpaid and due the
same day; and over the loans of the account the balance goes down by the sum,
over the loans, of that one amount per loan. -/
theorem C22_one_deduction_per_loan_per_day (date : Time) (b : Decimal) :
    (∀ s : List Payment, deductPayments date b s =
      match s.find? (dueUnpaid date) with
      | some p => b.Sub p.Amount
      | none => b) ∧
    (∀ (s : List Payment) (p : Payment), s.find? (dueUnpaid date) = some p →
      p ∈ s ∧ p.Paid = false ∧ p.DueDate.year = date.year ∧ p.DueDate.month = date.month ∧
        p.DueDate.day = date.day) ∧
    (∀ (pre : List Payment) (p : Payment) (post : List Payment),
      (∀ q ∈ pre, dueUnpaid date q = false) → dueUnpaid date p = true →
      deductPayments date b (pre ++ p :: post) = b.Sub p.Amount) ∧
    (∀ s : List Payment, (∀ q ∈ s, dueUnpaid date q = false) → deductPayments date b s = b) ∧
    (∀ loans : List Loan,
      (loans.foldl (fun b loan => deductPayments date b loan.PaymentSchedule) b).toRat =
        b.toRat - (loans.map fun L => firstDueAmount date L.PaymentSchedule).sum) := by
  refine ⟨fun s => deductPayments_eq date b s, fun s p h => ?_, fun pre p post hpre hp => ?_,
    fun s hs => ?_, fun loans => toRat_foldl_deductPayments date loans b⟩
  · have hm := List.mem_of_find?_eq_some h
    have hd := List.find?_some h
    simp only [dueUnpaid, decide_eq_true_eq] at hd
    exact ⟨hm, hd.2.2.2, hd.1, hd.2.1, hd.2.2.1⟩
  · rw [deductPayments_eq]
    have : (pre ++ p :: post).find? (dueUnpaid date) = some p := by
      rw [List.find?_append, List.find?_eq_none.2 (fun q hq => by rw [hpre q hq]; simp)]
      simp [List.find?_cons, hp]
    rw [this]
  · rw [deductPayments_eq]
    have : s.find? (dueUnpaid date) = none :=
      List.find?_eq_none.2 (fun q hq => by rw [hs q hq]; simp)
    rw [this]

/-- C22 at the sample data: a paid installment of 50 and two unpaid ones of 70
and 90, all due on 5 March 2024; only the 70 is subtracted from 1000. -/
theorem C22_witness :
    deductPayments ⟨2024, 3, 5, 0⟩ ⟨1000, 0⟩
        ([sampleDue ⟨50, 0⟩ true] ++ sampleDue ⟨70, 0⟩ false :: [sampleDue ⟨90, 0⟩ false]) =
      (⟨1000, 0⟩ : Decimal).Sub (sampleDue ⟨70, 0⟩ false).Amount ∧
    (⟨1000, 0⟩ : Decimal).Sub (sampleDue ⟨70, 0⟩ false).Amount = ⟨930, 0⟩ :=
  ⟨(C22_one_deduction_per_loan_per_day ⟨2024, 3, 5, 0⟩ ⟨1000, 0⟩).2.2.1
      [sampleDue ⟨50, 0⟩ true] (sampleDue ⟨70, 0⟩ false) [sampleDue ⟨90, 0⟩ false]
      (by decide) (by decide),
    by decide⟩

/-! ## The averages of the projection -/

theorem roundHalfAway_zero (places : Int) : roundHalfAway 0 places = 0 :=
  roundHalfAway_of_int 0 places 0 (by simp)

theorem toRat_averageOutgoing (f : Flows) (txs : List Transaction)
    (hsum : f.outgoingAmount.toRat = amountSum txs) (hcount : f.outgoingCount = txs.length) :
    (averageOutgoing f).toRat = roundHalfAway (amountSum txs / 30) 16 ∧
    (txs = [] → averageOutgoing f = Decimal.Zero) := by
  unfold averageOutgoing
  by_cases h : f.outgoingCount > 0
  · rw [if_pos h, Decimal.toRat_Div _ _ (by decide), Decimal.toRat_NewFromInt, hsum]
    refine ⟨by norm_num, fun he => ?_⟩
    rw [hcount, he] at h
    exact absurd h (by simp)
  · rw [if_neg h]
    have hnil : txs = [] := by
      have : txs.length = 0 := by omega
      exact List.length_eq_zero.mp this
    refine ⟨?_, fun _ => rfl⟩
    rw [hnil, Decimal.toRat_Zero]
    simp [amountSum, roundHalfAway_zero]

theorem toRat_averageIncoming (f : Flows) (txs : List Transaction)
    (hsum : f.incomingAmount.toRat = amountSum txs) (hcount : f.incomingCount = txs.length) :
    (averageIncoming f).toRat = roundHalfAway (amountSum txs / 30) 16 ∧
    (txs = [] → averageIncoming f = Decimal.Zero) := by
  unfold averageIncoming
  by_cases h : f.incomingCount > 0
  · rw [if_pos h, Decimal.toRat_Div _ _ (by decide), Decimal.toRat_NewFromInt, hsum]
    refine ⟨by norm_num, fun he => ?_⟩
    rw [hcount, he] at h
    exact absurd h (by simp)
  · rw [if_neg h]
    have hnil : txs = [] := by
      have : txs.length = 0 := by omega
      exact List.length_eq_zero.mp this
    refine ⟨?_, fun _ => rfl⟩
    rw [hnil, Decimal.toRat_Zero]
    simp [amountSum, roundHalfAway_zero]

set_option maxRecDepth 100000 in
/-- C23 as stated fails on the quotient: with one transaction of 100 out of the
account in the trailing 30 days the average daily outflow the projection
answers is 3.3333333333333333, which is not 100 / 30. -/
theorem C23_counterexample :
    (sampleTransaction "a" "b" ⟨100, 0⟩).Timestamp.Before (sampleNow.AddDate 0 0 (-30)) = false ∧
    outflowTransactions "a" (sampleNow.AddDate 0 0 (-30)) sampleTransferWorld.transactions =
      [sampleTransaction "a" "b" ⟨100, 0⟩] ∧
    (BalancePredictionHandler sampleEnv sampleTransferWorld "a" (DaysParam.number 1)).1 =
      HttpResponse.forecast 200
        { AccountID := "a", CurrentBalance := ⟨1000, 0⟩, PredictionDays := 1
          AverageDailyOutflow := ⟨33333333333333333, -16⟩
          AverageDailyInflow := Decimal.Zero
          Predictions := [{ Date := ⟨2024, 3, 2, 0⟩, Balance := ⟨9966666666666666667, -16⟩ }] } ∧
    (⟨33333333333333333, -16⟩ : Decimal).toRat ≠
      amountSum (outflowTransactions "a" (sampleNow.AddDate 0 0 (-30))
        sampleTransferWorld.transactions) / 30 := by
  have h2 : outflowTransactions "a" (sampleNow.AddDate 0 0 (-30))
      sampleTransferWorld.transactions = [sampleTransaction "a" "b" ⟨100, 0⟩] := by decide
  refine ⟨by decide, h2, by decide, ?_⟩
  rw [h2]
  norm_num [amountSum, sampleTransaction, Decimal.toRat]

/-- C23 (amended): for a number of days from 1 to 365 and an account that is
found, the average daily outflow the projection answers is the sum of the
amounts of the transactions read for the account that are not dated before
`now` minus 30 days and have the account as source, divided by 30 with the
quotient rounded half away from zero at 16 fractional digits (the division of
the decimal library); the average daily inflow is the same with the account as
destination; the divisor is 30 whatever the number of such transactions, and
an average is `decimal.Zero` when there is none. -/
theorem C23_averages (env : Env) (w : World) (accountID : String) (n : Int)
    (account : Account) (h1 : 1 ≤ n) (h2 : n ≤ 365) (hf : env.fails w.tick = false)
    (ha : w.accounts accountID = some account) :
    ∃ body w2, BalancePredictionHandler env w accountID (DaysParam.number n) =
        (HttpResponse.forecast 200 body, w2) ∧
      body.AverageDailyOutflow.toRat =
        roundHalfAway (amountSum (outflowTransactions accountID
          ((env.clock (w.tick + 3)).AddDate 0 0 (-30)) (transactionsRead env w accountID)) / 30)
          16 ∧
      body.AverageDailyInflow.toRat =
        roundHalfAway (amountSum (inflowTransactions accountID
          ((env.clock (w.tick + 3)).AddDate 0 0 (-30)) (transactionsRead env w accountID)) / 30)
          16 ∧
      (outflowTransactions accountID ((env.clock (w.tick + 3)).AddDate 0 0 (-30))
          (transactionsRead env w accountID) = [] → body.AverageDailyOutflow = Decimal.Zero) ∧
      (inflowTransactions accountID ((env.clock (w.tick + 3)).AddDate 0 0 (-30))
          (transactionsRead env w accountID) = [] → body.AverageDailyInflow = Decimal.Zero) := by
  obtain ⟨w2, hw2⟩ := BalancePredictionHandler_ok env w accountID n account h1 h2 hf ha
  obtain ⟨f1, f2, f3, f4⟩ := foldl_addFlow accountID ((env.clock (w.tick + 3)).AddDate 0 0 (-30))
    (transactionsRead env w accountID)
    { outgoingAmount := ⟨0, 0⟩, incomingAmount := ⟨0, 0⟩, outgoingCount := 0, incomingCount := 0 }
  have z : (⟨0, 0⟩ : Decimal).toRat = 0 := by simp [Decimal.toRat]
  simp only [z, zero_add] at f1 f2 f3 f4
  obtain ⟨o1, o2⟩ := toRat_averageOutgoing (flowsRead env w accountID (env.clock (w.tick + 3)))
    _ f1 f2
  obtain ⟨i1, i2⟩ := toRat_averageIncoming (flowsRead env w accountID (env.clock (w.tick + 3)))
    _ f3 f4
  exact ⟨_, w2, hw2, o1, i1, o2, i2⟩

set_option maxRecDepth 100000 in
/-- C23 (amended) at the sample data: one transaction of 100 out of account "a". -/
theorem C23_witness :
    ∃ body w2, BalancePredictionHandler sampleEnv sampleTransferWorld "a"
          (DaysParam.number 1) = (HttpResponse.forecast 200 body, w2) ∧
      body.AverageDailyOutflow.toRat =
        roundHalfAway (amountSum (outflowTransactions "a"
          ((sampleEnv.clock (sampleTransferWorld.tick + 3)).AddDate 0 0 (-30))
          (transactionsRead sampleEnv sampleTransferWorld "a")) / 30) 16 ∧
      body.AverageDailyInflow.toRat =
        roundHalfAway (amountSum (inflowTransactions "a"
          ((sampleEnv.clock (sampleTransferWorld.tick + 3)).AddDate 0 0 (-30))
          (transactionsRead sampleEnv sampleTransferWorld "a")) / 30) 16 ∧
      (outflowTransactions "a"
          ((sampleEnv.clock (sampleTransferWorld.tick + 3)).AddDate 0 0 (-30))
          (transactionsRead sampleEnv sampleTransferWorld "a") = [] →
        body.AverageDailyOutflow = Decimal.Zero) ∧
      (inflowTransactions "a"
          ((sampleEnv.clock (sampleTransferWorld.tick + 3)).AddDate 0 0 (-30))
          (transactionsRead sampleEnv sampleTransferWorld "a") = [] →
        body.AverageDailyInflow = Decimal.Zero) :=
  C23_averages sampleEnv sampleTransferWorld "a" 1 ⟨"a", ⟨1000, 0⟩⟩
    (by decide) (by decide) rfl rfl

/-! ## No overdraft -/

/-- What the treatment of an installment does to an account: nothing, or the
debit of the amount from a balance that covers it. -/
theorem processPayment_account (env : Env) (now : Time) (i : Nat) (payment : Payment)
    (st : LoanState) (id : String) :
    (processPayment env now i payment st).world.accounts id = st.world.accounts id ∨
    (id = st.loan.AccountID ∧ ∃ a, st.world.accounts id = some a ∧
      payment.Amount.toRat ≤ a.Balance.toRat ∧
      (processPayment env now i payment st).world.accounts id =
        some { a with Balance := a.Balance.Add payment.Amount.Neg }) := by
  rcases processPayment_cases env now i payment st with ⟨_, e⟩ | ⟨_, _, hc⟩
  · rw [e]; exact Or.inl rfl
  · rcases hc with ⟨_, e⟩ | ⟨account, _, ha, ⟨_, _, e⟩ | ⟨hge, _, e⟩ | ⟨_, e⟩⟩
    · rw [e]; exact Or.inl rfl
    · rw [e]; exact Or.inl rfl
    · rw [e]
      show (settledWorld env payment st account).accounts id = _ ∨ _
      rw [(settledWorld_fields env payment st account).1]
      by_cases hid : id = st.loan.AccountID
      · refine Or.inr ⟨hid, account, by rw [hid]; exact ha,
          (Decimal.GreaterThanOrEqual_iff _ _).1 hge, ?_⟩
        simp only [if_pos hid]
      · simp only [if_neg hid]
        exact Or.inl trivial
    · rw [e]; exact Or.inl rfl

/-- The loop over a schedule keeps every property of the accounts that the
treatment of an installment keeps. -/
theorem paymentLoop_accounts_invariant (Q : (String → Option Account) → Prop) (env : Env)
    (now : Time)
    (hstep : ∀ (i : Nat) (p : Payment) (st : LoanState), Q st.world.accounts →
      Q (processPayment env now i p st).world.accounts)
    (rest : List Payment) :
    ∀ (i : Nat) (st : LoanState), Q st.world.accounts →
      Q (paymentLoop env now rest i st).world.accounts := by
  induction rest with
  | nil => intro i st h; exact h
  | cons q rest ih =>
    intro i st h
    exact ih (i + 1) _ (hstep i q st h)

theorem processLoan_accounts_invariant (Q : (String → Option Account) → Prop) (env : Env)
    (now : Time)
    (hstep : ∀ (i : Nat) (p : Payment) (st : LoanState), Q st.world.accounts →
      Q (processPayment env now i p st).world.accounts)
    (w : World) (loan : Loan) (h : Q w.accounts) :
    Q (processLoan env now w loan).accounts := by
  cases hz : loan.RemainingAmount.IsZero
  swap
  · rw [processLoan_skip env now w loan hz]; exact h
  have hloop := paymentLoop_accounts_invariant Q env now hstep loan.PaymentSchedule 0
    { loan := loan, modified := false, world := w } h
  cases hm : (paymentLoop env now loan.PaymentSchedule 0
      { loan := loan, modified := false, world := w }).modified
  · rw [processLoan_unmodified env now w loan hz hm]; exact hloop
  · rw [processLoan_modified env now w loan hz hm, (storage.UpdateLoan_fields env _ _).1]
    exact hloop

theorem foldl_processLoan_accounts_invariant (Q : (String → Option Account) → Prop)
    (env : Env) (now : Time)
    (hstep : ∀ (i : Nat) (p : Payment) (st : LoanState), Q st.world.accounts →
      Q (processPayment env now i p st).world.accounts)
    (ls : List Loan) :
    ∀ w : World, Q w.accounts → Q (ls.foldl (processLoan env now) w).accounts := by
  induction ls with
  | nil => intro w h; exact h
  | cons l ls ih =>
    intro w h
    exact ih _ (processLoan_accounts_invariant Q env now hstep w l h)

/-- A settlement cycle keeps every property of the accounts that the treatment
of an installment keeps. -/
theorem processOverduePayments_accounts_invariant (Q : (String → Option Account) → Prop)
    (env : Env)
    (hstep : ∀ (now : Time) (i : Nat) (p : Payment) (st : LoanState), Q st.world.accounts →
      Q (processPayment env now i p st).world.accounts)
    (w : World) (h : Q w.accounts) : Q (processOverduePayments env w).accounts := by
  unfold processOverduePayments
  simp only
  apply foldl_processLoan_accounts_invariant Q env _ (hstep _)
  have : (timeNow env (storage.GetAllLoans env w).2).2.accounts = w.accounts := by
    unfold timeNow storage.GetAllLoans
    split_ifs <;> rfl
  rw [this]; exact h

/-- C28: in the sequential model a settlement cycle never overdraws an account.
Whenever the treatment of an installment changes an account, the account is
the loan's account, the change is the debit of the installment's amount, and
the balance afterwards is `≥ 0` (the debit is made only from a balance that
covers the amount); and an account with a non-negative balance before a cycle
exists with a non-negative balance after it. -/
theorem C28_no_overdraft (env : Env) :
    (∀ (now : Time) (i : Nat) (payment : Payment) (st : LoanState) (id : String),
      (processPayment env now i payment st).world.accounts id ≠ st.world.accounts id →
      id = st.loan.AccountID ∧
      ∃ a a2, st.world.accounts id = some a ∧
        (processPayment env now i payment st).world.accounts id = some a2 ∧
        a2.Balance.toRat = a.Balance.toRat - payment.Amount.toRat ∧
        0 ≤ a2.Balance.toRat) ∧
    (∀ (w : World) (id : String) (a : Account), w.accounts id = some a →
      0 ≤ a.Balance.toRat →
      ∃ a2, (processOverduePayments env w).accounts id = some a2 ∧ 0 ≤ a2.Balance.toRat) := by
  have key : ∀ (now : Time) (i : Nat) (payment : Payment) (st : LoanState) (id : String),
      (processPayment env now i payment st).world.accounts id ≠ st.world.accounts id →
      id = st.loan.AccountID ∧
      ∃ a a2, st.world.accounts id = some a ∧
        (processPayment env now i payment st).world.accounts id = some a2 ∧
        a2.Balance.toRat = a.Balance.toRat - payment.Amount.toRat ∧
        0 ≤ a2.Balance.toRat := by
    intro now i payment st id hne
    rcases processPayment_account env now i payment st id with h | ⟨hid, a, ha, hge, h⟩
    · exact absurd h hne
    · refine ⟨hid, a, _, ha, h, ?_, ?_⟩
      · show (a.Balance.Add payment.Amount.Neg).toRat = _
        rw [Decimal.toRat_Add, Decimal.toRat_Neg]; ring
      · show 0 ≤ (a.Balance.Add payment.Amount.Neg).toRat
        rw [Decimal.toRat_Add, Decimal.toRat_Neg]; linarith
  refine ⟨key, fun w id a ha hnn => ?_⟩
  apply processOverduePayments_accounts_invariant
    (fun acc => ∃ a2, acc id = some a2 ∧ 0 ≤ a2.Balance.toRat) env _ w ⟨a, ha, hnn⟩
  intro now i p st ⟨a1, ha1, hnn1⟩
  by_cases hsame : (processPayment env now i p st).world.accounts id = st.world.accounts id
  · exact ⟨a1, by rw [hsame]; exact ha1, hnn1⟩
  · obtain ⟨_, _, a2, _, h2, _, h3⟩ := key now i p st id hsame
    exact ⟨a2, h2, h3⟩

set_option maxRecDepth 100000 in
/-- C28 at the sample data: a balance of 600 and overdue installments of 200
and 500; the cycle leaves 400. -/
theorem C28_witness :
    (processOverduePayments sampleEnv (sampleWorld ⟨600, 0⟩
        [sampleLoan [sampleInstallment, sampleLargeInstallment] ⟨1000, 0⟩])).accounts "a" =
      some ⟨"a", ⟨400, 0⟩⟩ ∧
    ∃ a2, (processOverduePayments sampleEnv (sampleWorld ⟨600, 0⟩
        [sampleLoan [sampleInstallment, sampleLargeInstallment] ⟨1000, 0⟩])).accounts "a" =
      some a2 ∧ 0 ≤ a2.Balance.toRat :=
  ⟨by decide,
    (C28_no_overdraft sampleEnv).2 (sampleWorld ⟨600, 0⟩
      [sampleLoan [sampleInstallment, sampleLargeInstallment] ⟨1000, 0⟩]) "a" ⟨"a", ⟨600, 0⟩⟩
      rfl (by norm_num [Decimal.toRat])⟩

/-! ## A failed rewrite of the loan -/

set_option maxRecDepth 100000 in
/-- C30 fails when the rewrite of the loan fails at the end of the first cycle:
with balance 1000 and one overdue installment of 200, the first cycle debits
200, but the stored installment stays unpaid and the remaining amount stays
1000; the second cycle debits the same installment again: balance 600 for one
installment of 200 (no transaction is recorded in either cycle, the record
having no destination). With the rewrite succeeding two cycles leave a
balance of 800. -/
theorem C30_double_debit_when_rewrite_fails :
    (runCycles (sampleEnvFailsAt 7) 1 sampleSettleWorld).accounts "a" = some ⟨"a", ⟨800, 0⟩⟩ ∧
    (runCycles (sampleEnvFailsAt 7) 1 sampleSettleWorld).loans =
      [sampleLoan [sampleInstallment] ⟨1000, 0⟩] ∧
    (runCycles (sampleEnvFailsAt 7) 2 sampleSettleWorld).accounts "a" = some ⟨"a", ⟨600, 0⟩⟩ ∧
    (runCycles (sampleEnvFailsAt 7) 2 sampleSettleWorld).loans =
      [sampleLoan [{ sampleInstallment with Paid := true }] ⟨850, 0⟩] ∧
    (runCycles (sampleEnvFailsAt 7) 2 sampleSettleWorld).transactions = [] ∧
    (runCycles sampleEnv 2 sampleSettleWorld).accounts "a" = some ⟨"a", ⟨800, 0⟩⟩ := by
  decide

/-! ## Conservation within a settlement cycle -/

theorem DebitedBy_nil (w w2 : World) (ht : w2.transactions = w.transactions)
    (ha : w2.accounts = w.accounts) : DebitedBy w w2 [] := by
  refine ⟨fun _ => ht, fun id h => by rw [ha]; exact h, fun id a h => ?_⟩
  exact ⟨a, by rw [ha]; exact h, by simp [pairSum]⟩

theorem pairSum_append (a b : List (String × Decimal)) :
    pairSum (a ++ b) = pairSum a + pairSum b := by
  simp [pairSum]

theorem DebitedBy_trans {w w1 w2 : World} {t1 t2 : List (String × Decimal)}
    (h1 : DebitedBy w w1 t1) (h2 : DebitedBy w1 w2 t2) : DebitedBy w w2 (t1 ++ t2) := by
  obtain ⟨a1, b1, c1⟩ := h1
  obtain ⟨a2, b2, c2⟩ := h2
  refine ⟨fun h => by rw [a2 (b1 _ h), a1 h], fun id h => b2 id (b1 id h), fun id a h => ?_⟩
  obtain ⟨x, hx, ex⟩ := c1 id a h
  obtain ⟨y, hy, ey⟩ := c2 id x hx
  refine ⟨y, hy, ?_⟩
  rw [List.filter_append, pairSum_append]
  linarith

theorem paidPairs_settle (L : Loan) (pre : List Payment) (q : Payment) (post : List Payment)
    (r : Decimal) (hs : L.PaymentSchedule = pre ++ q :: post) (hq : q.Paid = false) :
    (paidPairs { L with PaymentSchedule := pre ++ { q with Paid := true } :: post
                        RemainingAmount := r }).Perm
      (paidPairs L ++ [(L.AccountID, q.Amount)]) := by
  unfold paidPairs
  rw [hs]
  simp only [List.filter_append, List.filter_cons, hq, Bool.false_eq_true, if_false, if_true,
    List.map_append, List.map_cons]
  exact (List.perm_middle).trans (List.perm_append_singleton _ _).symm

theorem paidPairs_penalise (L : Loan) (pen : Payment) (hp : pen.Paid = false) :
    paidPairs { L with PaymentSchedule := L.PaymentSchedule ++ [pen] } = paidPairs L := by
  unfold paidPairs
  simp [List.filter_append, List.filter_cons, hp]

/-- The treatment of one installment, with a storage that does not fail: the
account of the loan is debited by the amount of the installment exactly when
the installment becomes paid, and with no account of empty id the
transactions stay as they are. -/
theorem processPayment_conserves (env : Env) (now : Time) (hfail : ∀ t, env.fails t = false)
    (pre : List Payment) (q : Payment) (post : List Payment) (st : LoanState)
    (hs : st.loan.PaymentSchedule = pre ++ q :: post) :
    ∃ debits, DebitedBy st.world (processPayment env now pre.length q st).world debits ∧
      (paidPairs (processPayment env now pre.length q st).loan).Perm
        (paidPairs st.loan ++ debits) := by
  rcases processPayment_cases env now pre.length q st with ⟨_, e⟩ | ⟨hp, _, hc⟩
  · rw [e]
    exact ⟨[], DebitedBy_nil _ _ rfl rfl, by simp⟩
  · rcases hc with ⟨_, e⟩ | ⟨account, _, ha, ⟨_, hf1, _⟩ | ⟨hge, _, e⟩ | ⟨_, e⟩⟩
    · rw [e]
      exact ⟨[], DebitedBy_nil _ _ rfl rfl, by simp⟩
    · rw [hfail] at hf1; exact absurd hf1 (by simp)
    · rw [e]
      refine ⟨[(st.loan.AccountID, q.Amount)], ?_, ?_⟩
      · show DebitedBy st.world (settledWorld env q st account) _
        refine ⟨fun hnone => ?_, fun id h => ?_, fun id a h => ?_⟩
        · rw [settledWorld_rejected env q st account ha hnone]
        · rw [(settledWorld_fields env q st account).1]
          have hid : id ≠ st.loan.AccountID := fun hc => by
            rw [hc, ha] at h; cases h
          show (if id = st.loan.AccountID then _ else st.world.accounts id) = none
          rw [if_neg hid]; exact h
        · rw [(settledWorld_fields env q st account).1]
          by_cases hid : id = st.loan.AccountID
          · subst hid
            rw [ha] at h
            obtain rfl := Option.some.inj h
            refine ⟨_, if_pos rfl, ?_⟩
            show account.Balance.toRat - (account.Balance.Add q.Amount.Neg).toRat = _
            rw [Decimal.toRat_Add, Decimal.toRat_Neg]
            simp [pairSum]
          · refine ⟨a, ?_, ?_⟩
            · show (if id = st.loan.AccountID then _ else st.world.accounts id) = some a
              rw [if_neg hid]; exact h
            · have : ¬ st.loan.AccountID = id := fun hc => hid hc.symm
              simp [pairSum, this]
      · show (paidPairs { st.loan with
            PaymentSchedule := markPaid st.loan.PaymentSchedule pre.length
            RemainingAmount := st.loan.RemainingAmount.Sub q.PrincipalPart }).Perm _
        rw [show markPaid st.loan.PaymentSchedule pre.length =
          pre ++ { q with Paid := true } :: post by rw [hs, markPaid_append]]
        exact paidPairs_settle st.loan pre q post _ hs hp
    · rw [e]
      refine ⟨[], DebitedBy_nil _ _ rfl rfl, ?_⟩
      show (paidPairs { st.loan with
          PaymentSchedule := st.loan.PaymentSchedule ++
            [penaltyInstallment (env.clock (st.world.tick + 1)) q] }).Perm _
      rw [paidPairs_penalise _ _ rfl]
      simp

/-- The loop over a schedule, with a storage that does not fail: the loan's
account is debited by the amounts of the installments that become paid. -/
theorem paymentLoop_conserves (env : Env) (now : Time) (hfail : ∀ t, env.fails t = false)
    (rest : List Payment) :
    ∀ (pre pens : List Payment) (st : LoanState),
      st.loan.PaymentSchedule = pre ++ rest ++ pens →
      ∃ debits, DebitedBy st.world (paymentLoop env now rest pre.length st).world debits ∧
        (paidPairs (paymentLoop env now rest pre.length st).loan).Perm
          (paidPairs st.loan ++ debits) := by
  induction rest with
  | nil =>
    intro pre pens st _
    exact ⟨[], DebitedBy_nil _ _ rfl rfl, by simp [paymentLoop]⟩
  | cons q rest ih =>
    intro pre pens st hs
    have hs2 : st.loan.PaymentSchedule = pre ++ q :: (rest ++ pens) := by
      rw [hs]; simp
    obtain ⟨t1, d1, p1⟩ := processPayment_conserves env now hfail pre q (rest ++ pens) st hs2
    obtain ⟨q2, pens2, hshape⟩ : ∃ q2 pens2,
        (processPayment env now pre.length q st).loan.PaymentSchedule =
          (pre ++ [q2]) ++ rest ++ pens2 := by
      obtain ⟨r2, news, e, hf, _, _⟩ := paymentLoop_shape env now [q] pre (rest ++ pens) st
        (by rw [hs]; simp)
      obtain ⟨x, l, rfl⟩ : ∃ x l, r2 = x :: l := by
        cases r2 with
        | nil => cases hf
        | cons x l => exact ⟨x, l, rfl⟩
      have hl : l = [] := by
        cases hf with
        | cons _ h => cases h; rfl
      subst hl
      exact ⟨x, pens ++ news, by
        have e2 : (processPayment env now pre.length q st).loan.PaymentSchedule =
            pre ++ [x] ++ (rest ++ pens) ++ news := e
        rw [e2]; simp⟩
    obtain ⟨t2, d2, p2⟩ := ih (pre ++ [q2]) pens2 (processPayment env now pre.length q st) hshape
    rw [List.length_append, List.length_singleton] at d2 p2
    refine ⟨t1 ++ t2, DebitedBy_trans d1 d2, ?_⟩
    show (paidPairs (paymentLoop env now rest (pre.length + 1)
      (processPayment env now pre.length q st)).loan).Perm _
    refine p2.trans ?_
    rw [← List.append_assoc]
    exact List.Perm.append_right _ p1

theorem allPaidPairs_append (a b : List Loan) :
    allPaidPairs (a ++ b) = allPaidPairs a ++ allPaidPairs b := by
  induction a with
  | nil => rfl
  | cons L a ih =>
    show paidPairs L ++ allPaidPairs (a ++ b) = (paidPairs L ++ allPaidPairs a) ++ allPaidPairs b
    rw [ih, List.append_assoc]

theorem paidPairs_load (R : Loan) : (paidPairs (loadLoan R)).Perm (paidPairs R) := by
  unfold paidPairs
  exact ((loadLoan_perm R).filter _).map _

theorem DebitedBy_congr {w w2 w3 : World} {debits : List (String × Decimal)}
    (h : DebitedBy w w2 debits)
    (ht : w3.transactions = w2.transactions) (ha : w3.accounts = w2.accounts) :
    DebitedBy w w3 debits := by
  obtain ⟨a, b, c⟩ := h
  exact ⟨fun h => by rw [ht, a h], fun id h => by rw [ha]; exact b id h,
    fun id x hx => by rw [ha]; exact c id x hx⟩

/-- The stored loans after the loans with the ID of `X` were replaced by `X`,
when exactly the loan `R` of `l1 ++ R :: l2` has that ID. -/
theorem map_replace_unique (l1 l2 : List Loan) (R X : Loan) (hX : X.ID = R.ID)
    (h : ∀ Y ∈ l1 ++ l2, Y.ID ≠ R.ID) :
    (l1 ++ R :: l2).map (fun l => if l.ID = X.ID then X else l) = l1 ++ X :: l2 := by
  have hmap : ∀ l : List Loan, (∀ Y ∈ l, Y.ID ≠ R.ID) →
      l.map (fun l => if l.ID = X.ID then X else l) = l := by
    intro l hl
    conv_rhs => rw [← List.map_id l]
    apply List.map_congr_left
    intro Y hY
    rw [if_neg (by rw [hX]; exact hl Y hY)]
    rfl
  rw [List.map_append, List.map_cons, hmap l1 (fun Y hY => h Y (List.mem_append_left _ hY)),
    hmap l2 (fun Y hY => h Y (List.mem_append_right _ hY)), if_pos hX.symm]

theorem nodup_IDs_split (loans : List Loan) (R : Loan) (hR : R ∈ loans)
    (hnodup : (loans.map (fun L => L.ID)).Nodup) :
    ∃ l1 l2, loans = l1 ++ R :: l2 ∧ ∀ Y ∈ l1 ++ l2, Y.ID ≠ R.ID := by
  obtain ⟨l1, l2, rfl⟩ := List.append_of_mem hR
  refine ⟨l1, l2, rfl, ?_⟩
  rw [List.map_append, List.map_cons] at hnodup
  have hmid := List.nodup_middle.1 hnodup
  rw [List.nodup_cons] at hmid
  intro Y hY hid
  apply hmid.1
  rw [← List.map_append, ← hid]
  exact List.mem_map_of_mem _ hY

/-- The treatment of one stored loan, with a storage that does not fail and
loan IDs that are all different. -/
theorem processLoan_conserves (env : Env) (now : Time) (hfail : ∀ t, env.fails t = false)
    (w : World) (R : Loan) (hR : R ∈ w.loans)
    (hnodup : (w.loans.map (fun L => L.ID)).Nodup) :
    ∃ debits, DebitedBy w (processLoan env now w (loadLoan R)) debits ∧
      (allPaidPairs (processLoan env now w (loadLoan R)).loans).Perm
        (allPaidPairs w.loans ++ debits) ∧
      (∀ Y ∈ w.loans, Y.ID ≠ R.ID → Y ∈ (processLoan env now w (loadLoan R)).loans) := by
  cases hz : (loadLoan R).RemainingAmount.IsZero
  swap
  · rw [processLoan_skip env now w _ hz]
    exact ⟨[], DebitedBy_nil _ _ rfl rfl, by simp, fun Y hY _ => hY⟩
  obtain ⟨debits, hd, hp⟩ := paymentLoop_conserves env now hfail (loadLoan R).PaymentSchedule
    [] [] { loan := loadLoan R, modified := false, world := w } (by simp)
  simp only [List.length_nil] at hd hp
  have hloans : (paymentLoop env now (loadLoan R).PaymentSchedule 0
      { loan := loadLoan R, modified := false, world := w }).world.loans = w.loans :=
    paymentLoop_world_loans env now _ 0 _
  have hid : (paymentLoop env now (loadLoan R).PaymentSchedule 0
      { loan := loadLoan R, modified := false, world := w }).loan.ID = R.ID :=
    (paymentLoop_loan_ids env now _ 0 _).1
  cases hm : (paymentLoop env now (loadLoan R).PaymentSchedule 0
      { loan := loadLoan R, modified := false, world := w }).modified
  · rw [processLoan_unmodified env now w _ hz hm]
    have hsame := (paymentLoop_unmodified env now _ 0 _ hm).2
    rw [hsame] at hp
    have hnil : debits = [] := by
      have hl := hp.length_eq
      simp only [List.length_append] at hl
      exact List.length_eq_zero.mp (by omega)
    subst hnil
    refine ⟨[], hd, ?_, fun Y hY _ => by rw [hloans]; exact hY⟩
    rw [hloans]; simp
  · rw [processLoan_modified env now w _ hz hm]
    have hex : ∃ l ∈ (paymentLoop env now (loadLoan R).PaymentSchedule 0
        { loan := loadLoan R, modified := false, world := w }).world.loans,
        l.ID = (paymentLoop env now (loadLoan R).PaymentSchedule 0
          { loan := loadLoan R, modified := false, world := w }).loan.ID := by
      rw [hloans, hid]; exact ⟨R, hR, rfl⟩
    rw [storage.UpdateLoan_ok env _ _ (hfail _) hex, hloans]
    obtain ⟨l1, l2, hsplit, hothers⟩ := nodup_IDs_split w.loans R hR hnodup
    refine ⟨debits, DebitedBy_congr hd rfl rfl, ?_, fun Y hY hne => ?_⟩
    · show (allPaidPairs (w.loans.map _)).Perm _
      rw [hsplit, map_replace_unique l1 l2 R _ hid hothers]
      simp only [allPaidPairs_append, allPaidPairs]
      have h1 : (paidPairs (paymentLoop env now (loadLoan R).PaymentSchedule 0
          { loan := loadLoan R, modified := false, world := w }).loan).Perm
          (paidPairs R ++ debits) :=
        hp.trans (List.Perm.append_right _ (paidPairs_load R))
      refine ((List.Perm.append_right _ h1).append_left _).trans ?_
      simp only [List.append_assoc]
      refine List.Perm.append_left _ (List.Perm.append_left _ ?_)
      exact List.perm_append_comm
    · show Y ∈ w.loans.map _
      refine List.mem_map.2 ⟨Y, hY, ?_⟩
      rw [if_neg (by rw [hid]; exact hne)]

theorem foldl_processLoan_conserves (env : Env) (now : Time)
    (hfail : ∀ t, env.fails t = false) (todo : List Loan) :
    ∀ w : World, (w.loans.map (fun L => L.ID)).Nodup → (∀ R ∈ todo, R ∈ w.loans) →
      (todo.map (fun L => L.ID)).Nodup →
      ∃ debits, DebitedBy w ((todo.map loadLoan).foldl (processLoan env now) w) debits ∧
        (allPaidPairs ((todo.map loadLoan).foldl (processLoan env now) w).loans).Perm
          (allPaidPairs w.loans ++ debits) := by
  induction todo with
  | nil =>
    intro w _ _ _
    exact ⟨[], DebitedBy_nil _ _ rfl rfl, by simp⟩
  | cons R todo ih =>
    intro w hnodup hsub htodo
    rw [List.map_cons, List.foldl_cons]
    obtain ⟨t1, d1, p1, keep⟩ := processLoan_conserves env now hfail w R
      (hsub R (List.mem_cons_self _ _)) hnodup
    rw [List.map_cons, List.nodup_cons] at htodo
    obtain ⟨t2, d2, p2⟩ := ih (processLoan env now w (loadLoan R))
      (by rw [processLoan_loan_IDs]; exact hnodup)
      (fun Y hY => keep Y (hsub Y (List.mem_cons_of_mem _ hY))
        (fun hc => htodo.1 (by rw [← hc]; exact List.mem_map_of_mem _ hY)))
      htodo.2
    refine ⟨t1 ++ t2, DebitedBy_trans d1 d2, p2.trans ?_⟩
    rw [← List.append_assoc]
    exact List.Perm.append_right _ p1

theorem pairSum_perm_append (l1 l0 debits : List (String × Decimal)) (id : String)
    (h : l1.Perm (l0 ++ debits)) :
    pairSum (l1.filter fun x => x.1 = id) =
      pairSum (l0.filter fun x => x.1 = id) + pairSum (debits.filter fun x => x.1 = id) := by
  unfold pairSum
  rw [((h.filter _).map _).sum_eq, List.filter_append, List.map_append, List.sum_append]

/-- C29 holds for the balances and fails for the transactions: within one
settlement cycle, with storage operations that do not fail and stored loans
whose IDs are all different, every account goes down by the sum of the amounts
of the installments that became paid on the loans it funds (the paid
installments after the cycle, as pairs of funding account and amount, are
those of before plus one pair for each debit, and the balance goes down by the
debits of the account), and no account appears; but when no account has the
empty id the cycle appends no transaction at all, however many installments
it settles: each record it builds has the empty string as destination and is
rejected by the reference of `to_account_id` to `accounts(id)`. -/
theorem C29_conservation_without_records (env : Env) (w : World)
    (hfail : ∀ t, env.fails t = false)
    (hnodup : (w.loans.map (fun L => L.ID)).Nodup) :
    (w.accounts "" = none → (processOverduePayments env w).transactions = w.transactions) ∧
    ∃ debits, (allPaidPairs (processOverduePayments env w).loans).Perm
        (allPaidPairs w.loans ++ debits) ∧
      (∀ id, w.accounts id = none → (processOverduePayments env w).accounts id = none) ∧
      (∀ id a, w.accounts id = some a →
        ∃ a2, (processOverduePayments env w).accounts id = some a2 ∧
          a.Balance.toRat - a2.Balance.toRat = pairSum (debits.filter fun x => x.1 = id) ∧
          a.Balance.toRat - a2.Balance.toRat =
            paidTotal (processOverduePayments env w).loans id - paidTotal w.loans id) := by
  have hload : storage.GetAllLoans env w = (w.loans.map loadLoan, w.next) := by
    unfold storage.GetAllLoans
    simp only [hfail, Bool.false_eq_true, if_false]
  have hcycle : processOverduePayments env w =
      (w.loans.map loadLoan).foldl (processLoan env (env.clock w.next.tick)) w.next.next := by
    unfold processOverduePayments
    simp only [hload, timeNow]
  obtain ⟨debits, ⟨d1, d2, d3⟩, hp⟩ := foldl_processLoan_conserves env (env.clock w.next.tick)
    hfail w.loans w.next.next hnodup (fun R hR => hR) hnodup
  rw [← hcycle] at d1 d2 d3 hp
  have hp2 : (allPaidPairs (processOverduePayments env w).loans).Perm
      (allPaidPairs w.loans ++ debits) := hp
  refine ⟨d1, debits, hp2, d2, fun id a ha => ?_⟩
  obtain ⟨a2, h2, e2⟩ := d3 id a ha
  refine ⟨a2, h2, e2, ?_⟩
  unfold paidTotal
  rw [pairSum_perm_append _ _ debits id hp2, e2]
  ring

set_option maxRecDepth 100000 in
/-- C29 at the sample data: a balance of 600 and overdue installments of 200
and 500, every storage operation succeeding. The installment of 200 becomes
paid and the balance goes to 400, yet the transactions are as before: none. -/
theorem C29_witness :
    ((sampleWorld ⟨600, 0⟩
        [sampleLoan [sampleInstallment, sampleLargeInstallment] ⟨1000, 0⟩]).accounts "" = none ∧
      (processOverduePayments sampleEnv (sampleWorld ⟨600, 0⟩
        [sampleLoan [sampleInstallment, sampleLargeInstallment] ⟨1000, 0⟩])).accounts "a" =
        some ⟨"a", ⟨400, 0⟩⟩ ∧
      allPaidPairs (processOverduePayments sampleEnv (sampleWorld ⟨600, 0⟩
        [sampleLoan [sampleInstallment, sampleLargeInstallment] ⟨1000, 0⟩])).loans =
        [("a", ⟨200, 0⟩)] ∧
      (processOverduePayments sampleEnv (sampleWorld ⟨600, 0⟩
        [sampleLoan [sampleInstallment, sampleLargeInstallment] ⟨1000, 0⟩])).transactions =
        []) ∧
    (((sampleWorld ⟨600, 0⟩
        [sampleLoan [sampleInstallment, sampleLargeInstallment] ⟨1000, 0⟩]).accounts "" = none →
      (processOverduePayments sampleEnv (sampleWorld ⟨600, 0⟩
        [sampleLoan [sampleInstallment, sampleLargeInstallment] ⟨1000, 0⟩])).transactions =
      (sampleWorld ⟨600, 0⟩
        [sampleLoan [sampleInstallment, sampleLargeInstallment] ⟨1000, 0⟩]).transactions) ∧
    ∃ debits, (allPaidPairs (processOverduePayments sampleEnv (sampleWorld ⟨600, 0⟩
          [sampleLoan [sampleInstallment, sampleLargeInstallment] ⟨1000, 0⟩])).loans).Perm
        (allPaidPairs (sampleWorld ⟨600, 0⟩
          [sampleLoan [sampleInstallment, sampleLargeInstallment] ⟨1000, 0⟩]).loans ++
          debits) ∧
      (∀ id, (sampleWorld ⟨600, 0⟩
          [sampleLoan [sampleInstallment, sampleLargeInstallment] ⟨1000, 0⟩]).accounts id =
          none →
        (processOverduePayments sampleEnv (sampleWorld ⟨600, 0⟩
          [sampleLoan [sampleInstallment, sampleLargeInstallment] ⟨1000, 0⟩])).accounts id =
          none) ∧
      (∀ id a, (sampleWorld ⟨600, 0⟩
          [sampleLoan [sampleInstallment, sampleLargeInstallment] ⟨1000, 0⟩]).accounts id =
          some a →
        ∃ a2, (processOverduePayments sampleEnv (sampleWorld ⟨600, 0⟩
            [sampleLoan [sampleInstallment, sampleLargeInstallment] ⟨1000, 0⟩])).accounts id =
            some a2 ∧
          a.Balance.toRat - a2.Balance.toRat = pairSum (debits.filter fun x => x.1 = id) ∧
          a.Balance.toRat - a2.Balance.toRat =
            paidTotal (processOverduePayments sampleEnv (sampleWorld ⟨600, 0⟩
              [sampleLoan [sampleInstallment, sampleLargeInstallment] ⟨1000, 0⟩])).loans id -
            paidTotal (sampleWorld ⟨600, 0⟩
              [sampleLoan [sampleInstallment, sampleLargeInstallment] ⟨1000, 0⟩]).loans id)) :=
  ⟨by decide,
    C29_conservation_without_records sampleEnv (sampleWorld ⟨600, 0⟩
      [sampleLoan [sampleInstallment, sampleLargeInstallment] ⟨1000, 0⟩])
      (fun _ => rfl) (by decide)⟩

/-! ## Two calls of UpdateAccountBalance at the same time -/

/-- A call of `UpdateAccountBalance` whose three statements run without
another call in between does what the sequential function does. -/
theorem UpdateCall_alone (env : Env) (w : World) (accountID : String) (amount : Decimal)
    (hf : env.fails w.tick = false) :
    (Race.run { accounts := w.accounts, first := UpdateCall.start accountID amount,
                second := UpdateCall.start accountID amount } [true, true, true]).accounts =
      (storage.UpdateAccountBalance env w accountID amount).2.accounts ∧
    (((Race.run { accounts := w.accounts, first := UpdateCall.start accountID amount,
                  second := UpdateCall.start accountID amount }
        [true, true, true]).first.pc = UpdatePc.done) ↔
      (storage.UpdateAccountBalance env w accountID amount).1 = true) := by
  unfold storage.UpdateAccountBalance
  rw [if_neg (by rw [hf]; decide)]
  cases ha : w.accounts accountID with
  | none =>
    simp [Race.run, Race.step, UpdateCall.step, UpdateCall.start, ha, World.next]
  | some account =>
    refine ⟨?_, ?_⟩
    · funext id
      by_cases hid : id = accountID
      · subst hid
        simp [Race.run, Race.step, UpdateCall.step, UpdateCall.start, ha, World.next]
      · simp [Race.run, Race.step, UpdateCall.step, UpdateCall.start, ha, World.next, hid]
    · simp [Race.run, Race.step, UpdateCall.step, UpdateCall.start, ha, World.next]

set_option maxRecDepth 100000 in
/-- C25: the adjustment is not atomic.  When two calls for the same account
both read the balance before either writes it, both return without an error
and the account ends at the initial balance plus the second delta only, for
every initial balance and deltas: the first adjustment is lost.  With a
balance of 1000, a settlement debit of 200 and a transfer of 300 out, the
account ends at 700 and not at 500, while the two calls one after the other
give 500. -/
theorem C25_lost_update :
    (∀ balance d1 d2 : Decimal,
      (Race.run (sampleRace balance d1 d2) lostUpdateSchedule).accounts "a" =
          some { ID := "a", Balance := balance.Add d2 } ∧
        (Race.run (sampleRace balance d1 d2) lostUpdateSchedule).first.pc = UpdatePc.done ∧
        (Race.run (sampleRace balance d1 d2) lostUpdateSchedule).second.pc = UpdatePc.done) ∧
    (Race.run (sampleRace ⟨1000, 0⟩ ⟨-200, 0⟩ ⟨-300, 0⟩) lostUpdateSchedule).accounts "a" =
      some { ID := "a", Balance := ⟨700, 0⟩ } ∧
    ((⟨1000, 0⟩ : Decimal).Add ⟨-200, 0⟩).Add ⟨-300, 0⟩ = ⟨500, 0⟩ ∧
    (Race.run (sampleRace ⟨1000, 0⟩ ⟨-200, 0⟩ ⟨-300, 0⟩)
      [true, true, true, false, false, false]).accounts "a" =
      some { ID := "a", Balance := ⟨500, 0⟩ } ∧
    (storage.UpdateAccountBalance sampleEnv
      (storage.UpdateAccountBalance sampleEnv (sampleWorld ⟨1000, 0⟩ []) "a" ⟨-200, 0⟩).2
      "a" ⟨-300, 0⟩).2.accounts "a" = some { ID := "a", Balance := ⟨500, 0⟩ } := by
  refine ⟨fun balance d1 d2 => ⟨?_, ?_, ?_⟩, by decide, by decide, by decide, by decide⟩
  · simp [Race.run, Race.step, UpdateCall.step, UpdateCall.start, sampleRace, sampleWorld,
      lostUpdateSchedule]
  · simp [Race.run, Race.step, UpdateCall.step, UpdateCall.start, sampleRace, sampleWorld,
      lostUpdateSchedule]
  · simp [Race.run, Race.step, UpdateCall.step, UpdateCall.start, sampleRace, sampleWorld,
      lostUpdateSchedule]

/-! ## Calls of StartPaymentScheduler at the same time -/

theorem countP_set (p : CallPc → Bool) (x y : CallPc) :
    ∀ (l : List CallPc) (i : Nat), l[i]? = some y →
      (l.set i x).countP p + (if p y then 1 else 0) = l.countP p + (if p x then 1 else 0) := by
  intro l
  induction l with
  | nil => intro i h; simp at h
  | cons a l ih =>
    intro i h
    cases i with
    | zero =>
      simp only [List.getElem?_cons_zero, Option.some.injEq] at h
      subst h
      simp only [List.set_cons_zero, List.countP_cons]
      omega
    | succ i =>
      simp only [List.getElem?_cons_succ] at h
      have := ih i h
      simp only [List.set_cons_succ, List.countP_cons]
      omega

theorem Inv_init (world : World) : (Scheduler.init world).Inv :=
  ⟨rfl, fun _ => ⟨rfl, rfl⟩, fun _ => rfl, Nat.zero_le 1⟩

theorem countP_get (p : CallPc → Bool) (y : CallPc) :
    ∀ (l : List CallPc) (i : Nat), l[i]? = some y → (if p y then 1 else 0) ≤ l.countP p := by
  intro l
  induction l with
  | nil => intro i h; simp at h
  | cons a l ih =>
    intro i h
    cases i with
    | zero =>
      simp only [List.getElem?_cons_zero, Option.some.injEq] at h
      subst h
      simp only [List.countP_cons]
      omega
    | succ i =>
      simp only [List.getElem?_cons_succ] at h
      have := ih i h
      simp only [List.countP_cons]
      omega

/-- How the four counts of the invariant change when the call number `i` goes
from the place `y` to the place `x`. -/
theorem counts_set (l : List CallPc) (i : Nat) (x y : CallPc) (h : l[i]? = some y) :
    ((l.set i x).countP CallPc.holdsMutex + (if y.holdsMutex then 1 else 0) =
        l.countP CallPc.holdsMutex + (if x.holdsMutex then 1 else 0) ∧
      (if y.holdsMutex then 1 else 0) ≤ l.countP CallPc.holdsMutex) ∧
    ((l.set i x).countP CallPc.pastGate + (if y.pastGate then 1 else 0) =
        l.countP CallPc.pastGate + (if x.pastGate then 1 else 0) ∧
      (if y.pastGate then 1 else 0) ≤ l.countP CallPc.pastGate) ∧
    ((l.set i x).countP (fun pc => decide (pc = CallPc.atSet)) +
          (if decide (y = CallPc.atSet) then 1 else 0) =
        l.countP (fun pc => decide (pc = CallPc.atSet)) +
          (if decide (x = CallPc.atSet) then 1 else 0) ∧
      (if decide (y = CallPc.atSet) then 1 else 0) ≤
        l.countP (fun pc => decide (pc = CallPc.atSet))) ∧
    ((l.set i x).countP CallPc.inFlight + (if y.inFlight then 1 else 0) =
        l.countP CallPc.inFlight + (if x.inFlight then 1 else 0) ∧
      (if y.inFlight then 1 else 0) ≤ l.countP CallPc.inFlight) :=
  ⟨⟨countP_set _ x y l i h, countP_get _ y l i h⟩, ⟨countP_set _ x y l i h, countP_get _ y l i h⟩,
    ⟨countP_set _ x y l i h, countP_get (fun pc => decide (pc = CallPc.atSet)) y l i h⟩,
    ⟨countP_set _ x y l i h, countP_get _ y l i h⟩⟩

theorem countP_atSet_le (l : List CallPc) :
    l.countP (fun pc => decide (pc = CallPc.atSet)) ≤ l.countP CallPc.holdsMutex :=
  List.countP_mono_left fun x _ hx => by cases x <;> simp_all [CallPc.holdsMutex]

theorem countP_inFlight_le (l : List CallPc) :
    l.countP CallPc.inFlight ≤ l.countP CallPc.pastGate :=
  List.countP_mono_left fun x _ hx => by
    cases x <;> simp_all [CallPc.inFlight, CallPc.pastGate]

/-- The invariant in numbers. -/
theorem Inv_iff (s : Scheduler) :
    s.Inv ↔
      (s.calls.countP CallPc.holdsMutex = if s.schedulerMutex then 1 else 0) ∧
      (s.schedulerRunning = false → s.calls.countP CallPc.pastGate = 0 ∧
        s.drivers.length = 0) ∧
      (s.schedulerRunning = true →
        s.calls.countP (fun pc => decide (pc = CallPc.atSet)) = 0) ∧
      s.calls.countP CallPc.inFlight + s.drivers.length ≤ 1 := by
  constructor
  · rintro ⟨a, b, c, d⟩
    exact ⟨a, fun h => ⟨(b h).1, by rw [(b h).2]; rfl⟩, c, d⟩
  · rintro ⟨a, b, c, d⟩
    exact ⟨a, fun h => ⟨(b h).1, List.length_eq_zero.mp (b h).2⟩, c, d⟩

theorem Inv_stepCall (env : Env) (s : Scheduler) (i : Nat) (h : s.Inv) :
    (stepCall env s i).Inv := by
  unfold stepCall
  cases hc : s.calls[i]? with
  | none => exact h
  | some pc =>
    have hle1 := countP_atSet_le s.calls
    have hle2 := countP_inFlight_le s.calls
    obtain ⟨hm, hu, hs, ho⟩ := (Inv_iff s).1 h
    cases pc with
    | atLock =>
      cases hx : s.schedulerMutex <;> cases hr : s.schedulerRunning <;>
        simp only [hx, hr, Bool.false_eq_true, if_false, if_true, forall_true_left,
          false_implies, true_implies, reduceCtorEq] at hm hu hs ⊢
      all_goals first
        | exact h
        | (obtain ⟨⟨d1, e1⟩, ⟨d2, e2⟩, ⟨d3, e3⟩, ⟨d4, e4⟩⟩ :=
             counts_set s.calls i CallPc.atTest CallPc.atLock hc
           simp only [CallPc.holdsMutex, CallPc.pastGate, CallPc.inFlight, reduceCtorEq,
             decide_False, decide_True, Bool.false_eq_true, if_false, if_true]
             at d1 d2 d3 d4 e1 e2 e3 e4
           refine (Inv_iff _).2 ⟨?_, ?_, ?_, ?_⟩ <;> dsimp only <;>
             (try simp only [hx, hr, Bool.false_eq_true, if_false, if_true, forall_true_left,
               false_implies, true_implies, reduceCtorEq, List.length_append,
               List.length_singleton]) <;>
             omega)
    | atTest =>
      cases hx : s.schedulerMutex <;> cases hr : s.schedulerRunning <;>
        simp only [hx, hr, Bool.false_eq_true, if_false, if_true, forall_true_left,
          false_implies, true_implies, reduceCtorEq] at hm hu hs ⊢
      all_goals first
        | exact h
        | (obtain ⟨⟨d1, e1⟩, ⟨d2, e2⟩, ⟨d3, e3⟩, ⟨d4, e4⟩⟩ :=
             counts_set s.calls i CallPc.atSet CallPc.atTest hc
           simp only [CallPc.holdsMutex, CallPc.pastGate, CallPc.inFlight, reduceCtorEq,
             decide_False, decide_True, Bool.false_eq_true, if_false, if_true]
             at d1 d2 d3 d4 e1 e2 e3 e4
           refine (Inv_iff _).2 ⟨?_, ?_, ?_, ?_⟩ <;> dsimp only <;>
             (try simp only [hx, hr, Bool.false_eq_true, if_false, if_true, forall_true_left,
               false_implies, true_implies, reduceCtorEq, List.length_append,
               List.length_singleton]) <;>
             omega)
        | (obtain ⟨⟨d1, e1⟩, ⟨d2, e2⟩, ⟨d3, e3⟩, ⟨d4, e4⟩⟩ :=
             counts_set s.calls i CallPc.atEarlyUnlock CallPc.atTest hc
           simp only [CallPc.holdsMutex, CallPc.pastGate, CallPc.inFlight, reduceCtorEq,
             decide_False, decide_True, Bool.false_eq_true, if_false, if_true]
             at d1 d2 d3 d4 e1 e2 e3 e4
           refine (Inv_iff _).2 ⟨?_, ?_, ?_, ?_⟩ <;> dsimp only <;>
             (try simp only [hx, hr, Bool.false_eq_true, if_false, if_true, forall_true_left,
               false_implies, true_implies, reduceCtorEq, List.length_append,
               List.length_singleton]) <;>
             omega)
    | atEarlyUnlock =>
      cases hx : s.schedulerMutex <;> cases hr : s.schedulerRunning <;>
        simp only [hx, hr, Bool.false_eq_true, if_false, if_true, forall_true_left,
          false_implies, true_implies, reduceCtorEq] at hm hu hs ⊢
      all_goals first
        | exact h
        | (obtain ⟨⟨d1, e1⟩, ⟨d2, e2⟩, ⟨d3, e3⟩, ⟨d4, e4⟩⟩ :=
             counts_set s.calls i CallPc.returned CallPc.atEarlyUnlock hc
           simp only [CallPc.holdsMutex, CallPc.pastGate, CallPc.inFlight, reduceCtorEq,
             decide_False, decide_True, Bool.false_eq_true, if_false, if_true]
             at d1 d2 d3 d4 e1 e2 e3 e4
           refine (Inv_iff _).2 ⟨?_, ?_, ?_, ?_⟩ <;> dsimp only <;>
             (try simp only [hx, hr, Bool.false_eq_true, if_false, if_true, forall_true_left,
               false_implies, true_implies, reduceCtorEq, List.length_append,
               List.length_singleton]) <;>
             omega)
    | atSet =>
      cases hx : s.schedulerMutex <;> cases hr : s.schedulerRunning <;>
        simp only [hx, hr, Bool.false_eq_true, if_false, if_true, forall_true_left,
          false_implies, true_implies, reduceCtorEq] at hm hu hs ⊢
      all_goals first
        | exact h
        | (obtain ⟨⟨d1, e1⟩, ⟨d2, e2⟩, ⟨d3, e3⟩, ⟨d4, e4⟩⟩ :=
             counts_set s.calls i CallPc.atUnlock CallPc.atSet hc
           simp only [CallPc.holdsMutex, CallPc.pastGate, CallPc.inFlight, reduceCtorEq,
             decide_False, decide_True, Bool.false_eq_true, if_false, if_true]
             at d1 d2 d3 d4 e1 e2 e3 e4
           refine (Inv_iff _).2 ⟨?_, ?_, ?_, ?_⟩ <;> dsimp only <;>
             (try simp only [hx, hr, Bool.false_eq_true, if_false, if_true, forall_true_left,
               false_implies, true_implies, reduceCtorEq, List.length_append,
               List.length_singleton]) <;>
             omega)
    | atUnlock =>
      cases hx : s.schedulerMutex <;> cases hr : s.schedulerRunning <;>
        simp only [hx, hr, Bool.false_eq_true, if_false, if_true, forall_true_left,
          false_implies, true_implies, reduceCtorEq] at hm hu hs ⊢
      all_goals first
        | exact h
        | (obtain ⟨⟨d1, e1⟩, ⟨d2, e2⟩, ⟨d3, e3⟩, ⟨d4, e4⟩⟩ :=
             counts_set s.calls i CallPc.atCycle CallPc.atUnlock hc
           simp only [CallPc.holdsMutex, CallPc.pastGate, CallPc.inFlight, reduceCtorEq,
             decide_False, decide_True, Bool.false_eq_true, if_false, if_true]
             at d1 d2 d3 d4 e1 e2 e3 e4
           refine (Inv_iff _).2 ⟨?_, ?_, ?_, ?_⟩ <;> dsimp only <;>
             (try simp only [hx, hr, Bool.false_eq_true, if_false, if_true, forall_true_left,
               false_implies, true_implies, reduceCtorEq, List.length_append,
               List.length_singleton]) <;>
             omega)
    | atCycle =>
      cases hx : s.schedulerMutex <;> cases hr : s.schedulerRunning <;>
        simp only [hx, hr, Bool.false_eq_true, if_false, if_true, forall_true_left,
          false_implies, true_implies, reduceCtorEq] at hm hu hs ⊢
      all_goals first
        | exact h
        | (obtain ⟨⟨d1, e1⟩, ⟨d2, e2⟩, ⟨d3, e3⟩, ⟨d4, e4⟩⟩ :=
             counts_set s.calls i CallPc.inCycle CallPc.atCycle hc
           simp only [CallPc.holdsMutex, CallPc.pastGate, CallPc.inFlight, reduceCtorEq,
             decide_False, decide_True, Bool.false_eq_true, if_false, if_true]
             at d1 d2 d3 d4 e1 e2 e3 e4
           refine (Inv_iff _).2 ⟨?_, ?_, ?_, ?_⟩ <;> dsimp only <;>
             (try simp only [hx, hr, Bool.false_eq_true, if_false, if_true, forall_true_left,
               false_implies, true_implies, reduceCtorEq, List.length_append,
               List.length_singleton]) <;>
             omega)
    | inCycle =>
      cases hx : s.schedulerMutex <;> cases hr : s.schedulerRunning <;>
        simp only [hx, hr, Bool.false_eq_true, if_false, if_true, forall_true_left,
          false_implies, true_implies, reduceCtorEq] at hm hu hs ⊢
      all_goals first
        | exact h
        | (obtain ⟨⟨d1, e1⟩, ⟨d2, e2⟩, ⟨d3, e3⟩, ⟨d4, e4⟩⟩ :=
             counts_set s.calls i CallPc.atTicker CallPc.inCycle hc
           simp only [CallPc.holdsMutex, CallPc.pastGate, CallPc.inFlight, reduceCtorEq,
             decide_False, decide_True, Bool.false_eq_true, if_false, if_true]
             at d1 d2 d3 d4 e1 e2 e3 e4
           refine (Inv_iff _).2 ⟨?_, ?_, ?_, ?_⟩ <;> dsimp only <;>
             (try simp only [hx, hr, Bool.false_eq_true, if_false, if_true, forall_true_left,
               false_implies, true_implies, reduceCtorEq, List.length_append,
               List.length_singleton]) <;>
             omega)
    | atTicker =>
      cases hx : s.schedulerMutex <;> cases hr : s.schedulerRunning <;>
        simp only [hx, hr, Bool.false_eq_true, if_false, if_true, forall_true_left,
          false_implies, true_implies, reduceCtorEq] at hm hu hs ⊢
      all_goals first
        | exact h
        | (obtain ⟨⟨d1, e1⟩, ⟨d2, e2⟩, ⟨d3, e3⟩, ⟨d4, e4⟩⟩ :=
             counts_set s.calls i CallPc.returned CallPc.atTicker hc
           simp only [CallPc.holdsMutex, CallPc.pastGate, CallPc.inFlight, reduceCtorEq,
             decide_False, decide_True, Bool.false_eq_true, if_false, if_true]
             at d1 d2 d3 d4 e1 e2 e3 e4
           refine (Inv_iff _).2 ⟨?_, ?_, ?_, ?_⟩ <;> dsimp only <;>
             (try simp only [hx, hr, Bool.false_eq_true, if_false, if_true, forall_true_left,
               false_implies, true_implies, reduceCtorEq, List.length_append,
               List.length_singleton]) <;>
             omega)
    | returned => exact h

theorem Inv_stepDriver (env : Env) (s : Scheduler) (i : Nat) (h : s.Inv) :
    (stepDriver env s i).Inv := by
  unfold stepDriver
  obtain ⟨hm, hu, hs, ho⟩ := h
  cases hc : s.drivers[i]? with
  | none => exact ⟨hm, hu, hs, ho⟩
  | some pc =>
    have hlt : i < s.drivers.length := by
      rcases Nat.lt_or_ge i s.drivers.length with h | h
      · exact h
      · rw [List.getElem?_eq_none h] at hc; cases hc
    cases pc
    · refine ⟨hm, fun h => ?_, hs, ?_⟩
      · rw [(hu h).2] at hlt; cases hlt
      · show _ + (s.drivers.set i _).length ≤ 1
        rw [List.length_set]; exact ho
    · refine ⟨hm, fun h => ?_, hs, ?_⟩
      · rw [(hu h).2] at hlt; cases hlt
      · show _ + (s.drivers.set i _).length ≤ 1
        rw [List.length_set]; exact ho

theorem Inv_step (env : Env) (s : Scheduler) (e : Event) (h : s.Inv) :
    (s.step env e).Inv := by
  cases e with
  | call =>
    obtain ⟨hm, hu, hs, ho⟩ := h
    refine ⟨?_, fun h => ?_, fun h => ?_, ?_⟩
    · show List.countP _ (s.calls ++ [CallPc.atLock]) = _
      rw [List.countP_append, hm]; rfl
    · refine ⟨?_, (hu h).2⟩
      show List.countP _ (s.calls ++ [CallPc.atLock]) = _
      rw [List.countP_append, (hu h).1]; rfl
    · show List.countP _ (s.calls ++ [CallPc.atLock]) = _
      rw [List.countP_append, hs h]; rfl
    · show List.countP _ (s.calls ++ [CallPc.atLock]) + _ ≤ 1
      rw [List.countP_append]; exact ho
  | stepCall i => exact Inv_stepCall env s i h
  | stepDriver i => exact Inv_stepDriver env s i h

theorem Inv_run (env : Env) (events : List Event) :
    ∀ s : Scheduler, s.Inv → (s.run env events).Inv := by
  induction events with
  | nil => intro s h; exact h
  | cons e events ih => intro s h; exact ih _ (Inv_step env s e h)

theorem runningCycles_le (s : Scheduler) (h : s.Inv) :
    runningCycles s ≤ 1 ∧ s.drivers.length ≤ 1 := by
  have h1 : s.calls.countP (fun pc => decide (pc = CallPc.inCycle)) ≤
      s.calls.countP CallPc.inFlight :=
    List.countP_mono_left fun x _ hx => by cases x <;> simp_all [CallPc.inFlight]
  have h2 := List.countP_le_length (fun pc => decide (pc = DriverPc.inCycle)) (l := s.drivers)
  have h3 := h.one
  unfold runningCycles
  omega

theorem stepCall_schedulerRunning (env : Env) (s : Scheduler) (j : Nat)
    (hr : s.schedulerRunning = true) : (stepCall env s j).schedulerRunning = true := by
  unfold stepCall
  cases hc : s.calls[j]? with
  | none => exact hr
  | some q =>
    cases q <;> dsimp only
    · split
      · exact hr
      · exact hr
    · rw [if_pos hr]; exact hr
    all_goals exact hr

theorem stepCall_calls_ne (env : Env) (s : Scheduler) (i j : Nat) (hji : j ≠ i) :
    (stepCall env s j).calls[i]? = s.calls[i]? := by
  unfold stepCall
  cases hc : s.calls[j]? with
  | none => rfl
  | some q =>
    cases q <;> dsimp only
    · split
      · rfl
      · exact List.getElem?_set_ne hji
    · split
      · exact List.getElem?_set_ne hji
      · exact List.getElem?_set_ne hji
    all_goals first | rfl | exact List.getElem?_set_ne hji

theorem stepCall_calls_self (env : Env) (s : Scheduler) (i : Nat) (pc : CallPc)
    (hr : s.schedulerRunning = true) (hpc : s.calls[i]? = some pc)
    (ht : pc.turnedAway = true) :
    ∃ pc2, (stepCall env s i).calls[i]? = some pc2 ∧ pc2.turnedAway = true := by
  have hlt : i < s.calls.length := by
    rcases Nat.lt_or_ge i s.calls.length with h | h
    · exact h
    · rw [List.getElem?_eq_none h] at hpc; cases hpc
  unfold stepCall
  rw [hpc]
  cases pc <;> simp only [CallPc.turnedAway, Bool.false_eq_true] at ht <;> dsimp only
  · split
    · exact ⟨_, hpc, rfl⟩
    · exact ⟨CallPc.atTest, List.getElem?_set_self hlt, rfl⟩
  · rw [if_pos hr]
    exact ⟨CallPc.atEarlyUnlock, List.getElem?_set_self hlt, rfl⟩
  · exact ⟨CallPc.returned, List.getElem?_set_self hlt, rfl⟩
  · exact ⟨_, hpc, rfl⟩

/-- Once the flag is set it stays set, and a call that is before the test, in
the branch that returns at once, or returned, stays so, whatever happens. -/
theorem turnedAway_step (env : Env) (s : Scheduler) (e : Event) (i : Nat)
    (hr : s.schedulerRunning = true)
    (hi : ∃ pc, s.calls[i]? = some pc ∧ pc.turnedAway = true) :
    (s.step env e).schedulerRunning = true ∧
      ∃ pc, (s.step env e).calls[i]? = some pc ∧ pc.turnedAway = true := by
  obtain ⟨pc, hpc, ht⟩ := hi
  have hlt : i < s.calls.length := by
    rcases Nat.lt_or_ge i s.calls.length with h | h
    · exact h
    · rw [List.getElem?_eq_none h] at hpc; cases hpc
  cases e with
  | call =>
    refine ⟨hr, pc, ?_, ht⟩
    show (s.calls ++ [CallPc.atLock])[i]? = some pc
    rw [List.getElem?_append_left hlt, hpc]
  | stepDriver j =>
    show (stepDriver env s j).schedulerRunning = true ∧
      ∃ pc, (stepDriver env s j).calls[i]? = some pc ∧ pc.turnedAway = true
    unfold stepDriver
    cases hd : s.drivers[j]? with
    | none => exact ⟨hr, pc, hpc, ht⟩
    | some d => cases d <;> exact ⟨hr, pc, hpc, ht⟩
  | stepCall j =>
    refine ⟨stepCall_schedulerRunning env s j hr, ?_⟩
    show ∃ pc, (stepCall env s j).calls[i]? = some pc ∧ pc.turnedAway = true
    by_cases hji : j = i
    · subst hji
      exact stepCall_calls_self env s j pc hr hpc ht
    · exact ⟨pc, by rw [stepCall_calls_ne env s i j hji, hpc], ht⟩

theorem turnedAway_run (env : Env) (i : Nat) (events : List Event) :
    ∀ s : Scheduler, s.schedulerRunning = true →
      (∃ pc, s.calls[i]? = some pc ∧ pc.turnedAway = true) →
      (s.run env events).schedulerRunning = true ∧
        ∃ pc, (s.run env events).calls[i]? = some pc ∧ pc.turnedAway = true := by
  induction events with
  | nil => intro s hr hi; exact ⟨hr, hi⟩
  | cons e events ih =>
    intro s hr hi
    obtain ⟨h1, h2⟩ := turnedAway_step env s e i hr hi
    exact ih _ h1 h2

theorem countP_inCycle_set (l : List CallPc) (i : Nat) (x y : CallPc) (h : l[i]? = some y)
    (hx : x ≠ CallPc.inCycle) (hy : y ≠ CallPc.inCycle) :
    (l.set i x).countP (fun pc => decide (pc = CallPc.inCycle)) =
      l.countP (fun pc => decide (pc = CallPc.inCycle)) := by
  have := countP_set (fun pc => decide (pc = CallPc.inCycle)) x y l i h
  simp only [hx, hy, decide_False, Bool.false_eq_true, if_false] at this
  omega

/-- A statement of a call that is before the test, in the branch that returns
at once, or returned, while the flag is set, changes neither the storage, nor
the ticker goroutines, nor the flag, nor the number of cycles in progress. -/
theorem stepCall_turnedAway (env : Env) (s : Scheduler) (i : Nat)
    (hr : s.schedulerRunning = true)
    (hi : ∃ pc, s.calls[i]? = some pc ∧ pc.turnedAway = true) :
    (stepCall env s i).world = s.world ∧ (stepCall env s i).drivers = s.drivers ∧
      (stepCall env s i).schedulerRunning = s.schedulerRunning ∧
      runningCycles (stepCall env s i) = runningCycles s := by
  obtain ⟨pc, hpc, ht⟩ := hi
  have hcount : ∀ x : CallPc, x ≠ CallPc.inCycle → pc ≠ CallPc.inCycle →
      ∀ (r m : Bool),
      runningCycles { s with schedulerRunning := r, schedulerMutex := m,
                             calls := s.calls.set i x } = runningCycles s := by
    intro x hx hy r m
    unfold runningCycles
    show List.countP _ (s.calls.set i x) + _ = _
    rw [countP_inCycle_set _ _ _ _ hpc hx hy]
  unfold stepCall
  rw [hpc]
  cases pc <;> simp only [CallPc.turnedAway, Bool.false_eq_true] at ht <;> dsimp only
  · split
    · exact ⟨rfl, rfl, rfl, rfl⟩
    · exact ⟨rfl, rfl, rfl, hcount _ (by decide) (by decide) _ _⟩
  · rw [if_pos hr]
    exact ⟨rfl, rfl, rfl, hcount _ (by decide) (by decide) _ _⟩
  · exact ⟨rfl, rfl, rfl, hcount _ (by decide) (by decide) _ _⟩
  · exact ⟨rfl, rfl, rfl, rfl⟩

/-- With the flag set and the mutex free, a call that is before the test, in
the branch that returns at once, or returned, has returned after three
statements of its own. -/
theorem stepCall_returns (env : Env) (s : Scheduler) (i : Nat)
    (hr : s.schedulerRunning = true) (hx : s.schedulerMutex = false)
    (hi : ∃ pc, s.calls[i]? = some pc ∧ pc.turnedAway = true) :
    (s.run env [Event.stepCall i, Event.stepCall i, Event.stepCall i]).calls[i]? =
      some CallPc.returned := by
  obtain ⟨pc, hpc, ht⟩ := hi
  have hlt : i < s.calls.length := by
    rcases Nat.lt_or_ge i s.calls.length with h | h
    · exact h
    · rw [List.getElem?_eq_none h] at hpc; cases hpc
  cases pc <;> simp only [CallPc.turnedAway, Bool.false_eq_true] at ht <;>
    simp [Scheduler.run, Scheduler.step, stepCall, hpc, hr, hx, List.getElem?_set_self, hlt]

/-- C24: a call of `StartPaymentScheduler` made while the flag is set never
gets past the test of the flag, whatever the other calls and the ticker
goroutine do in between: at every later moment it is before the test, in the
branch that returns at once, or returned; each of its statements leaves the
storage (loans, balances, transactions), the ticker goroutines, the flag and
the number of cycles in progress unchanged; and once the mutex is free three
statements of its own see it returned.  At every moment of every run at most
one settlement cycle is in progress and at most one ticker goroutine
exists. -/
theorem C24_restart_is_noop (env : Env) (world : World) (before after trace : List Event)
    (h : ((Scheduler.init world).run env before).schedulerRunning = true) :
    (∃ pc, (afterLateCall env world before after).calls[lateCall env world before]? = some pc ∧
      pc.turnedAway = true) ∧
    (stepCall env (afterLateCall env world before after) (lateCall env world before)).world =
      (afterLateCall env world before after).world ∧
    (stepCall env (afterLateCall env world before after) (lateCall env world before)).drivers =
      (afterLateCall env world before after).drivers ∧
    (stepCall env (afterLateCall env world before after)
      (lateCall env world before)).schedulerRunning = true ∧
    runningCycles
        (stepCall env (afterLateCall env world before after) (lateCall env world before)) =
      runningCycles (afterLateCall env world before after) ∧
    ((afterLateCall env world before after).schedulerMutex = false →
      ((afterLateCall env world before after).run env
        [Event.stepCall (lateCall env world before), Event.stepCall (lateCall env world before),
          Event.stepCall (lateCall env world before)]).calls[lateCall env world before]? =
        some CallPc.returned) ∧
    runningCycles ((Scheduler.init world).run env trace) ≤ 1 ∧
    ((Scheduler.init world).run env trace).drivers.length ≤ 1 := by
  have hlate : ∃ pc, (((Scheduler.init world).run env before).step env Event.call).calls[
      lateCall env world before]? = some pc ∧ pc.turnedAway = true := by
    refine ⟨CallPc.atLock, ?_, rfl⟩
    show (((Scheduler.init world).run env before).calls ++ [CallPc.atLock])[
      ((Scheduler.init world).run env before).calls.length]? = some CallPc.atLock
    rw [List.getElem?_append_right (Nat.le_refl _), Nat.sub_self]
    rfl
  obtain ⟨hr, hi⟩ := turnedAway_run env (lateCall env world before) after
    (((Scheduler.init world).run env before).step env Event.call) h hlate
  obtain ⟨f1, f2, f3, f4⟩ := stepCall_turnedAway env _ _ hr hi
  have hinv := runningCycles_le _ (Inv_run env trace _ (Inv_init world))
  exact ⟨hi, f1, f2, f3.trans hr, f4, fun hx => stepCall_returns env _ _ hr hx hi,
    hinv.1, hinv.2⟩

set_option maxRecDepth 100000 in
/-- C24 at a first call that has set the flag, followed by a second call whose
statements alternate with those of the first. -/
theorem C24_witness :
    ((Scheduler.init sampleSettleWorld).run sampleEnv sampleBefore).schedulerRunning = true ∧
    (afterLateCall sampleEnv sampleSettleWorld sampleBefore sampleAfter).calls =
      [CallPc.returned, CallPc.returned] ∧
    (afterLateCall sampleEnv sampleSettleWorld sampleBefore sampleAfter).drivers =
      [DriverPc.inCycle] ∧
    ((∃ pc, (afterLateCall sampleEnv sampleSettleWorld sampleBefore sampleAfter).calls[
        lateCall sampleEnv sampleSettleWorld sampleBefore]? = some pc ∧
      pc.turnedAway = true) ∧
    (stepCall sampleEnv (afterLateCall sampleEnv sampleSettleWorld sampleBefore sampleAfter)
        (lateCall sampleEnv sampleSettleWorld sampleBefore)).world =
      (afterLateCall sampleEnv sampleSettleWorld sampleBefore sampleAfter).world ∧
    (stepCall sampleEnv (afterLateCall sampleEnv sampleSettleWorld sampleBefore sampleAfter)
        (lateCall sampleEnv sampleSettleWorld sampleBefore)).drivers =
      (afterLateCall sampleEnv sampleSettleWorld sampleBefore sampleAfter).drivers ∧
    (stepCall sampleEnv (afterLateCall sampleEnv sampleSettleWorld sampleBefore sampleAfter)
      (lateCall sampleEnv sampleSettleWorld sampleBefore)).schedulerRunning = true ∧
    runningCycles
        (stepCall sampleEnv (afterLateCall sampleEnv sampleSettleWorld sampleBefore sampleAfter)
          (lateCall sampleEnv sampleSettleWorld sampleBefore)) =
      runningCycles (afterLateCall sampleEnv sampleSettleWorld sampleBefore sampleAfter) ∧
    ((afterLateCall sampleEnv sampleSettleWorld sampleBefore sampleAfter).schedulerMutex =
        false →
      ((afterLateCall sampleEnv sampleSettleWorld sampleBefore sampleAfter).run sampleEnv
        [Event.stepCall (lateCall sampleEnv sampleSettleWorld sampleBefore),
          Event.stepCall (lateCall sampleEnv sampleSettleWorld sampleBefore),
          Event.stepCall (lateCall sampleEnv sampleSettleWorld sampleBefore)]).calls[
          lateCall sampleEnv sampleSettleWorld sampleBefore]? =
        some CallPc.returned) ∧
    runningCycles ((Scheduler.init sampleSettleWorld).run sampleEnv
      (sampleBefore ++ Event.call :: sampleAfter)) ≤ 1 ∧
    ((Scheduler.init sampleSettleWorld).run sampleEnv
      (sampleBefore ++ Event.call :: sampleAfter)).drivers.length ≤ 1) :=
  ⟨by decide, by decide, by decide,
    C24_restart_is_noop sampleEnv sampleSettleWorld sampleBefore sampleAfter
      (sampleBefore ++ Event.call :: sampleAfter) (by decide)⟩
